import Mathlib

/-!
# Pintos user-process stack: a shallow embedding

The file system layer (`filesys/inode.c`, `filesys/directory.c`,
`filesys/filesys.c`), the process layer (`userprog/process.c`,
`userprog/syscall.c`) and the paging layer (`vm/page.c`, `vm/swap.c`,
`vm/frame.c`) are embedded as pure functions over an explicit state.  Every
function is modelled as it runs on one thread.  Locks appear only where a
property is about them (the frame locks, `scan_lock` and `file_lock`); the
other locks are taken and released inside one call and are left out.

Conventions.
* A disk sector is a function from byte offset to byte value; only offsets
  `0 .. 511` are meaningful.
* A result of `none` means that the C code leaves defined behaviour (an
  access outside a heap buffer, a store outside the mapped stack page, a
  dereference of a null or dangling pointer).
* `off_t` and `int` values are `Int`, `size_t` and sector numbers are `Nat`;
  the functions are used on values of the 32-bit range, where the arithmetic
  of the C code does not overflow.
-/

namespace Pintos

set_option linter.unusedVariables false
set_option maxRecDepth 10000

/-! ## Block device, free map and heap -/

/-- Modelled from the spec: a sector is a fixed 512-byte unit
(`devices/block.h` is not among the sources). -/
def BLOCK_SECTOR_SIZE : Nat := 512

/-- Contents of one sector, or of one sector-sized heap buffer. -/
abbrev Sector := Nat → Nat

/-- A buffer returned by `calloc`. -/
def zero_sector : Sector := fun _ => 0

/-- Little-endian 32-bit word number `i` of a buffer. -/
def rd32 (b : Sector) (i : Nat) : Nat :=
  b (4 * i) + 256 * b (4 * i + 1) + 65536 * b (4 * i + 2) + 16777216 * b (4 * i + 3)

/-- Stores the 32-bit value `v` as word number `i` of a buffer. -/
def wr32 (b : Sector) (i v : Nat) : Sector := fun k =>
  if k = 4 * i then v % 256
  else if k = 4 * i + 1 then v / 256 % 256
  else if k = 4 * i + 2 then v / 65536 % 256
  else if k = 4 * i + 3 then v / 16777216 % 256
  else b k

/-- Value of a 32-bit word read as a signed `int`. -/
def toInt32 (w : Nat) : Int :=
  if w % 4294967296 < 2147483648 then (w % 4294967296 : Nat)
  else ((w % 4294967296 : Nat) : Int) - 4294967296

/-- In-memory inode (`struct inode`); `addr` is the address of the object. -/
structure Inode where
  addr : Nat
  sector : Nat
  open_cnt : Int
  removed : Bool
  deny_write_cnt : Int
  writer_cnt : Int

/-- State of the file system: the device, the free map, the list of open
inodes and the heap.  `oom` says that `malloc` and `calloc` return null;
`junk` is the content of memory that has not been initialised (a buffer that
`malloc` returns, a local variable before its first assignment), which is
arbitrary; `next_addr` is the address of the next object that `malloc`
returns. -/
structure FS where
  disk : Nat → Sector
  free_map : Nat → Bool
  nsectors : Nat
  open_inodes : List Inode
  next_addr : Nat
  oom : Bool
  junk : Sector

/-- The device read `block_read (fs_device, sector, buffer)`. -/
def block_read (st : FS) (sector : Nat) : Sector := st.disk sector

/-- The device write `block_write (fs_device, sector, buffer)`. -/
def block_write (st : FS) (sector : Nat) (buffer : Sector) : FS :=
  { st with disk := fun s => if s = sector then buffer else st.disk s }

/-- Modelled from the spec: `free_map_allocate` of `filesys/free-map.c` (not
among the sources) hands out one sector index that is marked free, here the
lowest one, and marks it used; it fails when no sector is free. -/
def free_map_allocate (st : FS) : Option (Nat × FS) :=
  match (List.range st.nsectors).find? (fun s => !st.free_map s) with
  | none => none
  | some s => some (s, { st with free_map := fun x => if x = s then true else st.free_map x })

/-- Modelled from the spec: `free_map_release` of `filesys/free-map.c` (not
among the sources) marks one sector index free. -/
def free_map_release (st : FS) (sector : Nat) : FS :=
  { st with free_map := fun x => if x = sector then false else st.free_map x }

/-! ## `filesys/inode.c` -/

def DIRECT_CNT : Nat := 123
def INDIRECT_CNT : Nat := 1
def DBL_INDIRECT_CNT : Nat := 1
def SECTOR_CNT : Nat := DIRECT_CNT + INDIRECT_CNT + DBL_INDIRECT_CNT
def PTRS_PER_SECTOR : Nat := BLOCK_SECTOR_SIZE / 4
def INODE_SPAN : Nat :=
  (DIRECT_CNT + PTRS_PER_SECTOR * INDIRECT_CNT
    + PTRS_PER_SECTOR * PTRS_PER_SECTOR * DBL_INDIRECT_CNT) * BLOCK_SECTOR_SIZE

/-- The read `buf->sectors[i]` of a sector-sized heap buffer seen as a
`struct inode_disk`.  The structure is exactly one sector long, so words
`125 .. 127` are its `type`, `length` and `magic` fields; an index of 128 or
more is outside the buffer. -/
def sectors_at (buf : Sector) (i : Nat) : Option Nat :=
  if i < PTRS_PER_SECTOR then some (rd32 buf i) else none

/-- The field `length` of the on-disk inode in a sector, word 126. -/
def disk_length (st : FS) (inode_sector : Nat) : Int :=
  toInt32 (rd32 (block_read st inode_sector) 126)

/-- The function `inode_length`.  The buffer that `calloc` returns is not
checked, so without memory `block_read` stores through a null pointer. -/
def inode_length (st : FS) (inode_sector : Nat) : Option Int :=
  if st.oom then none else some (disk_length st inode_sector)

/-- The function `calculate_indices`: the offsets stored for a block index.
The list is empty when no branch stores anything. -/
def calculate_indices (sector_idx : Int) : List Nat :=
  if sector_idx < DIRECT_CNT then [(sector_idx % 4294967296).toNat]
  else
    let sector_idx := sector_idx - DIRECT_CNT
    if sector_idx < PTRS_PER_SECTOR then [DIRECT_CNT, sector_idx.toNat]
    else
      let sector_idx := sector_idx - PTRS_PER_SECTOR
      if sector_idx < PTRS_PER_SECTOR * PTRS_PER_SECTOR then
        [DIRECT_CNT + 1, (sector_idx / PTRS_PER_SECTOR).toNat, sector_idx.toNat]
      else []

/-- What `get_data_block` and its helpers hand back: the return value, the
buffer stored in `*data_block` (`none` for a null pointer), the sector stored
in `*data_sector`, and the state. -/
structure Lookup where
  ok : Bool
  block : Option Sector
  sector : Nat
  st : FS

/-- The allocation block that the three helpers repeat at every level
(`if (sector == 0 && allocate) { ... }`): take a sector from the free map,
store it at index `idx` of the buffer `buf`, write a zeroed sector to it and
write the buffer back to `parent`.  The first component is `none` when the
helper returns false. -/
def allocate_slot (st : FS) (parent : Nat) (buf : Sector) (idx : Nat) :
    Option (Nat × Sector) × FS :=
  match free_map_allocate st with
  | none => (none, st)
  | some (sector, st1) =>
    let buf1 := wr32 buf idx sector
    if st1.oom then (none, free_map_release st1 sector)
    else
      let st2 := block_write st1 sector zero_sector
      let st3 := block_write st2 parent buf1
      (some (sector, buf1), st3)

/-- The closing block of the three helpers: store the sector in
`*data_sector`, and read it into a fresh buffer when it is not 0. -/
def read_data_block (st : FS) (sector : Nat) : Lookup :=
  if sector ≠ 0 then
    if st.oom then ⟨false, none, sector, st⟩
    else ⟨true, some (block_read st sector), sector, st⟩
  else ⟨true, none, sector, st⟩

def handle_direct_block (st : FS) (inode_sector block_index : Nat) (allocate : Bool) :
    Option Lookup :=
  if st.oom then some ⟨false, none, 0, st⟩
  else
    let disk_inode := block_read st inode_sector
    match sectors_at disk_inode block_index with
    | none => none
    | some sector =>
      if sector = 0 ∧ allocate = true then
        match allocate_slot st inode_sector disk_inode block_index with
        | (none, st1) => some ⟨false, none, 0, st1⟩
        | (some (sector, _), st1) => some (read_data_block st1 sector)
      else some (read_data_block st sector)

def handle_indirect_block (st : FS) (inode_sector block_index : Nat) (allocate : Bool) :
    Option Lookup :=
  let offsets := calculate_indices block_index
  match offsets[0]?, offsets[1]? with
  | some indirect_block_index, some direct_block_offset =>
    if st.oom then some ⟨false, none, 0, st⟩
    else
      let disk_inode := block_read st inode_sector
      match sectors_at disk_inode indirect_block_index with
      | none => none
      | some indirect_sector =>
        let first :=
          if indirect_sector = 0 ∧ allocate = true then
            allocate_slot st inode_sector disk_inode indirect_block_index
          else (some (indirect_sector, disk_inode), st)
        match first with
        | (none, st1) => some ⟨false, none, 0, st1⟩
        | (some (indirect_sector, _), st1) =>
          if st1.oom then some ⟨false, none, 0, st1⟩
          else
            let disk_inode2 :=
              if indirect_sector ≠ 0 then block_read st1 indirect_sector else st1.junk
            match sectors_at disk_inode2 direct_block_offset with
            | none => none
            | some sector =>
              if sector = 0 ∧ allocate = true then
                match allocate_slot st1 indirect_sector disk_inode2 direct_block_offset with
                | (none, st2) => some ⟨false, none, 0, st2⟩
                | (some (sector, _), st2) => some (read_data_block st2 sector)
              else some (read_data_block st1 sector)
  | _, _ => none

def handle_doubly_indirect_block (st : FS) (inode_sector block_index : Nat)
    (allocate : Bool) : Option Lookup :=
  let offsets := calculate_indices block_index
  match offsets[0]?, offsets[1]?, offsets[2]? with
  | some dbl_indirect_block_index, some indirect_block_index, some direct_block_offset =>
    if st.oom then some ⟨false, none, 0, st⟩
    else
      let disk_inode := block_read st inode_sector
      match sectors_at disk_inode dbl_indirect_block_index with
      | none => none
      | some dbl_indirect_sector =>
        let first :=
          if dbl_indirect_sector = 0 ∧ allocate = true then
            allocate_slot st inode_sector disk_inode dbl_indirect_block_index
          else (some (dbl_indirect_sector, disk_inode), st)
        match first with
        | (none, st1) => some ⟨false, none, 0, st1⟩
        | (some (dbl_indirect_sector, _), st1) =>
          if st1.oom then some ⟨false, none, 0, st1⟩
          else
            let disk_inode2 :=
              if dbl_indirect_sector ≠ 0 then block_read st1 dbl_indirect_sector
              else st1.junk
            match sectors_at disk_inode2 indirect_block_index with
            | none => none
            | some indirect_sector =>
              let second :=
                if indirect_sector = 0 ∧ allocate = true then
                  allocate_slot st1 dbl_indirect_sector disk_inode2 indirect_block_index
                else (some (indirect_sector, disk_inode2), st1)
              match second with
              | (none, st2) => some ⟨false, none, 0, st2⟩
              | (some (indirect_sector, _), st2) =>
                if st2.oom then some ⟨false, none, 0, st2⟩
                else
                  let disk_inode3 :=
                    if dbl_indirect_sector ≠ 0 ∧ indirect_sector ≠ 0 then
                      block_read st2 indirect_sector
                    else st2.junk
                  match sectors_at disk_inode3 direct_block_offset with
                  | none => none
                  | some sector =>
                    if sector = 0 ∧ allocate = true then
                      match allocate_slot st2 indirect_sector disk_inode3
                          direct_block_offset with
                      | (none, st3) => some ⟨false, none, 0, st3⟩
                      | (some (sector, _), st3) => some (read_data_block st3 sector)
                    else some (read_data_block st2 sector)
  | _, _, _ => none

/-- The function `get_data_block`; a negative offset fails its assertion. -/
def get_data_block (st : FS) (inode_sector : Nat) (offset : Int) (allocate : Bool) :
    Option Lookup :=
  if offset < 0 then none else
  let block_index := (offset / BLOCK_SECTOR_SIZE).toNat
  let direct_block_limit := DIRECT_CNT
  let indirect_block_limit := DIRECT_CNT + PTRS_PER_SECTOR * INDIRECT_CNT
  let doubly_indirect_block_limit :=
    indirect_block_limit + PTRS_PER_SECTOR * PTRS_PER_SECTOR * INDIRECT_CNT
  if block_index < direct_block_limit then
    handle_direct_block st inode_sector block_index allocate
  else if block_index < indirect_block_limit then
    handle_indirect_block st inode_sector block_index allocate
  else if block_index < doubly_indirect_block_limit then
    handle_doubly_indirect_block st inode_sector block_index allocate
  else some ⟨false, none, 0, st⟩

/-- The function `bytes_to_sectors`, with the truncating division of C. -/
def bytes_to_sectors (size : Int) : Int :=
  Int.tdiv (size + BLOCK_SECTOR_SIZE - 1) BLOCK_SECTOR_SIZE

/-- The loop of `inode_read_at`.  `bytes` holds what has been stored in the
caller's buffer so far, so its length is `bytes_read`. -/
def inode_read_at_loop (fuel : Nat) (st : FS) (inode_sector : Nat) (size offset : Int)
    (bytes : List Nat) : Option (List Nat × FS) :=
  match fuel with
  | 0 => if size > 0 then none else some (bytes, st)
  | fuel + 1 =>
    if size > 0 then
      let sector_ofs := Int.tmod offset BLOCK_SECTOR_SIZE
      match inode_length st inode_sector with
      | none => none
      | some length =>
        let inode_left := length - offset
        let sector_left := BLOCK_SECTOR_SIZE - sector_ofs
        let min_left := if inode_left < sector_left then inode_left else sector_left
        let chunk_size := if size < min_left then size else min_left
        if chunk_size ≤ 0 then some (bytes, st)
        else
          match get_data_block st inode_sector offset false with
          | none => none
          | some r =>
            if r.ok = false then some (bytes, r.st)
            else
              let chunk :=
                match r.block with
                | none => List.replicate chunk_size.toNat 0
                | some block =>
                  (List.range chunk_size.toNat).map (fun i => block (sector_ofs.toNat + i))
              inode_read_at_loop fuel r.st inode_sector (size - chunk_size)
                (offset + chunk_size) (bytes ++ chunk)
    else some (bytes, st)

/-- The function `inode_read_at`: the bytes stored in the caller's buffer
(the return value is their number) and the state.  Every iteration consumes
at least one byte of `size`, so `size` iterations are enough. -/
def inode_read_at (st : FS) (inode_sector : Nat) (size offset : Int) :
    Option (List Nat × FS) :=
  inode_read_at_loop size.toNat st inode_sector size offset []

/-- The function `update_inode_length`. -/
def update_inode_length (st : FS) (inode_sector : Nat) (new_length : Int) : Option FS :=
  match inode_length st inode_sector with
  | none => none
  | some length =>
    if new_length > length then
      let disk_inode := block_read st inode_sector
      some (block_write st inode_sector (wr32 disk_inode 126 (new_length % 4294967296).toNat))
    else some st

/-- The loop of `extend_file`; it yields `current_length` and the state. -/
def extend_file_loop (fuel : Nat) (st : FS) (inode_sector : Nat)
    (length current_length : Int) : Option (Int × FS) :=
  match fuel with
  | 0 => if current_length < length then none else some (current_length, st)
  | fuel + 1 =>
    if current_length < length then
      let sector_idx := bytes_to_sectors current_length
      match get_data_block st inode_sector (sector_idx * BLOCK_SECTOR_SIZE) true with
      | none => none
      | some r =>
        if r.ok = false then some (current_length, r.st)
        else
          extend_file_loop fuel r.st inode_sector length
            (if (sector_idx + 1) * BLOCK_SECTOR_SIZE > length then length
             else (sector_idx + 1) * BLOCK_SECTOR_SIZE)
    else some (current_length, st)

/-- The function `extend_file`.  Every iteration of its loop raises
`current_length`, so `length - current_length` iterations are enough. -/
def extend_file (st : FS) (inode_sector : Nat) (length : Int) : Option FS :=
  match inode_length st inode_sector with
  | none => none
  | some old_length =>
    if old_length ≥ length then some st
    else
      match inode_length st inode_sector with
      | none => none
      | some current_length =>
        match extend_file_loop (length - current_length).toNat st inode_sector length
            current_length with
        | none => none
        | some (current_length, st1) => update_inode_length st1 inode_sector current_length

/-- The loop of `inode_write_at`; it yields `bytes_written`, the final
`offset` and the state.  A null `block` makes the `memcpy` fault. -/
def inode_write_at_loop (fuel : Nat) (st : FS) (inode_sector : Nat) (buffer : Nat → Nat)
    (size offset bytes_written : Int) : Option (Int × Int × FS) :=
  match fuel with
  | 0 => if size > 0 then none else some (bytes_written, offset, st)
  | fuel + 1 =>
    if size > 0 then
      let sector_ofs := Int.tmod offset BLOCK_SECTOR_SIZE
      let inode_left := (INODE_SPAN : Int) - offset
      let sector_left := BLOCK_SECTOR_SIZE - sector_ofs
      let min_left := if inode_left < sector_left then inode_left else sector_left
      let chunk_size := if size < min_left then size else min_left
      if chunk_size ≤ 0 then some (bytes_written, offset, st)
      else
        match get_data_block st inode_sector offset true with
        | none => none
        | some r =>
          if r.ok = false then some (bytes_written, offset, r.st)
          else
            match r.block with
            | none => none
            | some block =>
              let block1 : Sector := fun k =>
                if sector_ofs.toNat ≤ k ∧ k < sector_ofs.toNat + chunk_size.toNat then
                  buffer (bytes_written.toNat + (k - sector_ofs.toNat))
                else block k
              let st1 := block_write r.st r.sector block1
              inode_write_at_loop fuel st1 inode_sector buffer (size - chunk_size)
                (offset + chunk_size) (bytes_written + chunk_size)
    else some (bytes_written, offset, st)

/-- The function `inode_write_at`: the return value and the state.  The
writer count of the inode is raised before the loop and lowered after it, so
the in-memory inode is the same afterwards. -/
def inode_write_at (st : FS) (inode : Inode) (buffer : Nat → Nat) (size offset : Int) :
    Option (Int × FS) :=
  if inode.deny_write_cnt ≠ 0 then some (0, st)
  else
    match inode_write_at_loop size.toNat st inode.sector buffer size offset 0 with
    | none => none
    | some (bytes_written, offset1, st1) =>
      match extend_file st1 inode.sector offset1 with
      | none => none
      | some st2 => some (bytes_written, st2)

/-- The object that an inode pointer refers to, if it is in the open list. -/
def deref (st : FS) (addr : Nat) : Option Inode :=
  st.open_inodes.find? (fun i => i.addr = addr)

/-- Replaces the object at an address by its image under `f`. -/
def modify_inode (st : FS) (addr : Nat) (f : Inode → Inode) : FS :=
  { st with open_inodes := st.open_inodes.map (fun i => if i.addr = addr then f i else i) }

def find_open_inode (st : FS) (sector : Nat) : Option Inode :=
  st.open_inodes.find? (fun i => i.sector = sector)

def create_new_inode (st : FS) (sector : Nat) : Option Nat × FS :=
  if st.oom then (none, free_map_release st sector)
  else
    let inode : Inode :=
      { addr := st.next_addr, sector := sector, open_cnt := 1, removed := false,
        deny_write_cnt := 0, writer_cnt := 0 }
    (some inode.addr,
      { st with open_inodes := inode :: st.open_inodes, next_addr := st.next_addr + 1 })

def inode_open (st : FS) (sector : Nat) : Option Nat × FS :=
  match find_open_inode st sector with
  | some inode =>
    (some inode.addr, modify_inode st inode.addr (fun i => { i with open_cnt := i.open_cnt + 1 }))
  | none => create_new_inode st sector

/-- The function `inode_reopen`; a pointer that is not in the open list is
dangling. -/
def inode_reopen (st : FS) (inode : Option Nat) : Option (Option Nat × FS) :=
  match inode with
  | none => some (none, st)
  | some a =>
    match deref st a with
    | none => none
    | some _ =>
      some (some a, modify_inode st a (fun i => { i with open_cnt := i.open_cnt + 1 }))

def INODE_MAGIC : Nat := 0x494e4f44

/-- The function `inode_create`; `type` is the value of the `enum inode_type`. -/
def inode_create (st : FS) (sector : Nat) (type : Nat) : Option Nat × FS :=
  if st.oom then (none, free_map_release st sector)
  else
    let disk_inode := wr32 (wr32 (wr32 zero_sector 125 type) 127 INODE_MAGIC) 126 0
    let st1 := block_write st sector disk_inode
    match inode_open st1 sector with
    | (none, st2) => (none, free_map_release st2 sector)
    | (some mem_inode, st2) => (some mem_inode, st2)

/-- The loop `for (i = 0; i < PTRS_PER_SECTOR; i++) { if (map[i] == 0) break; ... }`
runs over the entries of a pointer block up to the first zero entry. -/
def entries_until_zero (map : Sector) : List Nat :=
  ((List.range PTRS_PER_SECTOR).map (fun i => rd32 map i)).takeWhile (fun s => s ≠ 0)

/-- The function `deallocate_recursive`.  At level 2 a failed `malloc` of the
first buffer returns at once; the other buffers are used unchecked. -/
def deallocate_recursive (st : FS) (sector : Nat) (level : Int) : Option FS :=
  if level = 2 then
    if st.oom then some st
    else
      let doubly_indirect_map := block_read st sector
      let st1 := (entries_until_zero doubly_indirect_map).foldl
        (fun acc entry =>
          let indirect_map := block_read acc entry
          let acc1 := (entries_until_zero indirect_map).foldl free_map_release acc
          free_map_release acc1 entry) st
      some (free_map_release st1 sector)
  else if level = 1 then
    if st.oom then none
    else
      let indirect_map := block_read st sector
      let st1 := (entries_until_zero indirect_map).foldl free_map_release st
      some (free_map_release st1 sector)
  else if level = 0 then some (free_map_release st sector)
  else some st

/-- The loop over the direct pointers in `deallocate_inode`, from index `i`
with `n` indices to go: the flag is false when it meets a zero pointer, where
the function returns. -/
def deallocate_direct (buffer : Sector) : Nat → Nat → FS → Bool × FS
  | 0, _, st => (true, st)
  | n + 1, i, st =>
    if rd32 buffer i = 0 then (false, st)
    else deallocate_direct buffer n (i + 1) (free_map_release st (rd32 buffer i))

/-- The function `deallocate_inode`; its buffer is used unchecked. -/
def deallocate_inode (st : FS) (inode_sector : Nat) : Option FS :=
  if st.oom then none
  else
    let buffer := block_read st inode_sector
    match deallocate_direct buffer DIRECT_CNT 0 st with
    | (false, st1) => some st1
    | (true, st1) =>
      match deallocate_recursive st1 (rd32 buffer DIRECT_CNT) 1 with
      | none => none
      | some st2 =>
        match deallocate_recursive st2 (rd32 buffer (DIRECT_CNT + 1)) 2 with
        | none => none
        | some st3 => some (free_map_release st3 inode_sector)

/-- The function `inode_close`; a pointer that is not in the open list is
dangling. -/
def inode_close (st : FS) (inode : Option Nat) : Option FS :=
  match inode with
  | none => some st
  | some a =>
    match deref st a with
    | none => none
    | some i =>
      if i.open_cnt - 1 > 0 then
        some (modify_inode st a (fun i => { i with open_cnt := i.open_cnt - 1 }))
      else
        let st1 := { st with open_inodes := st.open_inodes.filter (fun i => i.addr ≠ a) }
        if i.removed = true then deallocate_inode st1 i.sector else some st1

/-- The function `inode_remove`. -/
def inode_remove (st : FS) (inode : Nat) : Option FS :=
  match deref st inode with
  | none => none
  | some _ => some (modify_inode st inode (fun i => { i with removed := true }))

/-! ## `filesys/directory.c` -/

/-- Modelled from the spec: a file name has at most `NAME_MAX` bytes; the
value is the one of `filesys/directory.h`, which is not among the sources. -/
def NAME_MAX : Nat := 14

/-- Modelled from the spec: a directory entry holds `inode_sector`, `name`
and `in_use`.  `struct dir_entry` of `filesys/directory.h` (not among the
sources) is laid out as a 4-byte sector number at offset 0, `NAME_MAX + 1`
name bytes at offset 4 and one byte for `in_use` at offset 19, so `sizeof`
is 20.  An entry variable is the list of its 20 bytes. -/
def DIR_ENTRY_SIZE : Nat := 20

/-- The four bytes of a 32-bit value, in memory order. -/
def le32 (v : Nat) : List Nat :=
  [v % 256, v / 256 % 256, v / 65536 % 256, v / 16777216 % 256]

/-- The field `e.inode_sector`. -/
def entry_inode_sector (e : List Nat) : Nat :=
  e.getD 0 0 + 256 * e.getD 1 0 + 65536 * e.getD 2 0 + 16777216 * e.getD 3 0

/-- The field `e.in_use`. -/
def entry_in_use (e : List Nat) : Bool := e.getD 19 0 ≠ 0

/-- The bytes of an entry from the start of `e.name` on. -/
def entry_name (e : List Nat) : List Nat := e.drop 4

/-- The assignment `e.inode_sector = v`. -/
def set_inode_sector (e : List Nat) (v : Nat) : List Nat := le32 v ++ e.drop 4

/-- The assignment `e.in_use = true`. -/
def set_in_use (e : List Nat) : List Nat := e.take 19 ++ [1] ++ e.drop 20

/-- The call `strlcpy (e.name, name, sizeof e.name)`: at most `NAME_MAX`
bytes of the name and a terminator; the bytes after it keep their values. -/
def strlcpy_name (e : List Nat) (name : List Nat) : List Nat :=
  e.take 4 ++ (name.take NAME_MAX ++ [0]) ++ e.drop (4 + (name.take NAME_MAX).length + 1)

/-- The test `!strcmp (name, e.name)` for a string `name` (given without its
terminator): the bytes at `e.name` are those of `name` followed by a
terminator.  The comparison stays inside the entry when the name is no longer
than the field. -/
def name_matches (name : List Nat) (e : List Nat) : Bool :=
  (entry_name e).take (name.length + 1) = name ++ [0]

/-- A list of bytes seen as memory to copy from. -/
def as_buffer (l : List Nat) : Nat → Nat := fun i => l.getD i 0

/-- A directory handle (`struct dir`). -/
structure Dir where
  inode : Inode
  pos : Int

/-- The loop of `lookup`: the entry found and its offset, or `none` inside
when the loop ends without a match. -/
def lookup_loop (fuel : Nat) (st : FS) (inode_sector : Nat) (name : List Nat) (ofs : Nat) :
    Option (Option (List Nat × Nat) × FS) :=
  match fuel with
  | 0 => none
  | fuel + 1 =>
    match inode_read_at st inode_sector DIR_ENTRY_SIZE ofs with
    | none => none
    | some (e, st1) =>
      if e.length = DIR_ENTRY_SIZE then
        if entry_in_use e = true ∧ name_matches name e = true then some (some (e, ofs), st1)
        else lookup_loop fuel st1 inode_sector name (ofs + DIR_ENTRY_SIZE)
      else some (none, st1)

/-- The function `lookup`.  A read returns a whole entry only below the
length of the file, which bounds the number of iterations. -/
def lookup (st : FS) (dir : Dir) (name : List Nat) : Option (Option (List Nat × Nat) × FS) :=
  lookup_loop ((disk_length st dir.inode.sector).toNat + 1) st dir.inode.sector name 0

/-- The loop of `dir_add` that looks for a free slot: the entry variable `e`
(a short read overwrites its first bytes only), the offset and the state. -/
def free_slot_loop (fuel : Nat) (st : FS) (inode_sector : Nat) (e : List Nat) (ofs : Nat) :
    Option (List Nat × Nat × FS) :=
  match fuel with
  | 0 => none
  | fuel + 1 =>
    match inode_read_at st inode_sector DIR_ENTRY_SIZE ofs with
    | none => none
    | some (bytes, st1) =>
      let e1 := bytes ++ e.drop bytes.length
      if bytes.length = DIR_ENTRY_SIZE then
        if entry_in_use e1 = false then some (e1, ofs, st1)
        else free_slot_loop fuel st1 inode_sector e1 (ofs + DIR_ENTRY_SIZE)
      else some (e1, ofs, st1)

/-- The function `dir_add`; the character `/` is byte 47. -/
def dir_add (st : FS) (dir : Dir) (name : List Nat) (inode_sector : Nat) :
    Option (Bool × FS) :=
  if name = [] ∨ name.length > NAME_MAX ∨ 47 ∈ name then some (false, st)
  else
    match lookup st dir name with
    | none => none
    | some (some _, st1) => some (false, st1)
    | some (none, st1) =>
      let e := (List.range DIR_ENTRY_SIZE).map st1.junk
      match free_slot_loop ((disk_length st1 dir.inode.sector).toNat + 1) st1
          dir.inode.sector e 0 with
      | none => none
      | some (e, ofs, st2) =>
        let e := set_in_use e
        let e := strlcpy_name e name
        let e := set_inode_sector e inode_sector
        match inode_write_at st2 dir.inode (as_buffer e) DIR_ENTRY_SIZE ofs with
        | none => none
        | some (written, st3) => some (decide (written = DIR_ENTRY_SIZE), st3)

/-- The function `initialize_directory_entries`; the character `.` is byte 46. -/
def initialize_directory_entries (st : FS) (inode : Inode) (sector parent_sector : Nat) :
    Option (Bool × FS) :=
  let zero_entry := List.replicate DIR_ENTRY_SIZE 0
  let entry := set_in_use (set_inode_sector (strlcpy_name zero_entry [46]) sector)
  let entry_arr := entry ++ entry
  match inode_write_at st inode (as_buffer entry_arr) (2 * DIR_ENTRY_SIZE) 0 with
  | none => none
  | some (written, st1) => some (decide (written = 2 * DIR_ENTRY_SIZE), st1)

/-- Modelled from the spec: the inode types are FILE and DIRECTORY; the
`enum inode_type` of `filesys/inode.h` (not among the sources) numbers them
0 and 1. -/
def DIR_INODE : Nat := 1

/-- The function `create_and_initialize_inode`. -/
def create_and_initialize_inode (st : FS) (sector parent_sector : Nat) :
    Option (Option Nat × FS) :=
  match inode_create st sector DIR_INODE with
  | (none, st1) => some (none, st1)
  | (some addr, st1) =>
    match deref st1 addr with
    | none => none
    | some inode =>
      match initialize_directory_entries st1 inode sector parent_sector with
      | none => none
      | some (true, st2) => some (some addr, st2)
      | some (false, st2) =>
        match inode_remove st2 addr with
        | none => none
        | some st3 =>
          match inode_close st3 (some addr) with
          | none => none
          | some st4 => some (none, st4)

/-- The function `dir_create`. -/
def dir_create (st : FS) (sector parent_sector : Nat) : Option (Option Nat × FS) :=
  match create_and_initialize_inode st sector parent_sector with
  | none => none
  | some (none, st1) => some (none, free_map_release st1 sector)
  | some (some addr, st1) => some (some addr, st1)

/-- Entry number `k` of a directory file: the bytes that `inode_read_at`
stores for it, when the read returns a whole entry. -/
def read_entry (st : FS) (inode_sector : Nat) (k : Nat) : Option (List Nat) :=
  match inode_read_at st inode_sector DIR_ENTRY_SIZE ((DIR_ENTRY_SIZE * k : Nat) : Int) with
  | some (e, _) => if e.length = DIR_ENTRY_SIZE then some e else none
  | none => none

/-- One call on the open-inode table. -/
inductive InodeOp where
  | op_open (sector : Nat)
  | op_reopen (inode : Nat)
  | op_close (inode : Nat)

/-- Runs one call; the result of `inode_open` is dropped. -/
def apply_op (st : FS) : InodeOp → Option FS
  | .op_open sector => some (inode_open st sector).2
  | .op_reopen inode => (inode_reopen st (some inode)).map (fun r => r.2)
  | .op_close inode => inode_close st (some inode)

/-- Runs a sequence of calls from left to right. -/
def run_ops (st : FS) : List InodeOp → Option FS
  | [] => some st
  | op :: ops =>
    match apply_op st op with
    | none => none
    | some st1 => run_ops st1 ops

/-! ## `userprog/process.c`: waiting for a child -/

/-- The fields of `struct thread` (`threads/thread.h`, not among the sources)
that `process_wait` and `process_exit` touch.  The three arrays are indexed by
child tid; a semaphore is its value. -/
structure Thread where
  tid : Int
  exit_code : Int
  exit_child_tid_arr : Int → Int
  exit_child_code_arr : Int → Int
  exit_child_sema_arr : Int → Nat
  exit_child_waited : Int

/-- Outcome of a call that may sleep: it returns a value, or the caller is
suspended inside `sema_down`. -/
inductive WaitResult where
  | returned (value : Int) (parent : Thread)
  | blocked (parent : Thread)

/-- The part of `process_wait` after `sema_down` has returned: the exit code
and the parent.  `UNINITIALIZED` is a constant of `threads/thread.h`. -/
def process_wait_finish (UNINITIALIZED : Int) (parent : Thread) (child_tid : Int) :
    Int × Thread :=
  let exit_child_code := parent.exit_child_code_arr child_tid
  let parent := { parent with
    exit_child_tid_arr := fun i => if i = child_tid then UNINITIALIZED
      else parent.exit_child_tid_arr i }
  let parent := { parent with exit_child_waited := 0 }
  (exit_child_code, parent)

/-- The function `process_wait` run by `parent`.  `MAX_CHILDREN` and
`UNINITIALIZED` are constants of `threads/thread.h`, which is not among the
sources.  `sema_down` returns at once when the semaphore is positive and
suspends the caller when it is 0. -/
def process_wait (MAX_CHILDREN UNINITIALIZED : Int) (parent : Thread) (child_tid : Int) :
    WaitResult :=
  if child_tid < 0 ∨ child_tid ≥ MAX_CHILDREN ∨
      parent.exit_child_tid_arr child_tid ≠ child_tid ∨ parent.exit_child_waited ≠ 0 then
    .returned (-1) parent
  else
    let parent := { parent with exit_child_waited := 1 }
    if parent.exit_child_sema_arr child_tid = 0 then .blocked parent
    else
      let parent := { parent with
        exit_child_sema_arr := fun i => if i = child_tid then parent.exit_child_sema_arr i - 1
          else parent.exit_child_sema_arr i }
      let r := process_wait_finish UNINITIALIZED parent child_tid
      .returned r.1 r.2

/-- A sleeping `process_wait` goes on once the semaphore is positive. -/
def process_wait_resume (UNINITIALIZED : Int) (parent : Thread) (child_tid : Int) :
    WaitResult :=
  if parent.exit_child_sema_arr child_tid = 0 then .blocked parent
  else
    let parent := { parent with
      exit_child_sema_arr := fun i => if i = child_tid then parent.exit_child_sema_arr i - 1
        else parent.exit_child_sema_arr i }
    let r := process_wait_finish UNINITIALIZED parent child_tid
    .returned r.1 r.2

/-- What `process_exit`, run by the child `cur`, does to its parent: it
records the tid and the exit code in the child slot and raises the
semaphore.  A tid outside the arrays is an access outside them. -/
def process_exit (MAX_CHILDREN : Int) (cur : Thread) (parent : Option Thread) :
    Option (Option Thread) :=
  match parent with
  | none => some none
  | some parent =>
    if cur.tid < 0 ∨ cur.tid ≥ MAX_CHILDREN then none
    else
      some (some { parent with
        exit_child_tid_arr := fun i => if i = cur.tid then cur.tid
          else parent.exit_child_tid_arr i
        exit_child_code_arr := fun i => if i = cur.tid then cur.exit_code
          else parent.exit_child_code_arr i
        exit_child_sema_arr := fun i => if i = cur.tid then parent.exit_child_sema_arr i + 1
          else parent.exit_child_sema_arr i })

/-- The value that a call returned, `none` while the caller sleeps. -/
def WaitResult.value : WaitResult → Option Int
  | .returned v _ => some v
  | .blocked _ => none

/-- The parent after the call. -/
def WaitResult.parent : WaitResult → Thread
  | .returned _ p => p
  | .blocked p => p

/-! ## `userprog/process.c`: the initial user stack -/

/-- Modelled from the spec: user addresses lie below `PHYS_BASE`; the value
is the one of `threads/vaddr.h`, which is not among the sources. -/
def PHYS_BASE : Nat := 0xC0000000

/-- Modelled from the spec: the size of one page, the value of
`threads/vaddr.h`, which is not among the sources. -/
def PGSIZE : Nat := 4096

def MAX_ARGS : Nat := 50

/-- User memory: address to byte. -/
abbrev Mem := Nat → Nat

/-- The call `memcpy (dst, src, n)` with `dst` a user address, while the only
mapped user page is the stack page `[PHYS_BASE - PGSIZE, PHYS_BASE)`: a store
outside that page faults. -/
def memcpy_to_stack (mem : Mem) (dst : Nat) (src : List Nat) : Option Mem :=
  if PHYS_BASE - PGSIZE ≤ dst ∧ dst + src.length ≤ PHYS_BASE then
    some (fun a => if dst ≤ a ∧ a < dst + src.length then src.getD (a - dst) 0 else mem a)
  else none

/-- The 32-bit little-endian word at a user address. -/
def word_at (mem : Mem) (a : Nat) : Nat :=
  mem a + 256 * mem (a + 1) + 65536 * mem (a + 2) + 16777216 * mem (a + 3)

/-- Modelled from the spec: the command line is tokenized on runs of spaces.
One call `strtok_r (rest, " ", &rest)` of `lib/string.c` (not among the
sources) on the string `s`: it skips the spaces at the front, returns null at
the end of the string, and otherwise returns the bytes up to the next space
and leaves `rest` after that space.  The space is byte 32. -/
def strtok_r (s : List Nat) : Option (List Nat × List Nat) :=
  let s := s.dropWhile (fun c => c = 32)
  if s = [] then none
  else some (s.takeWhile (fun c => c ≠ 32), (s.dropWhile (fun c => c ≠ 32)).drop 1)

/-- The loop of `setup_stack` that fills `list_of_args`.  The call of
`strtok_r` comes first in the loop condition, the test of the count second. -/
def parse_args (fuel : Nat) (rest : List Nat) (list_of_args : List (List Nat)) :
    Option (List (List Nat)) :=
  match fuel with
  | 0 => none
  | fuel + 1 =>
    match strtok_r rest with
    | none => some list_of_args
    | some (token, rest) =>
      if list_of_args.length < MAX_ARGS then parse_args fuel rest (list_of_args ++ [token])
      else some list_of_args

/-- The loop that copies the argument strings, last argument first: the
memory, the stack pointer and `pointerList`. -/
def push_strings (mem : Mem) (esp : Nat) : List (List Nat) → Option (Mem × Nat × List Nat)
  | [] => some (mem, esp, [])
  | cur :: rest =>
    match push_strings mem esp rest with
    | none => none
    | some (mem1, esp1, pointerList) =>
      let cur_size := cur.length + 1
      let esp2 := esp1 - cur_size
      match memcpy_to_stack mem1 esp2 (cur ++ [0]) with
      | none => none
      | some mem2 => some (mem2, esp2, esp2 :: pointerList)

/-- The loop `while (remainder != 0)` that pushes zero bytes one at a time. -/
def push_padding (mem : Mem) (esp : Nat) : Nat → Option (Mem × Nat)
  | 0 => some (mem, esp)
  | remainder + 1 =>
    match memcpy_to_stack mem (esp - 1) [0] with
    | none => none
    | some mem1 => push_padding mem1 (esp - 1) remainder

/-- The loop that pushes the argument pointers, last pointer first. -/
def push_pointers (mem : Mem) (esp : Nat) : List Nat → Option (Mem × Nat)
  | [] => some (mem, esp)
  | cur :: rest =>
    match push_pointers mem esp rest with
    | none => none
    | some (mem1, esp1) =>
      match memcpy_to_stack mem1 (esp1 - 4) (le32 cur) with
      | none => none
      | some mem2 => some (mem2, esp1 - 4)

/-- The function `setup_stack` on a command line given without its
terminator.  The flags say whether `malloc`, `palloc_get_page` and
`install_page` succeed.  The outer `none` is a fault, the inner one the
return value false; on success the result is `*esp` and the user memory.
The tokenizer shortens `rest` in every iteration, so one iteration more than
the length of the command line is enough. -/
def setup_stack (command_line : List Nat) (malloc_ok palloc_ok install_ok : Bool) :
    Option (Option (Nat × Mem)) :=
  if command_line.length ≥ PGSIZE then some none
  else if malloc_ok = false then some none
  else
    match parse_args (command_line.length + 1) command_line [] with
    | none => none
    | some list_of_args =>
      let num_of_args := list_of_args.length
      if palloc_ok = false then some none
      else if install_ok = false then some none
      else
        let mem : Mem := fun _ => 0
        let esp := PHYS_BASE
        match push_strings mem esp list_of_args with
        | none => none
        | some (mem, esp, pointerList) =>
          let total_size := (list_of_args.map (fun cur => cur.length + 1)).sum
          let remainder := (4 - total_size % 4) + 4
          match push_padding mem esp remainder with
          | none => none
          | some (mem, esp) =>
            match push_pointers mem esp pointerList with
            | none => none
            | some (mem, esp) =>
              let cur := esp
              match memcpy_to_stack mem (esp - 4) (le32 cur) with
              | none => none
              | some mem =>
                let esp := esp - 4
                match memcpy_to_stack mem (esp - 4) (le32 num_of_args) with
                | none => none
                | some mem =>
                  let esp := esp - 4
                  match memcpy_to_stack mem (esp - 4) (le32 0) with
                  | none => none
                  | some mem => some (some (esp - 4, mem))

/-- The space-separated tokens of a command line. -/
def tokens (command_line : List Nat) : List (List Nat) :=
  (command_line.splitOn 32).filter (fun t => t ≠ [])

/-- The number of bytes of the stack page that the initial stack of a list
of arguments takes: strings, padding, pointers and three words. -/
def layout_size (args : List (List Nat)) : Nat :=
  let total_size := (args.map (fun cur => cur.length + 1)).sum
  total_size + ((4 - total_size % 4) + 4) + 4 * args.length + 12

/-- Number of bytes that the argument strings take on the stack. -/
def strings_size (args : List (List Nat)) : Nat := (args.map (fun cur => cur.length + 1)).sum

/-- Invariant of the open-inode table: distinct sectors, distinct addresses
below `next_addr`, positive open counts, no inode marked removed. -/
structure TableInv (st : FS) : Prop where
  sectors : (st.open_inodes.map (fun i => i.sector)).Nodup
  addrs : (st.open_inodes.map (fun i => i.addr)).Nodup
  counts : ∀ i ∈ st.open_inodes, 1 ≤ i.open_cnt
  live : ∀ i ∈ st.open_inodes, i.removed = false
  fresh : ∀ i ∈ st.open_inodes, i.addr < st.next_addr

/-! ## `filesys/directory.c`: removing and listing entries -/

/-- The function `inode_get_type`: the field `type`, word 125 of the inode's
sector; its buffer is used unchecked. -/
def inode_get_type (st : FS) (inode_sector : Nat) : Option Nat :=
  if st.oom then none else some (rd32 (block_read st inode_sector) 125)

/-- The assignment `e.in_use = false`. -/
def clear_in_use (e : List Nat) : List Nat := e.take 19 ++ [0] ++ e.drop 20

/-- The loop of `is_removable_directory`: it yields `in_use_count`. -/
def count_in_use_loop (fuel : Nat) (st : FS) (inode_sector : Nat) (scan_offset : Int)
    (in_use_count : Int) : Option (Int × FS) :=
  match fuel with
  | 0 => none
  | fuel + 1 =>
    match inode_read_at st inode_sector DIR_ENTRY_SIZE scan_offset with
    | none => none
    | some (scan_entry, st1) =>
      if scan_entry.length = DIR_ENTRY_SIZE then
        count_in_use_loop fuel st1 inode_sector (scan_offset + DIR_ENTRY_SIZE)
          (if entry_in_use scan_entry = true then in_use_count + 1 else in_use_count)
      else some (in_use_count, st1)

/-- The function `is_removable_directory` on an inode pointer.  A read returns
a whole entry only below the length of the file, which bounds the number of
iterations. -/
def is_removable_directory (st : FS) (inode : Nat) : Option (Bool × FS) :=
  match deref st inode with
  | none => none
  | some i =>
    if i.open_cnt > 1 then some (false, st)
    else
      match count_in_use_loop ((disk_length st i.sector).toNat + 1) st i.sector 0 0 with
      | none => none
      | some (in_use_count, st1) => some (decide (in_use_count ≤ 2), st1)

/-- The function `dir_remove`; the character `.` is byte 46. -/
def dir_remove (st : FS) (dir : Dir) (name : List Nat) : Option (Bool × FS) :=
  if name = [46] ∨ name = [46, 46] then some (false, st)
  else
    match lookup st dir name with
    | none => none
    | some (none, st1) => some (false, st1)
    | some (some (e, ofs), st1) =>
      match inode_open st1 (entry_inode_sector e) with
      | (none, st2) => some (false, st2)
      | (some inode, st2) =>
        match deref st2 inode with
        | none => none
        | some i =>
          match inode_get_type st2 i.sector with
          | none => none
          | some type =>
            let removable :=
              if type = DIR_INODE then is_removable_directory st2 inode else some (true, st2)
            match removable with
            | none => none
            | some (false, st3) =>
              match inode_close st3 (some inode) with
              | none => none
              | some st4 => some (false, st4)
            | some (true, st3) =>
              let e := clear_in_use e
              match inode_write_at st3 dir.inode (as_buffer e) DIR_ENTRY_SIZE ofs with
              | none => none
              | some (written, st4) =>
                if written = DIR_ENTRY_SIZE then
                  match inode_remove st4 inode with
                  | none => none
                  | some st5 =>
                    match inode_close st5 (some inode) with
                    | none => none
                    | some st6 => some (true, st6)
                else
                  match inode_close st4 (some inode) with
                  | none => none
                  | some st5 => some (false, st5)

/-- The function `is_valid_entry` on the entry that holds the name. -/
def is_valid_entry (e : List Nat) : Bool :=
  !(name_matches [46] e) && !(name_matches [46, 46] e)

/-- The call `strlcpy (name, entry.name, NAME_MAX + 1)`: the string at
`entry.name` cut to `NAME_MAX` bytes.  `strlcpy` measures its source up to the
terminator; a source without one among the bytes of the entry is read past
the entry. -/
def entry_name_string (e : List Nat) : Option (List Nat) :=
  if 0 ∈ entry_name e then some (((entry_name e).takeWhile (fun c => c ≠ 0)).take NAME_MAX)
  else none

/-- The loop of `dir_readdir`: the name stored, if any, and the handle. -/
def dir_readdir_loop (fuel : Nat) (st : FS) (dir : Dir) :
    Option (Option (List Nat) × Dir × FS) :=
  match fuel with
  | 0 => none
  | fuel + 1 =>
    match inode_read_at st dir.inode.sector DIR_ENTRY_SIZE dir.pos with
    | none => none
    | some (entry, st1) =>
      if entry.length = DIR_ENTRY_SIZE then
        let dir := { dir with pos := dir.pos + DIR_ENTRY_SIZE }
        if entry_in_use entry = true ∧ is_valid_entry entry = true then
          match entry_name_string entry with
          | none => none
          | some name => some (some name, dir, st1)
        else dir_readdir_loop fuel st1 dir
      else some (none, dir, st1)

/-- The function `dir_readdir`: the name stored (`none` for the return value
false), the handle and the state.  A read returns a whole entry only below the
length of the file, which bounds the number of iterations. -/
def dir_readdir (st : FS) (dir : Dir) : Option (Option (List Nat) × Dir × FS) :=
  dir_readdir_loop ((disk_length st dir.inode.sector).toNat + 1) st dir

/-- Successive calls of `dir_readdir` on one handle: the list of what the
calls stored, first call first. -/
def readdir_calls (st : FS) (dir : Dir) : Nat → Option (List (Option (List Nat)))
  | 0 => some []
  | n + 1 =>
    match dir_readdir st dir with
    | none => none
    | some (r, dir1, st1) => (readdir_calls st1 dir1 n).map (fun l => r :: l)

/-! ## `userprog/process.c`: checking a program header -/

/-- The fields of `Elf32_Phdr`, each a 32-bit value. -/
structure Elf32_Phdr where
  p_type : Nat
  p_offset : Nat
  p_vaddr : Nat
  p_paddr : Nat
  p_filesz : Nat
  p_memsz : Nat
  p_flags : Nat
  p_align : Nat

/-- Modelled from the spec: the offset within a page is the low 12 bits of an
address (`PGMASK` of `threads/vaddr.h`, not among the sources). -/
def PGMASK : Nat := 0xFFF

/-- Modelled from the spec: a user virtual address is an address below
`PHYS_BASE` (`is_user_vaddr` of `threads/vaddr.h`, not among the sources). -/
def is_user_vaddr (vaddr : Nat) : Bool := decide (vaddr < PHYS_BASE)

/-- The function `validate_segment`; `file_length` is what `file_length (file)`
returns, which the comparison converts to 32 bits unsigned.  The sum
`p_vaddr + p_memsz` is taken modulo 2^32. -/
def validate_segment (phdr : Elf32_Phdr) (file_length : Int) : Bool :=
  if phdr.p_offset &&& PGMASK ≠ phdr.p_vaddr &&& PGMASK then false
  else if phdr.p_offset > (file_length % 4294967296).toNat then false
  else if phdr.p_memsz < phdr.p_filesz then false
  else if phdr.p_memsz = 0 then false
  else if is_user_vaddr phdr.p_vaddr = false then false
  else if is_user_vaddr ((phdr.p_vaddr + phdr.p_memsz) % 4294967296) = false then false
  else if (phdr.p_vaddr + phdr.p_memsz) % 4294967296 < phdr.p_vaddr then false
  else if phdr.p_vaddr < PGSIZE then false
  else true

/-! ## `userprog/syscall.c` -/

/-- What a call hands back when it may end the process: `exit (status)` was
called, or the call returned a value. -/
inductive Outcome (α : Type) where
  | exited (status : Int)
  | returned (value : α)

/-- The exit status, if the call ended the process. -/
def Outcome.status {α : Type} : Outcome α → Option Int
  | .exited s => some s
  | .returned _ => none

/-- The value, if the call returned. -/
def Outcome.value {α : Type} : Outcome α → Option α
  | .exited _ => none
  | .returned v => some v

/-- The memory as a load in kernel mode sees it, user and kernel addresses
alike: the byte at an address, or `none` when the load faults. -/
abbrev UMem := Nat → Option Nat

/-- The function `get_user`: the byte at `usrc`, or `none` when the load
faults and the function returns false.  It does not look at the address. -/
def get_user (mem : UMem) (usrc : Nat) : Option Nat := mem usrc

/-- The function `copy_in` of projects 2 and 4; `dst` holds the bytes stored
so far. -/
def copy_in (mem : UMem) (dst : List Nat) (usrc size : Nat) : Outcome (List Nat) :=
  match size with
  | 0 => .returned dst
  | size + 1 =>
    if usrc ≥ PHYS_BASE then .exited (-1)
    else
      match get_user mem usrc with
      | none => .exited (-1)
      | some byte => copy_in mem (dst ++ [byte]) (usrc + 1) size

/-- The function `copy_in` of project 3, from its counter `i` on: the test
looks at `usrc`, the load at `usrc + i`.  The calls `page_lock` and
`page_unlock` around the loop pin the page of `usrc`; `mem` is the memory as
the loads see it. -/
def copy_in_p3 (mem : UMem) (dst : List Nat) (usrc i size : Nat) : Outcome (List Nat) :=
  match size with
  | 0 => .returned dst
  | size + 1 =>
    if usrc ≥ PHYS_BASE then .exited (-1)
    else
      match get_user mem (usrc + i) with
      | none => .exited (-1)
      | some byte => copy_in_p3 mem (dst ++ [byte]) usrc (i + 1) size

/-- The loop of `copy_in_string` from index `i` with `n` iterations to go;
`ks` is the content of the kernel page. -/
def copy_in_string_loop (mem : UMem) (us : Nat) (ks : Nat → Nat) (i n : Nat) :
    Outcome (Nat → Nat) :=
  match n with
  | 0 => .returned ks
  | n + 1 =>
    match get_user mem (us + i) with
    | none => .exited (-1)
    | some byte =>
      let ks1 : Nat → Nat := fun j => if j = i then byte else ks j
      if byte = 0 then .returned ks1
      else
        let ks2 : Nat → Nat :=
          if i = PGSIZE then (fun j => if j = PGSIZE - 1 then 0 else ks1 j) else ks1
        copy_in_string_loop mem us ks2 (i + 1) n

/-- The function `copy_in_string` (the same loop in projects 2, 3 and 4).
`page` is what `palloc_get_page (0)` returns: `none` for a null pointer,
otherwise the content of the page, which is not cleared. -/
def copy_in_string (mem : UMem) (page : Option (Nat → Nat)) (us : Nat) :
    Outcome (Nat → Nat) :=
  if is_user_vaddr us = false then .exited (-1)
  else if us = 0 then .exited (-1)
  else
    match page with
    | none => .exited (-1)
    | some ks => copy_in_string_loop mem us ks 0 PGSIZE

/-- One element of a thread's `fd_list` (`struct file_descriptor`); a null
pointer is `none`. -/
structure file_descriptor where
  fd : Int
  file : Option Nat
  dir : Option Nat
  deriving DecidableEq

/-- The two fields of `struct thread` that hold the descriptors of a process:
the list, front first, and the counter. -/
structure FdTable where
  fd_list : List file_descriptor
  fd_num : Int
  deriving DecidableEq

def STDIN_FILENO : Int := 0
def STDOUT_FILENO : Int := 1

/-- The function `get_file_by_fd`: the first element with that `fd` decides. -/
def get_file_by_fd (t : FdTable) (fd : Int) : Option Nat :=
  match t.fd_list.find? (fun d => d.fd = fd) with
  | none => none
  | some d => d.file

/-- The function `get_dir_by_fd`. -/
def get_dir_by_fd (t : FdTable) (fd : Int) : Option Nat :=
  match t.fd_list.find? (fun d => d.fd = fd) with
  | none => none
  | some d => d.dir

/-- What the rest of the kernel answers during one call of `read`:
whether the `palloc_get_page` made after `k` bytes succeeds, the `k`-th byte
that `input_getc` hands out, the bytes that `file_read (f, kbuffer, amount)`
stores after `k` bytes, and whether `put_user` can store at an address. -/
structure ReadEnv where
  palloc_ok : Nat → Bool
  input_getc : Nat → Nat
  file_read : Nat → Nat → Nat → List Nat
  put_ok : Nat → Bool

/-- The loop `for (i = 0; i < retval; i++) put_user (...)`: `none` when a
store fails. -/
def put_bytes (env : ReadEnv) (umem : Mem) (udst : Nat) : List Nat → Option Mem
  | [] => some umem
  | byte :: rest =>
    if env.put_ok (udst % 4294967296) then
      put_bytes env (fun a => if a = udst % 4294967296 then byte else umem a) (udst + 1) rest
    else none

/-- The loop of `read`: the number of bytes read and the user memory.  The
outer `none` stands for a loop that does not end within `fuel` rounds. -/
def read_loop (env : ReadEnv) (f : Nat) (fd : Int) (buffer size : Nat) (fuel : Nat)
    (bytes_read size_to_read : Nat) (umem : Mem) : Option (Outcome (Nat × Mem)) :=
  match fuel with
  | 0 => if size_to_read > 0 then none else some (.returned (bytes_read, umem))
  | fuel + 1 =>
    if size_to_read > 0 then
      if env.palloc_ok bytes_read = false then some (.returned (bytes_read, umem))
      else
        let read_amount := if size - bytes_read < PGSIZE then size - bytes_read else PGSIZE
        let kbuffer : List Nat :=
          if fd = STDIN_FILENO then
            (List.range read_amount).map (fun i => env.input_getc (bytes_read + i))
          else (env.file_read f bytes_read read_amount).take read_amount
        let retval := kbuffer.length
        match put_bytes env umem (buffer + bytes_read) kbuffer with
        | none => some (.exited (-1))
        | some umem1 =>
          if retval < read_amount then some (.returned (bytes_read + retval, umem1))
          else
            read_loop env f fd buffer size fuel (bytes_read + retval) (size_to_read - retval)
              umem1
    else some (.returned (bytes_read, umem))

/-- The function `read` of projects 2 and 4.  Every round but the last moves
at least one byte, so `size` rounds are enough. -/
def read (env : ReadEnv) (t : FdTable) (fd : Int) (buffer size : Nat) (umem : Mem) :
    Option (Outcome (Nat × Mem)) :=
  if size = 0 then some (.returned (0, umem))
  else if buffer = 0 ∨ is_user_vaddr buffer = false ∨
      is_user_vaddr ((buffer + size) % 4294967296) = false then some (.exited (-1))
  else
    match get_file_by_fd t fd with
    | none => some (.exited (-1))
    | some f => read_loop env f fd buffer size size 0 size umem

/-- What the rest of the kernel answers during one call of `open`: the user
memory and the page for `copy_in_string`, whether `calloc` succeeds, the inode
that `filesys_open` finds for the kernel copy of the name, whether that inode
is a directory, and the handles that `dir_open` and `file_open` return. -/
structure OpenEnv where
  mem : UMem
  page : Option (Nat → Nat)
  calloc_ok : Bool
  filesys_open : (Nat → Nat) → Option Nat
  is_dir : Nat → Bool
  dir_open : Nat → Option Nat
  file_open : Nat → Option Nat

/-- The function `open` (the name is a keyword of Lean): the return value and
the descriptors of the process.  The outer `none` is the signed overflow of
`fd_num++`.  What the call does to the file system is not part of the
descriptors and is left out. -/
def sys_open (env : OpenEnv) (t : FdTable) (file : Nat) : Option (Outcome (Int × FdTable)) :=
  match copy_in_string env.mem env.page file with
  | .exited s => some (.exited s)
  | .returned kfile =>
    if env.calloc_ok = false then some (.returned (-1, t))
    else
      match env.filesys_open kfile with
      | none => some (.returned (-1, t))
      | some inode =>
        let file_des : file_descriptor := { fd := 0, file := none, dir := none }
        let file_des :=
          if env.is_dir inode = true then { file_des with dir := env.dir_open inode }
          else { file_des with file := env.file_open inode }
        if file_des.dir.isSome = true ∨ file_des.file.isSome = true then
          if t.fd_num = 2147483647 then none
          else
            let file_des := { file_des with fd := t.fd_num }
            some (.returned (file_des.fd,
              { fd_list := file_des :: t.fd_list, fd_num := t.fd_num + 1 }))
        else some (.returned (-1, t))

/-- The function `close`: the descriptors afterwards.  The first element with
that `fd` is unlinked. -/
def close (t : FdTable) (fd : Int) : FdTable :=
  let f := get_file_by_fd t fd
  let dir := get_dir_by_fd t fd
  if f = none ∧ dir = none then t
  else { t with fd_list := t.fd_list.eraseP (fun d => d.fd = fd) }

/-- One call on the descriptors of a process. -/
inductive FdOp where
  | fd_open (env : OpenEnv) (file : Nat)
  | fd_close (fd : Int)

/-- Runs a sequence of calls from left to right; `none` when a call ends the
process or overflows the counter. -/
def run_fd_ops (t : FdTable) : List FdOp → Option FdTable
  | [] => some t
  | .fd_open env file :: ops =>
    match sys_open env t file with
    | some (.returned (_, t1)) => run_fd_ops t1 ops
    | _ => none
  | .fd_close fd :: ops => run_fd_ops (close t fd) ops

/-- The values that the `open` calls of a sequence return, first call first;
`none` when a call ends the process or overflows the counter. -/
def open_results (t : FdTable) : List FdOp → Option (List Int)
  | [] => some []
  | .fd_open env file :: ops =>
    match sys_open env t file with
    | some (.returned (v, t1)) => (open_results t1 ops).map (fun vs => v :: vs)
    | _ => none
  | .fd_close fd :: ops => open_results (close t fd) ops

/-- The descriptors of a new process. -/
def fd_table_init : FdTable := { fd_list := [], fd_num := 2 }

/-- Invariant of the descriptors of a process: every `fd` lies between 2 and
the counter, no `fd` occurs twice, and every element holds a file or a
directory. -/
structure FdInv (t : FdTable) : Prop where
  range : ∀ d ∈ t.fd_list, 2 ≤ d.fd ∧ d.fd < t.fd_num
  nodup : (t.fd_list.map (fun d => d.fd)).Nodup
  handle : ∀ d ∈ t.fd_list, d.file.isSome = true ∨ d.dir.isSome = true
  counter : 2 ≤ t.fd_num

/-! ## The block tree of an inode -/

/-- The sector that a chain of pointer indices leads to from the inode sector.
The path lists the indices, last index first; the empty path is the inode
sector itself.  A null pointer on the way leads nowhere, which reads as 0. -/
def node (st : FS) (ino : Nat) : List Nat → Nat
  | [] => ino
  | k :: path =>
    if path ≠ [] ∧ node st ino path = 0 then 0
    else rd32 (st.disk (node st ino path)) k

/-- The paths to the pointer blocks that the lookups read within the buffers:
the inode sector, the indirect block, the doubly-indirect block and its first
indirect block. -/
def meta_path (path : List Nat) : Bool :=
  path = [] ∨ path = [123] ∨ path = [124] ∨ path = [0, 124]

/-- The paths of the pointers that the lookups follow within the buffers:
the 125 pointers of the inode, the 128 pointers of the indirect block, the
first pointer of the doubly-indirect block and the 128 pointers of the block
that it points to. -/
def valid_path : List Nat → Bool
  | [k] => decide (k < 125)
  | [j, i] => (i = 123 && decide (j < 128)) || (i = 124 && j = 0)
  | [j, 0, 124] => decide (j < 128)
  | _ => false

/-- The path to the data block with index `b < 379`. -/
def block_path (b : Nat) : List Nat :=
  if b < 123 then [b] else if b < 251 then [b - 123, 123] else [b - 251, 0, 124]

/-- The sectors of an inode's block tree are apart: no pointer leads back to
the inode sector and no two pointers lead to the same sector. -/
structure Layout (st : FS) (ino : Nat) : Prop where
  ne_ino : ∀ path, valid_path path = true → node st ino path ≠ 0 → node st ino path ≠ ino
  inj : ∀ p q, valid_path p = true → valid_path q = true → node st ino p ≠ 0 →
    node st ino p = node st ino q → p = q

/-- A well-formed inode: its block tree is laid out apart, the free map marks
sector 0, the inode sector and every sector of the tree as used, and memory
allocation succeeds. -/
structure WF (st : FS) (ino : Nat) : Prop where
  layout : Layout st ino
  oom : st.oom = false
  zero_used : st.free_map 0 = true
  ino_used : st.free_map ino = true
  used : ∀ path, valid_path path = true → node st ino path ≠ 0 →
    st.free_map (node st ino path) = true
  nsec : st.nsectors ≤ 4294967296

/-- A file without holes: memory allocation succeeds, the length lies in the
range that the lookups can address, and every block below the length has a
sector. -/
structure NoHoles (st : FS) (ino : Nat) : Prop where
  oom : st.oom = false
  nonneg : 0 ≤ disk_length st ino
  small : disk_length st ino ≤ 194048
  present : ∀ b : Nat, (b : Int) * 512 < disk_length st ino →
    node st ino (block_path b) ≠ 0

/-- The byte at a position of a file, read through the block tree. -/
def file_byte (st : FS) (ino : Nat) (pos : Nat) : Nat :=
  st.disk (node st ino (block_path (pos / 512))) (pos % 512)

/-- Two states with the same device content and the same heap behaviour; they
may differ in the free map and in the open inodes. -/
structure SameDisk (st st1 : FS) : Prop where
  disk : st1.disk = st.disk
  oom : st1.oom = st.oom
  junk : st1.junk = st.junk

/-- The open-inode table has no two objects for one sector, no two objects at
one address, only positive open counts and only addresses that `malloc` has
handed out. -/
structure TableUnique (st : FS) : Prop where
  sectors : (st.open_inodes.map (fun i => i.sector)).Nodup
  addrs : (st.open_inodes.map (fun i => i.addr)).Nodup
  counts : ∀ i ∈ st.open_inodes, 1 ≤ i.open_cnt
  fresh : ∀ i ∈ st.open_inodes, i.addr < st.next_addr

/-- The number of entries in use among the whole entries of a directory file. -/
def dir_in_use_count (st : FS) (sector : Nat) : Nat :=
  ((List.range ((disk_length st sector) / DIR_ENTRY_SIZE).toNat).filter (fun k =>
    match read_entry st sector k with
    | some e => entry_in_use e
    | none => false)).length

/-! ## `filesys/filesys.c`: splitting a path -/

/-- The loop `while (*src == '/') src++` of `get_next_part`.  A string is the
list of its bytes; the end of the list reads as the terminator, and the
character `/` is byte 47. -/
def skip_slashes : List Nat → List Nat
  | [] => []
  | c :: src => if c = 47 then skip_slashes src else c :: src

/-- The copy loop of `get_next_part`, with `dst` as an index into `part`: the
flag is false where the function returns -1; after it come the buffer, `dst`
and `src`.  A store outside the buffer is undefined. -/
def copy_part_loop (part : List Nat) : Nat → List Nat → Option (Bool × List Nat × Nat × List Nat)
  | dst, [] => some (true, part, dst, [])
  | dst, c :: src =>
    if c ≠ 47 ∧ c ≠ 0 then
      if dst < NAME_MAX then
        if dst < part.length then
          match copy_part_loop (part.set dst c) (dst + 1) src with
          | none => none
          | some r => some r
        else none
      else some (false, part, dst, c :: src)
    else some (true, part, dst, c :: src)

/-- The function `get_next_part`: the return value, the buffer `part` and
`*srcp` afterwards. -/
def get_next_part (part : List Nat) (srcp : List Nat) : Option (Int × List Nat × List Nat) :=
  let src := skip_slashes srcp
  if src.headD 0 = 0 then some (0, part, srcp)
  else
    match copy_part_loop part 0 src with
    | none => none
    | some (false, part1, _, _) => some (-1, part1, srcp)
    | some (true, part1, dst, src1) =>
      if dst < part1.length then some (1, part1.set dst 0, src1) else none

/-- Successive calls of `get_next_part` with the same `part` and `srcp`, as in
the loop of `resolve_name_to_entry`, until a call does not return 1: the
strings found in `part` after the calls that returned 1, and the last return
value. -/
def get_parts (part : List Nat) (srcp : List Nat) : Nat → Option (List (List Nat) × Int)
  | 0 => none
  | fuel + 1 =>
    match get_next_part part srcp with
    | none => none
    | some (ret, part1, srcp1) =>
      if ret = 1 then
        match get_parts part1 srcp1 fuel with
        | none => none
        | some (found, last) => some (part1.takeWhile (fun c => c ≠ 0) :: found, last)
      else some ([], ret)

/-- The `/`-separated components of a path: the non-empty pieces between the
slashes. -/
def path_components (s : List Nat) : List (List Nat) :=
  (s.splitOn 47).filter (fun t => t ≠ [])

/-! ## `userprog/syscall.c`: `create` -/

/-- What the rest of the kernel answers during one call of `create`: the user
memory and the page for `copy_in_string`, and the result of `filesys_create`
for the kernel copy of the name. -/
structure CreateEnv where
  mem : UMem
  page : Option (Nat → Nat)
  filesys_create : (Nat → Nat) → Nat → Bool

/-- The function `create` of project 4: the return value and whether the
calling thread holds `file_lock` afterwards; `held` says whether it holds the
lock before.  `lock_acquire` asserts that the caller does not hold the lock.
`copy_in_string` ends the process instead of returning a null pointer, so the
test `kfile == NULL` never holds. -/
def create (env : CreateEnv) (held : Bool) (ufile : Nat) (initial_size : Nat) :
    Option (Outcome (Bool × Bool)) :=
  if held = true then none
  else
    let held := true
    match copy_in_string env.mem env.page ufile with
    | .exited s => some (.exited s)
    | .returned kfile =>
      if kfile 0 = 0 then some (.returned (false, held))
      else
        let ok := env.filesys_create kfile initial_size
        let held := false
        some (.returned (ok, held))

/-! ## `vm/page.c`, `vm/swap.c` and `vm/frame.c` (project 3) -/

/-- Modelled from the spec: a lock of `threads/synch.c` (not among the
sources) is free (`none`) or held by one thread.  `lock_try_acquire` takes a
free lock and returns true, returns false for a lock that another thread
holds, and fails its assertion when the caller holds the lock already. -/
def lock_try_acquire (lock : Option Nat) (cur : Nat) : Option (Bool × Option Nat) :=
  match lock with
  | none => some (true, some cur)
  | some holder => if holder = cur then none else some (false, lock)

/-- Modelled from the spec: `lock_acquire` of `threads/synch.c` (not among
the sources) takes a free lock.  On a lock that is held the call fails its
assertion (held by the caller) or waits for another thread, which does not
happen in a run of one thread; both are `none`. -/
def lock_acquire (lock : Option Nat) (cur : Nat) : Option (Option Nat) :=
  match lock with
  | none => some (some cur)
  | some _ => none

/-- Number of sectors per page. -/
def PAGE_SECTORS : Nat := PGSIZE / BLOCK_SECTOR_SIZE

def STACK_MAX : Nat := 1024 * 1024

/-- The value `(block_sector_t) -1` that marks a page without a swap slot. -/
def SECTOR_NONE : Nat := 4294967295

/-- Modelled from the spec: `pg_round_down` of `threads/vaddr.h` (not among
the sources) clears the offset inside the page. -/
def pg_round_down (va : Nat) : Nat := va / PGSIZE * PGSIZE

/-- The object `struct page`.  A pointer to a page is the pair of its thread
and its address, the key under which the hash table of the thread holds it;
`frame` is the index of a frame in the array `frames`, and a null pointer is
`none`. -/
structure Page where
  frame : Option Nat
  addr : Nat
  thread : Nat
  read_only : Bool
  swap_or_file : Bool
  exec_file : Option Nat
  offset : Int
  bytes : Int
  b_s : Nat
  deriving DecidableEq

/-- The object `struct frame`: the content of the page at `base`, the holder
of the lock, and the pointer to the page. -/
structure Frame where
  base : Nat → Nat
  lock : Option Nat
  page : Option (Nat × Nat)

/-- Modelled from the spec: `userprog/pagedir.c` and `filesys/file.c` are not
among the sources; `present`, `accessed` and `dirty` are the bits that the
page directory of a thread keeps for a user page, `file_write_at` is the
number of bytes that a write of `bytes` bytes at `offset` to a file stores,
and `file_writes` lists the writes made so far.  The other fields are the
state of the paging layer: the live page descriptors of all threads (the hash
table of a thread holds those with its `thread`), the frame table with the
clock hand and `scan_lock`, the swap bitmap and the swap device.  `oom` says
that `malloc` returns null. -/
structure VM where
  pages : List Page
  frames : List Frame
  hand : Nat
  scan_lock : Option Nat
  swap_bitmap : List Bool
  swap_device : Nat → Sector
  present : Nat → Nat → Bool
  accessed : Nat → Nat → Bool
  dirty : Nat → Nat → Bool
  file_write_at : Nat → Int → Int → Int
  file_writes : List (Nat × Int × Int)
  oom : Bool

/-- The page that a pointer refers to; `none` for a pointer to a freed page. -/
def find_page (st : VM) (key : Nat × Nat) : Option Page :=
  st.pages.find? (fun p => p.thread = key.1 ∧ p.addr = key.2)

/-- Replaces the page at a pointer by its image under `f`. -/
def modify_page (st : VM) (key : Nat × Nat) (f : Page → Page) : VM :=
  { st with pages := st.pages.map (fun p => if p.thread = key.1 ∧ p.addr = key.2 then f p else p) }

/-- Replaces the frame at an index by its image under `f`. -/
def modify_frame (st : VM) (i : Nat) (f : Frame → Frame) : VM :=
  match st.frames[i]? with
  | none => st
  | some fr => { st with frames := st.frames.set i (f fr) }

/-- Takes a page out of its hash table and frees it. -/
def free_page (st : VM) (key : Nat × Nat) : VM :=
  { st with pages := st.pages.filter (fun p => ¬ (p.thread = key.1 ∧ p.addr = key.2)) }

/-- Modelled from the spec: `bitmap_scan (b, 0, 1, false)` of
`lib/kernel/bitmap.c` (not among the sources) is the index of the first bit
that is false; `none` is `BITMAP_ERROR`. -/
def bitmap_scan : List Bool → Option Nat
  | [] => none
  | bit :: rest =>
    if bit = false then some 0
    else
      match bitmap_scan rest with
      | none => none
      | some k => some (k + 1)

/-- Modelled from the spec: `bitmap_scan_and_flip (b, 0, 1, false)` of
`lib/kernel/bitmap.c` (not among the sources) finds the first bit that is
false, sets it and returns its index; `none` is `BITMAP_ERROR`. -/
def bitmap_scan_and_flip (b : List Bool) : Option (Nat × List Bool) :=
  match bitmap_scan b with
  | none => none
  | some k => some (k, b.set k true)

/-- The function `swap_in` on a page pointer, run by thread `cur`.  Its
assertions ask for a page with a frame whose lock the caller holds and with a
swap slot; `bitmap_reset` asserts that the index is inside the bitmap. -/
def swap_in (st : VM) (cur : Nat) (key : Nat × Nat) : Option VM :=
  match find_page st key with
  | none => none
  | some p =>
    match p.frame with
    | none => none
    | some f =>
      match st.frames[f]? with
      | none => none
      | some fr =>
        if fr.lock ≠ some cur then none
        else if p.b_s = SECTOR_NONE then none
        else
          let base : Nat → Nat := fun a =>
            if a < PGSIZE then
              st.swap_device (p.b_s + a / BLOCK_SECTOR_SIZE) (a % BLOCK_SECTOR_SIZE)
            else fr.base a
          let st1 := modify_frame st f (fun fr => { fr with base := base })
          let swap_index := p.b_s / PAGE_SECTORS
          if swap_index < st1.swap_bitmap.length then
            let st2 := { st1 with swap_bitmap := st1.swap_bitmap.set swap_index false }
            some (modify_page st2 key (fun p => { p with b_s := SECTOR_NONE }))
          else none

/-- The function `swap_out` on a page pointer, run by thread `cur`: the
return value and the state.  `swap_lock` is taken and released around the
scan of the bitmap and is left out. -/
def swap_out (st : VM) (cur : Nat) (key : Nat × Nat) : Option (Bool × VM) :=
  match find_page st key with
  | none => none
  | some p =>
    match p.frame with
    | none => none
    | some f =>
      match st.frames[f]? with
      | none => none
      | some fr =>
        if fr.lock ≠ some cur then none
        else
          match bitmap_scan_and_flip st.swap_bitmap with
          | none => some (false, st)
          | some (swap_index, bitmap) =>
            let swap_sector := swap_index * PAGE_SECTORS
            let st1 := { st with swap_bitmap := bitmap }
            let st2 := modify_page st1 key (fun p => { p with b_s := swap_sector })
            let st3 := { st2 with swap_device := fun s =>
              if swap_sector ≤ s ∧ s < swap_sector + PAGE_SECTORS then
                (fun j => fr.base ((s - swap_sector) * BLOCK_SECTOR_SIZE + j))
              else st2.swap_device s }
            some (true, modify_page st3 key (fun p =>
              { p with exec_file := none, offset := 0, bytes := 0, swap_or_file := false }))

/-- The function `frame_lock` on a page pointer. -/
def frame_lock (st : VM) (cur : Nat) (key : Nat × Nat) : Option VM :=
  match find_page st key with
  | none => none
  | some p =>
    match p.frame with
    | none => some st
    | some f =>
      match st.frames[f]? with
      | none => none
      | some fr =>
        match lock_acquire fr.lock cur with
        | none => none
        | some l => some (modify_frame st f (fun fr => { fr with lock := l }))

/-- The function `frame_free` on a frame pointer; it asserts that the caller
holds the lock of the frame. -/
def frame_free (st : VM) (cur : Nat) (frame : Option Nat) : Option VM :=
  match frame with
  | none => none
  | some f =>
    match st.frames[f]? with
    | none => none
    | some fr =>
      if fr.lock = some cur then
        some (modify_frame st f (fun fr => { fr with page := none, lock := none }))
      else none

/-- The function `frame_unlock`. -/
def frame_unlock (st : VM) (cur : Nat) (frame : Option Nat) : Option VM :=
  match frame with
  | none => none
  | some f =>
    match st.frames[f]? with
    | none => none
    | some fr =>
      if fr.lock = some cur then some (modify_frame st f (fun fr => { fr with lock := none }))
      else none

/-- The function `destroy_page` on a page of the current thread. -/
def destroy_page (st : VM) (cur : Nat) (key : Nat × Nat) : Option VM :=
  match frame_lock st cur key with
  | none => none
  | some st1 =>
    match find_page st1 key with
    | none => none
    | some p =>
      let freed := if p.frame ≠ none then frame_free st1 cur p.frame else some st1
      match freed with
      | none => none
      | some st2 => some (free_page st2 key)

/-- Modelled from the spec: `hash_destroy` of `lib/kernel/hash.c` (not among
the sources) calls the destructor once on every element of the table, here the
descriptors of the thread `cur`. -/
def hash_destroy (st : VM) (cur : Nat) (destructor : VM → Nat → Nat × Nat → Option VM) :
    Option VM :=
  ((st.pages.filter (fun p => p.thread = cur)).map (fun p => (p.thread, p.addr))).foldlM
    (fun acc key => destructor acc cur key) st

/-- The function `page_exit` of a thread that has a page table. -/
def page_exit (st : VM) (cur : Nat) : Option VM :=
  hash_destroy st cur destroy_page

/-- The function `page_allocate` run by thread `cur`: the new pointer, or
`none` for a null pointer, and the state. -/
def page_allocate (st : VM) (cur : Nat) (vaddr : Nat) (read_only : Bool) :
    Option (Nat × Nat) × VM :=
  if st.oom then (none, st)
  else
    let p : Page :=
      { frame := none, addr := pg_round_down vaddr, read_only := read_only,
        swap_or_file := !read_only, thread := cur, b_s := SECTOR_NONE, exec_file := none,
        offset := 0, bytes := 0 }
    match find_page st (p.thread, p.addr) with
    | some _ => (none, st)
    | none => (some (p.thread, p.addr), { st with pages := p :: st.pages })

/-- The function `page_for_addr` run by thread `cur`, whose saved user stack
pointer is `user_stack_pointer`. -/
def page_for_addr (st : VM) (cur : Nat) (user_stack_pointer : Nat) (address : Nat) :
    Option (Nat × Nat) × VM :=
  if address ≥ PHYS_BASE then (none, st)
  else
    let addr := pg_round_down address
    match find_page st (cur, addr) with
    | some p => (some (p.thread, p.addr), st)
    | none =>
      let above_is_stack := PHYS_BASE - STACK_MAX
      let saved_in_intterupt := user_stack_pointer
      if saved_in_intterupt ≤ (address + 32) % 4294967296 ∧ addr > above_is_stack then
        page_allocate st cur addr false
      else (none, st)

/-- The function `write_page_to_disk`; the conversion of the result of
`file_write_at` to `bool` makes every count other than 0 true. -/
def write_page_to_disk (st : VM) (cur : Nat) (key : Nat × Nat) (p : Page) (dirty : Bool) :
    Option (Bool × VM) :=
  match p.exec_file with
  | none => swap_out st cur key
  | some file =>
    if dirty then
      if p.swap_or_file then swap_out st cur key
      else
        some (decide (st.file_write_at file p.bytes p.offset ≠ 0),
          { st with file_writes := st.file_writes ++ [(file, p.bytes, p.offset)] })
    else some (true, st)

/-- The function `page_out` on a page pointer, run by thread `cur`; its
assertions ask for a frame whose lock the caller holds. -/
def page_out (st : VM) (cur : Nat) (key : Nat × Nat) : Option (Bool × VM) :=
  match find_page st key with
  | none => none
  | some p =>
    match p.frame with
    | none => none
    | some f =>
      match st.frames[f]? with
      | none => none
      | some fr =>
        if fr.lock ≠ some cur then none
        else
          let st1 := { st with present := fun t a =>
            if t = p.thread ∧ a = p.addr then false else st.present t a }
          let dirty := st1.dirty p.thread p.addr
          match write_page_to_disk st1 cur key p dirty with
          | none => none
          | some (ok, st2) =>
            if ok then some (true, modify_page st2 key (fun p => { p with frame := none }))
            else some (false, st2)

/-- The function `page_accessed_recently`. -/
def page_accessed_recently (st : VM) (cur : Nat) (key : Nat × Nat) : Option (Bool × VM) :=
  match find_page st key with
  | none => none
  | some p =>
    match p.frame with
    | none => none
    | some f =>
      match st.frames[f]? with
      | none => none
      | some fr =>
        if fr.lock ≠ some cur then none
        else
          let accessed := st.accessed p.thread p.addr
          if accessed then
            some (accessed, { st with accessed := fun t a =>
              if t = p.thread ∧ a = p.addr then false else st.accessed t a })
          else some (accessed, st)

/-- The function `evict_page`; it reads `p->frame` again after `page_out`. -/
def evict_page (st : VM) (cur : Nat) (key : Nat × Nat) : Option VM :=
  match find_page st key with
  | none => none
  | some p =>
    let written :=
      if p.exec_file ≠ none ∧ p.swap_or_file = false then
        match page_out st cur key with
        | none => none
        | some (_, st1) => some st1
      else some st
    match written with
    | none => none
    | some st1 =>
      match find_page st1 key with
      | none => none
      | some p1 => frame_free st1 cur p1.frame

/-- The function `page_deallocate`; a null result of `page_for_addr` fails
the assertion. -/
def page_deallocate (st : VM) (cur : Nat) (user_stack_pointer : Nat) (vaddr : Nat) :
    Option VM :=
  match page_for_addr st cur user_stack_pointer vaddr with
  | (none, _) => none
  | (some key, st1) =>
    match frame_lock st1 cur key with
    | none => none
    | some st2 =>
      match find_page st2 key with
      | none => none
      | some p =>
        let evicted := if p.frame ≠ none then evict_page st2 cur key else some st2
        match evicted with
        | none => none
        | some st3 => some (free_page st3 key)

/-- The loop of `find_free_frame` from `index` with `n` frames to go: the
frame found, the state, and the number of frames that the loop has looked at.
A lock that was taken for a frame in use is released again, which leaves the
frame as it was. -/
def find_free_frame_loop (cur : Nat) (target_page : Nat × Nat) :
    Nat → Nat → VM → Option (Option Nat × VM × Nat)
  | 0, index, st => some (none, st, index)
  | n + 1, index, st =>
    match st.frames[index]? with
    | none => none
    | some current_frame =>
      match lock_try_acquire current_frame.lock cur with
      | none => none
      | some (false, _) => find_free_frame_loop cur target_page n (index + 1) st
      | some (true, lock) =>
        if current_frame.page = none then
          some (some index,
            modify_frame st index (fun fr => { fr with lock := lock, page := some target_page }),
            index + 1)
        else find_free_frame_loop cur target_page n (index + 1) st

/-- The loop of `find_frame_to_evict` from `index` with `n` rounds to go: the
frame found, the state, and the number of frames that the loop has looked
at. -/
def find_frame_to_evict_loop (cur : Nat) (target_page : Nat × Nat) :
    Nat → Nat → VM → Option (Option Nat × VM × Nat)
  | 0, index, st => some (none, st, index)
  | n + 1, index, st =>
    let current_index := (st.hand + index) % st.frames.length
    match st.frames[current_index]? with
    | none => none
    | some current_frame =>
      match lock_try_acquire current_frame.lock cur with
      | none => none
      | some (false, _) => find_frame_to_evict_loop cur target_page n (index + 1) st
      | some (true, lock) =>
        let st1 := modify_frame st current_index (fun fr => { fr with lock := lock })
        match current_frame.page with
        | none =>
          some (some current_index,
            modify_frame st1 current_index (fun fr => { fr with page := some target_page }),
            index + 1)
        | some key =>
          match page_accessed_recently st1 cur key with
          | none => none
          | some (true, st2) =>
            find_frame_to_evict_loop cur target_page n (index + 1)
              (modify_frame st2 current_index (fun fr => { fr with lock := none }))
          | some (false, st2) =>
            match page_out st2 cur key with
            | none => none
            | some (false, st3) =>
              some (none, modify_frame st3 current_index (fun fr => { fr with lock := none }),
                index + 1)
            | some (true, st3) =>
              some (some current_index,
                modify_frame st3 current_index (fun fr => { fr with page := some target_page }),
                index + 1)

/-- The function `frame_alloc_and_lock`: the frame, the state, and the
numbers of frames that the two scans have looked at. -/
def frame_alloc_and_lock (st : VM) (cur : Nat) (page : Nat × Nat) :
    Option (Option Nat × VM × Nat × Nat) :=
  match lock_acquire st.scan_lock cur with
  | none => none
  | some l =>
    let st1 := { st with scan_lock := l }
    match find_free_frame_loop cur page st1.frames.length 0 st1 with
    | none => none
    | some (some free_frame, st2, n1) =>
      some (some free_frame, { st2 with scan_lock := none }, n1, 0)
    | some (none, st2, n1) =>
      match find_frame_to_evict_loop cur page (st2.frames.length * 2) 0 st2 with
      | none => none
      | some (frame_to_evict, st3, n2) =>
        some (frame_to_evict, { st3 with scan_lock := none }, n1, n2)

/-- Whether the write-back that `page_out` chooses for a page succeeds in a
state: a page that goes to swap needs a free slot in the bitmap, a dirty page
that goes to its file needs a count other than 0 from `file_write_at`, and a
clean page with a file needs nothing. -/
def writeback_succeeds (st : VM) (p : Page) : Bool :=
  if p.exec_file = none ∨ (st.dirty p.thread p.addr = true ∧ p.swap_or_file = true) then
    decide (false ∈ st.swap_bitmap)
  else if st.dirty p.thread p.addr = true then
    match p.exec_file with
    | none => false
    | some file => decide (st.file_write_at file p.bytes p.offset ≠ 0)
  else true

/-- What holds in the clock pass of `find_frame_to_evict` after `index`
rounds that all skipped a frame, with `st0` the state at the start of the
pass: only accessed bits have changed, the pages of the frames passed so far
had their bit set and have it clear now, and no bit has been set. -/
structure ClockInv (st0 st : VM) (index : Nat) : Prop where
  frames : st.frames = st0.frames
  pages : st.pages = st0.pages
  hand : st.hand = st0.hand
  scan_lock : st.scan_lock = st0.scan_lock
  swap_bitmap : st.swap_bitmap = st0.swap_bitmap
  dirty : st.dirty = st0.dirty
  file_write_at : st.file_write_at = st0.file_write_at
  cleared : ∀ j fr key, j < index →
    st0.frames[(st0.hand + j) % st0.frames.length]? = some fr → fr.page = some key →
    st0.accessed key.1 key.2 = true ∧ st.accessed key.1 key.2 = false
  mono : ∀ t a, st.accessed t a = true → st0.accessed t a = true

/-- The relation between the swap bitmap and the live page descriptors: a
slot is marked exactly when a descriptor names its first sector.  To be kept
by the operations it comes with what they rely on: a table holds one
descriptor per address, `b_s` is the first sector of a slot or
`(block_sector_t) -1`, and no two descriptors name the same slot. -/
structure SwapInv (st : VM) : Prop where
  keys : ∀ p ∈ st.pages, ∀ q ∈ st.pages, p.thread = q.thread → p.addr = q.addr → p = q
  used : ∀ k, st.swap_bitmap[k]? = some true ↔ ∃ p ∈ st.pages, p.b_s = k * PAGE_SECTORS
  aligned : ∀ p ∈ st.pages, p.b_s = SECTOR_NONE ∨ ∃ k, p.b_s = k * PAGE_SECTORS
  unique : ∀ p ∈ st.pages, ∀ q ∈ st.pages, p.b_s ≠ SECTOR_NONE → p.b_s = q.b_s → p = q

/-- The name of an entry as a string: the bytes at `e.name` before the first
terminator. -/
def entry_string (e : List Nat) : List Nat := (entry_name e).takeWhile (fun c => c ≠ 0)

/-- The entries that a listing shows: those in use whose name is neither "."
nor "..". -/
def is_listed (e : List Nat) : Bool :=
  entry_in_use e && (decide (entry_string e ≠ [46]) && decide (entry_string e ≠ [46, 46]))

/-! ## Concrete states -/

/-- A device of 16 zeroed sectors of which sectors 0 to 5 are in use, with no
open inode; sector 5 then reads as an inode of length 0 without blocks. -/
def blank_fs : FS :=
  { disk := fun _ => zero_sector, free_map := fun s => decide (s < 6), nsectors := 16,
    open_inodes := [], next_addr := 1, oom := false, junk := zero_sector }

/-- An in-memory inode for sector 5, opened once. -/
def inode5 : Inode :=
  { addr := 1, sector := 5, open_cnt := 1, removed := false, deny_write_cnt := 0,
    writer_cnt := 0 }

/-- An entry in use with the name "." for the given sector. -/
def dot_entry (sector : Nat) : List Nat :=
  set_in_use (set_inode_sector (strlcpy_name (List.replicate DIR_ENTRY_SIZE 0) [46]) sector)

/-- A directory in sector 5 as `dir_create` leaves it: length 40, one data
block in sector 6 with two entries in use, the inode open once. -/
def small_dir_fs : FS :=
  { disk := fun s =>
      if s = 5 then wr32 (wr32 (wr32 (wr32 zero_sector 125 DIR_INODE) 127 INODE_MAGIC) 126 40) 0 6
      else if s = 6 then as_buffer (dot_entry 5 ++ dot_entry 5)
      else zero_sector
    free_map := fun s => decide (s < 7), nsectors := 16,
    open_inodes := [inode5], next_addr := 2, oom := false, junk := zero_sector }

/-- The same directory on a device of 7 sectors, all of them in use. -/
def full_dir_fs : FS := { small_dir_fs with nsectors := 7 }

/-- A handle on the directory in sector 5. -/
def dir5 : Dir := { inode := inode5, pos := 0 }

/-- An inode in sector 5 of length 70000 without any block pointer; sector 7
holds the byte 9 everywhere, and uninitialised memory reads as the 32-bit
words 7. -/
def hole_fs : FS :=
  { disk := fun s =>
      if s = 5 then wr32 zero_sector 126 70000
      else if s = 7 then (fun _ => 9)
      else zero_sector
    free_map := fun s => decide (s < 8), nsectors := 16,
    open_inodes := [], next_addr := 1, oom := false,
    junk := fun k => if k % 4 = 0 then 7 else 0 }

/-- An inode in sector 5 without data blocks, marked removed, opened once. -/
def removed_fs : FS :=
  { blank_fs with open_inodes := [{ inode5 with removed := true }], next_addr := 2 }

/-- An inode in sector 5 whose first and third direct pointers are sectors 6
and 7 and whose second direct pointer is 0, marked removed, opened once. -/
def removed_partial_fs : FS :=
  { disk := fun s => if s = 5 then wr32 (wr32 zero_sector 0 6) 2 7 else zero_sector
    free_map := fun s => decide (s < 8), nsectors := 16,
    open_inodes := [{ inode5 with removed := true }], next_addr := 2, oom := false,
    junk := zero_sector }

/-- The command line "echo x y z". -/
def echo_cmd : List Nat := [101, 99, 104, 111, 32, 120, 32, 121, 32, 122]

/-- A parent that has started child 3 and not waited yet. -/
def parent3 : Thread :=
  { tid := 1, exit_code := 0, exit_child_tid_arr := fun i => if i = 3 then 3 else 0,
    exit_child_code_arr := fun _ => 0, exit_child_sema_arr := fun _ => 0,
    exit_child_waited := 0 }

/-- The child 3 at the time it exits with status 42. -/
def child3 : Thread :=
  { tid := 3, exit_code := 42, exit_child_tid_arr := fun _ => 0,
    exit_child_code_arr := fun _ => 0, exit_child_sema_arr := fun _ => 0,
    exit_child_waited := 0 }

/-- The parent after child 3 has run `process_exit`. -/
def parent3_exited : Thread :=
  match process_exit 128 child3 (some parent3) with
  | some (some p) => p
  | _ => parent3

/-- A sequence of calls on the open-inode table. -/
def sample_ops : List InodeOp :=
  [.op_open 5, .op_open 5, .op_reopen 1, .op_close 1, .op_open 7, .op_close 1, .op_open 9]

/-- The state that `sample_ops` reaches from the blank device. -/
def sample_fs : FS :=
  match run_ops blank_fs sample_ops with
  | some st => st
  | none => blank_fs


/-- A user string without terminator: every address holds the byte of `A`. -/
def long_string_mem : UMem := fun _ => some 65

/-- Memory around `PHYS_BASE`: the last two user bytes hold "ab", nothing is
mapped below them, and the kernel memory from `PHYS_BASE` on is readable and
holds the byte of `c` followed by zeros. -/
def straddle_mem : UMem := fun a =>
  if a < PHYS_BASE - 2 then none
  else if a = PHYS_BASE - 2 then some 97
  else if a = PHYS_BASE - 1 then some 98
  else if a = PHYS_BASE then some 99
  else some 0

/-- A kernel in which every page allocation and every store to user memory
succeeds and the console hands out the byte of `x`. -/
def console_env : ReadEnv :=
  { palloc_ok := fun _ => true, input_getc := fun _ => 120,
    file_read := fun _ _ _ => [], put_ok := fun _ => true }

/-- A kernel that opens the file named "a" at user address 0x08048000. -/
def open_ok_env : OpenEnv :=
  { mem := fun a => if a = 0x08048000 then some 97 else some 0,
    page := some (fun _ => 0), calloc_ok := true, filesys_open := fun _ => some 7,
    is_dir := fun _ => false, dir_open := fun _ => none, file_open := fun i => some i }

/-- The same kernel when the file system does not find the name. -/
def open_fail_env : OpenEnv := { open_ok_env with filesys_open := fun _ => none }

/-- Two opens, a close of the first descriptor, a failing open and an open. -/
def sample_fd_ops : List FdOp :=
  [.fd_open open_ok_env 0x08048000, .fd_open open_ok_env 0x08048000, .fd_close 2,
    .fd_open open_fail_env 0x08048000, .fd_open open_ok_env 0x08048000]

/-- The descriptors that `sample_fd_ops` leaves. -/
def sample_fd_table : FdTable :=
  { fd_list := [{ fd := 4, file := some 7, dir := none }, { fd := 3, file := some 7, dir := none }],
    fd_num := 5 }

/-- An entry with the given sector, name and `in_use` flag. -/
def mk_entry (sector : Nat) (name : List Nat) (in_use : Bool) : List Nat :=
  let e := set_inode_sector (strlcpy_name (List.replicate DIR_ENTRY_SIZE 0) name) sector
  if in_use then set_in_use e else e

/-- The five entries of the directory of `listing_fs`: ".", ".", "a", a
tombstone that held "b", and "c". -/
def listing_entries : List (List Nat) :=
  [dot_entry 5, dot_entry 5, mk_entry 8 [97] true, mk_entry 9 [98] false, mk_entry 10 [99] true]

/-- A directory in sector 5 of length 100 whose block in sector 6 holds
`listing_entries`. -/
def listing_fs : FS :=
  { disk := fun s =>
      if s = 5 then wr32 (wr32 (wr32 (wr32 zero_sector 125 DIR_INODE) 127 INODE_MAGIC) 126 100) 0 6
      else if s = 6 then as_buffer listing_entries.flatten
      else zero_sector
    free_map := fun s => decide (s < 11), nsectors := 16,
    open_inodes := [inode5], next_addr := 2, oom := false, junk := zero_sector }

/-- A device with a directory in sector 5 that holds the entries ".", "." and
"a", the last one for the directory in sector 7, which holds ".", "." and
"b"; sector 9 is the inode of "b".  The directory in sector 5 is open once. -/
def tree_fs : FS :=
  { disk := fun s =>
      if s = 5 then wr32 (wr32 (wr32 (wr32 zero_sector 125 DIR_INODE) 127 INODE_MAGIC) 126 60) 0 6
      else if s = 6 then
        as_buffer (dot_entry 5 ++ dot_entry 5 ++ mk_entry 7 [97] true)
      else if s = 7 then
        wr32 (wr32 (wr32 (wr32 zero_sector 125 DIR_INODE) 127 INODE_MAGIC) 126 60) 0 8
      else if s = 8 then
        as_buffer (dot_entry 7 ++ dot_entry 7 ++ mk_entry 9 [98] true)
      else zero_sector
    free_map := fun s => decide (s < 10), nsectors := 16,
    open_inodes := [inode5], next_addr := 2, oom := false, junk := zero_sector }

/-- The same device after "b" has been removed from the directory in sector 7:
its entry is a tombstone. -/
def tree_fs_emptied : FS :=
  { tree_fs with disk := fun s =>
      if s = 8 then as_buffer (dot_entry 7 ++ dot_entry 7 ++ mk_entry 9 [98] false)
      else tree_fs.disk s }

/-- The device of `listing_fs` while another opener holds the inode of "a",
which is in sector 8. -/
def listing_open_fs : FS :=
  { listing_fs with
    open_inodes := [inode5, { addr := 2, sector := 8, open_cnt := 1, removed := false,
                              deny_write_cnt := 0, writer_cnt := 0 }]
    next_addr := 3 }

/-- A removed inode in sector 5, opened once, whose 123 direct pointers are
the sectors 10 to 132 and whose indirect and doubly-indirect pointers are 0.
Sector 0, which is in use and not part of the inode, holds the pointer 2 in
its first word; sector 2 is in use as well. -/
def full_direct_fs : FS :=
  { disk := fun s =>
      if s = 5 then (fun k => if k < 492 ∧ k % 4 = 0 then 10 + k / 4 else 0)
      else if s = 0 then wr32 zero_sector 0 2
      else zero_sector
    free_map := fun s => decide (s < 133), nsectors := 200,
    open_inodes := [{ inode5 with removed := true }], next_addr := 2, oom := false,
    junk := zero_sector }

/-- A kernel in which the user string at 0x08048000 is empty. -/
def create_empty_env : CreateEnv :=
  { mem := fun _ => some 0, page := some (fun _ => 0), filesys_create := fun _ _ => true }

/-- A kernel in which the user string at 0x08048000 is "a". -/
def create_a_env : CreateEnv :=
  { mem := fun a => if a = 0x08048000 then some 97 else some 0, page := some (fun _ => 0),
    filesys_create := fun _ _ => true }

/-- A paging state without pages, frames or swap slots, in which a write to
a file stores all its bytes. -/
def empty_vm : VM :=
  { pages := [], frames := [], hand := 0, scan_lock := none, swap_bitmap := [],
    swap_device := fun _ => zero_sector, present := fun _ _ => false,
    accessed := fun _ _ => false, dirty := fun _ _ => false,
    file_write_at := fun _ bytes _ => bytes, file_writes := [], oom := false }

/-- A page of thread 1 at 0x08048000 that lies in swap slot 0 and has no
frame. -/
def swapped_page : Page :=
  { frame := none, addr := 0x08048000, thread := 1, read_only := false, swap_or_file := false,
    exec_file := none, offset := 0, bytes := 0, b_s := 0 }

/-- A state with one free frame and two swap slots, of which slot 0 holds
the only page. -/
def swapped_vm : VM :=
  { empty_vm with
    pages := [swapped_page]
    frames := [{ base := fun _ => 0, lock := none, page := none }]
    swap_bitmap := [true, false] }

/-- A page of thread 1 without a file that is resident in the frame `f`. -/
def resident_page (addr f : Nat) : Page :=
  { frame := some f, addr := addr, thread := 1, read_only := false, swap_or_file := true,
    exec_file := none, offset := 0, bytes := 0, b_s := SECTOR_NONE }

/-- A frame table of two frames that hold the pages at 0x08048000 and
0x08049000 of thread 1, both accessed since the last pass of the clock, with
the hand at frame 1, every lock free and two free swap slots. -/
def two_frame_vm : VM :=
  { empty_vm with
    pages := [resident_page 0x08048000 0, resident_page 0x08049000 1]
    frames := [{ base := fun a => a % 7, lock := none, page := some (1, 0x08048000) },
               { base := fun a => a % 5, lock := none, page := some (1, 0x08049000) }]
    hand := 1
    swap_bitmap := [false, false]
    accessed := fun _ _ => true }

/-- The same table while thread 1 holds the lock of frame 0. -/
def locked_frame_vm : VM :=
  { two_frame_vm with
    frames := [{ base := fun a => a % 7, lock := some 1, page := some (1, 0x08048000) },
               { base := fun a => a % 5, lock := none, page := some (1, 0x08049000) }] }

/-- The six entries of the directory of `dotdot_fs`: ".", "..", ".a", a
tombstone that held "b", "..c" and a tombstone that held "..". -/
def dotdot_entries : List (List Nat) :=
  [dot_entry 5, mk_entry 1 [46, 46] true, mk_entry 8 [46, 97] true, mk_entry 9 [98] false,
    mk_entry 10 [46, 46, 99] true, mk_entry 1 [46, 46] false]

/-- A directory in sector 5 of length 120 whose block in sector 6 holds
`dotdot_entries`. -/
def dotdot_fs : FS :=
  { disk := fun s =>
      if s = 5 then wr32 (wr32 (wr32 (wr32 zero_sector 125 DIR_INODE) 127 INODE_MAGIC) 126 120) 0 6
      else if s = 6 then as_buffer dotdot_entries.flatten
      else zero_sector
    free_map := fun s => decide (s < 11), nsectors := 16,
    open_inodes := [inode5], next_addr := 2, oom := false, junk := zero_sector }

/-- A sector whose 32-bit word number `i` holds the value `f i`. -/
def words_sector (f : Nat → Nat) : Sector := fun k => f (k / 4) / 256 ^ (k % 4) % 256

/-- A file of 194048 bytes in sector 5 with all its 379 blocks: the direct
pointers are the sectors 10 to 132, the indirect block in sector 133 points to
the sectors 134 to 261, and the doubly-indirect block in sector 262 points to
the block in sector 263, which points to the sectors 264 to 391.  The sectors
above 391 are free. -/
def span_fs : FS :=
  { disk := fun s =>
      if s = 5 then
        words_sector (fun i =>
          if i < 123 then 10 + i else if i = 123 then 133 else if i = 124 then 262
          else if i = 126 then 194048 else if i = 127 then INODE_MAGIC else 0)
      else if s = 133 then words_sector (fun i => if i < 128 then 134 + i else 0)
      else if s = 262 then words_sector (fun i => if i = 0 then 263 else 0)
      else if s = 263 then words_sector (fun i => if i < 128 then 264 + i else 0)
      else zero_sector
    free_map := fun s => decide (s < 392), nsectors := 1024,
    open_inodes := [inode5], next_addr := 2, oom := false, junk := zero_sector }

/-! ## Lookups and reads -/

theorem PTRS_PER_SECTOR_eq : PTRS_PER_SECTOR = 128 := rfl
theorem DIRECT_CNT_eq : DIRECT_CNT = 123 := rfl
theorem BLOCK_SECTOR_SIZE_eq : BLOCK_SECTOR_SIZE = 512 := rfl
theorem INDIRECT_CNT_eq : INDIRECT_CNT = 1 := rfl

theorem calculate_indices_indirect (b : Nat) (h1 : 123 ≤ b) (h2 : b < 251) :
    calculate_indices (b : Int) = [123, b - 123] := by
  unfold calculate_indices
  simp only [DIRECT_CNT_eq, PTRS_PER_SECTOR_eq, BLOCK_SECTOR_SIZE_eq]
  rw [if_neg (by omega), if_pos (by norm_num; omega)]
  congr 2
  omega

theorem calculate_indices_doubly (b : Nat) (h1 : 251 ≤ b) (h2 : b < 16635) :
    calculate_indices (b : Int) = [124, (b - 251) / 128, b - 251] := by
  unfold calculate_indices
  simp only [DIRECT_CNT_eq, PTRS_PER_SECTOR_eq, BLOCK_SECTOR_SIZE_eq]
  rw [if_neg (by omega), if_neg (by norm_num; omega), if_pos (by norm_num; omega)]
  congr 2
  · norm_num; omega
  · congr 1; norm_num; omega

theorem read_data_block_ok (st : FS) (s : Nat) (h : st.oom = false) :
    (read_data_block st s).ok = true := by
  unfold read_data_block
  split
  · simp [h]
  · rfl

theorem get_data_block_read_ok (st : FS) (ino : Nat) (o : Int) (hoom : st.oom = false)
    (h0 : 0 ≤ o) (h1 : o < 194048) :
    ∃ r, get_data_block st ino o false = some r ∧ r.ok = true := by
  unfold get_data_block
  rw [if_neg (by omega)]
  simp only [DIRECT_CNT_eq, PTRS_PER_SECTOR_eq, BLOCK_SECTOR_SIZE_eq, INDIRECT_CNT_eq]
  have hb : (o / ((512 : Nat) : Int)).toNat < 379 := by omega
  generalize (o / ((512 : Nat) : Int)).toNat = b at hb
  by_cases hd : b < 123
  · rw [if_pos hd]
    unfold handle_direct_block
    have hs : sectors_at (block_read st ino) b = some (rd32 (block_read st ino) b) := by
      simp only [sectors_at, PTRS_PER_SECTOR_eq]; rw [if_pos (by omega)]
    simp only [hoom, hs, Bool.false_eq_true, if_false, and_false]
    exact ⟨_, rfl, read_data_block_ok _ _ hoom⟩
  · rw [if_neg hd]
    by_cases hi : b < 251
    · rw [if_pos (by omega)]
      unfold handle_indirect_block
      rw [calculate_indices_indirect b (by omega) hi]
      have hs : ∀ buf : Sector, sectors_at buf 123 = some (rd32 buf 123) := fun _ => rfl
      have hs2 : ∀ buf : Sector, sectors_at buf (b - 123) = some (rd32 buf (b - 123)) := by
        intro buf
        simp only [sectors_at, PTRS_PER_SECTOR_eq]; rw [if_pos (by omega)]
      simp only [List.getElem?_cons_zero, List.getElem?_cons_succ, hoom, hs, hs2,
        Bool.false_eq_true, if_false, and_false]
      exact ⟨_, rfl, read_data_block_ok _ _ hoom⟩
    · rw [if_neg (by omega), if_pos (by omega)]
      unfold handle_doubly_indirect_block
      rw [calculate_indices_doubly b (by omega) (by omega)]
      have hz : (b - 251) / 128 = 0 := by omega
      have hs : ∀ buf : Sector, sectors_at buf 124 = some (rd32 buf 124) := fun _ => rfl
      have hs0 : ∀ buf : Sector, sectors_at buf 0 = some (rd32 buf 0) := fun _ => rfl
      have hs2 : ∀ buf : Sector, sectors_at buf (b - 251) = some (rd32 buf (b - 251)) := by
        intro buf
        simp only [sectors_at, PTRS_PER_SECTOR_eq]; rw [if_pos (by omega)]
      simp only [List.getElem?_cons_zero, List.getElem?_cons_succ, hoom, hz, hs, hs0, hs2,
        Bool.false_eq_true, if_false, and_false]
      exact ⟨_, rfl, read_data_block_ok _ _ hoom⟩

theorem read_data_block_st (st : FS) (s : Nat) : (read_data_block st s).st = st := by
  unfold read_data_block; split <;> [split; skip] <;> rfl

theorem handle_direct_block_read_st (st : FS) (ino b : Nat) (r : Lookup)
    (h : handle_direct_block st ino b false = some r) : r.st = st := by
  unfold handle_direct_block at h
  simp only [Bool.false_eq_true, and_false, if_false] at h
  repeat' (first | (cases h <;> first | rfl | exact read_data_block_st _ _) | split at h)

theorem handle_indirect_block_read_st (st : FS) (ino b : Nat) (r : Lookup)
    (h : handle_indirect_block st ino b false = some r) : r.st = st := by
  unfold handle_indirect_block at h
  generalize calculate_indices (b : Int) = offs at h
  simp only [Bool.false_eq_true, and_false, if_false] at h
  repeat' (first | (cases h <;> first | rfl | exact read_data_block_st _ _) | split at h)

theorem handle_doubly_indirect_block_read_st (st : FS) (ino b : Nat) (r : Lookup)
    (h : handle_doubly_indirect_block st ino b false = some r) : r.st = st := by
  unfold handle_doubly_indirect_block at h
  generalize calculate_indices (b : Int) = offs at h
  simp only [Bool.false_eq_true, and_false, if_false] at h
  repeat' (first | (cases h <;> first | rfl | exact read_data_block_st _ _) | split at h)

theorem get_data_block_read_st (st : FS) (ino : Nat) (off : Int) (r : Lookup)
    (h : get_data_block st ino off false = some r) : r.st = st := by
  unfold get_data_block at h
  split at h
  · cases h
  · simp only at h
    split at h
    · exact handle_direct_block_read_st _ _ _ _ h
    · split at h
      · exact handle_indirect_block_read_st _ _ _ _ h
      · split at h
        · exact handle_doubly_indirect_block_read_st _ _ _ _ h
        · cases h; rfl

theorem inode_length_eq (st : FS) (ino : Nat) (h : st.oom = false) :
    inode_length st ino = some (disk_length st ino) := by
  unfold inode_length
  rw [h]
  rfl

theorem inode_length_oom (st : FS) (ino : Nat) (h : st.oom = true) :
    inode_length st ino = none := by
  unfold inode_length
  rw [h]
  rfl

theorem inode_read_at_loop_exact (st : FS) (ino : Nat) (hoom : st.oom = false) :
    ∀ (fuel : Nat) (size offset : Int) (bytes : List Nat),
      0 ≤ offset → 0 ≤ size → size.toNat ≤ fuel →
      (∀ o : Int, offset ≤ o → o < offset + size → o < disk_length st ino →
        ∃ r, get_data_block st ino o false = some r ∧ r.ok = true) →
      ∃ out, inode_read_at_loop fuel st ino size offset bytes = some (bytes ++ out, st) ∧
        (out.length : Int) = min size (max 0 (disk_length st ino - offset)) := by
  intro fuel
  induction fuel with
  | zero =>
    intro size offset bytes h0 hs hf _
    have : size = 0 := by omega
    subst this
    exact ⟨[], by simp [inode_read_at_loop], by simp⟩
  | succ fuel ih =>
    intro size offset bytes h0 hs hf hok
    rw [inode_read_at_loop]
    by_cases hsz : size > 0
    · have hmod : Int.tmod offset 512 = offset % 512 :=
        Int.tmod_eq_emod h0 (by decide)
      have hB : ((BLOCK_SECTOR_SIZE : Nat) : Int) = 512 := rfl
      simp only [hsz, if_true, hB, hmod, inode_length_eq st ino hoom]
      generalize hL : disk_length st ino = L at *
      generalize hm : (if L - offset < 512 - offset % 512 then L - offset
        else 512 - offset % 512) = min_left
      generalize hc : (if size < min_left then size else min_left) = chunk_size
      have hm1 : min_left = min (L - offset) (512 - offset % 512) := by
        rw [← hm]; split_ifs <;> omega
      have hc1 : chunk_size = min size min_left := by
        rw [← hc]; split_ifs <;> omega
      by_cases hc0 : chunk_size ≤ 0
      · simp only [hc0, if_true]
        exact ⟨[], by simp, by simp only [List.length_nil, Nat.cast_zero]; omega⟩
      · simp only [hc0, if_false]
        obtain ⟨r, hr, hrok⟩ := hok offset (le_refl _) (by omega) (by omega)
        have hrst := get_data_block_read_st _ _ _ _ hr
        simp only [hr, hrok, hrst, Bool.true_eq_false, if_false]
        generalize hch : (match r.block with
              | none => List.replicate chunk_size.toNat 0
              | some block =>
                (List.range chunk_size.toNat).map (fun i => block ((offset % 512).toNat + i)))
            = chunk
        have hclen : (chunk.length : Int) = chunk_size := by
          rw [← hch]; cases r.block <;> simp <;> omega
        obtain ⟨out, hout, hlen⟩ := ih (size - chunk_size) (offset + chunk_size)
          (bytes ++ chunk) (by omega) (by omega) (by omega)
          (fun o h1 h2 h3 => hok o (by omega) (by omega) h3)
        refine ⟨chunk ++ out, ?_, ?_⟩
        · rw [hout, List.append_assoc]
        · rw [List.length_append, Nat.cast_add, hclen, hlen]
          omega
    · have : size = 0 := by omega
      subst this
      exact ⟨[], by simp, by simp⟩

theorem inode_read_at_loop_bound (st : FS) (ino : Nat) :
    ∀ (fuel : Nat) (size offset : Int) (bytes : List Nat) (res : List Nat × FS),
      0 ≤ offset →
      inode_read_at_loop fuel st ino size offset bytes = some res →
      res.2 = st ∧ ∃ out, res.1 = bytes ++ out ∧
        (out.length : Int) ≤ max 0 (min size (disk_length st ino - offset)) := by
  intro fuel
  induction fuel with
  | zero =>
    intro size offset bytes res _ h
    rw [inode_read_at_loop] at h
    split at h
    · cases h
    · cases h
      exact ⟨rfl, [], by simp, by simp⟩
  | succ fuel ih =>
    intro size offset bytes res h0 h
    rw [inode_read_at_loop] at h
    by_cases hsz : size > 0
    · have hmod : Int.tmod offset 512 = offset % 512 :=
        Int.tmod_eq_emod h0 (by decide)
      have hB : ((BLOCK_SECTOR_SIZE : Nat) : Int) = 512 := rfl
      simp only [hsz, if_true, hB, hmod] at h
      have hoom : st.oom = false := by
        cases ho : st.oom with
        | false => rfl
        | true => rw [inode_length_oom st ino ho] at h; cases h
      simp only [inode_length_eq st ino hoom] at h
      generalize hL : disk_length st ino = L at *
      generalize hm : (if L - offset < 512 - offset % 512 then L - offset
        else 512 - offset % 512) = min_left at h
      generalize hc : (if size < min_left then size else min_left) = chunk_size at h
      have hm1 : min_left = min (L - offset) (512 - offset % 512) := by
        rw [← hm]; split_ifs <;> omega
      have hc1 : chunk_size = min size min_left := by
        rw [← hc]; split_ifs <;> omega
      by_cases hc0 : chunk_size ≤ 0
      · simp only [hc0, if_true] at h
        cases h
        exact ⟨rfl, [], by simp, by simp⟩
      · simp only [hc0, if_false] at h
        cases hr : get_data_block st ino offset false with
        | none => rw [hr] at h; cases h
        | some r =>
          have hrst := get_data_block_read_st _ _ _ _ hr
          simp only [hr, hrst] at h
          by_cases hrok : r.ok = false
          · simp only [hrok, if_true] at h
            cases h
            exact ⟨rfl, [], by simp, by simp⟩
          · simp only [hrok, if_false] at h
            generalize hch : (match r.block with
                  | none => List.replicate chunk_size.toNat 0
                  | some block =>
                    (List.range chunk_size.toNat).map (fun i => block ((offset % 512).toNat + i)))
                = chunk at h
            have hclen : (chunk.length : Int) = chunk_size := by
              rw [← hch]; cases r.block <;> simp <;> omega
            obtain ⟨h1, out, hout, hlen⟩ := ih _ _ _ _ (by omega) h
            refine ⟨h1, chunk ++ out, ?_, ?_⟩
            · rw [hout, List.append_assoc]
            · rw [List.length_append, Nat.cast_add, hclen]
              omega
    · simp only [hsz, if_false] at h
      cases h
      exact ⟨rfl, [], by simp, by simp⟩

theorem inode_read_at_st (st : FS) (ino : Nat) (size offset : Int) (res : List Nat × FS)
    (h0 : 0 ≤ offset) (h : inode_read_at st ino size offset = some res) :
    res.2 = st ∧ (res.1.length : Int) ≤ max 0 (min size (disk_length st ino - offset)) := by
  obtain ⟨h1, out, h2, h3⟩ := inode_read_at_loop_bound st ino _ _ _ _ _ h0 h
  refine ⟨h1, ?_⟩
  rw [h2]; simpa using h3

theorem handle_doubly_indirect_block_beyond (st : FS) (ino b : Nat) (allocate : Bool)
    (r : Lookup) (h1 : 379 ≤ b) (h2 : b < 16635)
    (h : handle_doubly_indirect_block st ino b allocate = some r) : r.ok = false := by
  unfold handle_doubly_indirect_block at h
  rw [calculate_indices_doubly b (by omega) h2] at h
  have hs2 : ∀ buf : Sector, sectors_at buf (b - 251) = none := by
    intro buf
    simp only [sectors_at, PTRS_PER_SECTOR_eq]; rw [if_neg (by omega)]
  simp only [List.getElem?_cons_zero, List.getElem?_cons_succ, hs2] at h
  repeat' (first | (cases h <;> rfl) | split at h)

theorem get_data_block_beyond (st : FS) (ino : Nat) (o : Int) (allocate : Bool) (r : Lookup)
    (h1 : 194048 ≤ o) (h : get_data_block st ino o allocate = some r) : r.ok = false := by
  unfold get_data_block at h
  rw [if_neg (by omega)] at h
  simp only [DIRECT_CNT_eq, PTRS_PER_SECTOR_eq, BLOCK_SECTOR_SIZE_eq, INDIRECT_CNT_eq] at h
  have hb : 379 ≤ (o / ((512 : Nat) : Int)).toNat := by omega
  generalize (o / ((512 : Nat) : Int)).toNat = b at hb h
  rw [if_neg (by omega), if_neg (by omega)] at h
  split at h
  · exact handle_doubly_indirect_block_beyond _ _ _ _ _ hb (by omega) h
  · cases h; rfl

theorem inode_write_at_loop_beyond (st : FS) (ino : Nat) (buffer : Nat → Nat)
    (fuel : Nat) (size offset bw : Int) (h1 : 194048 ≤ offset) (res : Int × Int × FS)
    (h : inode_write_at_loop fuel st ino buffer size offset bw = some res) : res.1 = bw := by
  cases fuel with
  | zero =>
    rw [inode_write_at_loop] at h
    split at h
    · cases h
    · cases h; rfl
  | succ n =>
    rw [inode_write_at_loop] at h
    by_cases hsz : size > 0
    · simp only [hsz, if_true] at h
      generalize (if (INODE_SPAN : Int) - offset
          < (BLOCK_SECTOR_SIZE : Int) - Int.tmod offset BLOCK_SECTOR_SIZE
        then (INODE_SPAN : Int) - offset
        else (BLOCK_SECTOR_SIZE : Int) - Int.tmod offset BLOCK_SECTOR_SIZE) = min_left at h
      generalize (if size < min_left then size else min_left) = chunk_size at h
      by_cases hc : chunk_size ≤ 0
      · simp only [hc, if_true] at h
        cases h; rfl
      · simp only [hc, if_false] at h
        cases hg : get_data_block st ino offset true with
        | none => simp [hg] at h
        | some r =>
          have := get_data_block_beyond _ _ _ _ _ h1 hg
          simp only [hg, this, if_true] at h
          cases h; rfl
    · simp only [hsz, if_false] at h
      cases h; rfl

theorem inode_write_at_beyond (st : FS) (inode : Inode) (buffer : Nat → Nat)
    (size offset : Int) (h1 : 194048 ≤ offset) (res : Int × FS)
    (h : inode_write_at st inode buffer size offset = some res) : res.1 = 0 := by
  unfold inode_write_at at h
  split at h
  · cases h; rfl
  · cases hl : inode_write_at_loop size.toNat st inode.sector buffer size offset 0 with
    | none => simp [hl] at h
    | some p =>
      have hbw := inode_write_at_loop_beyond _ _ _ _ _ _ _ h1 _ hl
      obtain ⟨bw, off1, st1⟩ := p
      simp only at hbw
      subst hbw
      simp only [hl] at h
      split at h
      · cases h
      · cases h; rfl

/-! ## Claims about the inode layer -/

/-- C1 (the code at the failing input): on an empty inode with free sectors
and memory at hand, the write of one byte at offset 194048, the first byte of
block 379, leaves defined behaviour: `handle_doubly_indirect_block` indexes a
128-entry buffer at `offsets[2] = 128`. -/
theorem inode_write_at_block_379 :
    (inode_write_at blank_fs inode5 (as_buffer [65]) 1 194048).isNone = true := by
  decide

theorem inode_read_at_no_memory (st : FS) (inode_sector : Nat) (size offset : Int)
    (hoom : st.oom = true) (hsize : 0 < size) :
    inode_read_at st inode_sector size offset = none := by
  unfold inode_read_at
  have hfuel : size.toNat = (size.toNat - 1) + 1 := by omega
  rw [hfuel, inode_read_at_loop, if_pos hsize]
  simp only [inode_length_oom st inode_sector hoom]

/-- C2: for an inode of length L, an offset >= 0 and a size >= 0, when memory
is available for the buffer of `inode_length` and every block lookup of the
read succeeds, `inode_read_at` stores exactly min (size, max (0, L - offset))
bytes (none at or past the end of the file) and returns the state it was
given: the inode, the open list, the free map and every disk sector are
unchanged. -/
theorem inode_read_at_length (st : FS) (inode_sector : Nat) (size offset : Int)
    (hoom : st.oom = false) (hoffset : 0 ≤ offset) (hsize : 0 ≤ size)
    (hlookup : ∀ o : Int, offset ≤ o → o < offset + size → o < disk_length st inode_sector →
      ∃ r, get_data_block st inode_sector o false = some r ∧ r.ok = true) :
    ∃ buf, inode_read_at st inode_sector size offset = some (buf, st) ∧
      (buf.length : Int) = min size (max 0 (disk_length st inode_sector - offset)) := by
  obtain ⟨out, h1, h2⟩ := inode_read_at_loop_exact st inode_sector hoom size.toNat size offset []
    hoffset hsize (le_refl _) hlookup
  exact ⟨out, by simpa [inode_read_at] using h1, h2⟩

/-- Witness for C2: a read of 100 bytes at offset 10 of the 40-byte directory
file in sector 5 stores 30 bytes and leaves the state as it was. -/
theorem inode_read_at_length_witness :
    ∃ buf, inode_read_at small_dir_fs 5 100 10 = some (buf, small_dir_fs) ∧
      (buf.length : Int) = 30 := by
  have hL : disk_length small_dir_fs 5 = 40 := by decide
  obtain ⟨buf, h1, h2⟩ := inode_read_at_length small_dir_fs 5 100 10 rfl (by decide) (by decide)
    (fun o ho1 _ ho3 => get_data_block_read_ok _ _ o rfl (by omega) (by rw [hL] at ho3; omega))
  exact ⟨buf, h1, by rw [h2, hL]; decide⟩

/-- C3 (the code at the failing input): for a position in the indirect range
of an inode whose indirect pointer is 0, `get_data_block` with
`allocate = false` reads the entry from a buffer that was never filled; when
that memory holds 7 it returns the data of sector 7 instead of a null block,
and `inode_read_at` stores the byte 9 found there instead of 0. -/
theorem get_data_block_hole_in_indirect_range :
    (get_data_block hole_fs 5 62976 false).map (fun r => (r.ok, r.block.isSome, r.sector))
        = some (true, true, 7) ∧
      (inode_read_at hole_fs 5 1 62976).map (fun r => r.1) = some [9] := by
  decide

/-- C6 (the code at the failing input): closing a removed inode that is open
once takes it off the open list, but for an inode without data blocks the
sector of the inode itself stays marked in use, and for an inode whose second
direct pointer is 0 only the first direct sector is released: the third one
and the sector of the inode stay in use. -/
theorem inode_close_keeps_sectors :
    (inode_close removed_fs (some 1)).map (fun st => (st.open_inodes.length, st.free_map 5))
        = some (0, true) ∧
      (inode_close removed_partial_fs (some 1)).map
          (fun st => (st.open_inodes.length, st.free_map 6, st.free_map 7, st.free_map 5))
        = some (0, false, true, true) := by
  decide

/-! ## The open-inode table -/

theorem eq_of_addr_eq {l : List Inode} (h : (l.map (fun i => i.addr)).Nodup) {i j : Inode}
    (hi : i ∈ l) (hj : j ∈ l) (e : i.addr = j.addr) : i = j :=
  List.inj_on_of_nodup_map h hi hj e

theorem eq_of_sector_eq {l : List Inode} (h : (l.map (fun i => i.sector)).Nodup) {i j : Inode}
    (hi : i ∈ l) (hj : j ∈ l) (e : i.sector = j.sector) : i = j :=
  List.inj_on_of_nodup_map h hi hj e

theorem deref_of_mem {st : FS} (hinv : TableInv st) {i : Inode} (hi : i ∈ st.open_inodes) :
    deref st i.addr = some i := by
  unfold deref
  cases hf : st.open_inodes.find? (fun j => decide (j.addr = i.addr)) with
  | none =>
    have := List.find?_eq_none.mp hf i hi
    simp at this
  | some j =>
    have hj := List.mem_of_find?_eq_some hf
    have hp := List.find?_some hf
    simp only [decide_eq_true_eq] at hp
    rw [eq_of_addr_eq hinv.addrs hj hi hp]

theorem find_open_inode_of_mem {st : FS} (hinv : TableInv st) {i : Inode}
    (hi : i ∈ st.open_inodes) : find_open_inode st i.sector = some i := by
  unfold find_open_inode
  cases hf : st.open_inodes.find? (fun j => decide (j.sector = i.sector)) with
  | none =>
    have := List.find?_eq_none.mp hf i hi
    simp at this
  | some j =>
    have hj := List.mem_of_find?_eq_some hf
    have hp := List.find?_some hf
    simp only [decide_eq_true_eq] at hp
    rw [eq_of_sector_eq hinv.sectors hj hi hp]

theorem mem_of_deref {st : FS} {a : Nat} {i : Inode} (h : deref st a = some i) :
    i ∈ st.open_inodes ∧ i.addr = a := by
  unfold deref at h
  exact ⟨List.mem_of_find?_eq_some h, by simpa using List.find?_some h⟩

theorem deref_modify_inode (st : FS) (a : Nat) (f : Inode → Inode)
    (hf : ∀ i, (f i).addr = i.addr) :
    deref (modify_inode st a f) a = (deref st a).map f := by
  unfold deref modify_inode
  simp only
  induction st.open_inodes with
  | nil => rfl
  | cons x l ih =>
    simp only [List.map_cons, List.find?_cons]
    by_cases hx : x.addr = a
    · simp [hx, hf]
    · simp [hx, ih]

theorem modify_inode_inv {st : FS} (hinv : TableInv st) (a : Nat) (f : Inode → Inode)
    (hs : ∀ i, (f i).sector = i.sector) (ha : ∀ i, (f i).addr = i.addr)
    (hr : ∀ i, (f i).removed = i.removed)
    (hc : ∀ i ∈ st.open_inodes, i.addr = a → 1 ≤ (f i).open_cnt) :
    TableInv (modify_inode st a f) := by
  have key : ∀ (p : Inode → Nat), (∀ i, p (f i) = p i) →
      (st.open_inodes.map (fun i => if i.addr = a then f i else i)).map p
        = st.open_inodes.map p := by
    intro p hp
    rw [List.map_map]
    apply List.map_congr_left
    intro i _
    simp only [Function.comp]
    split <;> simp [hp]
  refine ⟨?_, ?_, ?_, ?_, ?_⟩
  · simp only [modify_inode]; rw [key _ hs]; exact hinv.sectors
  · simp only [modify_inode]; rw [key _ ha]; exact hinv.addrs
  · intro i hi
    simp only [modify_inode, List.mem_map] at hi
    obtain ⟨j, hj, rfl⟩ := hi
    split
    · rename_i h; exact hc j hj h
    · exact hinv.counts j hj
  · intro i hi
    simp only [modify_inode, List.mem_map] at hi
    obtain ⟨j, hj, rfl⟩ := hi
    split
    · rw [hr]; exact hinv.live j hj
    · exact hinv.live j hj
  · intro i hi
    simp only [modify_inode, List.mem_map] at hi
    obtain ⟨j, hj, rfl⟩ := hi
    split
    · rw [ha]; exact hinv.fresh j hj
    · exact hinv.fresh j hj

theorem inode_open_inv {st : FS} (hinv : TableInv st) (sector : Nat) :
    TableInv (inode_open st sector).2 := by
  unfold inode_open
  cases hf : find_open_inode st sector with
  | some inode =>
    exact modify_inode_inv hinv _ _ (fun _ => rfl) (fun _ => rfl) (fun _ => rfl)
      (fun i hi _ => by have := hinv.counts i hi; simp only; omega)
  | none =>
    simp only [create_new_inode]
    split
    · exact ⟨hinv.sectors, hinv.addrs, hinv.counts, hinv.live, hinv.fresh⟩
    · have hne : ∀ i ∈ st.open_inodes, i.sector ≠ sector := by
        intro i hi
        have := List.find?_eq_none.mp hf i hi
        simpa using this
      refine ⟨?_, ?_, ?_, ?_, ?_⟩
      · simp only [List.map_cons, List.nodup_cons, List.mem_map, not_exists, not_and]
        exact ⟨fun i hi => hne i hi, hinv.sectors⟩
      · simp only [List.map_cons, List.nodup_cons, List.mem_map, not_exists, not_and]
        exact ⟨fun i hi h => by have := hinv.fresh i hi; omega, hinv.addrs⟩
      · intro i hi
        simp only [List.mem_cons] at hi
        rcases hi with rfl | hi
        · simp
        · exact hinv.counts i hi
      · intro i hi
        simp only [List.mem_cons] at hi
        rcases hi with rfl | hi
        · rfl
        · exact hinv.live i hi
      · intro i hi
        simp only [List.mem_cons] at hi
        rcases hi with rfl | hi
        · simp
        · have := hinv.fresh i hi
          simp only
          omega

theorem inode_close_some {st : FS} (hinv : TableInv st) {i : Inode} (hi : i ∈ st.open_inodes) :
    inode_close st (some i.addr) =
      some (if i.open_cnt - 1 > 0 then
          modify_inode st i.addr (fun j => { j with open_cnt := j.open_cnt - 1 })
        else { st with open_inodes := st.open_inodes.filter (fun j => j.addr ≠ i.addr) }) := by
  simp only [inode_close, deref_of_mem hinv hi, hinv.live i hi, Bool.false_eq_true, if_false]
  split <;> rfl

theorem apply_op_inv {st st' : FS} (hinv : TableInv st) (op : InodeOp)
    (h : apply_op st op = some st') : TableInv st' := by
  cases op with
  | op_open sector =>
    simp only [apply_op, Option.some.injEq] at h
    subst h
    exact inode_open_inv hinv sector
  | op_reopen a =>
    simp only [apply_op, inode_reopen] at h
    cases hd : deref st a with
    | none => simp [hd] at h
    | some i =>
      simp only [hd, Option.map_some', Option.some.injEq] at h
      subst h
      exact modify_inode_inv hinv _ _ (fun _ => rfl) (fun _ => rfl) (fun _ => rfl)
        (fun i hi _ => by have := hinv.counts i hi; simp only; omega)
  | op_close a =>
    simp only [apply_op] at h
    cases hd : deref st a with
    | none => simp [inode_close, hd] at h
    | some i =>
      obtain ⟨hi, ha⟩ := mem_of_deref hd
      subst ha
      rw [inode_close_some hinv hi] at h
      cases h
      split
      · rename_i hc
        refine modify_inode_inv hinv _ _ (fun _ => rfl) (fun _ => rfl) (fun _ => rfl) ?_
        intro j hj hja
        have := eq_of_addr_eq hinv.addrs hj hi hja
        subst this
        simp only
        omega
      · refine ⟨?_, ?_, ?_, ?_, ?_⟩
        · exact (List.filter_sublist _).map _ |>.nodup hinv.sectors
        · exact (List.filter_sublist _).map _ |>.nodup hinv.addrs
        · intro j hj; exact hinv.counts j (List.mem_of_mem_filter hj)
        · intro j hj; exact hinv.live j (List.mem_of_mem_filter hj)
        · intro j hj; exact hinv.fresh j (List.mem_of_mem_filter hj)

theorem run_ops_inv : ∀ (ops : List InodeOp) (st st' : FS), TableInv st →
    run_ops st ops = some st' → TableInv st' := by
  intro ops
  induction ops with
  | nil =>
    intro st st' hinv h
    simp only [run_ops, Option.some.injEq] at h
    subst h; exact hinv
  | cons op ops ih =>
    intro st st' hinv h
    simp only [run_ops] at h
    cases ha : apply_op st op with
    | none => simp [ha] at h
    | some st1 =>
      simp only [ha] at h
      exact ih st1 st' (apply_op_inv hinv op ha) h

theorem table_inv_empty (st : FS) (h : st.open_inodes = []) : TableInv st := by
  refine ⟨?_, ?_, ?_, ?_, ?_⟩ <;> simp [h]

/-- C7: in every state reached from an empty open list by calls of
`inode_open`, `inode_reopen` and `inode_close`, no two listed inodes have the
same sector and every listed inode has an open count of at least 1;
`inode_open` of the sector of a listed inode returns that object, raises its
open count by exactly 1 and leaves the length of the list as it is; and
`inode_close` of a listed inode removes it from the list when its open count
is 1 and otherwise keeps it with the count lowered by 1. -/
theorem open_inodes_invariant (st0 : FS) (ops : List InodeOp) (st : FS)
    (h0 : st0.open_inodes = []) (hrun : run_ops st0 ops = some st) :
    ((st.open_inodes.map (fun i => i.sector)).Nodup ∧
      ∀ i ∈ st.open_inodes, 1 ≤ i.open_cnt) ∧
    (∀ i ∈ st.open_inodes,
      (inode_open st i.sector).1 = some i.addr ∧
      (inode_open st i.sector).2.open_inodes.length = st.open_inodes.length ∧
      deref (inode_open st i.sector).2 i.addr = some { i with open_cnt := i.open_cnt + 1 }) ∧
    (∀ i ∈ st.open_inodes, ∃ st', inode_close st (some i.addr) = some st' ∧
      (i.open_cnt = 1 → deref st' i.addr = none ∧ i ∉ st'.open_inodes) ∧
      (i.open_cnt ≠ 1 →
        deref st' i.addr = some { i with open_cnt := i.open_cnt - 1 } ∧
        st'.open_inodes.length = st.open_inodes.length)) := by
  have hinv := run_ops_inv ops st0 st (table_inv_empty st0 h0) hrun
  refine ⟨⟨hinv.sectors, hinv.counts⟩, ?_, ?_⟩
  · intro i hi
    have hf := find_open_inode_of_mem hinv hi
    have ho : inode_open st i.sector = (some i.addr,
        modify_inode st i.addr (fun j => { j with open_cnt := j.open_cnt + 1 })) := by
      simp only [inode_open, hf]
    rw [ho]
    refine ⟨rfl, by simp [modify_inode], ?_⟩
    rw [deref_modify_inode st i.addr (fun j => { j with open_cnt := j.open_cnt + 1 })
      (fun _ => rfl), deref_of_mem hinv hi]
    rfl
  · intro i hi
    refine ⟨_, inode_close_some hinv hi, ?_, ?_⟩
    · intro h1
      have : ¬ (i.open_cnt - 1 > 0) := by omega
      simp only [this, if_false]
      constructor
      · unfold deref
        rw [List.find?_eq_none]
        intro j hj
        have := (List.mem_filter.mp hj).2
        simpa using this
      · intro hmem
        have := (List.mem_filter.mp hmem).2
        simp at this
    · intro h1
      have hc := hinv.counts i hi
      have : i.open_cnt - 1 > 0 := by omega
      simp only [this, if_true]
      refine ⟨?_, by simp [modify_inode]⟩
      rw [deref_modify_inode st i.addr (fun j => { j with open_cnt := j.open_cnt - 1 })
        (fun _ => rfl), deref_of_mem hinv hi]
      rfl

/-- Witness for C7: after opening sector 5 twice, reopening it, closing it,
opening sector 7, closing sector 5 again and opening sector 9, the list holds
sectors 9, 7 and 5, each opened once. -/
theorem open_inodes_invariant_witness :
    sample_fs.open_inodes.map (fun i => (i.sector, i.open_cnt)) = [(9, 1), (7, 1), (5, 1)] ∧
      (sample_fs.open_inodes.map (fun i => i.sector)).Nodup ∧
      ∀ i ∈ sample_fs.open_inodes, 1 ≤ i.open_cnt :=
  ⟨by decide, (open_inodes_invariant blank_fs sample_ops sample_fs rfl (by rfl)).1⟩

/-! ## Directories -/

theorem read_entry_some (st : FS) (ino k : Nat) (e : List Nat)
    (h : read_entry st ino k = some e) :
    inode_read_at st ino DIR_ENTRY_SIZE ((DIR_ENTRY_SIZE * k : Nat) : Int) = some (e, st) ∧
      e.length = DIR_ENTRY_SIZE ∧ ((DIR_ENTRY_SIZE * k + DIR_ENTRY_SIZE : Nat) : Int) ≤ disk_length st ino := by
  unfold read_entry at h
  split at h
  · rename_i e' st' hr
    have hb := inode_read_at_st st ino _ _ _ (by positivity) hr
    split at h
    · rename_i hl
      cases h
      obtain ⟨h1, h2⟩ := hb
      simp only at h1 h2
      subst h1
      refine ⟨hr, hl, ?_⟩
      rw [hl] at h2
      simp only [DIR_ENTRY_SIZE] at h2 ⊢
      omega
    · cases h
  · cases h

theorem read_entry_below (st : FS) (ino k i : Nat) (e : List Nat) (hoom : st.oom = false)
    (hk : read_entry st ino k = some e) (hi : i < k) (hsmall : DIR_ENTRY_SIZE * k ≤ 194048) :
    (read_entry st ino i).isSome = true := by
  obtain ⟨_, _, hL⟩ := read_entry_some st ino k e hk
  simp only [DIR_ENTRY_SIZE] at hL hsmall
  obtain ⟨out, h1, h2⟩ := inode_read_at_loop_exact st ino hoom (20 : Int).toNat 20
    ((DIR_ENTRY_SIZE * i : Nat) : Int) [] (by positivity) (by decide) (le_refl _)
    (fun o ho1 ho2 _ => get_data_block_read_ok st ino o hoom (by omega)
      (by simp only [DIR_ENTRY_SIZE] at ho2; omega))
  have hr : inode_read_at st ino DIR_ENTRY_SIZE ((DIR_ENTRY_SIZE * i : Nat) : Int)
      = some (out, st) := by
    simpa [inode_read_at, DIR_ENTRY_SIZE] using h1
  have hlen : out.length = DIR_ENTRY_SIZE := by
    simp only [DIR_ENTRY_SIZE] at h2 ⊢
    omega
  simp only [read_entry, hr, hlen, if_true, Option.isSome_some]

theorem lookup_loop_finds (st : FS) (ino : Nat) (name : List Nat) (k : Nat) (e : List Nat)
    (hk : read_entry st ino k = some e) (huse : entry_in_use e = true)
    (hname : name_matches name e = true) :
    ∀ (fuel j : Nat), j ≤ k → k - j < fuel →
      (∀ i, j ≤ i → i < k → (read_entry st ino i).isSome = true) →
      ∃ found, lookup_loop fuel st ino name (DIR_ENTRY_SIZE * j) = some (some found, st) := by
  intro fuel
  induction fuel with
  | zero => intro j _ h; omega
  | succ fuel ih =>
    intro j hj hf hall
    rw [lookup_loop]
    by_cases hjk : j = k
    · subst hjk
      obtain ⟨h1, h2, _⟩ := read_entry_some _ _ _ _ hk
      simp only [h1, h2, huse, hname, and_self, if_true]
      exact ⟨_, rfl⟩
    · have hsome := hall j (le_refl _) (by omega)
      obtain ⟨ej, hej⟩ := Option.isSome_iff_exists.mp hsome
      obtain ⟨h1, h2, _⟩ := read_entry_some _ _ _ _ hej
      simp only [h1, h2, if_true]
      split
      · exact ⟨_, rfl⟩
      · have := ih (j + 1) (by omega) (by omega) (fun i hi1 hi2 => hall i (by omega) hi2)
        simpa [Nat.mul_add] using this

/-- C9: `dir_add` returns false and leaves the whole state, so also the
directory file, unchanged when the name is empty, is longer than `NAME_MAX`,
contains the byte of `/`, or when some entry of the directory, all entries
before it being readable, is in use and has that name. -/
theorem dir_add_rejects (st : FS) (dir : Dir) (name : List Nat) (inode_sector : Nat)
    (h : name = [] ∨ name.length > NAME_MAX ∨ 47 ∈ name ∨
      ∃ k e, (∀ i, i < k → (read_entry st dir.inode.sector i).isSome = true) ∧
        read_entry st dir.inode.sector k = some e ∧ entry_in_use e = true ∧
        name_matches name e = true) :
    dir_add st dir name inode_sector = some (false, st) := by
  unfold dir_add
  by_cases hv : name = [] ∨ name.length > NAME_MAX ∨ 47 ∈ name
  · rw [if_pos hv]
  · rw [if_neg hv]
    rcases h with h | h | h | ⟨k, e, hall, hk, huse, hname⟩
    · exact absurd (Or.inl h) hv
    · exact absurd (Or.inr (Or.inl h)) hv
    · exact absurd (Or.inr (Or.inr h)) hv
    · obtain ⟨_, _, hlen⟩ := read_entry_some _ _ _ _ hk
      obtain ⟨found, hf⟩ := lookup_loop_finds st dir.inode.sector name k e hk huse hname
        ((disk_length st dir.inode.sector).toNat + 1) 0 (Nat.zero_le _)
        (by simp only [DIR_ENTRY_SIZE] at hlen; omega) (fun i _ hi => hall i hi)
      simp only [lookup, Nat.mul_zero] at hf ⊢
      rw [hf]

/-- Witness for C9: adding the name "." to a directory that holds it. -/
theorem dir_add_rejects_witness :
    dir_add small_dir_fs dir5 [46] 9 = some (false, small_dir_fs) :=
  dir_add_rejects small_dir_fs dir5 [46] 9
    (Or.inr (Or.inr (Or.inr ⟨0, dot_entry 5, fun i hi => absurd hi (Nat.not_lt_zero i),
      by decide, by decide, by decide⟩)))

/-- C8 (the code at the failing input): after `dir_create (5, 1)` the new
directory file holds 40 bytes, two entries in use, and the inode sector of
the second entry is 5, the directory itself, not the parent sector 1. -/
theorem dir_create_second_entry :
    (dir_create blank_fs 5 1).bind (fun r => (inode_read_at r.2 5 100 0).map (fun x =>
        (r.1.isSome, x.1.length, entry_in_use x.1, entry_inode_sector x.1,
          entry_in_use (x.1.drop 20), entry_inode_sector (x.1.drop 20))))
      = some (true, 40, true, 5, true, 5) := by
  decide

/-- C10 (the code at the failing input): on a device without a free sector,
adding the valid and absent name "a" to a directory of two entries returns
true, since the entry write returns the size of an entry, but the length of
the directory file stays 40 and a following lookup of "a" finds nothing. -/
theorem dir_add_on_full_device :
    (lookup full_dir_fs dir5 [97]).map (fun r => r.1.isSome) = some false ∧
      (dir_add full_dir_fs dir5 [97] 9).bind (fun r => (lookup r.2 dir5 [97]).map (fun x =>
          (r.1, x.1.isSome, disk_length r.2 5))) = some (true, false, 40) := by
  decide

/-! ## The initial user stack -/

theorem splitOn_space (s : List Nat) :
    s.splitOn 32 = s.takeWhile (fun c => c ≠ 32) ::
      (match s.dropWhile (fun c => c ≠ 32) with
       | [] => []
       | _ :: r => r.splitOn 32) := by
  induction s with
  | nil => rfl
  | cons c s ih =>
    unfold List.splitOn at ih ⊢
    rw [List.splitOnP_cons]
    by_cases hc : c = 32
    · subst hc
      simp
    · rw [ih]
      simp [hc, List.modifyHead]

theorem tokens_cons_space (s : List Nat) : tokens (32 :: s) = tokens s := by
  unfold tokens List.splitOn
  rw [List.splitOnP_cons]
  simp

theorem tokens_dropWhile (s : List Nat) :
    tokens (s.dropWhile (fun c => c = 32)) = tokens s := by
  induction s with
  | nil => rfl
  | cons c s ih =>
    by_cases hc : c = 32
    · subst hc
      rw [tokens_cons_space]
      simpa using ih
    · simp [hc]

theorem tokens_strtok_r (s : List Nat) :
    tokens s = match strtok_r s with
      | none => []
      | some (tok, rest) => tok :: tokens rest := by
  unfold strtok_r
  rw [← tokens_dropWhile s]
  generalize hs' : s.dropWhile (fun c => c = 32) = s'
  have hhead : ∀ c r, s' = c :: r → c ≠ 32 := by
    intro c r h
    have := List.head_dropWhile_not (fun c => decide (c = 32)) s (by rw [hs', h]; simp)
    simp only [hs', h, List.head_cons] at this
    simpa using this
  cases s' with
  | nil => simp [tokens]
  | cons c r =>
    have hc := hhead c r rfl
    simp only [reduceCtorEq, if_false]
    conv_lhs => unfold tokens; rw [splitOn_space]
    have htw : List.takeWhile (fun c => decide (c ≠ 32)) (c :: r) ≠ [] := by
      simp [List.takeWhile, hc]
    rw [List.filter_cons_of_pos (by simpa using htw)]
    congr 1
    cases hd : List.dropWhile (fun c => decide (c ≠ 32)) (c :: r) with
    | nil => simp [tokens]
    | cons x r' => simp [tokens]

theorem strtok_r_length (s tok rest : List Nat) (h : strtok_r s = some (tok, rest)) :
    rest.length < s.length := by
  unfold strtok_r at h
  simp only at h
  split at h
  · cases h
  · rename_i hne
    cases h
    have h1 : (List.dropWhile (fun c => decide (c = 32)) s).length ≤ s.length :=
      (List.dropWhile_sublist _).length_le
    generalize List.dropWhile (fun c => decide (c = 32)) s = s' at *
    have h2 : (List.dropWhile (fun c => decide (c ≠ 32)) s').length ≤ s'.length :=
      (List.dropWhile_sublist _).length_le
    cases s' with
    | nil => exact absurd rfl hne
    | cons c r =>
      simp only [List.length_drop, List.length_cons] at *
      omega

theorem parse_args_eq : ∀ (fuel : Nat) (rest : List Nat) (acc : List (List Nat)),
    rest.length < fuel →
    parse_args fuel rest acc = some (acc ++ (tokens rest).take (MAX_ARGS - acc.length)) := by
  intro fuel
  induction fuel with
  | zero => intro rest acc h; omega
  | succ fuel ih =>
    intro rest acc h
    rw [parse_args, tokens_strtok_r rest]
    cases hst : strtok_r rest with
    | none => simp
    | some p =>
      obtain ⟨tok, rest'⟩ := p
      have hl := strtok_r_length _ _ _ hst
      simp only
      split
      · rename_i hlt
        rw [ih rest' _ (by omega)]
        have : MAX_ARGS - acc.length = (MAX_ARGS - (acc ++ [tok]).length) + 1 := by
          simp only [List.length_append, List.length_singleton]; omega
        rw [this, List.take_succ_cons]
        simp
      · rename_i hge
        have : MAX_ARGS - acc.length = 0 := by omega
        simp [this]

theorem memcpy_to_stack_spec (mem : Mem) (dst : Nat) (src : List Nat)
    (h1 : PHYS_BASE - PGSIZE ≤ dst) (h2 : dst + src.length ≤ PHYS_BASE) :
    ∃ mem', memcpy_to_stack mem dst src = some mem' ∧
      (∀ a, a < dst ∨ dst + src.length ≤ a → mem' a = mem a) ∧
      (∀ j, j < src.length → mem' (dst + j) = src.getD j 0) := by
  refine ⟨fun a => if dst ≤ a ∧ a < dst + src.length then src.getD (a - dst) 0 else mem a,
    by simp only [memcpy_to_stack, h1, h2, and_self, if_true], ?_, ?_⟩
  · intro a ha
    have : ¬ (dst ≤ a ∧ a < dst + src.length) := by omega
    simp only [this, if_false]
  · intro j hj
    have : dst ≤ dst + j ∧ dst + j < dst + src.length := by omega
    simp only [this, and_self, if_true, Nat.add_sub_cancel_left]

theorem word_at_le32 (mem : Mem) (d v : Nat) (hv : v < 4294967296)
    (h : ∀ j, j < 4 → mem (d + j) = (le32 v).getD j 0) : word_at mem d = v := by
  have h0 := h 0 (by omega)
  have h1 := h 1 (by omega)
  have h2 := h 2 (by omega)
  have h3 := h 3 (by omega)
  simp only [le32, List.getD_cons_zero, List.getD_cons_succ, Nat.add_zero] at h0 h1 h2 h3
  simp only [word_at, h0, h1, h2, h3]
  omega

theorem word_at_congr (mem mem' : Mem) (a : Nat) (h : ∀ j, j < 4 → mem' (a + j) = mem (a + j)) :
    word_at mem' a = word_at mem a := by
  have h0 := h 0 (by omega)
  have h1 := h 1 (by omega)
  have h2 := h 2 (by omega)
  have h3 := h 3 (by omega)
  simp only [Nat.add_zero] at h0
  simp only [word_at, h0, h1, h2, h3]

theorem push_strings_spec (mem : Mem) (esp : Nat) (hesp : esp ≤ PHYS_BASE) :
    ∀ args : List (List Nat), PHYS_BASE - PGSIZE + strings_size args ≤ esp →
      ∃ mem' ptrs, push_strings mem esp args = some (mem', esp - strings_size args, ptrs) ∧
        ptrs.length = args.length ∧
        (∀ a, a < esp - strings_size args ∨ esp ≤ a → mem' a = mem a) ∧
        (∀ (i : Nat) (t : List Nat), args[i]? = some t → ∃ p, ptrs[i]? = some p ∧
          esp - strings_size args ≤ p ∧ p + t.length + 1 ≤ esp ∧
          (∀ j, j < t.length → mem' (p + j) = t.getD j 0) ∧ mem' (p + t.length) = 0) := by
  intro args
  induction args with
  | nil =>
    intro _
    exact ⟨mem, [], by simp [push_strings, strings_size], rfl, fun _ _ => rfl, by simp⟩
  | cons cur rest ih =>
    intro hfit
    have hsz : strings_size (cur :: rest) = cur.length + 1 + strings_size rest := by
      simp [strings_size]
    rw [hsz] at hfit ⊢
    obtain ⟨mem1, ptrs1, hpush, hlen, hframe, hstr⟩ := ih (by omega)
    obtain ⟨mem2, hcpy, hframe2, hdata2⟩ := memcpy_to_stack_spec mem1
      (esp - strings_size rest - (cur.length + 1)) (cur ++ [0]) (by omega)
      (by simp only [List.length_append, List.length_singleton]; omega)
    simp only [List.length_append, List.length_singleton] at hframe2 hdata2
    have e : esp - (cur.length + 1 + strings_size rest)
        = esp - strings_size rest - (cur.length + 1) := by omega
    rw [e]
    refine ⟨mem2, (esp - strings_size rest - (cur.length + 1)) :: ptrs1, ?_, ?_, ?_, ?_⟩
    · simp only [push_strings, hpush, hcpy]
    · simp [hlen]
    · intro a ha
      rw [hframe2 a (by omega), hframe a (by omega)]
    · intro i t hi
      cases i with
      | zero =>
        simp only [List.getElem?_cons_zero, Option.some.injEq] at hi
        subst hi
        refine ⟨esp - strings_size rest - (cur.length + 1), by simp, by omega, by omega, ?_, ?_⟩
        · intro j hj
          rw [hdata2 j (by omega), List.getD_append _ _ _ _ hj]
        · rw [hdata2 cur.length (by omega)]
          simp [List.getD_eq_getElem?_getD]
      | succ i =>
        simp only [List.getElem?_cons_succ] at hi
        obtain ⟨p, hp, hp1, hp2, hp3, hp4⟩ := hstr i t hi
        refine ⟨p, by simp [hp], by omega, hp2, ?_, ?_⟩
        · intro j hj
          rw [hframe2 _ (by omega)]
          exact hp3 j hj
        · rw [hframe2 _ (by omega)]
          exact hp4

theorem push_padding_spec : ∀ (remainder : Nat) (mem : Mem) (esp : Nat),
    esp ≤ PHYS_BASE → PHYS_BASE - PGSIZE + remainder ≤ esp →
    ∃ mem', push_padding mem esp remainder = some (mem', esp - remainder) ∧
      (∀ a, a < esp - remainder ∨ esp ≤ a → mem' a = mem a) ∧
      (∀ a, esp - remainder ≤ a → a < esp → mem' a = 0) := by
  intro remainder
  induction remainder with
  | zero =>
    intro mem esp _ _
    exact ⟨mem, rfl, fun _ _ => rfl, fun a h1 h2 => by omega⟩
  | succ r ih =>
    intro mem esp hesp hfit
    obtain ⟨mem1, hcpy, hframe1, hdata1⟩ := memcpy_to_stack_spec mem (esp - 1) [0] (by omega)
      (by simp only [List.length_singleton]; omega)
    simp only [List.length_singleton] at hframe1 hdata1
    obtain ⟨mem2, hpad, hframe2, hzero2⟩ := ih mem1 (esp - 1) (by omega) (by omega)
    have e : esp - (r + 1) = esp - 1 - r := by omega
    rw [e]
    refine ⟨mem2, ?_, ?_, ?_⟩
    · simp only [push_padding, hcpy, hpad]
    · intro a ha
      rw [hframe2 a (by omega), hframe1 a (by omega)]
    · intro a h1 h2
      by_cases ha : a = esp - 1
      · rw [hframe2 a (by omega)]
        have := hdata1 0 (by omega)
        simp only [Nat.add_zero, List.getD_cons_zero] at this
        rw [ha, this]
      · exact hzero2 a (by omega) (by omega)

theorem push_pointers_spec (mem : Mem) (esp : Nat) (hesp : esp ≤ PHYS_BASE) :
    ∀ ptrs : List Nat, PHYS_BASE - PGSIZE + 4 * ptrs.length ≤ esp →
      (∀ p, p ∈ ptrs → p < 4294967296) →
      ∃ mem', push_pointers mem esp ptrs = some (mem', esp - 4 * ptrs.length) ∧
        (∀ a, a < esp - 4 * ptrs.length ∨ esp ≤ a → mem' a = mem a) ∧
        (∀ (i p : Nat), ptrs[i]? = some p → word_at mem' (esp - 4 * ptrs.length + 4 * i) = p) := by
  intro ptrs
  induction ptrs with
  | nil =>
    intro _ _
    exact ⟨mem, rfl, fun _ _ => rfl, by simp⟩
  | cons cur rest ih =>
    intro hfit hlt
    simp only [List.length_cons] at hfit ⊢
    obtain ⟨mem1, hpush, hframe, hwords⟩ := ih (by omega)
      (fun p hp => hlt p (List.mem_cons_of_mem _ hp))
    obtain ⟨mem2, hcpy, hframe2, hdata2⟩ := memcpy_to_stack_spec mem1
      (esp - 4 * rest.length - 4) (le32 cur) (by omega) (by simp only [le32, List.length_cons, List.length_nil]; omega)
    have hl : (le32 cur).length = 4 := rfl
    rw [hl] at hframe2 hdata2
    have e : esp - 4 * (rest.length + 1) = esp - 4 * rest.length - 4 := by omega
    rw [e]
    refine ⟨mem2, ?_, ?_, ?_⟩
    · simp only [push_pointers, hpush, hcpy]
    · intro a ha
      rw [hframe2 a (by omega), hframe a (by omega)]
    · intro i p hi
      cases i with
      | zero =>
        simp only [List.getElem?_cons_zero, Option.some.injEq] at hi
        subst hi
        rw [Nat.mul_zero, Nat.add_zero]
        exact word_at_le32 _ _ _ (hlt _ (List.mem_cons_self _ _)) hdata2
      | succ i =>
        simp only [List.getElem?_cons_succ] at hi
        have hi' : i < rest.length := by
          by_contra hcon
          rw [List.getElem?_eq_none (by omega)] at hi
          cases hi
        have e : esp - 4 * rest.length - 4 + 4 * (i + 1) = esp - 4 * rest.length + 4 * i := by
          omega
        rw [e, word_at_congr mem1 mem2 _ (fun j hj => hframe2 _ (by omega))]
        exact hwords i p hi

/-- C4: for a command line shorter than a page whose first at most 50 tokens
fit in the stack page, `setup_stack` succeeds and leaves `esp` a multiple of
4 with the word 0 at `esp`, the number n of arguments at `esp + 4`, the
address `esp + 12` at `esp + 8`, for every i < n at `esp + 12 + 4 i` the
address of a copy of token i followed by a zero byte, lying above the pointer
array and below `PHYS_BASE`, and the word 0 at `esp + 12 + 4 n`. -/
theorem setup_stack_layout (command_line : List Nat) (hlen : command_line.length < PGSIZE)
    (hfit : layout_size ((tokens command_line).take MAX_ARGS) ≤ PGSIZE) :
    ∃ esp mem, setup_stack command_line true true true = some (some (esp, mem)) ∧
      esp % 4 = 0 ∧ word_at mem esp = 0 ∧
      word_at mem (esp + 4) = min (tokens command_line).length MAX_ARGS ∧
      word_at mem (esp + 8) = esp + 12 ∧
      (∀ (i : Nat) (t : List Nat), i < MAX_ARGS → (tokens command_line)[i]? = some t →
        esp + 12 + 4 * (min (tokens command_line).length MAX_ARGS + 1)
          ≤ word_at mem (esp + 12 + 4 * i) ∧
        word_at mem (esp + 12 + 4 * i) + t.length + 1 ≤ PHYS_BASE ∧
        (∀ j, j < t.length → mem (word_at mem (esp + 12 + 4 * i) + j) = t.getD j 0) ∧
        mem (word_at mem (esp + 12 + 4 * i) + t.length) = 0) ∧
      word_at mem (esp + 12 + 4 * min (tokens command_line).length MAX_ARGS) = 0 := by
  have hPB : PHYS_BASE = 3221225472 := rfl
  have hPG : PGSIZE = 4096 := rfl
  generalize hargs : (tokens command_line).take MAX_ARGS = args at hfit
  have hparse : parse_args (command_line.length + 1) command_line [] = some args := by
    rw [parse_args_eq _ _ _ (Nat.lt_succ_self _), ← hargs]; simp
  have hn : min (tokens command_line).length MAX_ARGS = args.length := by
    rw [← hargs, List.length_take, Nat.min_comm]
  have hsz : strings_size args = (args.map (fun cur => cur.length + 1)).sum := rfl
  rw [hn]
  simp only [layout_size, ← hsz] at hfit
  generalize hT : strings_size args = T at hfit hsz
  obtain ⟨mem1, ptrs, h1, hlen1, hframe1, hstr1⟩ :=
    push_strings_spec (fun _ => 0) PHYS_BASE (le_refl _) args (by omega)
  rw [hT] at h1 hframe1 hstr1
  obtain ⟨mem2, h2, hframe2, hzero2⟩ :=
    push_padding_spec ((4 - T % 4) + 4) mem1 (PHYS_BASE - T) (by omega) (by omega)
  have hptr : ∀ p, p ∈ ptrs → p < 4294967296 := by
    intro p hp
    obtain ⟨i, hi, hpi⟩ := List.getElem_of_mem hp
    have hi' : i < args.length := by omega
    obtain ⟨p', hp', _, hp2, _⟩ := hstr1 i args[i] (List.getElem?_eq_getElem hi')
    rw [List.getElem?_eq_getElem hi, hpi] at hp'
    cases hp'
    omega
  obtain ⟨mem3, h3, hframe3, hwords3⟩ :=
    push_pointers_spec mem2 (PHYS_BASE - T - ((4 - T % 4) + 4)) (by omega) ptrs (by omega) hptr
  rw [hlen1] at h3 hframe3 hwords3
  generalize hE3 : PHYS_BASE - T - ((4 - T % 4) + 4) - 4 * args.length = E3 at h3 hframe3 hwords3
  obtain ⟨mem4, h4, hframe4, hdata4⟩ :=
    memcpy_to_stack_spec mem3 (E3 - 4) (le32 E3) (by omega) (by simp only [le32, List.length_cons, List.length_nil]; omega)
  obtain ⟨mem5, h5, hframe5, hdata5⟩ :=
    memcpy_to_stack_spec mem4 (E3 - 4 - 4) (le32 args.length) (by omega) (by simp only [le32, List.length_cons, List.length_nil]; omega)
  obtain ⟨mem6, h6, hframe6, hdata6⟩ :=
    memcpy_to_stack_spec mem5 (E3 - 4 - 4 - 4) (le32 0) (by omega) (by simp only [le32, List.length_cons, List.length_nil]; omega)
  have hl : ∀ v, (le32 v).length = 4 := fun _ => rfl
  simp only [hl] at hframe4 hdata4 hframe5 hdata5 hframe6 hdata6
  have hnlt : args.length < 4294967296 := by omega
  refine ⟨E3 - 4 - 4 - 4, mem6, ?_, by omega, ?_, ?_, ?_, ?_, ?_⟩
  · have hge : ¬ command_line.length ≥ PGSIZE := by omega
    simp only [setup_stack, hge, if_false, hparse, ← hsz, h1, h2, h3, h4, h5, h6,
      Bool.true_eq_false]
  · exact word_at_le32 _ _ _ (by omega) hdata6
  · have e : E3 - 4 - 4 - 4 + 4 = E3 - 4 - 4 := by omega
    rw [e, word_at_congr mem5 mem6 _ (fun j hj => hframe6 _ (by omega))]
    exact word_at_le32 _ _ _ hnlt hdata5
  · have e : E3 - 4 - 4 - 4 + 8 = E3 - 4 := by omega
    have e2 : E3 - 4 - 4 - 4 + 12 = E3 := by omega
    rw [e, e2, word_at_congr mem5 mem6 _ (fun j hj => hframe6 _ (by omega)),
      word_at_congr mem4 mem5 _ (fun j hj => hframe5 _ (by omega))]
    exact word_at_le32 _ _ _ (by omega) hdata4
  · intro i t hi ht
    have hti : args[i]? = some t := by
      rw [← hargs, List.getElem?_take_of_lt hi]; exact ht
    obtain ⟨p, hp, hp1, hp2, hp3, hp4⟩ := hstr1 i t hti
    have hi' : i < args.length := by
      by_contra hcon
      rw [List.getElem?_eq_none (by omega)] at hti
      cases hti
    have hw : word_at mem6 (E3 - 4 - 4 - 4 + 12 + 4 * i) = p := by
      have e : E3 - 4 - 4 - 4 + 12 + 4 * i = E3 + 4 * i := by omega
      rw [e, word_at_congr mem5 mem6 _ (fun j hj => hframe6 _ (by omega)),
        word_at_congr mem4 mem5 _ (fun j hj => hframe5 _ (by omega)),
        word_at_congr mem3 mem4 _ (fun j hj => hframe4 _ (by omega))]
      exact hwords3 i p hp
    have hmem : ∀ a, PHYS_BASE - T ≤ a → mem6 a = mem1 a := by
      intro a ha
      rw [hframe6 a (by omega), hframe5 a (by omega), hframe4 a (by omega),
        hframe3 a (by omega), hframe2 a (by omega)]
    rw [hw]
    refine ⟨by omega, by omega, ?_, ?_⟩
    · intro j hj
      rw [hmem _ (by omega)]
      exact hp3 j hj
    · rw [hmem _ (by omega)]
      exact hp4
  · have e : E3 - 4 - 4 - 4 + 12 + 4 * args.length = PHYS_BASE - T - ((4 - T % 4) + 4) := by
      omega
    rw [e]
    have hz : ∀ j, j < 4 → mem6 (PHYS_BASE - T - ((4 - T % 4) + 4) + j) = 0 := by
      intro j hj
      rw [hframe6 _ (by omega), hframe5 _ (by omega), hframe4 _ (by omega),
        hframe3 _ (by omega)]
      exact hzero2 _ (by omega) (by omega)
    have h0 := hz 0 (by omega)
    have h1' := hz 1 (by omega)
    have h2' := hz 2 (by omega)
    have h3' := hz 3 (by omega)
    simp only [Nat.add_zero] at h0
    simp only [word_at, h0, h1', h2', h3']

/-- Witness for C4: for "echo x y z" the stack holds argc = 4, argv pointing
just above it, the four strings "echo", "x", "y", "z" in this order and a
null pointer after them. -/
theorem setup_stack_layout_witness :
    ∃ esp mem, setup_stack echo_cmd true true true = some (some (esp, mem)) ∧
      esp % 4 = 0 ∧ word_at mem esp = 0 ∧ word_at mem (esp + 4) = 4 ∧
      word_at mem (esp + 8) = esp + 12 ∧
      (∀ (i : Nat) (t : List Nat), [[101, 99, 104, 111], [120], [121], [122]][i]? = some t →
        (∀ j, j < t.length → mem (word_at mem (esp + 12 + 4 * i) + j) = t.getD j 0) ∧
        mem (word_at mem (esp + 12 + 4 * i) + t.length) = 0) ∧
      word_at mem (esp + 28) = 0 := by
  have ht : tokens echo_cmd = [[101, 99, 104, 111], [120], [121], [122]] := by decide
  obtain ⟨esp, mem, h1, h2, h3, h4, h5, h6, h7⟩ :=
    setup_stack_layout echo_cmd (by decide) (by decide)
  rw [ht] at h4 h6 h7
  refine ⟨esp, mem, h1, h2, h3, h4, h5, ?_, h7⟩
  intro i t hit
  have hi : i < MAX_ARGS := by
    by_contra hcon
    rw [List.getElem?_eq_none (by simp only [MAX_ARGS] at hcon; simp; omega)] at hit
    cases hit
  exact (h6 i t hi hit).2.2

/-! ## Waiting for a child -/

/-- C5: `process_wait (t)` returns -1 at once when t is outside
[0, MAX_CHILDREN) or slot t of the caller does not hold t; when the slot holds
t, no wait is in progress and the child has signalled, it returns the exit
code of the slot; and after any call that returned (at once or after sleeping
in `sema_down`), the next `process_wait (t)` of the same parent returns -1.
`UNINITIALIZED`, the value stored in a retired slot, is assumed not to be an
index of the slot array. -/
theorem process_wait_once (MAX_CHILDREN UNINITIALIZED : Int)
    (hU : UNINITIALIZED < 0 ∨ MAX_CHILDREN ≤ UNINITIALIZED) (parent : Thread) (t : Int) :
    ((t < 0 ∨ MAX_CHILDREN ≤ t ∨ parent.exit_child_tid_arr t ≠ t) →
      process_wait MAX_CHILDREN UNINITIALIZED parent t = .returned (-1) parent) ∧
    ((0 ≤ t ∧ t < MAX_CHILDREN ∧ parent.exit_child_tid_arr t = t ∧
        parent.exit_child_waited = 0 ∧ parent.exit_child_sema_arr t ≠ 0) →
      (process_wait MAX_CHILDREN UNINITIALIZED parent t).value
        = some (parent.exit_child_code_arr t)) ∧
    (∀ code parent', process_wait MAX_CHILDREN UNINITIALIZED parent t = .returned code parent' →
      process_wait MAX_CHILDREN UNINITIALIZED parent' t = .returned (-1) parent') ∧
    (∀ code parent', process_wait_resume UNINITIALIZED parent t = .returned code parent' →
      process_wait MAX_CHILDREN UNINITIALIZED parent' t = .returned (-1) parent') := by
  have hfin : ∀ p : Thread,
      process_wait MAX_CHILDREN UNINITIALIZED (process_wait_finish UNINITIALIZED p t).2 t
        = .returned (-1) (process_wait_finish UNINITIALIZED p t).2 := by
    intro p
    unfold process_wait
    rw [if_pos]
    by_cases h1 : t < 0
    · exact Or.inl h1
    · by_cases h2 : t ≥ MAX_CHILDREN
      · exact Or.inr (Or.inl h2)
      · refine Or.inr (Or.inr (Or.inl ?_))
        simp only [process_wait_finish, if_true]
        omega
  refine ⟨?_, ?_, ?_, ?_⟩
  · intro h
    unfold process_wait
    rw [if_pos]
    rcases h with h | h | h
    · exact Or.inl h
    · exact Or.inr (Or.inl h)
    · exact Or.inr (Or.inr (Or.inl h))
  · rintro ⟨h1, h2, h3, h4, h5⟩
    unfold process_wait
    rw [if_neg (by
      intro h
      rcases h with h | h | h | h
      · omega
      · omega
      · exact h h3
      · exact h h4)]
    simp only [h5, if_false]
    rfl
  · intro code parent' h
    unfold process_wait at h
    split at h
    · cases h
      rename_i hg
      unfold process_wait
      rw [if_pos hg]
    · simp only at h
      split at h
      · cases h
      · cases h
        exact hfin _
  · intro code parent' h
    unfold process_wait_resume at h
    split at h
    · cases h
    · cases h
      exact hfin _

/-- Witness for C5: child 3 exits with status 42; the first wait of the
parent returns 42 and the second one returns -1. -/
theorem process_wait_once_witness :
    (process_wait 128 (-1) parent3_exited 3).value = some 42 ∧
      (process_wait 128 (-1) (process_wait 128 (-1) parent3_exited 3).parent 3).value
        = some (-1) := by
  have h := process_wait_once 128 (-1) (Or.inl (by decide)) parent3_exited 3
  refine ⟨(h.2.1 ⟨by decide, by decide, by decide, by decide, by decide⟩).trans (by decide),
    ?_⟩
  have h2 := h.2.2.1 42 (process_wait 128 (-1) parent3_exited 3).parent (by rfl)
  rw [h2]
  rfl

/-! ## Constants and program headers -/

/-- C15 (counterexample): the value of `INODE_SPAN` is not 8,460,288. -/
theorem INODE_SPAN_ne_spec_value : INODE_SPAN ≠ 8460288 := by decide

/-- C15 (amended): `INODE_SPAN` is (123 + 128 + 128 * 128) * 512, which
equals 8,517,120. -/
theorem INODE_SPAN_value :
    INODE_SPAN = (123 + 128 + 128 * 128) * 512 ∧ INODE_SPAN = 8517120 := by decide

theorem land_PGMASK (x : Nat) : x &&& PGMASK = x % PGSIZE := by
  have h := Nat.and_pow_two_sub_one_eq_mod x 12
  simpa [PGMASK, PGSIZE] using h

/-- C20: for 32-bit field values, a segment that `validate_segment` accepts
has its range `[p_vaddr, p_vaddr + p_memsz)`, taken without wrap-around,
inside `[PGSIZE, PHYS_BASE)`, has `p_memsz ≥ p_filesz` and `p_memsz > 0`, and
`p_offset` and `p_vaddr` have the same offset within a page. -/
theorem validate_segment_sound (phdr : Elf32_Phdr) (file_length : Int)
    (hoff : phdr.p_offset < 4294967296) (hvaddr : phdr.p_vaddr < 4294967296)
    (hfilesz : phdr.p_filesz < 4294967296) (hmemsz : phdr.p_memsz < 4294967296)
    (h : validate_segment phdr file_length = true) :
    PGSIZE ≤ phdr.p_vaddr ∧ phdr.p_vaddr + phdr.p_memsz ≤ PHYS_BASE ∧
      phdr.p_filesz ≤ phdr.p_memsz ∧ 0 < phdr.p_memsz ∧
      phdr.p_offset % PGSIZE = phdr.p_vaddr % PGSIZE := by
  unfold validate_segment at h
  split_ifs at h with h1 h2 h3 h4 h5 h6 h7 h8
  rw [land_PGMASK, land_PGMASK] at h1
  simp only [is_user_vaddr, decide_eq_false_iff_not, not_not, not_lt, PHYS_BASE, PGSIZE] at *
  refine ⟨h8, ?_, h3, by omega, h1⟩
  omega

/-- Witness for C20: a segment of 8192 bytes at 0x08048000. -/
theorem validate_segment_sound_witness :
    PGSIZE ≤ 0x08048000 ∧ 0x08048000 + 8192 ≤ PHYS_BASE ∧ 100 ≤ 8192 ∧ 0 < 8192 ∧
      4096 % PGSIZE = 0x08048000 % PGSIZE :=
  validate_segment_sound
    { p_type := 1, p_offset := 4096, p_vaddr := 0x08048000, p_paddr := 0, p_filesz := 100,
      p_memsz := 8192, p_flags := 5, p_align := 4096 } 20000
    (by decide) (by decide) (by decide) (by decide) (by decide)

/-! ## Copying from user memory -/

theorem copy_in_string_loop_full (mem : UMem) (us : Nat) :
    ∀ (n i : Nat) (ks : Nat → Nat), i + n ≤ PGSIZE →
      (∀ j, i ≤ j → j < i + n → ∃ b, mem (us + j) = some b ∧ b ≠ 0) →
      ∃ ks1, copy_in_string_loop mem us ks i n = .returned ks1 ∧
        (∀ j, i ≤ j → j < i + n → mem (us + j) = some (ks1 j) ∧ ks1 j ≠ 0) ∧
        (∀ j, j < i → ks1 j = ks j) := by
  intro n
  induction n with
  | zero =>
    intro i ks _ _
    exact ⟨ks, rfl, fun j h1 h2 => absurd h2 (by omega), fun _ _ => rfl⟩
  | succ n ih =>
    intro i ks hi hmem
    obtain ⟨b, hb, hb0⟩ := hmem i (le_refl _) (by omega)
    have hne : i ≠ PGSIZE := by omega
    rw [copy_in_string_loop]
    simp only [get_user, hb, hb0, hne, if_false]
    obtain ⟨ks1, h1, h2, h3⟩ := ih (i + 1) (fun j => if j = i then b else ks j) (by omega)
      (fun j hj1 hj2 => hmem j (by omega) (by omega))
    refine ⟨ks1, h1, ?_, ?_⟩
    · intro j hj1 hj2
      by_cases hji : j = i
      · subst hji
        have := h3 j (by omega)
        simp only [if_true] at this
        rw [this]
        exact ⟨hb, hb0⟩
      · exact h2 j (by omega) (by omega)
    · intro j hj
      have := h3 j (by omega)
      rw [this, if_neg (by omega)]

theorem copy_in_string_loop_nul (mem : UMem) (us : Nat) :
    ∀ (n i k : Nat) (ks : Nat → Nat), i ≤ k → k < i + n → i + n ≤ PGSIZE →
      (∀ j, i ≤ j → j < k → ∃ b, mem (us + j) = some b ∧ b ≠ 0) →
      mem (us + k) = some 0 →
      ∃ ks1, copy_in_string_loop mem us ks i n = .returned ks1 ∧
        (∀ j, i ≤ j → j ≤ k → mem (us + j) = some (ks1 j)) ∧
        (∀ j, j < i → ks1 j = ks j) := by
  intro n
  induction n with
  | zero => intro i k ks h1 h2; omega
  | succ n ih =>
    intro i k ks hik hk hi hmem hnul
    rw [copy_in_string_loop]
    by_cases hki : k = i
    · subst hki
      simp only [get_user, hnul, if_true]
      refine ⟨_, rfl, ?_, ?_⟩
      · intro j hj1 hj2
        have : j = k := by omega
        subst this
        simp [hnul]
      · intro j hj
        show (if j = k then 0 else ks j) = ks j
        rw [if_neg (by omega)]
    · obtain ⟨b, hb, hb0⟩ := hmem i (le_refl _) (by omega)
      have hne : i ≠ PGSIZE := by omega
      simp only [get_user, hb, hb0, hne, if_false]
      obtain ⟨ks1, h1, h2, h3⟩ := ih (i + 1) k (fun j => if j = i then b else ks j) (by omega)
        (by omega) (by omega) (fun j hj1 hj2 => hmem j (by omega) hj2) hnul
      refine ⟨ks1, h1, ?_, ?_⟩
      · intro j hj1 hj2
        by_cases hji : j = i
        · subst hji
          have := h3 j (by omega)
          simp only [if_true] at this
          rw [this]
          exact hb
        · exact h2 j (by omega) hj2
      · intro j hj
        have := h3 j (by omega)
        rw [this, if_neg (by omega)]

/-- When the user string is readable and has its
first NUL at index `k < PGSIZE`, `copy_in_string` returns a page whose first
`k + 1` bytes are those of the string, terminator included. -/
theorem copy_in_string_terminated (mem : UMem) (page : Nat → Nat) (us k : Nat)
    (hus : us < PHYS_BASE) (hus0 : us ≠ 0) (hk : k < PGSIZE)
    (hmem : ∀ j, j < k → ∃ b, mem (us + j) = some b ∧ b ≠ 0) (hnul : mem (us + k) = some 0) :
    ∃ ks, copy_in_string mem (some page) us = .returned ks ∧
      (∀ j, j ≤ k → mem (us + j) = some (ks j)) ∧ ks k = 0 := by
  obtain ⟨ks1, h1, h2, _⟩ := copy_in_string_loop_nul mem us PGSIZE 0 k page (Nat.zero_le _)
    (by omega) (by omega) (fun j _ hj => hmem j hj) hnul
  refine ⟨ks1, ?_, fun j hj => h2 j (Nat.zero_le _) hj, ?_⟩
  · unfold copy_in_string
    simp [is_user_vaddr, hus, hus0, h1]
  · have := h2 k (Nat.zero_le _) (le_refl _)
    rw [hnul] at this
    exact (Option.some.inj this).symm

/-- C16 (the code at the failing input): for a readable user string whose
first `PGSIZE` bytes are all the byte of `A`, `copy_in_string` returns a page
whose `PGSIZE` bytes are all that byte, so the page holds no NUL byte, even
when the page was zeroed before the call. -/
theorem copy_in_string_no_terminator :
    ∃ ks, copy_in_string long_string_mem (some (fun _ => 0)) 0x08048000 = .returned ks ∧
      ∀ j, j < PGSIZE → ks j = 65 := by
  obtain ⟨ks1, h1, h2, _⟩ := copy_in_string_loop_full long_string_mem 0x08048000 PGSIZE 0
    (fun _ => 0) (by omega) (fun j _ _ => ⟨65, rfl, by decide⟩)
  refine ⟨ks1, ?_, ?_⟩
  · unfold copy_in_string
    rw [if_neg (by decide), if_neg (by decide)]
    exact h1
  · intro j hj
    have := (h2 j (Nat.zero_le _) (by omega)).1
    exact (Option.some.inj this).symm

/-- C17 (the code at the failing input): with the user bytes "ab" right below
`PHYS_BASE` and readable kernel memory above, `copy_in_string` called on
`PHYS_BASE - 2` returns instead of ending the process, and its page holds the
bytes of `PHYS_BASE` and `PHYS_BASE + 1`; `copy_in` of project 3 called for 4
bytes returns them as well.  `copy_in` of projects 2 and 4 ends the process
with status -1 at that input. -/
theorem copy_in_string_reads_kernel_memory :
    (copy_in_string straddle_mem (some (fun _ => 7)) (PHYS_BASE - 2)).status = none ∧
      (copy_in_string straddle_mem (some (fun _ => 7)) (PHYS_BASE - 2)).value.map
        (fun ks => (List.range 5).map ks) = some [97, 98, 99, 0, 7] ∧
      (copy_in_p3 straddle_mem [] (PHYS_BASE - 2) 0 4).value = some [97, 98, 99, 0] ∧
      (copy_in straddle_mem [] (PHYS_BASE - 2) 4).status = some (-1) := by
  decide

/-! ## File descriptors -/

theorem read_without_file (env : ReadEnv) (t : FdTable) (fd : Int) (buffer size : Nat)
    (umem : Mem) (hsize : size ≠ 0) (h0 : get_file_by_fd t fd = none) :
    read env t fd buffer size umem = some (.exited (-1)) := by
  unfold read
  rw [if_neg hsize]
  split
  · rfl
  · rw [h0]

theorem get_file_by_fd_absent (t : FdTable) (fd : Int) (h : ∀ d ∈ t.fd_list, d.fd ≠ fd) :
    get_file_by_fd t fd = none := by
  unfold get_file_by_fd
  have : t.fd_list.find? (fun d => d.fd = fd) = none := by
    rw [List.find?_eq_none]
    intro d hd
    simpa using h d hd
  rw [this]

/-- C18 (the code at the failing input): in a process without open files,
with a console that has input and a kernel that can allocate pages and store
to the buffer, `read (0, buffer, 1)` on a valid buffer ends the process with
status -1. -/
theorem read_stdin_ends_process :
    (read console_env fd_table_init STDIN_FILENO 0x08048000 1 (fun _ => 0)).map
      (fun r => r.status) = some (some (-1)) := by
  decide

theorem fd_inv_init : FdInv fd_table_init :=
  ⟨fun d hd => (by cases hd), List.nodup_nil, fun d hd => (by cases hd), le_refl _⟩

theorem sys_open_spec (env : OpenEnv) (t : FdTable) (file : Nat) (v : Int) (t1 : FdTable)
    (h : sys_open env t file = some (.returned (v, t1))) :
    (v = -1 ∧ t1 = t) ∨
      (v = t.fd_num ∧ t1.fd_num = t.fd_num + 1 ∧
        ∃ d, d.fd = v ∧ (d.file.isSome = true ∨ d.dir.isSome = true) ∧
          t1.fd_list = d :: t.fd_list) := by
  unfold sys_open at h
  cases hc : copy_in_string env.mem env.page file with
  | exited s => rw [hc] at h; cases h
  | returned kfile =>
    rw [hc] at h
    simp only at h
    by_cases hcal : env.calloc_ok = false
    · rw [if_pos hcal] at h
      cases h; exact Or.inl ⟨rfl, rfl⟩
    · rw [if_neg hcal] at h
      cases hf : env.filesys_open kfile with
      | none => rw [hf] at h; cases h; exact Or.inl ⟨rfl, rfl⟩
      | some inode =>
        rw [hf] at h
        simp only at h
        generalize (if env.is_dir inode = true then
              ({ fd := 0, file := none, dir := env.dir_open inode } : file_descriptor)
            else { fd := 0, file := env.file_open inode, dir := none }) = fd0 at h
        by_cases hh : fd0.dir.isSome = true ∨ fd0.file.isSome = true
        · rw [if_pos hh] at h
          by_cases hmax : t.fd_num = 2147483647
          · rw [if_pos hmax] at h; cases h
          · rw [if_neg hmax] at h
            cases h
            exact Or.inr ⟨rfl, rfl, { fd0 with fd := t.fd_num }, rfl, hh.symm, rfl⟩
        · rw [if_neg hh] at h
          cases h; exact Or.inl ⟨rfl, rfl⟩

theorem sys_open_inv (env : OpenEnv) (t : FdTable) (file : Nat) (v : Int) (t1 : FdTable)
    (hinv : FdInv t) (h : sys_open env t file = some (.returned (v, t1))) : FdInv t1 := by
  rcases sys_open_spec env t file v t1 h with ⟨_, h1⟩ | ⟨hv, hnum, d, hd, hdh, hl⟩
  · rw [h1]; exact hinv
  · refine ⟨?_, ?_, ?_, ?_⟩
    · intro x hx
      rw [hl, List.mem_cons] at hx
      rcases hx with hx | hx
      · subst hx
        rw [hd, hv, hnum]
        exact ⟨hinv.counter, by omega⟩
      · have := hinv.range x hx
        rw [hnum]
        exact ⟨this.1, by omega⟩
    · rw [hl, List.map_cons, List.nodup_cons]
      refine ⟨?_, hinv.nodup⟩
      intro hmem
      rw [List.mem_map] at hmem
      obtain ⟨x, hx, hxd⟩ := hmem
      have := (hinv.range x hx).2
      rw [hd, hv] at hxd
      omega
    · intro x hx
      rw [hl, List.mem_cons] at hx
      rcases hx with hx | hx
      · subst hx; exact hdh
      · exact hinv.handle x hx
    · rw [hnum]; have := hinv.counter; omega

theorem eraseP_fd_absent (fd : Int) : ∀ (l : List file_descriptor),
    (l.map (fun d => d.fd)).Nodup → ∀ d ∈ l.eraseP (fun d => d.fd = fd), d.fd ≠ fd := by
  intro l
  induction l with
  | nil => intro _ d hd; cases hd
  | cons a l ih =>
    intro hnd d hd
    rw [List.map_cons, List.nodup_cons] at hnd
    by_cases ha : a.fd = fd
    · rw [List.eraseP_cons_of_pos (by simpa using ha)] at hd
      intro hdfd
      exact hnd.1 (List.mem_map.mpr ⟨d, hd, by rw [hdfd, ha]⟩)
    · rw [List.eraseP_cons_of_neg (by simpa using ha), List.mem_cons] at hd
      rcases hd with hd | hd
      · subst hd; exact ha
      · exact ih hnd.2 d hd

theorem close_absent (t : FdTable) (fd : Int) (hinv : FdInv t) :
    ∀ d ∈ (close t fd).fd_list, d.fd ≠ fd := by
  unfold close
  simp only
  split
  · rename_i hnone
    intro d hd hdfd
    unfold get_file_by_fd get_dir_by_fd at hnone
    cases hfind : t.fd_list.find? (fun d => d.fd = fd) with
    | none =>
      rw [List.find?_eq_none] at hfind
      exact hfind d hd (by simpa using hdfd)
    | some x =>
      rw [hfind] at hnone
      simp only at hnone
      have hx := List.mem_of_find?_eq_some hfind
      rcases hinv.handle x hx with h1 | h1
      · rw [hnone.1] at h1; cases h1
      · rw [hnone.2] at h1; cases h1
  · exact eraseP_fd_absent fd t.fd_list hinv.nodup

theorem close_inv (t : FdTable) (fd : Int) (hinv : FdInv t) : FdInv (close t fd) := by
  unfold close
  simp only
  split
  · exact hinv
  · have hsub : (t.fd_list.eraseP (fun d => d.fd = fd)).Sublist t.fd_list :=
      List.eraseP_sublist _
    exact ⟨fun d hd => hinv.range d (hsub.subset hd),
      hinv.nodup.sublist (hsub.map _),
      fun d hd => hinv.handle d (hsub.subset hd), hinv.counter⟩

theorem run_fd_ops_inv : ∀ (ops : List FdOp) (t0 t : FdTable), FdInv t0 →
    run_fd_ops t0 ops = some t → FdInv t := by
  intro ops
  induction ops with
  | nil => intro t0 t hinv h; cases h; exact hinv
  | cons op ops ih =>
    intro t0 t hinv h
    cases op with
    | fd_open env file =>
      rw [run_fd_ops] at h
      cases ho : sys_open env t0 file with
      | none => rw [ho] at h; cases h
      | some r =>
        cases r with
        | exited s => rw [ho] at h; cases h
        | returned p =>
          obtain ⟨v, t1⟩ := p
          rw [ho] at h
          exact ih t1 t (sys_open_inv env t0 file v t1 hinv ho) h
    | fd_close fd =>
      rw [run_fd_ops] at h
      exact ih _ t (close_inv t0 fd hinv) h

theorem close_fd_num (t : FdTable) (fd : Int) : (close t fd).fd_num = t.fd_num := by
  unfold close
  simp only
  split <;> rfl

theorem open_results_increasing : ∀ (ops : List FdOp) (t0 t : FdTable), 2 ≤ t0.fd_num →
    run_fd_ops t0 ops = some t →
    t0.fd_num ≤ t.fd_num ∧
      ∃ vs, open_results t0 ops = some vs ∧
        (vs.filter (fun v => v ≠ -1)).Pairwise (fun a b => a < b) ∧
        ∀ v ∈ vs, v = -1 ∨ (t0.fd_num ≤ v ∧ v < t.fd_num) := by
  intro ops
  induction ops with
  | nil =>
    intro t0 t _ h
    cases h
    exact ⟨le_refl _, [], rfl, List.Pairwise.nil, fun v hv => (by cases hv)⟩
  | cons op ops ih =>
    intro t0 t h2 h
    cases op with
    | fd_open env file =>
      rw [run_fd_ops] at h
      rw [open_results]
      cases ho : sys_open env t0 file with
      | none => rw [ho] at h; cases h
      | some r =>
        cases r with
        | exited s => rw [ho] at h; cases h
        | returned p =>
          obtain ⟨v, t1⟩ := p
          rw [ho] at h
          simp only at h ⊢
          rcases sys_open_spec env t0 file v t1 ho with ⟨hv, ht⟩ | ⟨hv, hnum, _⟩
          · subst ht
            obtain ⟨hle, vs, hvs, hpw, hall⟩ := ih t1 t h2 h
            refine ⟨hle, v :: vs, by rw [hvs]; rfl, ?_, ?_⟩
            · rw [List.filter_cons_of_neg (by simp [hv])]
              exact hpw
            · intro x hx
              rw [List.mem_cons] at hx
              rcases hx with hx | hx
              · exact Or.inl (hx.trans hv)
              · exact hall x hx
          · obtain ⟨hle, vs, hvs, hpw, hall⟩ := ih t1 t (by omega) h
            refine ⟨by omega, v :: vs, by rw [hvs]; rfl, ?_, ?_⟩
            · rw [List.filter_cons_of_pos (by simp; omega), List.pairwise_cons]
              refine ⟨fun b hb => ?_, hpw⟩
              rw [List.mem_filter] at hb
              rcases hall b hb.1 with hb1 | hb1
              · exact absurd hb1 (by simpa using hb.2)
              · omega
            · intro x hx
              rw [List.mem_cons] at hx
              rcases hx with hx | hx
              · exact Or.inr ⟨by omega, by omega⟩
              · rcases hall x hx with h1 | h1
                · exact Or.inl h1
                · exact Or.inr ⟨by omega, h1.2⟩
    | fd_close fd =>
      rw [run_fd_ops] at h
      rw [open_results]
      have := ih (close t0 fd) t (by rw [close_fd_num]; exact h2) h
      rw [close_fd_num] at this
      exact this

/-- C19: after any sequence of `open` and `close` calls that starts from the
empty table with the counter at 2 (a sequence in which no call ends the
process or overflows the counter), every `fd` in the table is at least 2 and
below the counter and no two elements have the same `fd`; an `open` then
either returns -1 and leaves table and counter as they are, or returns the
value of the counter, which is greater than every `fd` in the table, pushes
one element with that `fd` and raises the counter by one; `close (fd)` leaves
no element with that `fd` and does not change the counter; and the values
other than -1 that the `open` calls of the sequence have returned are at least
2, below the counter and strictly increasing, each greater than all the
earlier ones. -/
theorem fd_table_invariant (ops : List FdOp) (t : FdTable)
    (h : run_fd_ops fd_table_init ops = some t) :
    (∀ d ∈ t.fd_list, 2 ≤ d.fd ∧ d.fd < t.fd_num) ∧
      (t.fd_list.map (fun d => d.fd)).Nodup ∧
      (∀ (env : OpenEnv) (file : Nat) (v : Int) (t1 : FdTable),
        sys_open env t file = some (.returned (v, t1)) →
          (v = -1 ∧ t1 = t) ∨
            (v ≠ -1 ∧ v = t.fd_num ∧ t1.fd_num = t.fd_num + 1 ∧ (∀ d ∈ t.fd_list, d.fd < v) ∧
              ∃ d, d.fd = v ∧ t1.fd_list = d :: t.fd_list)) ∧
      (∀ fd, ∀ d ∈ (close t fd).fd_list, d.fd ≠ fd) ∧
      (∀ fd, (close t fd).fd_num = t.fd_num) ∧
      (∃ vs, open_results fd_table_init ops = some vs ∧
        (vs.filter (fun v => v ≠ -1)).Pairwise (fun a b => a < b) ∧
        ∀ v ∈ vs, v = -1 ∨ (2 ≤ v ∧ v < t.fd_num)) := by
  have hinv := run_fd_ops_inv ops fd_table_init t fd_inv_init h
  obtain ⟨_, hres⟩ := open_results_increasing ops fd_table_init t (le_refl _) h
  refine ⟨hinv.range, hinv.nodup, ?_, fun fd => close_absent t fd hinv,
    fun fd => close_fd_num t fd, hres⟩
  intro env file v t1 ho
  rcases sys_open_spec env t file v t1 ho with h1 | ⟨hv, hnum, d, hd, _, hl⟩
  · exact Or.inl h1
  · refine Or.inr ⟨?_, hv, hnum, ?_, d, hd, hl⟩
    · have := hinv.counter; omega
    · intro x hx
      have := (hinv.range x hx).2
      omega

/-- Witness for C19: two opens, a close of descriptor 2, a failing open and
another open return 2, 3, -1 and 4 and leave the descriptors 4 and 3 and the
counter at 5. -/
theorem fd_table_invariant_witness :
    run_fd_ops fd_table_init sample_fd_ops = some sample_fd_table ∧
      open_results fd_table_init sample_fd_ops = some [2, 3, -1, 4] ∧
      ((∀ d ∈ sample_fd_table.fd_list, 2 ≤ d.fd ∧ d.fd < sample_fd_table.fd_num) ∧
      (sample_fd_table.fd_list.map (fun d => d.fd)).Nodup ∧
      (∀ (env : OpenEnv) (file : Nat) (v : Int) (t1 : FdTable),
        sys_open env sample_fd_table file = some (.returned (v, t1)) →
          (v = -1 ∧ t1 = sample_fd_table) ∨
            (v ≠ -1 ∧ v = sample_fd_table.fd_num ∧ t1.fd_num = sample_fd_table.fd_num + 1 ∧
              (∀ d ∈ sample_fd_table.fd_list, d.fd < v) ∧
              ∃ d, d.fd = v ∧ t1.fd_list = d :: sample_fd_table.fd_list)) ∧
      (∀ fd, ∀ d ∈ (close sample_fd_table fd).fd_list, d.fd ≠ fd) ∧
      (∀ fd, (close sample_fd_table fd).fd_num = sample_fd_table.fd_num) ∧
      (∃ vs, open_results fd_table_init sample_fd_ops = some vs ∧
        (vs.filter (fun v => v ≠ -1)).Pairwise (fun a b => a < b) ∧
        ∀ v ∈ vs, v = -1 ∨ (2 ≤ v ∧ v < sample_fd_table.fd_num))) :=
  ⟨by decide, by decide, fd_table_invariant sample_fd_ops sample_fd_table (by decide)⟩

/-! ## Listing a directory -/

theorem dir_readdir_loop_next (st : FS) (dir : Dir) (es : List (List Nat))
    (hread : (List.range es.length).map (fun k => read_entry st dir.inode.sector k)
      = es.map some)
    (hend : (inode_read_at st dir.inode.sector DIR_ENTRY_SIZE
      ((DIR_ENTRY_SIZE * es.length : Nat) : Int)).map
        (fun r => decide (r.1.length = DIR_ENTRY_SIZE)) = some false)
    (hnames : ∀ e ∈ es, entry_in_use e = true → is_valid_entry e = true → 0 ∈ entry_name e) :
    ∀ (l : List (List Nat)) (k : Nat), es.drop k = l → k ≤ es.length →
      ∀ (fuel : Nat), l.length < fuel →
      dir_readdir_loop fuel st { dir with pos := ((DIR_ENTRY_SIZE * k : Nat) : Int) } =
        some (match l.dropWhile (fun e => !(entry_in_use e && is_valid_entry e)) with
          | [] => (none, { dir with pos := ((DIR_ENTRY_SIZE * es.length : Nat) : Int) }, st)
          | e :: rest =>
            (some (((entry_name e).takeWhile (fun c => c ≠ 0)).take NAME_MAX),
              { dir with pos := ((DIR_ENTRY_SIZE * (es.length - rest.length) : Nat) : Int) },
              st)) := by
  intro l
  induction l with
  | nil =>
    intro k hk hkn fuel hfuel
    have hkeq : k = es.length := by
      have := congrArg List.length hk
      simp only [List.length_drop, List.length_nil] at this
      omega
    subst hkeq
    obtain ⟨fuel, rfl⟩ : ∃ f, fuel = f + 1 := ⟨fuel - 1, by omega⟩
    rw [dir_readdir_loop]
    simp only
    cases hr : inode_read_at st dir.inode.sector DIR_ENTRY_SIZE
        ((DIR_ENTRY_SIZE * es.length : Nat) : Int) with
    | none => rw [hr] at hend; cases hend
    | some res =>
      obtain ⟨bytes, st1⟩ := res
      have hst := (inode_read_at_st st _ _ _ _ (by positivity) hr).1
      simp only at hst
      subst hst
      rw [hr] at hend
      simp only [Option.map_some', Option.some.injEq, decide_eq_false_iff_not] at hend
      simp only [hend, if_false, List.dropWhile_nil]
  | cons e l ih =>
    intro k hk hkn fuel hfuel
    have hlen : (e :: l).length = es.length - k := by rw [← hk, List.length_drop]
    simp only [List.length_cons] at hlen hfuel
    have hklt : k < es.length := by omega
    have hek : es[k]? = some e := by
      have := congrArg (fun x => x[0]?) hk
      simpa using this
    have hre : read_entry st dir.inode.sector k = some e := by
      have := congrArg (fun x => x[k]?) hread
      simp only [List.getElem?_map, List.getElem?_range hklt, Option.map_some', hek] at this
      exact Option.some.inj this
    have hdrop : es.drop (k + 1) = l := by
      have := congrArg List.tail hk
      simpa using this
    obtain ⟨h1, h2, _⟩ := read_entry_some _ _ _ _ hre
    obtain ⟨fuel, rfl⟩ : ∃ f, fuel = f + 1 := ⟨fuel - 1, by omega⟩
    rw [dir_readdir_loop]
    simp only [h1, h2, if_true]
    have hpos : (((DIR_ENTRY_SIZE * k : Nat) : Int) + (DIR_ENTRY_SIZE : Int))
        = ((DIR_ENTRY_SIZE * (k + 1) : Nat) : Int) := by
      push_cast; ring
    rw [hpos]
    by_cases hgood : entry_in_use e = true ∧ is_valid_entry e = true
    · have hmem : e ∈ es := List.getElem?_mem hek
      have hz := hnames e hmem hgood.1 hgood.2
      have hdw : (e :: l).dropWhile (fun e => !(entry_in_use e && is_valid_entry e)) = e :: l := by
        rw [List.dropWhile_cons_of_neg]
        simp [hgood.1, hgood.2]
      rw [if_pos hgood, hdw]
      simp only [entry_name_string, hz, if_true]
      have : es.length - l.length = k + 1 := by omega
      rw [this]
    · have hdw : (e :: l).dropWhile (fun e => !(entry_in_use e && is_valid_entry e))
          = l.dropWhile (fun e => !(entry_in_use e && is_valid_entry e)) := by
        rw [List.dropWhile_cons_of_pos]
        simp only [Bool.not_eq_true', Bool.and_eq_false_imp, Bool.not_eq_eq_eq_not,
          Bool.not_true, Bool.and_eq_true, not_and] at hgood ⊢
        simpa using hgood
      rw [if_neg hgood, hdw]
      exact ih (k + 1) hdrop (by omega) fuel (by omega)

theorem dropWhile_filter_nil {α : Type} (p : α → Bool) : ∀ (l : List α),
    l.dropWhile (fun e => !p e) = [] → l.filter p = [] := by
  intro l
  induction l with
  | nil => intro _; rfl
  | cons a l ih =>
    intro h
    by_cases ha : p a = true
    · rw [List.dropWhile_cons_of_neg (by simp [ha])] at h
      cases h
    · rw [List.dropWhile_cons_of_pos (by simpa using ha)] at h
      rw [List.filter_cons_of_neg ha]
      exact ih h

theorem dropWhile_filter_cons {α : Type} (p : α → Bool) : ∀ (l : List α) (e : α) (rest : List α),
    l.dropWhile (fun e => !p e) = e :: rest → l.filter p = e :: rest.filter p := by
  intro l
  induction l with
  | nil => intro e rest h; cases h
  | cons a l ih =>
    intro e rest h
    by_cases ha : p a = true
    · rw [List.dropWhile_cons_of_neg (by simp [ha])] at h
      cases h
      rw [List.filter_cons_of_pos ha]
    · rw [List.dropWhile_cons_of_pos (by simpa using ha)] at h
      rw [List.filter_cons_of_neg ha]
      exact ih e rest h

theorem dropWhile_suffix_length {α : Type} (p : α → Bool) : ∀ (l : List α) (e : α)
    (rest : List α), l.dropWhile p = e :: rest →
    rest.length < l.length ∧ l.drop (l.length - rest.length) = rest := by
  intro l
  induction l with
  | nil => intro e rest h; cases h
  | cons a l ih =>
    intro e rest h
    by_cases ha : p a = true
    · rw [List.dropWhile_cons_of_pos ha] at h
      obtain ⟨h1, h2⟩ := ih e rest h
      refine ⟨by simp only [List.length_cons]; omega, ?_⟩
      have : (a :: l).length - rest.length = (l.length - rest.length) + 1 := by
        simp only [List.length_cons]; omega
      rw [this, List.drop_succ_cons]
      exact h2
    · rw [List.dropWhile_cons_of_neg ha] at h
      cases h
      refine ⟨by simp, ?_⟩
      simp

theorem readdir_calls_from (st : FS) (dir : Dir) (es : List (List Nat))
    (hread : (List.range es.length).map (fun k => read_entry st dir.inode.sector k)
      = es.map some)
    (hend : (inode_read_at st dir.inode.sector DIR_ENTRY_SIZE
      ((DIR_ENTRY_SIZE * es.length : Nat) : Int)).map
        (fun r => decide (r.1.length = DIR_ENTRY_SIZE)) = some false)
    (hnames : ∀ e ∈ es, entry_in_use e = true → is_valid_entry e = true → 0 ∈ entry_name e) :
    ∀ (m : Nat) (l : List (List Nat)) (k : Nat), es.drop k = l → k ≤ es.length →
      readdir_calls st { dir with pos := ((DIR_ENTRY_SIZE * k : Nat) : Int) } m =
        some ((List.range m).map (fun j =>
          ((l.filter (fun e => entry_in_use e && is_valid_entry e)).map
            (fun e => ((entry_name e).takeWhile (fun c => c ≠ 0)).take NAME_MAX))[j]?)) := by
  have hL : es.length ≤ (disk_length st dir.inode.sector).toNat := by
    by_cases hn : es.length = 0
    · omega
    · have hlt : es.length - 1 < es.length := by omega
      have := congrArg (fun x => x[es.length - 1]?) hread
      simp only [List.getElem?_map, List.getElem?_range hlt, Option.map_some',
        List.getElem?_eq_getElem hlt] at this
      obtain ⟨_, _, h3⟩ := read_entry_some _ _ _ _ (Option.some.inj this)
      simp only [DIR_ENTRY_SIZE] at h3
      omega
  intro m
  induction m with
  | zero => intro l k _ _; rfl
  | succ m ih =>
    intro l k hk hkn
    have hlen : l.length = es.length - k := by rw [← hk, List.length_drop]
    have hloop := dir_readdir_loop_next st dir es hread hend hnames l k hk hkn
      ((disk_length st dir.inode.sector).toNat + 1) (by omega)
    cases hdw : l.dropWhile (fun e => !(entry_in_use e && is_valid_entry e)) with
    | nil =>
      rw [hdw] at hloop
      simp only at hloop
      have hnil : es.drop es.length = [] := List.drop_length es
      rw [readdir_calls, dir_readdir]
      simp only
      rw [hloop]
      simp only
      rw [ih [] es.length hnil (le_refl _), dropWhile_filter_nil _ l hdw]
      simp [List.range_succ_eq_map, Function.comp_def]
    | cons e rest =>
      rw [hdw] at hloop
      simp only at hloop
      obtain ⟨h1, h2⟩ := dropWhile_suffix_length _ l e rest hdw
      have hrest : es.drop (es.length - rest.length) = rest := by
        have h3 : (es.drop k).drop (l.length - rest.length) = rest := by rw [hk]; exact h2
        rw [List.drop_drop] at h3
        have h5 : es.length - rest.length = k + (l.length - rest.length) := by omega
        rw [h5]; exact h3
      rw [readdir_calls, dir_readdir]
      simp only
      rw [hloop]
      simp only
      rw [ih rest (es.length - rest.length) hrest (by omega),
        dropWhile_filter_cons _ l e rest hdw]
      simp [List.range_succ_eq_map, Function.comp_def]

/-! ## The block tree under allocation and writes -/

theorem wr32_at (b : Sector) (i v : Nat) :
    wr32 b i v (4 * i) = v % 256 ∧ wr32 b i v (4 * i + 1) = v / 256 % 256 ∧
      wr32 b i v (4 * i + 2) = v / 65536 % 256 ∧ wr32 b i v (4 * i + 3) = v / 16777216 % 256 := by
  unfold wr32
  refine ⟨?_, ?_, ?_, ?_⟩
  · rw [if_pos rfl]
  · rw [if_neg (by omega), if_pos rfl]
  · rw [if_neg (by omega), if_neg (by omega), if_pos rfl]
  · rw [if_neg (by omega), if_neg (by omega), if_neg (by omega), if_pos rfl]

theorem wr32_off (b : Sector) (i v x : Nat) (h : x / 4 ≠ i) : wr32 b i v x = b x := by
  unfold wr32
  rw [if_neg (by omega), if_neg (by omega), if_neg (by omega), if_neg (by omega)]

theorem rd32_wr32_same (b : Sector) (i v : Nat) (hv : v < 4294967296) :
    rd32 (wr32 b i v) i = v := by
  obtain ⟨h0, h1, h2, h3⟩ := wr32_at b i v
  unfold rd32
  rw [h0, h1, h2, h3]
  omega

theorem rd32_wr32_other (b : Sector) (i j v : Nat) (h : j ≠ i) :
    rd32 (wr32 b i v) j = rd32 b j := by
  unfold rd32
  rw [wr32_off b i v (4 * j) (by omega), wr32_off b i v (4 * j + 1) (by omega),
    wr32_off b i v (4 * j + 2) (by omega), wr32_off b i v (4 * j + 3) (by omega)]

theorem rd32_zero_sector (i : Nat) : rd32 zero_sector i = 0 := rfl

theorem node_cons_root (st : FS) (ino k : Nat) : node st ino [k] = rd32 (st.disk ino) k := by
  simp [node]

theorem node_cons (st : FS) (ino k : Nat) (path : List Nat)
    (h : path = [] ∨ node st ino path ≠ 0) :
    node st ino (k :: path) = rd32 (st.disk (node st ino path)) k := by
  rw [node]
  rcases h with h | h
  · rw [if_neg (by simp [h])]
  · rw [if_neg (by simp [h])]

theorem valid_path_tail (k : Nat) (path : List Nat) (h : valid_path (k :: path) = true) :
    meta_path path = true := by
  rcases path with _ | ⟨i, _ | ⟨i2, _ | ⟨i3, rest⟩⟩⟩
  · decide
  · simp only [valid_path, Bool.or_eq_true, Bool.and_eq_true, decide_eq_true_eq] at h
    rcases h with ⟨h, _⟩ | ⟨h, _⟩ <;> subst h <;> decide
  · unfold valid_path at h
    split at h
    · rename_i heq; cases heq
    · rename_i heq; cases heq
    · rename_i heq; cases heq; decide
    · cases h
  · unfold valid_path at h
    split at h
    · rename_i heq; cases heq
    · rename_i heq; cases heq
    · rename_i heq; cases heq
    · cases h

theorem meta_path_cases (path : List Nat) (h : meta_path path = true) :
    path = [] ∨ valid_path path = true := by
  simp only [meta_path, Bool.decide_or, Bool.or_eq_true, decide_eq_true_eq] at h
  rcases h with h | h | h | h <;> subst h <;> simp [valid_path]

theorem meta_path_not_data (k : Nat) (path : List Nat) (h : meta_path (k :: path) = true) :
    (k = 123 ∧ path = []) ∨ (k = 124 ∧ path = []) ∨ (k = 0 ∧ path = [124]) := by
  simp only [meta_path, Bool.decide_or, Bool.or_eq_true, decide_eq_true_eq] at h
  rcases h with h | h | h | h
  · cases h
  · cases h; exact Or.inl ⟨rfl, rfl⟩
  · cases h; exact Or.inr (Or.inl ⟨rfl, rfl⟩)
  · cases h; exact Or.inr (Or.inr ⟨rfl, rfl⟩)

theorem node_congr (st st1 : FS) (ino : Nat)
    (h : ∀ path, meta_path path = true → (path = [] ∨ node st ino path ≠ 0) →
      st1.disk (node st ino path) = st.disk (node st ino path)) :
    ∀ path, (path = [] ∨ valid_path path = true) → node st1 ino path = node st ino path := by
  intro path
  induction path with
  | nil => intro _; rfl
  | cons k path ih =>
    intro hv
    have hv1 : valid_path (k :: path) = true := by
      rcases hv with hv | hv
      · cases hv
      · exact hv
    have hm := valid_path_tail k path hv1
    have ih1 := ih (meta_path_cases path hm)
    rw [node, node, ih1]
    by_cases hc : path ≠ [] ∧ node st ino path = 0
    · rw [if_pos hc, if_pos hc]
    · rw [if_neg hc, if_neg hc, h path hm (by
        by_cases hp : path = []
        · exact Or.inl hp
        · exact Or.inr (fun h0 => hc ⟨hp, h0⟩))]

theorem layout_of_node_eq (st st1 : FS) (ino : Nat) (hl : Layout st ino)
    (h : ∀ path, (path = [] ∨ valid_path path = true) → node st1 ino path = node st ino path) :
    Layout st1 ino := by
  refine ⟨?_, ?_⟩
  · intro path hv hne
    rw [h path (Or.inr hv)] at hne ⊢
    exact hl.ne_ino path hv hne
  · intro p q hp hq hne heq
    rw [h p (Or.inr hp)] at hne heq
    rw [h q (Or.inr hq)] at heq
    exact hl.inj p q hp hq hne heq

theorem wf_of_node_eq (st st1 : FS) (ino : Nat) (hwf : WF st ino)
    (h : ∀ path, (path = [] ∨ valid_path path = true) → node st1 ino path = node st ino path)
    (hfm : st1.free_map = st.free_map) (hoom : st1.oom = st.oom)
    (hn : st1.nsectors = st.nsectors) : WF st1 ino := by
  refine ⟨layout_of_node_eq st st1 ino hwf.layout h, by rw [hoom]; exact hwf.oom,
    by rw [hfm]; exact hwf.zero_used, by rw [hfm]; exact hwf.ino_used, ?_,
    by rw [hn]; exact hwf.nsec⟩
  intro path hv hne
  rw [h path (Or.inr hv)] at hne ⊢
  rw [hfm]
  exact hwf.used path hv hne

theorem data_write_node (st : FS) (ino : Nat) (hl : Layout st ino) (p : List Nat)
    (hp : valid_path p = true) (hpm : meta_path p = false) (hne : node st ino p ≠ 0)
    (blk : Sector) :
    ∀ path, (path = [] ∨ valid_path path = true) →
      node (block_write st (node st ino p) blk) ino path = node st ino path := by
  apply node_congr
  intro q hq hq0
  have hneq : node st ino q ≠ node st ino p := by
    rcases meta_path_cases q hq with hq1 | hq1
    · subst hq1
      exact fun h => hl.ne_ino p hp hne h.symm
    · intro h
      have hq2 : node st ino q ≠ 0 := by rw [h]; exact hne
      have := hl.inj q p hq1 hp hq2 h
      subst this
      rw [hq] at hpm
      cases hpm
  simp only [block_write]
  rw [if_neg hneq]

theorem disk_length_congr (st st1 : FS) (ino : Nat)
    (h : rd32 (st1.disk ino) 126 = rd32 (st.disk ino) 126) :
    disk_length st1 ino = disk_length st ino := by
  unfold disk_length block_read
  rw [h]

theorem data_write_wf (st : FS) (ino : Nat) (hwf : WF st ino) (p : List Nat)
    (hp : valid_path p = true) (hpm : meta_path p = false) (hne : node st ino p ≠ 0)
    (blk : Sector) :
    WF (block_write st (node st ino p) blk) ino ∧
      disk_length (block_write st (node st ino p) blk) ino = disk_length st ino := by
  refine ⟨wf_of_node_eq st _ ino hwf (data_write_node st ino hwf.layout p hp hpm hne blk)
    rfl rfl rfl, ?_⟩
  apply disk_length_congr
  simp only [block_write]
  rw [if_neg (fun h => hwf.layout.ne_ino p hp hne h.symm)]

theorem node_alloc (st st1 : FS) (ino : Nat) (hwf : WF st ino) (p : List Nat) (k s : Nat)
    (hmeta : meta_path p = true) (hpar : p = [] ∨ node st ino p ≠ 0)
    (hvalid : valid_path (k :: p) = true) (hzero : node st ino (k :: p) = 0)
    (hfree : st.free_map s = false) (hs : s < 4294967296)
    (hdisk : ∀ x, st1.disk x =
      if x = node st ino p then wr32 (st.disk (node st ino p)) k s
      else if x = s then zero_sector else st.disk x) :
    ∀ path, (path = [] ∨ valid_path path = true) →
      node st1 ino path = if path = k :: p then s else node st ino path := by
  have hs_ne : ∀ q, (q = [] ∨ valid_path q = true) → (q = [] ∨ node st ino q ≠ 0) →
      node st ino q ≠ s := by
    intro q hq hq0 heq
    rcases hq with hq | hq
    · subst hq
      have := hwf.ino_used
      simp only [node] at heq
      rw [heq, hfree] at this
      cases this
    · rcases hq0 with hq0 | hq0
      · subst hq0; cases hq
      · have := hwf.used q hq hq0
        rw [heq, hfree] at this
        cases this
  have hpv := meta_path_cases p hmeta
  have hPs : node st ino p ≠ s := hs_ne p hpv hpar
  intro path
  induction path with
  | nil => intro _; rw [if_neg (by simp)]; rfl
  | cons j q ih =>
    intro hv
    have hv1 : valid_path (j :: q) = true := by
      rcases hv with hv | hv
      · cases hv
      · exact hv
    have hm := valid_path_tail j q hv1
    have hqv := meta_path_cases q hm
    have ih1 := ih hqv
    rw [node, ih1]
    by_cases hqkp : q = k :: p
    · -- below the new sector: it is zeroed, and the old pointer was null
      subst hqkp
      rw [if_pos rfl]
      have hne : ¬ (j :: k :: p = k :: p) := by
        intro h
        have := congrArg List.length h
        simp at this
      rw [if_neg hne]
      have hs0 : s ≠ 0 := by
        intro h
        have := hwf.zero_used
        rw [← h, hfree] at this
        cases this
      rw [if_neg (by simp [hs0]), hdisk s, if_neg (fun h => hPs h.symm), if_pos rfl]
      rw [node, if_pos ⟨by simp, hzero⟩]
      rfl
    · rw [if_neg hqkp]
      by_cases hc : q ≠ [] ∧ node st ino q = 0
      · rw [if_pos hc, node, if_pos hc]
        rw [if_neg]
        intro h
        cases h
        exact (hpar.resolve_left hc.1) hc.2
      · rw [if_neg hc]
        have hq0 : q = [] ∨ node st ino q ≠ 0 := by
          by_cases hp : q = []
          · exact Or.inl hp
          · exact Or.inr (fun h0 => hc ⟨hp, h0⟩)
        have hqs := hs_ne q hqv hq0
        rw [hdisk (node st ino q)]
        by_cases hqp : node st ino q = node st ino p
        · -- the parent block itself: one word has changed
          have hqeq : q = p := by
            rcases hqv with hq1 | hq1
            · subst hq1
              rcases hpv with hp1 | hp1
              · exact hp1.symm
              · exfalso
                rcases hpar with hp2 | hp2
                · subst hp2; cases hp1
                · exact hwf.layout.ne_ino p hp1 hp2 hqp.symm
            · rcases hq0 with hq2 | hq2
              · subst hq2; cases hq1
              · rcases hpv with hp1 | hp1
                · subst hp1
                  exact absurd hqp (hwf.layout.ne_ino q hq1 hq2)
                · exact hwf.layout.inj q p hq1 hp1 hq2 hqp
          subst hqeq
          rw [if_pos rfl]
          by_cases hjk : j = k
          · subst hjk
            rw [if_pos rfl, rd32_wr32_same _ _ _ hs]
          · rw [if_neg (by simpa using hjk), rd32_wr32_other _ _ _ _ hjk, node, if_neg hc]
        · rw [if_neg hqp, if_neg hqs]
          have hne : ¬ (j :: q = k :: p) := by
            intro h
            cases h
            exact hqp rfl
          rw [if_neg hne, node, if_neg hc]

theorem free_map_allocate_spec (st st1 : FS) (s : Nat)
    (h : free_map_allocate st = some (s, st1)) :
    st.free_map s = false ∧ s < st.nsectors ∧
      st1 = { st with free_map := fun x => if x = s then true else st.free_map x } := by
  unfold free_map_allocate at h
  cases hf : (List.range st.nsectors).find? (fun s => !st.free_map s) with
  | none => rw [hf] at h; cases h
  | some s1 =>
    rw [hf] at h
    cases h
    have h1 := List.find?_some hf
    have h2 := List.mem_of_find?_eq_some hf
    refine ⟨by simpa using h1, by simpa using h2, rfl⟩

theorem allocate_slot_wf (st : FS) (ino : Nat) (hwf : WF st ino) (p : List Nat) (k : Nat)
    (hmeta : meta_path p = true) (hpar : p = [] ∨ node st ino p ≠ 0)
    (hvalid : valid_path (k :: p) = true) (hzero : node st ino (k :: p) = 0)
    (res : Option (Nat × Sector)) (st1 : FS)
    (h : allocate_slot st (node st ino p) (st.disk (node st ino p)) k = (res, st1)) :
    WF st1 ino ∧ disk_length st1 ino = disk_length st ino ∧
      (res = none ∨ ∃ s buf1, res = some (s, buf1) ∧ s ≠ 0 ∧ node st1 ino (k :: p) = s) := by
  unfold allocate_slot at h
  cases hf : free_map_allocate st with
  | none =>
    rw [hf] at h
    cases h
    exact ⟨hwf, rfl, Or.inl rfl⟩
  | some r =>
    obtain ⟨s, st0⟩ := r
    obtain ⟨hfree, hs, hst0⟩ := free_map_allocate_spec st st0 s hf
    rw [hf] at h
    have hoom0 : st0.oom = false := by rw [hst0]; exact hwf.oom
    have hdisk0 : st0.disk = st.disk := by rw [hst0]
    have hfm0 : st0.free_map = fun x => if x = s then true else st.free_map x := by rw [hst0]
    have hn0 : st0.nsectors = st.nsectors := by rw [hst0]
    clear hst0 hf
    simp only at h
    rw [if_neg (by rw [hoom0]; simp)] at h
    cases h
    have hs32 : s < 4294967296 := lt_of_lt_of_le hs hwf.nsec
    have hnode := node_alloc st
      (block_write (block_write st0 s zero_sector)
        (node st ino p) (wr32 (st.disk (node st ino p)) k s))
      ino hwf p k s hmeta hpar hvalid hzero hfree hs32
      (fun x => by simp only [block_write, hdisk0])
    have hfm : (block_write (block_write st0 s zero_sector)
        (node st ino p) (wr32 (st.disk (node st ino p)) k s)).free_map
        = fun x => if x = s then true else st.free_map x := hfm0
    have hoom1 : (block_write (block_write st0 s zero_sector)
        (node st ino p) (wr32 (st.disk (node st ino p)) k s)).oom = false := hoom0
    have hn1 : (block_write (block_write st0 s zero_sector)
        (node st ino p) (wr32 (st.disk (node st ino p)) k s)).nsectors ≤ 4294967296 := by
      show st0.nsectors ≤ 4294967296
      rw [hn0]; exact hwf.nsec
    have hdisk1 : (block_write (block_write st0 s zero_sector)
        (node st ino p) (wr32 (st.disk (node st ino p)) k s)).disk ino
        = if ino = node st ino p then wr32 (st.disk (node st ino p)) k s
          else if ino = s then zero_sector else st.disk ino := by
      simp only [block_write, hdisk0]
    generalize (block_write (block_write st0 s zero_sector)
        (node st ino p) (wr32 (st.disk (node st ino p)) k s)) = st1
      at hnode hfm hoom1 hn1 hdisk1 ⊢
    have hs0 : s ≠ 0 := by
      intro h
      have := hwf.zero_used
      rw [← h, hfree] at this
      cases this
    have hsino : s ≠ ino := by
      intro h
      have := hwf.ino_used
      rw [← h, hfree] at this
      cases this
    have hold : ∀ q, valid_path q = true → node st ino q ≠ 0 → node st ino q ≠ s := by
      intro q hq hq0 heq
      have := hwf.used q hq hq0
      rw [heq, hfree] at this
      cases this
    refine ⟨⟨⟨?_, ?_⟩, hoom1, ?_, ?_, ?_, hn1⟩, ?_, Or.inr ⟨s, _, rfl, hs0, ?_⟩⟩
    · intro q hq hq0
      rw [hnode q (Or.inr hq)] at hq0 ⊢
      by_cases hqe : q = k :: p
      · rw [if_pos hqe]; exact hsino
      · rw [if_neg hqe] at hq0 ⊢
        exact hwf.layout.ne_ino q hq hq0
    · intro q1 q2 h1 h2 h10 heq
      rw [hnode q1 (Or.inr h1)] at h10 heq
      rw [hnode q2 (Or.inr h2)] at heq
      by_cases e1 : q1 = k :: p
      · by_cases e2 : q2 = k :: p
        · rw [e1, e2]
        · rw [if_pos e1, if_neg e2] at heq
          exact absurd heq.symm (hold q2 h2 (by rw [← heq]; exact hs0))
      · rw [if_neg e1] at h10 heq
        by_cases e2 : q2 = k :: p
        · rw [if_pos e2] at heq
          exact absurd heq (hold q1 h1 h10)
        · rw [if_neg e2] at heq
          exact hwf.layout.inj q1 q2 h1 h2 h10 heq
    · rw [hfm]
      show (if 0 = s then true else st.free_map 0) = true
      rw [if_neg (fun h => hs0 h.symm)]; exact hwf.zero_used
    · rw [hfm]
      show (if ino = s then true else st.free_map ino) = true
      rw [if_neg (fun h => hsino h.symm)]; exact hwf.ino_used
    · intro q hq hq0
      rw [hnode q (Or.inr hq)] at hq0 ⊢
      rw [hfm]
      show (if _ = s then true else st.free_map _) = true
      by_cases hqe : q = k :: p
      · rw [if_pos hqe, if_pos rfl]
      · rw [if_neg hqe] at hq0 ⊢
        rw [if_neg (hold q hq hq0)]
        exact hwf.used q hq hq0
    · apply disk_length_congr
      rw [hdisk1]
      by_cases hP : ino = node st ino p
      · rw [if_pos hP, ← hP]
        have hp : p = [] := by
          rcases meta_path_cases p hmeta with hp | hp
          · exact hp
          · rcases hpar with hp2 | hp2
            · exact hp2
            · exact absurd hP.symm (hwf.layout.ne_ino p hp hp2)
        subst hp
        have hk : k < 125 := by simpa [valid_path] using hvalid
        exact rd32_wr32_other _ _ _ _ (by omega)
      · rw [if_neg hP, if_neg (fun h => hsino h.symm)]
    · rw [hnode (k :: p) (Or.inr hvalid), if_pos rfl]

theorem read_data_block_present (st : FS) (s : Nat) (hoom : st.oom = false) (hs : s ≠ 0) :
    read_data_block st s = ⟨true, some (st.disk s), s, st⟩ := by
  unfold read_data_block block_read
  rw [if_pos hs]
  simp [hoom]

/-- One level of a handler, run with `allocate = true`. -/
theorem ensure_wf (st : FS) (ino : Nat) (hwf : WF st ino) (p : List Nat) (k : Nat)
    (hmeta : meta_path p = true) (hpar : p = [] ∨ node st ino p ≠ 0)
    (hvalid : valid_path (k :: p) = true)
    (res : Option (Nat × Sector)) (st1 : FS)
    (h : (if node st ino (k :: p) = 0 ∧ True then
        allocate_slot st (node st ino p) (st.disk (node st ino p)) k
      else (some (node st ino (k :: p), st.disk (node st ino p)), st)) = (res, st1)) :
    WF st1 ino ∧ disk_length st1 ino = disk_length st ino ∧
      (res = none ∨ ∃ s buf1, res = some (s, buf1) ∧ s ≠ 0 ∧ node st1 ino (k :: p) = s) := by
  by_cases hz : node st ino (k :: p) = 0
  · rw [if_pos ⟨hz, trivial⟩] at h
    exact allocate_slot_wf st ino hwf p k hmeta hpar hvalid hz res st1 h
  · rw [if_neg (fun h => hz h.1)] at h
    cases h
    exact ⟨hwf, rfl, Or.inr ⟨_, _, rfl, hz, rfl⟩⟩

/-- The last level of a handler, run with `allocate = true`: it always hands
back a result. -/
theorem last_level_wf (st : FS) (ino : Nat) (hwf : WF st ino) (p : List Nat) (k : Nat)
    (hmeta : meta_path p = true) (hpar : p = [] ∨ node st ino p ≠ 0)
    (hvalid : valid_path (k :: p) = true) :
    ∃ r, (if node st ino (k :: p) = 0 ∧ True then
        (match allocate_slot st (node st ino p) (st.disk (node st ino p)) k with
          | (none, st2) => some (⟨false, none, 0, st2⟩ : Lookup)
          | (some (sector, _), st2) => some (read_data_block st2 sector))
      else some (read_data_block st (node st ino (k :: p)))) = some r ∧
      WF r.st ino ∧ disk_length r.st ino = disk_length st ino ∧
      (r.ok = true → r.sector ≠ 0 ∧ r.sector = node r.st ino (k :: p) ∧
        r.block = some (r.st.disk r.sector)) := by
  by_cases hz : node st ino (k :: p) = 0
  · rw [if_pos ⟨hz, trivial⟩]
    cases ha : allocate_slot st (node st ino p) (st.disk (node st ino p)) k with
    | mk res st1 =>
      obtain ⟨h1, h2, h3⟩ := allocate_slot_wf st ino hwf p k hmeta hpar hvalid hz res st1 ha
      rcases h3 with h3 | ⟨s, buf1, h3, hs0, hs⟩
      · subst h3
        exact ⟨_, rfl, h1, h2, fun hok => by cases hok⟩
      · subst h3
        simp only
        rw [read_data_block_present st1 s h1.oom hs0]
        exact ⟨_, rfl, h1, h2, fun _ => ⟨hs0, hs.symm, rfl⟩⟩
  · rw [if_neg (fun h => hz h.1), read_data_block_present st _ hwf.oom hz]
    exact ⟨_, rfl, hwf, rfl, fun _ => ⟨hz, rfl, rfl⟩⟩

theorem sectors_at_lt (buf : Sector) (i : Nat) (h : i < 128) :
    sectors_at buf i = some (rd32 buf i) := by
  simp only [sectors_at, PTRS_PER_SECTOR_eq]; rw [if_pos h]

theorem handle_direct_block_wf (st : FS) (ino b : Nat) (hwf : WF st ino) (hb : b < 123) :
    ∃ r, handle_direct_block st ino b true = some r ∧
      WF r.st ino ∧ disk_length r.st ino = disk_length st ino ∧
      (r.ok = true → r.sector ≠ 0 ∧ r.sector = node r.st ino [b] ∧
        r.block = some (r.st.disk r.sector)) := by
  unfold handle_direct_block
  rw [if_neg (by simp [hwf.oom])]
  simp only [sectors_at_lt _ b (by omega)]
  exact last_level_wf st ino hwf [] b rfl (Or.inl rfl) (by simp [valid_path]; omega)

theorem handle_indirect_block_wf (st : FS) (ino b : Nat) (hwf : WF st ino) (hb1 : 123 ≤ b)
    (hb2 : b < 251) :
    ∃ r, handle_indirect_block st ino b true = some r ∧
      WF r.st ino ∧ disk_length r.st ino = disk_length st ino ∧
      (r.ok = true → r.sector ≠ 0 ∧ r.sector = node r.st ino [b - 123, 123] ∧
        r.block = some (r.st.disk r.sector)) := by
  unfold handle_indirect_block
  rw [calculate_indices_indirect b hb1 hb2]
  simp only [List.getElem?_cons_zero, List.getElem?_cons_succ]
  rw [if_neg (by simp [hwf.oom])]
  try dsimp only
  rw [sectors_at_lt _ 123 (by omega)]
  try dsimp only
  cases hfirst : (if rd32 (block_read st ino) 123 = 0 ∧ True then
      allocate_slot st ino (block_read st ino) 123
    else (some (rd32 (block_read st ino) 123, block_read st ino), st)) with
  | mk res st1 =>
    obtain ⟨hwf1, hlen1, hres⟩ := ensure_wf st ino hwf [] 123 rfl (Or.inl rfl) rfl res st1 hfirst
    rcases hres with hres | ⟨s, buf1, hres, hs0, hs⟩
    · subst hres
      exact ⟨_, rfl, hwf1, hlen1, fun hok => by cases hok⟩
    · subst hres
      try dsimp only
      rw [if_neg (by simp [hwf1.oom]), if_pos hs0]
      rw [sectors_at_lt _ (b - 123) (by omega)]
      try dsimp only
      subst hs
      unfold block_read
      rw [← node_cons st1 ino (b - 123) [123] (Or.inr hs0)]
      obtain ⟨r, h0, h1, h2, h3⟩ := last_level_wf st1 ino hwf1 [123] (b - 123) rfl (Or.inr hs0)
        (by simp [valid_path]; omega)
      exact ⟨r, h0, h1, h2.trans hlen1, h3⟩

theorem allocate_slot_none (st : FS) (parent : Nat) (buf : Sector) (idx : Nat) (st1 : FS)
    (hoom : st.oom = false) (h : allocate_slot st parent buf idx = (none, st1)) : st1 = st := by
  unfold allocate_slot at h
  cases hf : free_map_allocate st with
  | none => rw [hf] at h; cases h; rfl
  | some r =>
    obtain ⟨s, st0⟩ := r
    obtain ⟨_, _, hst0⟩ := free_map_allocate_spec st st0 s hf
    rw [hf] at h
    have hoom0 : st0.oom = false := by rw [hst0]; exact hoom
    simp only at h
    rw [if_neg (by rw [hoom0]; simp)] at h
    cases h

theorem allocate_slot_oom (st : FS) (parent : Nat) (buf : Sector) (idx : Nat)
    (hoom : st.oom = false) : (allocate_slot st parent buf idx).2.oom = false := by
  unfold allocate_slot
  cases hf : free_map_allocate st with
  | none => exact hoom
  | some r =>
    obtain ⟨s, st0⟩ := r
    obtain ⟨_, _, hst0⟩ := free_map_allocate_spec st st0 s hf
    have hoom0 : st0.oom = false := by rw [hst0]; exact hoom
    simp only
    rw [if_neg (by rw [hoom0]; simp)]
    exact hoom0

theorem handle_doubly_indirect_block_wf (st : FS) (ino b : Nat) (hwf : WF st ino)
    (hb1 : 251 ≤ b) (hb2 : b < 379) :
    ∃ r, handle_doubly_indirect_block st ino b true = some r ∧
      WF r.st ino ∧ disk_length r.st ino = disk_length st ino ∧
      (r.ok = true → r.sector ≠ 0 ∧ r.sector = node r.st ino [b - 251, 0, 124] ∧
        r.block = some (r.st.disk r.sector)) := by
  unfold handle_doubly_indirect_block
  rw [calculate_indices_doubly b hb1 (by omega)]
  simp only [List.getElem?_cons_zero, List.getElem?_cons_succ]
  rw [if_neg (by simp [hwf.oom])]
  try dsimp only
  rw [sectors_at_lt _ 124 (by omega)]
  try dsimp only
  cases hfirst : (if rd32 (block_read st ino) 124 = 0 ∧ True then
      allocate_slot st ino (block_read st ino) 124
    else (some (rd32 (block_read st ino) 124, block_read st ino), st)) with
  | mk res st1 =>
    obtain ⟨hwf1, hlen1, hres⟩ := ensure_wf st ino hwf [] 124 rfl (Or.inl rfl) rfl res st1 hfirst
    rcases hres with hres | ⟨s, buf1, hres, hs0, hs⟩
    · subst hres
      exact ⟨_, rfl, hwf1, hlen1, fun hok => by cases hok⟩
    · subst hres
      try dsimp only
      rw [if_neg (by simp [hwf1.oom]), if_pos hs0]
      rw [sectors_at_lt _ ((b - 251) / 128) (by omega)]
      try dsimp only
      subst hs
      have hq : (b - 251) / 128 = 0 := by omega
      rw [hq]
      unfold block_read
      rw [← node_cons st1 ino 0 [124] (Or.inr hs0)]
      cases hsecond : (if node st1 ino [0, 124] = 0 ∧ True then
          allocate_slot st1 (node st1 ino [124]) (st1.disk (node st1 ino [124])) 0
        else (some (node st1 ino [0, 124], st1.disk (node st1 ino [124])), st1)) with
      | mk res2 st2 =>
        obtain ⟨hwf2, hlen2, hres2⟩ := ensure_wf st1 ino hwf1 [124] 0 rfl (Or.inr hs0) rfl
          res2 st2 hsecond
        rcases hres2 with hres2 | ⟨s2, buf2, hres2, hs20, hs2⟩
        · subst hres2
          exact ⟨_, rfl, hwf2, hlen2.trans hlen1, fun hok => by cases hok⟩
        · subst hres2
          try dsimp only
          rw [if_neg (by simp [hwf2.oom]), if_pos ⟨hs0, hs20⟩]
          rw [sectors_at_lt _ (b - 251) (by omega)]
          try dsimp only
          subst hs2
          rw [← node_cons st2 ino (b - 251) [0, 124] (Or.inr hs20)]
          obtain ⟨r, h0, h1, h2, h3⟩ := last_level_wf st2 ino hwf2 [0, 124] (b - 251) rfl
            (Or.inr hs20) (by simp [valid_path]; omega)
          exact ⟨r, h0, h1, h2.trans (hlen2.trans hlen1), h3⟩

theorem handle_doubly_indirect_block_beyond_wf (st : FS) (ino b : Nat) (hwf : WF st ino)
    (hb1 : 379 ≤ b) (hb2 : b < 16635) (r : Lookup)
    (h : handle_doubly_indirect_block st ino b true = some r) :
    WF r.st ino ∧ disk_length r.st ino = disk_length st ino ∧ r.ok = false := by
  unfold handle_doubly_indirect_block at h
  rw [calculate_indices_doubly b (by omega) hb2] at h
  simp only [List.getElem?_cons_zero, List.getElem?_cons_succ] at h
  rw [if_neg (by simp [hwf.oom])] at h
  try dsimp only at h
  rw [sectors_at_lt _ 124 (by omega)] at h
  try dsimp only at h
  cases hfirst : (if rd32 (block_read st ino) 124 = 0 ∧ True then
      allocate_slot st ino (block_read st ino) 124
    else (some (rd32 (block_read st ino) 124, block_read st ino), st)) with
  | mk res st1 =>
    obtain ⟨hwf1, hlen1, hres⟩ := ensure_wf st ino hwf [] 124 rfl (Or.inl rfl) rfl res st1 hfirst
    rw [hfirst] at h
    rcases hres with hres | ⟨s, buf1, hres, hs0, hs⟩
    · subst hres
      try dsimp only at h
      cases h
      exact ⟨hwf1, hlen1, rfl⟩
    · subst hres
      try dsimp only at h
      rw [if_neg (by simp [hwf1.oom]), if_pos hs0] at h
      rw [sectors_at_lt _ ((b - 251) / 128) (by omega)] at h
      try dsimp only at h
      subst hs
      have hnone : ∀ buf : Sector, sectors_at buf (b - 251) = none := by
        intro buf
        simp only [sectors_at, PTRS_PER_SECTOR_eq]; rw [if_neg (by omega)]
      by_cases hc : rd32 (block_read st1 (node st1 ino [124])) ((b - 251) / 128) = 0
      · rw [if_pos ⟨hc, trivial⟩] at h
        have hoom2 := allocate_slot_oom st1 (node st1 ino [124])
          (block_read st1 (node st1 ino [124])) ((b - 251) / 128) hwf1.oom
        cases ha : allocate_slot st1 (node st1 ino [124])
            (block_read st1 (node st1 ino [124])) ((b - 251) / 128) with
        | mk res2 st2 =>
          rw [ha] at h hoom2
          cases res2 with
          | none =>
            have := allocate_slot_none st1 _ _ _ st2 hwf1.oom ha
            subst this
            try dsimp only at h
            cases h
            exact ⟨hwf1, hlen1, rfl⟩
          | some x =>
            obtain ⟨s2, buf2⟩ := x
            simp only at hoom2
            try dsimp only at h
            rw [if_neg (by simp [hoom2]), hnone] at h
            cases h
      · rw [if_neg (fun h => hc h.1)] at h
        try dsimp only at h
        rw [if_neg (by simp [hwf1.oom]), hnone] at h
        cases h

theorem block_path_valid (b : Nat) (hb : b < 379) :
    valid_path (block_path b) = true ∧ meta_path (block_path b) = false := by
  unfold block_path
  by_cases h1 : b < 123
  · rw [if_pos h1]
    refine ⟨by simp [valid_path]; omega, ?_⟩
    simp [meta_path]
    omega
  · rw [if_neg h1]
    by_cases h2 : b < 251
    · rw [if_pos h2]
      refine ⟨by simp [valid_path]; omega, ?_⟩
      simp [meta_path]
    · rw [if_neg h2]
      refine ⟨by simp [valid_path]; omega, ?_⟩
      simp [meta_path]

theorem get_data_block_alloc (st : FS) (ino : Nat) (o : Int) (hwf : WF st ino)
    (h0 : 0 ≤ o) (h1 : o < 194048) :
    ∃ r, get_data_block st ino o true = some r ∧
      WF r.st ino ∧ disk_length r.st ino = disk_length st ino ∧
      (r.ok = true → r.sector ≠ 0 ∧ r.sector = node r.st ino (block_path (o / 512).toNat) ∧
        r.block = some (r.st.disk r.sector)) := by
  unfold get_data_block
  rw [if_neg (by omega)]
  simp only [DIRECT_CNT_eq, PTRS_PER_SECTOR_eq, BLOCK_SECTOR_SIZE_eq, INDIRECT_CNT_eq]
  have hb : (o / ((512 : Nat) : Int)).toNat < 379 := by omega
  have hbe : (o / 512).toNat = (o / ((512 : Nat) : Int)).toNat := rfl
  rw [hbe]
  generalize (o / ((512 : Nat) : Int)).toNat = b at hb
  unfold block_path
  by_cases hd : b < 123
  · rw [if_pos hd, if_pos hd]
    exact handle_direct_block_wf st ino b hwf hd
  · rw [if_neg hd, if_neg hd]
    by_cases hi : b < 251
    · rw [if_pos (by omega), if_pos hi]
      exact handle_indirect_block_wf st ino b hwf (by omega) hi
    · rw [if_neg (by omega), if_pos (by omega), if_neg hi]
      exact handle_doubly_indirect_block_wf st ino b hwf (by omega) hb

theorem get_data_block_alloc_wf (st : FS) (ino : Nat) (o : Int) (r : Lookup) (hwf : WF st ino)
    (h : get_data_block st ino o true = some r) :
    WF r.st ino ∧ disk_length r.st ino = disk_length st ino ∧
      (r.ok = true → 0 ≤ o ∧ o < 194048 ∧ r.sector ≠ 0 ∧
        r.sector = node r.st ino (block_path (o / 512).toNat) ∧
        r.block = some (r.st.disk r.sector)) := by
  by_cases h0 : o < 0
  · unfold get_data_block at h
    rw [if_pos h0] at h
    cases h
  · by_cases h1 : o < 194048
    · obtain ⟨r1, hr1, h2, h3, h4⟩ := get_data_block_alloc st ino o hwf (by omega) h1
      rw [hr1] at h
      cases h
      exact ⟨h2, h3, fun hok => ⟨by omega, h1, h4 hok⟩⟩
    · have hnok := get_data_block_beyond st ino o true r (by omega) h
      unfold get_data_block at h
      rw [if_neg h0] at h
      simp only [DIRECT_CNT_eq, PTRS_PER_SECTOR_eq, BLOCK_SECTOR_SIZE_eq, INDIRECT_CNT_eq] at h
      have hb : 379 ≤ (o / ((512 : Nat) : Int)).toNat := by omega
      generalize (o / ((512 : Nat) : Int)).toNat = b at hb h
      rw [if_neg (by omega), if_neg (by omega)] at h
      by_cases hlim : b < 16635
      · rw [if_pos (by omega)] at h
        obtain ⟨h2, h3, _⟩ := handle_doubly_indirect_block_beyond_wf st ino b hwf hb hlim r h
        exact ⟨h2, h3, fun hok => by rw [hnok] at hok; cases hok⟩
      · rw [if_neg (by omega)] at h
        cases h
        exact ⟨hwf, rfl, fun hok => by cases hok⟩

/-! ## The length of an inode under writes -/

theorem inode_write_at_loop_wf (ino : Nat) (buffer : Nat → Nat) :
    ∀ (fuel : Nat) (st : FS) (size offset bw : Int) (res : Int × Int × FS),
      WF st ino → 0 ≤ offset →
      inode_write_at_loop fuel st ino buffer size offset bw = some res →
      WF res.2.2 ino ∧ disk_length res.2.2 ino = disk_length st ino ∧ offset ≤ res.2.1 := by
  intro fuel
  induction fuel with
  | zero =>
    intro st size offset bw res hwf h0 h
    rw [inode_write_at_loop] at h
    split at h
    · cases h
    · cases h; exact ⟨hwf, rfl, le_refl _⟩
  | succ n ih =>
    intro st size offset bw res hwf h0 h
    rw [inode_write_at_loop] at h
    by_cases hsz : size > 0
    · simp only [hsz, if_true] at h
      generalize (if (INODE_SPAN : Int) - offset
          < (BLOCK_SECTOR_SIZE : Int) - Int.tmod offset BLOCK_SECTOR_SIZE
        then (INODE_SPAN : Int) - offset
        else (BLOCK_SECTOR_SIZE : Int) - Int.tmod offset BLOCK_SECTOR_SIZE) = min_left at h
      generalize (if size < min_left then size else min_left) = chunk_size at h
      by_cases hc : chunk_size ≤ 0
      · simp only [hc, if_true] at h
        cases h; exact ⟨hwf, rfl, le_refl _⟩
      · simp only [hc, if_false] at h
        cases hg : get_data_block st ino offset true with
        | none => simp [hg] at h
        | some r =>
          obtain ⟨hwf1, hlen1, hok⟩ := get_data_block_alloc_wf st ino offset r hwf hg
          simp only [hg] at h
          by_cases hrok : r.ok = false
          · simp only [hrok, if_true] at h
            cases h; exact ⟨hwf1, hlen1, le_refl _⟩
          · simp only [hrok, if_false] at h
            have hrok1 : r.ok = true := by simpa using hrok
            obtain ⟨_, ho1, hs0, hs, hblk⟩ := hok hrok1
            rw [hblk] at h
            simp only at h
            have hb : (offset / 512).toNat < 379 := by omega
            obtain ⟨hv, hm⟩ := block_path_valid _ hb
            rw [hs] at hs0 h
            obtain ⟨hwf2, hlen2⟩ := data_write_wf r.st ino hwf1 _ hv hm hs0
              (fun k =>
                if (Int.tmod offset BLOCK_SECTOR_SIZE).toNat ≤ k ∧
                    k < (Int.tmod offset BLOCK_SECTOR_SIZE).toNat + chunk_size.toNat then
                  buffer (bw.toNat + (k - (Int.tmod offset BLOCK_SECTOR_SIZE).toNat))
                else r.st.disk (node r.st ino (block_path (offset / 512).toNat)) k)
            obtain ⟨h1, h2, h3⟩ := ih _ _ _ _ res hwf2 (by omega) h
            exact ⟨h1, h2.trans (hlen2.trans hlen1), by omega⟩
    · simp only [hsz, if_false] at h
      cases h; exact ⟨hwf, rfl, le_refl _⟩

theorem extend_file_loop_wf (ino : Nat) :
    ∀ (fuel : Nat) (st : FS) (length cur : Int) (res : Int × FS),
      WF st ino → 0 ≤ length →
      extend_file_loop fuel st ino length cur = some res →
      WF res.2 ino ∧ disk_length res.2 ino = disk_length st ino ∧
        (res.1 = cur ∨ (0 ≤ res.1 ∧ res.1 ≤ 194048)) := by
  intro fuel
  induction fuel with
  | zero =>
    intro st length cur res hwf h0 h
    rw [extend_file_loop] at h
    split at h
    · cases h
    · cases h; exact ⟨hwf, rfl, Or.inl rfl⟩
  | succ n ih =>
    intro st length cur res hwf h0 h
    rw [extend_file_loop] at h
    by_cases hlt : cur < length
    · simp only [hlt, if_true] at h
      generalize bytes_to_sectors cur = idx at h
      have hB : ((BLOCK_SECTOR_SIZE : Nat) : Int) = 512 := rfl
      rw [hB] at h
      cases hg : get_data_block st ino (idx * 512) true with
      | none => simp [hg] at h
      | some r =>
        obtain ⟨hwf1, hlen1, hok⟩ := get_data_block_alloc_wf st ino _ r hwf hg
        simp only [hg] at h
        by_cases hrok : r.ok = false
        · simp only [hrok, if_true] at h
          cases h; exact ⟨hwf1, hlen1, Or.inl rfl⟩
        · simp only [hrok, if_false] at h
          have hrok1 : r.ok = true := by simpa using hrok
          obtain ⟨ho0, ho1, _⟩ := hok hrok1
          obtain ⟨h1, h2, h3⟩ := ih _ _ _ res hwf1 h0 h
          refine ⟨h1, h2.trans hlen1, Or.inr ?_⟩
          rcases h3 with h3 | h3
          · rw [h3]
            split_ifs <;> omega
          · exact h3
    · simp only [hlt, if_false] at h
      cases h; exact ⟨hwf, rfl, Or.inl rfl⟩

theorem toInt32_of_small (c : Int) (h0 : 0 ≤ c) (h1 : c < 2147483648) :
    toInt32 (c % 4294967296).toNat = c := by
  unfold toInt32
  have h2 : (c % 4294967296).toNat % 4294967296 = c.toNat := by omega
  rw [h2, if_pos (by omega)]
  omega

theorem update_inode_length_length (st : FS) (ino : Nat) (c : Int) (st1 : FS)
    (hc : c = disk_length st ino ∨ (0 ≤ c ∧ c ≤ 194048))
    (h : update_inode_length st ino c = some st1) :
    disk_length st ino ≤ disk_length st1 ino ∧
      disk_length st1 ino ≤ max (disk_length st ino) 194048 := by
  unfold update_inode_length at h
  have hoom : st.oom = false := by
    cases ho : st.oom with
    | false => rfl
    | true => rw [inode_length_oom st ino ho] at h; cases h
  rw [inode_length_eq st ino hoom] at h
  simp only at h
  by_cases hgt : c > disk_length st ino
  · rw [if_pos hgt] at h
    cases h
    have hc1 : 0 ≤ c ∧ c ≤ 194048 := by
      rcases hc with hc | hc
      · omega
      · exact hc
    have hnew : disk_length (block_write st ino
        (wr32 (block_read st ino) 126 (c % 4294967296).toNat)) ino = c := by
      unfold disk_length
      simp only [block_write, block_read, if_true]
      rw [rd32_wr32_same _ _ _ (by omega), toInt32_of_small c hc1.1 (by omega)]
    rw [hnew]
    omega
  · rw [if_neg hgt] at h
    cases h
    omega

theorem update_inode_length_defined (st : FS) (ino : Nat) (c : Int) (hoom : st.oom = false) :
    ∃ st1, update_inode_length st ino c = some st1 := by
  unfold update_inode_length
  rw [inode_length_eq st ino hoom]
  simp only
  split
  · exact ⟨_, rfl⟩
  · exact ⟨_, rfl⟩

theorem extend_file_length (st : FS) (ino : Nat) (length : Int) (st1 : FS) (hwf : WF st ino)
    (h0 : 0 ≤ length) (h : extend_file st ino length = some st1) :
    disk_length st ino ≤ disk_length st1 ino ∧
      disk_length st1 ino ≤ max (disk_length st ino) 194048 := by
  unfold extend_file at h
  rw [inode_length_eq st ino hwf.oom] at h
  simp only at h
  by_cases hge : disk_length st ino ≥ length
  · rw [if_pos hge] at h
    cases h
    omega
  · rw [if_neg hge] at h
    cases hl : extend_file_loop (length - disk_length st ino).toNat st ino length
        (disk_length st ino) with
    | none => rw [hl] at h; cases h
    | some p =>
      obtain ⟨c, st2⟩ := p
      rw [hl] at h
      simp only at h
      obtain ⟨_, h2, h3⟩ := extend_file_loop_wf ino _ st length _ (c, st2) hwf h0 hl
      simp only at h2 h3
      have := update_inode_length_length st2 ino c st1 (by rw [h2]; exact h3) h
      rw [h2] at this
      exact this

theorem inode_write_at_length_bounds (st : FS) (inode : Inode) (buffer : Nat → Nat)
    (size offset : Int) (res : Int × FS) (hwf : WF st inode.sector) (hoff : 0 ≤ offset)
    (h : inode_write_at st inode buffer size offset = some res) :
    disk_length st inode.sector ≤ disk_length res.2 inode.sector ∧
      disk_length res.2 inode.sector ≤ max (disk_length st inode.sector) 194048 := by
  unfold inode_write_at at h
  by_cases hd : inode.deny_write_cnt ≠ 0
  · rw [if_pos hd] at h
    cases h
    simp only
    omega
  · rw [if_neg hd] at h
    cases hl : inode_write_at_loop size.toNat st inode.sector buffer size offset 0 with
    | none => rw [hl] at h; cases h
    | some p =>
      obtain ⟨bw, off1, st1⟩ := p
      rw [hl] at h
      simp only at h
      obtain ⟨h1, h2, h3⟩ := inode_write_at_loop_wf inode.sector buffer _ st size offset 0
        (bw, off1, st1) hwf hoff hl
      simp only at h1 h2 h3
      cases he : extend_file st1 inode.sector off1 with
      | none => rw [he] at h; cases h
      | some st2 =>
        rw [he] at h
        cases h
        have := extend_file_length st1 inode.sector off1 st2 h1 (by omega) he
        rw [h2] at this
        exact this

theorem inode_write_at_loop_defined (ino : Nat) (buffer : Nat → Nat) :
    ∀ (fuel : Nat) (st : FS) (size offset bw : Int),
      WF st ino → 0 ≤ offset → 0 ≤ size → offset + size ≤ 194048 → size.toNat ≤ fuel →
      ∃ res, inode_write_at_loop fuel st ino buffer size offset bw = some res ∧
        res.2.1 ≤ offset + size := by
  intro fuel
  induction fuel with
  | zero =>
    intro st size offset bw hwf h0 hs hend hf
    have : size = 0 := by omega
    subst this
    exact ⟨(bw, offset, st), by simp [inode_write_at_loop], by simp⟩
  | succ n ih =>
    intro st size offset bw hwf h0 hs hend hf
    rw [inode_write_at_loop]
    by_cases hsz : size > 0
    · have hmod : Int.tmod offset 512 = offset % 512 := Int.tmod_eq_emod h0 (by decide)
      have hB : ((BLOCK_SECTOR_SIZE : Nat) : Int) = 512 := rfl
      have hspan : ((INODE_SPAN : Nat) : Int) = 8517120 := rfl
      simp only [hsz, if_true, hB, hmod, hspan]
      generalize hm : (if (8517120 : Int) - offset < 512 - offset % 512 then 8517120 - offset
        else 512 - offset % 512) = min_left
      generalize hc : (if size < min_left then size else min_left) = chunk_size
      have hm1 : min_left = 512 - offset % 512 := by
        rw [← hm]; split_ifs <;> omega
      have hc1 : chunk_size = min size min_left := by
        rw [← hc]; split_ifs <;> omega
      have hc0 : ¬ chunk_size ≤ 0 := by omega
      simp only [hc0, if_false]
      obtain ⟨r, hr, hwf1, hlen1, hok⟩ := get_data_block_alloc st ino offset hwf h0 (by omega)
      simp only [hr]
      by_cases hrok : r.ok = false
      · simp only [hrok, if_true]
        exact ⟨_, rfl, by simp only; omega⟩
      · simp only [hrok, if_false]
        have hrok1 : r.ok = true := by simpa using hrok
        obtain ⟨hs0, hsec, hblk⟩ := hok hrok1
        rw [hblk]
        simp only
        have hb : (offset / 512).toNat < 379 := by omega
        obtain ⟨hv, hmp⟩ := block_path_valid _ hb
        rw [hsec] at hs0 ⊢
        obtain ⟨hwf2, _⟩ := data_write_wf r.st ino hwf1 _ hv hmp hs0
          (fun k =>
            if (offset % 512).toNat ≤ k ∧ k < (offset % 512).toNat + chunk_size.toNat then
              buffer (bw.toNat + (k - (offset % 512).toNat))
            else r.st.disk (node r.st ino (block_path (offset / 512).toNat)) k)
        obtain ⟨res, h1, h2⟩ := ih _ (size - chunk_size) (offset + chunk_size)
          (bw + chunk_size) hwf2 (by omega) (by omega) (by omega) (by omega)
        exact ⟨res, h1, by omega⟩
    · have : size = 0 := by omega
      subst this
      exact ⟨(bw, offset, st), by simp, by simp⟩

theorem extend_file_loop_defined (ino : Nat) :
    ∀ (fuel : Nat) (st : FS) (length cur : Int),
      WF st ino → 0 ≤ cur → length ≤ 193536 → (length - cur).toNat ≤ fuel →
      ∃ res, extend_file_loop fuel st ino length cur = some res := by
  intro fuel
  induction fuel with
  | zero =>
    intro st length cur hwf h0 hlen hf
    rw [extend_file_loop, if_neg (by omega)]
    exact ⟨_, rfl⟩
  | succ n ih =>
    intro st length cur hwf h0 hlen hf
    rw [extend_file_loop]
    by_cases hlt : cur < length
    · have hB : ((BLOCK_SECTOR_SIZE : Nat) : Int) = 512 := rfl
      have hidx : bytes_to_sectors cur = (cur + 511) / 512 := by
        unfold bytes_to_sectors
        rw [hB, Int.tdiv_eq_ediv (by omega) (by omega)]
        congr 1
        omega
      simp only [hlt, if_true, hB, hidx]
      generalize hi : (cur + 511) / 512 = idx
      have hi1 : cur ≤ idx * 512 := by omega
      have hi2 : idx * 512 ≤ cur + 511 := by omega
      obtain ⟨r, hr, hwf1, _, _⟩ := get_data_block_alloc st ino (idx * 512) hwf (by omega)
        (by omega)
      simp only [hr]
      by_cases hrok : r.ok = false
      · simp only [hrok, if_true]
        exact ⟨_, rfl⟩
      · simp only [hrok, if_false]
        apply ih _ _ _ hwf1
        · split_ifs <;> omega
        · exact hlen
        · split_ifs <;> omega
    · simp only [hlt, if_false]
      exact ⟨_, rfl⟩

theorem inode_write_at_defined (st : FS) (inode : Inode) (buffer : Nat → Nat)
    (size offset : Int) (hwf : WF st inode.sector) (hoff : 0 ≤ offset) (hsize : 0 ≤ size)
    (hend : offset + size ≤ 193536) (hL : 0 ≤ disk_length st inode.sector) :
    ∃ res, inode_write_at st inode buffer size offset = some res := by
  unfold inode_write_at
  by_cases hd : inode.deny_write_cnt ≠ 0
  · rw [if_pos hd]
    exact ⟨_, rfl⟩
  · rw [if_neg hd]
    obtain ⟨res, hl, hoff1⟩ := inode_write_at_loop_defined inode.sector buffer size.toNat st
      size offset 0 hwf hoff hsize (by omega) (le_refl _)
    obtain ⟨bw, off1, st1⟩ := res
    obtain ⟨h1, h2, h3⟩ := inode_write_at_loop_wf inode.sector buffer _ st size offset 0
      (bw, off1, st1) hwf hoff hl
    simp only at h1 h2 h3 hoff1
    rw [hl]
    simp only
    unfold extend_file
    rw [inode_length_eq st1 inode.sector h1.oom]
    simp only
    by_cases hge : disk_length st1 inode.sector ≥ off1
    · rw [if_pos hge]
      exact ⟨_, rfl⟩
    · rw [if_neg hge]
      obtain ⟨res2, hl2⟩ := extend_file_loop_defined inode.sector
        (off1 - disk_length st1 inode.sector).toNat st1 off1 (disk_length st1 inode.sector)
        h1 (by rw [h2]; exact hL) (by omega) (le_refl _)
      obtain ⟨c, st2⟩ := res2
      rw [hl2]
      simp only
      obtain ⟨hwf2, _, _⟩ := extend_file_loop_wf inode.sector _ st1 off1 _ (c, st2) h1
        (by omega) hl2
      obtain ⟨st3, h3⟩ := update_inode_length_defined st2 inode.sector c hwf2.oom
      rw [h3]
      exact ⟨_, rfl⟩

theorem node_blank (path : List Nat) (h : path ≠ []) : node blank_fs 5 path = 0 := by
  cases path with
  | nil => exact absurd rfl h
  | cons k p =>
    rw [node]
    split
    · rfl
    · rfl

theorem wf_blank : WF blank_fs 5 := by
  refine ⟨⟨?_, ?_⟩, rfl, rfl, rfl, ?_, by decide⟩
  · intro path hv hne
    exact absurd (node_blank path (by intro h; subst h; cases hv)) hne
  · intro p q hp _ hne
    exact absurd (node_blank p (by intro h; subst h; cases hp)) hne
  · intro path hv hne
    exact absurd (node_blank path (by intro h; subst h; cases hv)) hne

/-- The length under the writes that stay in the range of the lookups: for a
well-formed inode whose length is at most `INODE_SPAN`, every call of
`inode_write_at` with `offset ≥ 0` and `size ≥ 0` that hands back a state
leaves a length that is not smaller than before and at most `INODE_SPAN`; and
the call does hand back a state when the length is not negative and the
written range ends at or below block 378. -/
theorem inode_write_at_length_returned (st : FS) (inode : Inode) (buffer : Nat → Nat)
    (size offset : Int) (hwf : WF st inode.sector) (hoff : 0 ≤ offset) (hsize : 0 ≤ size)
    (hL : disk_length st inode.sector ≤ INODE_SPAN) :
    (∀ res, inode_write_at st inode buffer size offset = some res →
      disk_length st inode.sector ≤ disk_length res.2 inode.sector ∧
        disk_length res.2 inode.sector ≤ INODE_SPAN) ∧
    (0 ≤ disk_length st inode.sector → offset + size ≤ 193536 →
      ∃ res, inode_write_at st inode buffer size offset = some res) := by
  have hspan : ((INODE_SPAN : Nat) : Int) = 8517120 := rfl
  refine ⟨?_, fun h0 hend =>
    inode_write_at_defined st inode buffer size offset hwf hoff hsize hend h0⟩
  intro res h
  have := inode_write_at_length_bounds st inode buffer size offset res hwf hoff h
  rw [hspan] at hL ⊢
  omega

/-- On an empty inode of a device with ten free sectors, a write of size 0 at
offset `INODE_SPAN` returns 0 and leaves the length 5120, the ten blocks that
`extend_file` could allocate. -/
theorem inode_write_at_length_short_device :
    (inode_write_at blank_fs inode5 (as_buffer []) 0 8517120).map
        (fun r => (r.1, disk_length r.2 5)) = some (0, 5120) ∧
      ((∀ res, inode_write_at blank_fs inode5 (as_buffer []) 0 8517120 = some res →
        disk_length blank_fs inode5.sector ≤ disk_length res.2 inode5.sector ∧
          disk_length res.2 inode5.sector ≤ INODE_SPAN) ∧
      (0 ≤ disk_length blank_fs inode5.sector → (8517120 : Int) + 0 ≤ 193536 →
        ∃ res, inode_write_at blank_fs inode5 (as_buffer []) 0 8517120 = some res)) :=
  ⟨by decide, inode_write_at_length_returned blank_fs inode5 (as_buffer []) 0 8517120 wf_blank
    (by decide) (by decide) (by decide)⟩

/-- C14 (the code at the failing input): on a file of 194048 bytes with all
its 379 blocks, a length below `INODE_SPAN`, and free sectors at hand, the
write of 0 bytes at offset `INODE_SPAN` leaves defined behaviour: `extend_file`
asks for block 379, for which `calculate_indices` stores the third offset 128,
and `handle_doubly_indirect_block` indexes its 128-entry buffer with it.  The
write of the last byte of the span to an empty inode does the same with the
third offset 16383. -/
theorem inode_write_at_span_undefined :
    (disk_length span_fs 5, rd32 (span_fs.disk 5) 124, rd32 (span_fs.disk 262) 1,
        span_fs.free_map 392) = (194048, 262, 0, false) ∧
      ((INODE_SPAN : Int) = 8517120 ∧ bytes_to_sectors 194048 = 379) ∧
      calculate_indices 379 = [124, 1, 128] ∧
      (get_data_block span_fs 5 (379 * 512) true).isNone = true ∧
      (inode_write_at span_fs inode5 (as_buffer []) 0 8517120).isNone = true ∧
      calculate_indices 16634 = [124, 127, 16383] ∧
      (inode_write_at blank_fs inode5 (as_buffer [65]) 1 8517119).isNone = true := by
  decide

/-! ## Reading and writing inside a file without holes -/

theorem node_parent_ne_zero (st : FS) (ino k : Nat) (p : List Nat) (hp : p ≠ [])
    (h : node st ino (k :: p) ≠ 0) : node st ino p ≠ 0 := by
  intro h0
  rw [node, if_pos ⟨hp, h0⟩] at h
  exact h rfl

theorem get_data_block_present (st : FS) (ino : Nat) (o : Int) (allocate : Bool)
    (hoom : st.oom = false) (h0 : 0 ≤ o) (h1 : o < 194048)
    (hne : node st ino (block_path (o / 512).toNat) ≠ 0) :
    get_data_block st ino o allocate =
      some ⟨true, some (st.disk (node st ino (block_path (o / 512).toNat))),
        node st ino (block_path (o / 512).toNat), st⟩ := by
  unfold get_data_block
  rw [if_neg (by omega)]
  simp only [DIRECT_CNT_eq, PTRS_PER_SECTOR_eq, BLOCK_SECTOR_SIZE_eq, INDIRECT_CNT_eq]
  have hb : (o / ((512 : Nat) : Int)).toNat < 379 := by omega
  have hbe : (o / 512).toNat = (o / ((512 : Nat) : Int)).toNat := rfl
  rw [hbe] at hne ⊢
  generalize (o / ((512 : Nat) : Int)).toNat = b at hb hne
  by_cases hd : b < 123
  · have hbp : block_path b = [b] := by unfold block_path; rw [if_pos hd]
    rw [hbp] at hne ⊢
    rw [if_pos hd]
    unfold handle_direct_block
    rw [if_neg (by simp [hoom])]
    simp only [sectors_at_lt _ b (by omega)]
    have hn : node st ino [b] = rd32 (block_read st ino) b := node_cons_root st ino b
    rw [← hn, if_neg (fun h => hne h.1), read_data_block_present st _ hoom hne]
  · rw [if_neg hd]
    by_cases hi : b < 251
    · have hbp : block_path b = [b - 123, 123] := by
        unfold block_path; rw [if_neg hd, if_pos hi]
      rw [hbp] at hne ⊢
      rw [if_pos (by omega)]
      have hp := node_parent_ne_zero st ino (b - 123) [123] (by simp) hne
      unfold handle_indirect_block
      rw [calculate_indices_indirect b (by omega) hi]
      simp only [List.getElem?_cons_zero, List.getElem?_cons_succ]
      rw [if_neg (by simp [hoom])]
      try dsimp only
      rw [sectors_at_lt _ 123 (by omega)]
      try dsimp only
      have hn : node st ino [123] = rd32 (block_read st ino) 123 := node_cons_root st ino 123
      rw [← hn, if_neg (fun h => hp h.1)]
      try dsimp only
      rw [if_neg (by simp [hoom]), if_pos hp, sectors_at_lt _ (b - 123) (by omega)]
      try dsimp only
      unfold block_read
      rw [← node_cons st ino (b - 123) [123] (Or.inr hp), if_neg (fun h => hne h.1),
        read_data_block_present st _ hoom hne]
    · have hbp : block_path b = [b - 251, 0, 124] := by
        unfold block_path; rw [if_neg hd, if_neg hi]
      rw [hbp] at hne ⊢
      rw [if_neg (by omega), if_pos (by omega)]
      have hp := node_parent_ne_zero st ino (b - 251) [0, 124] (by simp) hne
      have hpp := node_parent_ne_zero st ino 0 [124] (by simp) hp
      unfold handle_doubly_indirect_block
      rw [calculate_indices_doubly b (by omega) (by omega)]
      simp only [List.getElem?_cons_zero, List.getElem?_cons_succ]
      rw [if_neg (by simp [hoom])]
      try dsimp only
      rw [sectors_at_lt _ 124 (by omega)]
      try dsimp only
      have hn : node st ino [124] = rd32 (block_read st ino) 124 := node_cons_root st ino 124
      rw [← hn, if_neg (fun h => hpp h.1)]
      try dsimp only
      have hq : (b - 251) / 128 = 0 := by omega
      rw [if_neg (by simp [hoom]), if_pos hpp, hq, sectors_at_lt _ 0 (by omega)]
      try dsimp only
      unfold block_read
      rw [← node_cons st ino 0 [124] (Or.inr hpp), if_neg (fun h => hp h.1)]
      try dsimp only
      rw [if_neg (by simp [hoom]), if_pos ⟨hpp, hp⟩, sectors_at_lt _ (b - 251) (by omega)]
      try dsimp only
      rw [← node_cons st ino (b - 251) [0, 124] (Or.inr hp), if_neg (fun h => hne h.1),
        read_data_block_present st _ hoom hne]

theorem file_byte_in_block (st : FS) (ino : Nat) (O i : Nat) (h : O % 512 + i < 512) :
    file_byte st ino (O + i) = st.disk (node st ino (block_path (O / 512))) (O % 512 + i) := by
  unfold file_byte
  have h1 : (O + i) / 512 = O / 512 := by omega
  have h2 : (O + i) % 512 = O % 512 + i := by omega
  rw [h1, h2]

theorem inode_read_at_loop_content (st : FS) (ino : Nat) (hnh : NoHoles st ino) :
    ∀ (fuel : Nat) (size : Int) (O : Nat) (bytes : List Nat),
      0 ≤ size → size.toNat ≤ fuel →
      inode_read_at_loop fuel st ino size (O : Int) bytes =
        some (bytes ++ (List.range (min size (max 0 (disk_length st ino - O))).toNat).map
          (fun i => file_byte st ino (O + i)), st) := by
  intro fuel
  induction fuel with
  | zero =>
    intro size O bytes hs hf
    have : size = 0 := by omega
    subst this
    simp [inode_read_at_loop]
  | succ fuel ih =>
    intro size O bytes hs hf
    rw [inode_read_at_loop]
    by_cases hsz : size > 0
    · have hmod : Int.tmod (O : Int) 512 = (O : Int) % 512 :=
        Int.tmod_eq_emod (by omega) (by decide)
      have hB : ((BLOCK_SECTOR_SIZE : Nat) : Int) = 512 := rfl
      simp only [hsz, if_true, hB, hmod, inode_length_eq st ino hnh.oom]
      have hL0 := hnh.nonneg
      have hL1 := hnh.small
      generalize hL : disk_length st ino = L at *
      generalize hm : (if L - (O : Int) < 512 - (O : Int) % 512 then L - (O : Int)
        else 512 - (O : Int) % 512) = min_left
      generalize hc : (if size < min_left then size else min_left) = chunk_size
      have hm1 : min_left = min (L - O) (512 - (O : Int) % 512) := by
        rw [← hm]; split_ifs <;> omega
      have hc1 : chunk_size = min size min_left := by
        rw [← hc]; split_ifs <;> omega
      by_cases hc0 : chunk_size ≤ 0
      · simp only [hc0, if_true]
        have : (min size (max 0 (L - (O : Int)))).toNat = 0 := by omega
        rw [this]
        simp
      · simp only [hc0, if_false]
        have hpres := hnh.present (O / 512) (by rw [hL]; omega)
        have hbo : ((O : Int) / 512).toNat = O / 512 := by omega
        have hg := get_data_block_present st ino (O : Int) false hnh.oom (by omega) (by omega)
          (by rw [hbo]; exact hpres)
        rw [hbo] at hg
        rw [hg]
        simp only [Bool.true_eq_false, if_false]
        have hoff : (O : Int) + chunk_size = ((O + chunk_size.toNat : Nat) : Int) := by
          push_cast; omega
        rw [hoff, ih (size - chunk_size) (O + chunk_size.toNat) _ (by omega) (by omega)]
        have hn : (min size (max 0 (L - (O : Int)))).toNat
            = chunk_size.toNat + (min (size - chunk_size)
              (max 0 (L - ((O + chunk_size.toNat : Nat) : Int)))).toNat := by
          push_cast; omega
        rw [hn, List.range_add, List.map_append, List.map_map, List.append_assoc]
        congr 3
        congr 1
        · apply List.map_congr_left
          intro i hi
          rw [List.mem_range] at hi
          have hso : ((O : Int) % 512).toNat = O % 512 := by omega
          rw [hso]
          exact (file_byte_in_block st ino O i (by omega)).symm
        · apply List.map_congr_left
          intro i _
          simp only [Function.comp_apply]
          congr 1
          omega
    · have : size = 0 := by omega
      subst this
      simp

theorem read_entry_content (st : FS) (ino : Nat) (hnh : NoHoles st ino) (k : Nat) :
    read_entry st ino k =
      if ((DIR_ENTRY_SIZE * k + DIR_ENTRY_SIZE : Nat) : Int) ≤ disk_length st ino then
        some ((List.range DIR_ENTRY_SIZE).map (fun i => file_byte st ino (DIR_ENTRY_SIZE * k + i)))
      else none := by
  unfold read_entry inode_read_at
  rw [inode_read_at_loop_content st ino hnh _ _ _ _ (by decide) (le_refl _)]
  simp only [DIR_ENTRY_SIZE, List.length_map, List.length_range, List.nil_append]
  have hL0 := hnh.nonneg
  generalize disk_length st ino = L at *
  generalize hn : (min ((20 : Nat) : Int) (max 0 (L - ((20 * k : Nat) : Int)))).toNat = n
  by_cases h : ((20 * k + 20 : Nat) : Int) ≤ L
  · have hn1 : n = 20 := by
      rw [← hn]; push_cast at h ⊢; omega
    subst hn1
    rw [if_pos h, if_pos rfl]
  · have hn1 : n ≠ 20 := by
      rw [← hn]; push_cast at h ⊢; omega
    rw [if_neg h, if_neg hn1]

theorem block_path_inj (b c : Nat) (hb : b < 379) (hc : c < 379)
    (h : block_path b = block_path c) : b = c := by
  unfold block_path at h
  split_ifs at h <;> simp at h <;> omega

theorem node_disk_congr (st st1 : FS) (ino : Nat) (h : st1.disk = st.disk) :
    ∀ path, node st1 ino path = node st ino path := by
  intro path
  induction path with
  | nil => rfl
  | cons k p ih => rw [node, node, ih, h]

theorem inode_write_at_loop_present (ino : Nat) (buf : Nat → Nat) :
    ∀ (fuel : Nat) (st : FS) (size : Int) (O bw : Nat),
      Layout st ino → NoHoles st ino → 0 ≤ size → (O : Int) + size ≤ disk_length st ino →
      size.toNat ≤ fuel →
      ∃ st2, inode_write_at_loop fuel st ino buf size (O : Int) (bw : Int)
          = some ((bw : Int) + size, (O : Int) + size, st2) ∧
        st2.free_map = st.free_map ∧ st2.open_inodes = st.open_inodes ∧ st2.oom = st.oom ∧
        st2.junk = st.junk ∧ st2.nsectors = st.nsectors ∧ st2.next_addr = st.next_addr ∧
        (∀ s, (∀ b : Nat, (b : Int) * 512 < disk_length st ino →
          node st ino (block_path b) ≠ s) → st2.disk s = st.disk s) ∧
        (∀ pos : Nat, (pos : Int) < disk_length st ino →
          st2.disk (node st ino (block_path (pos / 512))) (pos % 512) =
            if O ≤ pos ∧ (pos : Int) < (O : Int) + size then buf (bw + (pos - O))
            else st.disk (node st ino (block_path (pos / 512))) (pos % 512)) := by
  intro fuel
  induction fuel with
  | zero =>
    intro st size O bw hl hnh hs hend hf
    have : size = 0 := by omega
    subst this
    refine ⟨st, by simp [inode_write_at_loop], rfl, rfl, rfl, rfl, rfl, rfl, fun _ _ => rfl, ?_⟩
    intro pos _
    rw [if_neg (by omega)]
  | succ fuel ih =>
    intro st size O bw hl hnh hs hend hf
    rw [inode_write_at_loop]
    by_cases hsz : size > 0
    · have hmod : Int.tmod (O : Int) 512 = (O : Int) % 512 :=
        Int.tmod_eq_emod (by omega) (by decide)
      have hB : ((BLOCK_SECTOR_SIZE : Nat) : Int) = 512 := rfl
      have hspan : ((INODE_SPAN : Nat) : Int) = 8517120 := rfl
      simp only [hsz, if_true, hB, hmod, hspan]
      have hL1 := hnh.small
      have hpresent := hnh.present
      generalize hL : disk_length st ino = L at *
      generalize hm : (if (8517120 : Int) - (O : Int) < 512 - (O : Int) % 512
        then 8517120 - (O : Int) else 512 - (O : Int) % 512) = min_left
      generalize hc : (if size < min_left then size else min_left) = chunk_size
      have hm1 : min_left = 512 - (O : Int) % 512 := by
        rw [← hm]; split_ifs <;> omega
      have hc1 : chunk_size = min size min_left := by
        rw [← hc]; split_ifs <;> omega
      have hc0 : ¬ chunk_size ≤ 0 := by omega
      simp only [hc0, if_false]
      have hpres := hpresent (O / 512) (by omega)
      have hbo : ((O : Int) / 512).toNat = O / 512 := by omega
      have hg := get_data_block_present st ino (O : Int) true hnh.oom (by omega) (by omega)
        (by rw [hbo]; exact hpres)
      rw [hbo] at hg
      rw [hg]
      simp only [Bool.true_eq_false, if_false]
      have hso : ((O : Int) % 512).toNat = O % 512 := by omega
      rw [hso]
      obtain ⟨hv, hmp⟩ := block_path_valid (O / 512) (by omega)
      generalize hblk : (fun k =>
          if O % 512 ≤ k ∧ k < O % 512 + chunk_size.toNat then
            buf ((bw : Int).toNat + (k - O % 512))
          else st.disk (node st ino (block_path (O / 512))) k) = block1
      have hnode := data_write_node st ino hl _ hv hmp hpres block1
      have hnode_bp : ∀ b : Nat, b < 379 →
          node (block_write st (node st ino (block_path (O / 512))) block1) ino
            (block_path b) = node st ino (block_path b) :=
        fun b hb => hnode _ (Or.inr (block_path_valid b hb).1)
      have hino : node st ino (block_path (O / 512)) ≠ ino := hl.ne_ino _ hv hpres
      have hlen1 : disk_length (block_write st (node st ino (block_path (O / 512))) block1)
          ino = L := by
        rw [← hL]
        apply disk_length_congr
        simp only [block_write]
        rw [if_neg (fun h => hino h.symm)]
      have hl1 : Layout (block_write st (node st ino (block_path (O / 512))) block1) ino :=
        layout_of_node_eq st _ ino hl hnode
      have hnh1 : NoHoles (block_write st (node st ino (block_path (O / 512))) block1) ino := by
        refine ⟨hnh.oom, by rw [hlen1]; omega, by rw [hlen1]; exact hL1, ?_⟩
        intro b hb
        rw [hlen1] at hb
        rw [hnode_bp b (by omega)]
        exact hpresent b hb
      have hoff : (O : Int) + chunk_size = ((O + chunk_size.toNat : Nat) : Int) := by
        push_cast; omega
      have hbw : (bw : Int) + chunk_size = ((bw + chunk_size.toNat : Nat) : Int) := by
        push_cast; omega
      rw [hoff, hbw]
      obtain ⟨st2, h1, h2, h3, h4, h5, h6, h7, h8, h9⟩ := ih
        (block_write st (node st ino (block_path (O / 512))) block1) (size - chunk_size)
        (O + chunk_size.toNat) (bw + chunk_size.toNat) hl1 hnh1 (by omega)
        (by rw [hlen1]; push_cast; omega) (by omega)
      rw [hlen1] at h8 h9
      refine ⟨st2, ?_, h2, h3, h4, h5, h6, h7, ?_, ?_⟩
      · rw [h1]
        congr 2
        · push_cast; omega
        · congr 1
          push_cast; omega
      · intro s hs
        rw [h8 s (fun b hb => by rw [hnode_bp b (by omega)]; exact hs b hb)]
        simp only [block_write]
        rw [if_neg (fun h => hs (O / 512) (by omega) h.symm)]
      · intro pos hpos
        have h9p := h9 pos hpos
        rw [hnode_bp _ (by omega)] at h9p
        rw [h9p]
        simp only [block_write]
        by_cases hsame : pos / 512 = O / 512
        · rw [hsame, if_pos rfl, ← hblk]
          simp only [Int.toNat_ofNat]
          by_cases hin : O ≤ pos ∧ (pos : Int) < (O : Int) + size
          · rw [if_pos hin]
            by_cases hin2 : O + chunk_size.toNat ≤ pos
            · rw [if_pos ⟨hin2, by push_cast; omega⟩]
              congr 1
              omega
            · rw [if_neg (fun h => hin2 h.1), if_pos ⟨by omega, by omega⟩]
              congr 1
              omega
          · rw [if_neg hin, if_neg (by push_cast; omega), if_neg (by omega)]
        · have hne : node st ino (block_path (pos / 512))
              ≠ node st ino (block_path (O / 512)) := by
            intro heq
            have hpv := block_path_valid (pos / 512) (by omega)
            have := hl.inj _ _ hpv.1 hv (hpresent (pos / 512) (by omega)) heq
            exact hsame (block_path_inj _ _ (by omega) (by omega) this)
          rw [if_neg hne]
          by_cases hin : O ≤ pos ∧ (pos : Int) < (O : Int) + size
          · rw [if_pos hin, if_pos ⟨by omega, by push_cast; omega⟩]
            congr 1
            omega
          · rw [if_neg hin, if_neg (by push_cast; omega)]
    · have : size = 0 := by omega
      subst this
      refine ⟨st, by simp, rfl, rfl, rfl, rfl, rfl, rfl, fun _ _ => rfl, ?_⟩
      intro pos _
      rw [if_neg (by omega)]

/-! ## Reads depend on the device only -/

theorem same_disk_refl (st : FS) : SameDisk st st := ⟨rfl, rfl, rfl⟩

theorem same_disk_trans {a b c : FS} (h1 : SameDisk a b) (h2 : SameDisk b c) : SameDisk a c :=
  ⟨h2.disk.trans h1.disk, h2.oom.trans h1.oom, h2.junk.trans h1.junk⟩

theorem read_data_block_congr (st st1 : FS) (h : SameDisk st st1) (s : Nat) :
    read_data_block st1 s = { read_data_block st s with st := st1 } := by
  unfold read_data_block block_read
  rw [h.oom, h.disk]
  split_ifs <;> rfl

theorem handle_direct_block_congr (st st1 : FS) (h : SameDisk st st1) (ino b : Nat) :
    handle_direct_block st1 ino b false =
      (handle_direct_block st ino b false).map (fun r => { r with st := st1 }) := by
  unfold handle_direct_block block_read
  rw [h.oom, h.disk]
  simp only [Bool.false_eq_true, and_false, if_false]
  split_ifs
  · rfl
  · cases sectors_at (st.disk ino) b with
    | none => rfl
    | some s => simp only [Option.map_some', read_data_block_congr st st1 h]

theorem handle_indirect_block_congr (st st1 : FS) (h : SameDisk st st1) (ino b : Nat) :
    handle_indirect_block st1 ino b false =
      (handle_indirect_block st ino b false).map (fun r => { r with st := st1 }) := by
  unfold handle_indirect_block block_read
  generalize calculate_indices (b : Int) = offs
  simp only [Bool.false_eq_true, and_false, if_false, h.oom, h.disk, h.junk]
  cases offs[0]? with
  | none => rfl
  | some i0 =>
    cases offs[1]? with
    | none => rfl
    | some i1 =>
      simp only
      split_ifs
      · rfl
      · cases sectors_at (st.disk ino) i0 with
        | none => rfl
        | some s =>
          simp only
          split_ifs
          · cases sectors_at (st.disk s) i1 with
            | none => rfl
            | some s2 => simp only [Option.map_some', read_data_block_congr st st1 h]
          · cases sectors_at st.junk i1 with
            | none => rfl
            | some s2 => simp only [Option.map_some', read_data_block_congr st st1 h]

theorem handle_doubly_indirect_block_congr (st st1 : FS) (h : SameDisk st st1) (ino b : Nat) :
    handle_doubly_indirect_block st1 ino b false =
      (handle_doubly_indirect_block st ino b false).map (fun r => { r with st := st1 }) := by
  unfold handle_doubly_indirect_block block_read
  generalize calculate_indices (b : Int) = offs
  simp only [Bool.false_eq_true, and_false, if_false, h.oom, h.disk, h.junk]
  cases offs[0]? with
  | none => rfl
  | some i0 =>
    cases offs[1]? with
    | none => rfl
    | some i1 =>
      cases offs[2]? with
      | none => rfl
      | some i2 =>
        simp only
        split_ifs
        · rfl
        · cases sectors_at (st.disk ino) i0 with
          | none => rfl
          | some s =>
            simp only
            generalize (if s ≠ 0 then st.disk s else st.junk) = buf2
            cases sectors_at buf2 i1 with
            | none => rfl
            | some s2 =>
              simp only
              generalize (if s ≠ 0 ∧ s2 ≠ 0 then st.disk s2 else st.junk) = buf3
              cases sectors_at buf3 i2 with
              | none => rfl
              | some s3 => simp only [Option.map_some', read_data_block_congr st st1 h]

theorem get_data_block_congr (st st1 : FS) (h : SameDisk st st1) (ino : Nat) (o : Int) :
    get_data_block st1 ino o false =
      (get_data_block st ino o false).map (fun r => { r with st := st1 }) := by
  unfold get_data_block
  by_cases h0 : o < 0
  · rw [if_pos h0, if_pos h0]; rfl
  · rw [if_neg h0, if_neg h0]
    simp only
    generalize (o / (BLOCK_SECTOR_SIZE : Int)).toNat = b
    by_cases h1 : b < DIRECT_CNT
    · rw [if_pos h1, if_pos h1]
      exact handle_direct_block_congr st st1 h ino _
    · rw [if_neg h1, if_neg h1]
      by_cases h2 : b < DIRECT_CNT + PTRS_PER_SECTOR * INDIRECT_CNT
      · rw [if_pos h2, if_pos h2]
        exact handle_indirect_block_congr st st1 h ino _
      · rw [if_neg h2, if_neg h2]
        by_cases h3 : b < DIRECT_CNT + PTRS_PER_SECTOR * INDIRECT_CNT
            + PTRS_PER_SECTOR * PTRS_PER_SECTOR * INDIRECT_CNT
        · rw [if_pos h3, if_pos h3]
          exact handle_doubly_indirect_block_congr st st1 h ino _
        · rw [if_neg h3, if_neg h3]
          rfl

theorem inode_read_at_loop_congr (st st1 : FS) (h : SameDisk st st1) (ino : Nat) :
    ∀ (fuel : Nat) (size offset : Int) (bytes : List Nat),
      (inode_read_at_loop fuel st1 ino size offset bytes).map (fun r => r.1) =
        (inode_read_at_loop fuel st ino size offset bytes).map (fun r => r.1) := by
  have hlen : disk_length st1 ino = disk_length st ino := by
    unfold disk_length block_read; rw [h.disk]
  intro fuel
  induction fuel with
  | zero =>
    intro size offset bytes
    rw [inode_read_at_loop, inode_read_at_loop]
    split_ifs <;> rfl
  | succ fuel ih =>
    intro size offset bytes
    have hil : inode_length st1 ino = inode_length st ino := by
      unfold inode_length
      rw [h.oom, hlen]
    rw [inode_read_at_loop, inode_read_at_loop, hil]
    by_cases hsz : size > 0
    · simp only [hsz, if_true]
      cases inode_length st ino with
      | none => rfl
      | some L =>
        simp only
        generalize (if L - offset
            < (BLOCK_SECTOR_SIZE : Int) - Int.tmod offset BLOCK_SECTOR_SIZE
          then L - offset
          else (BLOCK_SECTOR_SIZE : Int) - Int.tmod offset BLOCK_SECTOR_SIZE) = min_left
        generalize (if size < min_left then size else min_left) = chunk_size
        by_cases hc : chunk_size ≤ 0
        · simp only [hc, if_true, Option.map_some']
        · simp only [hc, if_false]
          rw [get_data_block_congr st st1 h]
          cases hg : get_data_block st ino offset false with
          | none => rfl
          | some r =>
            have hrst := get_data_block_read_st _ _ _ _ hg
            simp only [Option.map_some']
            by_cases hrok : r.ok = false
            · simp only [hrok, if_true, Option.map_some']
            · simp only [hrok, if_false, hrst]
              exact ih _ _ _
    · simp only [hsz, if_false, Option.map_some']

theorem read_entry_congr (st st1 : FS) (h : SameDisk st st1) (ino k : Nat) :
    read_entry st1 ino k = read_entry st ino k := by
  have := inode_read_at_loop_congr st st1 h ino (DIR_ENTRY_SIZE : Int).toNat DIR_ENTRY_SIZE
    ((DIR_ENTRY_SIZE * k : Nat) : Int) []
  unfold read_entry inode_read_at
  cases h1 : inode_read_at_loop (DIR_ENTRY_SIZE : Int).toNat st1 ino DIR_ENTRY_SIZE
      ((DIR_ENTRY_SIZE * k : Nat) : Int) [] with
  | none =>
    rw [h1] at this
    cases h2 : inode_read_at_loop (DIR_ENTRY_SIZE : Int).toNat st ino DIR_ENTRY_SIZE
        ((DIR_ENTRY_SIZE * k : Nat) : Int) [] with
    | none => rfl
    | some r2 => rw [h2] at this; cases this
  | some r1 =>
    rw [h1] at this
    cases h2 : inode_read_at_loop (DIR_ENTRY_SIZE : Int).toNat st ino DIR_ENTRY_SIZE
        ((DIR_ENTRY_SIZE * k : Nat) : Int) [] with
    | none => rw [h2] at this; cases this
    | some r2 =>
      rw [h2] at this
      simp only [Option.map_some', Option.some.injEq] at this
      obtain ⟨e1, s1⟩ := r1
      obtain ⟨e2, s2⟩ := r2
      simp only at this
      subst this
      rfl

/-! ## The open-inode table during `dir_remove` -/

theorem deref_of_mem_nodup {st : FS} (hn : (st.open_inodes.map (fun i => i.addr)).Nodup)
    {i : Inode} (hi : i ∈ st.open_inodes) : deref st i.addr = some i := by
  unfold deref
  cases hf : st.open_inodes.find? (fun j => decide (j.addr = i.addr)) with
  | none =>
    have := List.find?_eq_none.mp hf i hi
    simp at this
  | some j =>
    have hj := List.mem_of_find?_eq_some hf
    have hp := List.find?_some hf
    simp only [decide_eq_true_eq] at hp
    rw [eq_of_addr_eq hn hj hi hp]

theorem inode_open_same (st : FS) (sector : Nat) : SameDisk st (inode_open st sector).2 := by
  unfold inode_open
  cases find_open_inode st sector with
  | some i => exact ⟨rfl, rfl, rfl⟩
  | none =>
    simp only [create_new_inode]
    split <;> exact ⟨rfl, rfl, rfl⟩

/-- What `inode_open` hands back when memory allocation succeeds. -/
theorem inode_open_spec (st : FS) (sector : Nat) (htab : TableUnique st)
    (hoom : st.oom = false) :
    ∃ a i st2, inode_open st sector = (some a, st2) ∧ deref st2 a = some i ∧
      i.sector = sector ∧ i.addr = a ∧ TableUnique st2 ∧
      ((∃ i0, find_open_inode st sector = some i0 ∧ i = { i0 with open_cnt := i0.open_cnt + 1 } ∧
          st2 = modify_inode st a (fun j => { j with open_cnt := j.open_cnt + 1 })) ∨
        (find_open_inode st sector = none ∧ i.open_cnt = 1 ∧ i.removed = false ∧
          st2.open_inodes = i :: st.open_inodes ∧ a = st.next_addr)) := by
  unfold inode_open
  cases hf : find_open_inode st sector with
  | some i0 =>
    have hmem : i0 ∈ st.open_inodes := List.mem_of_find?_eq_some hf
    have hsec : i0.sector = sector := by simpa using List.find?_some hf
    have hkey : ∀ (p : Inode → Nat), (∀ i : Inode, p { i with open_cnt := i.open_cnt + 1 } = p i) →
        (st.open_inodes.map (fun i => if i.addr = i0.addr then
          { i with open_cnt := i.open_cnt + 1 } else i)).map p = st.open_inodes.map p := by
      intro p hp
      rw [List.map_map]
      apply List.map_congr_left
      intro i _
      simp only [Function.comp]
      split <;> simp [hp]
    refine ⟨i0.addr, { i0 with open_cnt := i0.open_cnt + 1 }, _, rfl, ?_, hsec, rfl, ?_,
      Or.inl ⟨i0, rfl, rfl, rfl⟩⟩
    · rw [deref_modify_inode st i0.addr (fun j => { j with open_cnt := j.open_cnt + 1 })
        (fun _ => rfl), deref_of_mem_nodup htab.addrs hmem]
      rfl
    · refine ⟨?_, ?_, ?_, ?_⟩
      · simp only [modify_inode]; rw [hkey (fun i => i.sector) (fun _ => rfl)]; exact htab.sectors
      · simp only [modify_inode]; rw [hkey (fun i => i.addr) (fun _ => rfl)]; exact htab.addrs
      · intro i hi
        simp only [modify_inode, List.mem_map] at hi
        obtain ⟨j, hj, rfl⟩ := hi
        have := htab.counts j hj
        split
        · simp only; omega
        · exact this
      · intro i hi
        simp only [modify_inode, List.mem_map] at hi
        obtain ⟨j, hj, rfl⟩ := hi
        have := htab.fresh j hj
        split
        · exact this
        · exact this
  | none =>
    have hne : ∀ i ∈ st.open_inodes, i.sector ≠ sector := by
      intro i hi
      have := List.find?_eq_none.mp hf i hi
      simpa using this
    have hcre : create_new_inode st sector = (some st.next_addr,
        { st with
          open_inodes := ((⟨st.next_addr, sector, 1, false, 0, 0⟩ : Inode) :: st.open_inodes)
          next_addr := (st.next_addr + 1) }) := by
      simp only [create_new_inode, hoom, Bool.false_eq_true, if_false]
    simp only
    rw [hcre]
    refine ⟨st.next_addr, (⟨st.next_addr, sector, 1, false, 0, 0⟩ : Inode), _, rfl, ?_, rfl,
      rfl, ?_, Or.inr ⟨trivial, rfl, rfl, rfl, rfl⟩⟩
    · simp [deref]
    · refine ⟨?_, ?_, ?_, ?_⟩
      · simp only [List.map_cons, List.nodup_cons, List.mem_map, not_exists, not_and]
        exact ⟨fun i hi => hne i hi, htab.sectors⟩
      · simp only [List.map_cons, List.nodup_cons, List.mem_map, not_exists, not_and]
        exact ⟨fun i hi h => by have := htab.fresh i hi; omega, htab.addrs⟩
      · intro i hi
        simp only [List.mem_cons] at hi
        rcases hi with rfl | hi
        · simp
        · exact htab.counts i hi
      · intro i hi
        simp only [List.mem_cons] at hi
        rcases hi with rfl | hi
        · simp
        · have := htab.fresh i hi
          simp only
          omega

theorem free_map_release_same (st : FS) (s : Nat) :
    SameDisk st (free_map_release st s) ∧
      (free_map_release st s).open_inodes = st.open_inodes := ⟨⟨rfl, rfl, rfl⟩, rfl⟩

theorem foldl_release_same (l : List Nat) : ∀ (st : FS),
    SameDisk st (l.foldl free_map_release st) ∧
      (l.foldl free_map_release st).open_inodes = st.open_inodes := by
  induction l with
  | nil => intro st; exact ⟨⟨rfl, rfl, rfl⟩, rfl⟩
  | cons x l ih =>
    intro st
    rw [List.foldl_cons]
    obtain ⟨h1, h2⟩ := ih (free_map_release st x)
    exact ⟨same_disk_trans (free_map_release_same st x).1 h1, h2⟩

theorem deallocate_direct_same (buffer : Sector) : ∀ (n i : Nat) (st : FS),
    SameDisk st (deallocate_direct buffer n i st).2 ∧
      (deallocate_direct buffer n i st).2.open_inodes = st.open_inodes := by
  intro n
  induction n with
  | zero => intro i st; exact ⟨⟨rfl, rfl, rfl⟩, rfl⟩
  | succ n ih =>
    intro i st
    rw [deallocate_direct]
    split
    · exact ⟨⟨rfl, rfl, rfl⟩, rfl⟩
    · obtain ⟨h1, h2⟩ := ih (i + 1) (free_map_release st (rd32 buffer i))
      exact ⟨same_disk_trans (free_map_release_same st _).1 h1, h2⟩

theorem deallocate_recursive_same (st : FS) (sector : Nat) (level : Int)
    (hoom : st.oom = false) :
    ∃ st1, deallocate_recursive st sector level = some st1 ∧ SameDisk st st1 ∧
      st1.open_inodes = st.open_inodes := by
  unfold deallocate_recursive
  by_cases h2 : level = 2
  · rw [if_pos h2, if_neg (by simp [hoom])]
    refine ⟨_, rfl, ?_⟩
    have key : ∀ (l : List Nat) (acc : FS),
        SameDisk acc (l.foldl (fun acc entry =>
          free_map_release ((entries_until_zero (block_read acc entry)).foldl
            free_map_release acc) entry) acc) ∧
        (l.foldl (fun acc entry =>
          free_map_release ((entries_until_zero (block_read acc entry)).foldl
            free_map_release acc) entry) acc).open_inodes = acc.open_inodes := by
      intro l
      induction l with
      | nil => intro acc; exact ⟨⟨rfl, rfl, rfl⟩, rfl⟩
      | cons x l ih =>
        intro acc
        rw [List.foldl_cons]
        obtain ⟨h1, h2⟩ := ih (free_map_release ((entries_until_zero
          (block_read acc x)).foldl free_map_release acc) x)
        obtain ⟨h3, h4⟩ := foldl_release_same (entries_until_zero (block_read acc x)) acc
        exact ⟨same_disk_trans (same_disk_trans h3 (free_map_release_same _ x).1) h1,
          h2.trans h4⟩
    obtain ⟨h1, h2⟩ := key (entries_until_zero (block_read st sector)) st
    exact ⟨same_disk_trans h1 (free_map_release_same _ sector).1, h2⟩
  · rw [if_neg h2]
    by_cases h1 : level = 1
    · rw [if_pos h1, if_neg (by simp [hoom])]
      obtain ⟨h3, h4⟩ := foldl_release_same (entries_until_zero (block_read st sector)) st
      exact ⟨_, rfl, same_disk_trans h3 (free_map_release_same _ sector).1, h4⟩
    · rw [if_neg h1]
      split
      · exact ⟨_, rfl, ⟨rfl, rfl, rfl⟩, rfl⟩
      · exact ⟨_, rfl, ⟨rfl, rfl, rfl⟩, rfl⟩

theorem deallocate_inode_same (st : FS) (sector : Nat) (hoom : st.oom = false) :
    ∃ st1, deallocate_inode st sector = some st1 ∧ SameDisk st st1 ∧
      st1.open_inodes = st.open_inodes := by
  unfold deallocate_inode
  rw [if_neg (by simp [hoom])]
  simp only
  obtain ⟨hd1, hd2⟩ := deallocate_direct_same (block_read st sector) DIRECT_CNT 0 st
  cases hd : deallocate_direct (block_read st sector) DIRECT_CNT 0 st with
  | mk flag st1 =>
    rw [hd] at hd1 hd2
    simp only at hd1 hd2
    cases flag with
    | false => exact ⟨_, rfl, hd1, hd2⟩
    | true =>
      simp only
      obtain ⟨st2, hr1, hs1, ho1⟩ := deallocate_recursive_same st1
        (rd32 (block_read st sector) DIRECT_CNT) 1 (by rw [hd1.oom]; exact hoom)
      rw [hr1]
      simp only
      obtain ⟨st3, hr2, hs2, ho2⟩ := deallocate_recursive_same st2
        (rd32 (block_read st sector) (DIRECT_CNT + 1)) 2
        (by rw [hs1.oom, hd1.oom]; exact hoom)
      rw [hr2]
      exact ⟨_, rfl, same_disk_trans (same_disk_trans (same_disk_trans hd1 hs1) hs2)
        (free_map_release_same st3 sector).1, ho2.trans (ho1.trans hd2)⟩

/-! ## Writing one entry of a directory -/

theorem same_disk_node (st st1 : FS) (h : SameDisk st st1) (ino : Nat) (path : List Nat) :
    node st1 ino path = node st ino path := node_disk_congr st st1 ino h.disk path

theorem same_disk_length (st st1 : FS) (h : SameDisk st st1) (ino : Nat) :
    disk_length st1 ino = disk_length st ino := by
  unfold disk_length block_read; rw [h.disk]

theorem same_disk_layout (st st1 : FS) (h : SameDisk st st1) (ino : Nat) (hl : Layout st ino) :
    Layout st1 ino :=
  layout_of_node_eq st st1 ino hl (fun path _ => same_disk_node st st1 h ino path)

theorem same_disk_no_holes (st st1 : FS) (h : SameDisk st st1) (ino : Nat)
    (hnh : NoHoles st ino) : NoHoles st1 ino := by
  refine ⟨by rw [h.oom]; exact hnh.oom, by rw [same_disk_length st st1 h]; exact hnh.nonneg,
    by rw [same_disk_length st st1 h]; exact hnh.small, ?_⟩
  intro b hb
  rw [same_disk_length st st1 h] at hb
  rw [same_disk_node st st1 h]
  exact hnh.present b hb

theorem same_disk_file_byte (st st1 : FS) (h : SameDisk st st1) (ino pos : Nat) :
    file_byte st1 ino pos = file_byte st ino pos := by
  unfold file_byte
  rw [same_disk_node st st1 h, h.disk]

theorem inode_write_at_present (st : FS) (inode : Inode) (buf : Nat → Nat) (size : Int)
    (O : Nat) (hl : Layout st inode.sector) (hnh : NoHoles st inode.sector)
    (hdeny : inode.deny_write_cnt = 0) (hs : 0 ≤ size)
    (hend : (O : Int) + size ≤ disk_length st inode.sector) :
    ∃ st2, inode_write_at st inode buf size (O : Int) = some (size, st2) ∧
      st2.open_inodes = st.open_inodes ∧ st2.next_addr = st.next_addr ∧
      st2.free_map = st.free_map ∧ st2.oom = st.oom ∧ st2.junk = st.junk ∧
      st2.nsectors = st.nsectors ∧
      Layout st2 inode.sector ∧ NoHoles st2 inode.sector ∧
      disk_length st2 inode.sector = disk_length st inode.sector ∧
      (∀ pos : Nat, (pos : Int) < disk_length st inode.sector →
        file_byte st2 inode.sector pos =
          if O ≤ pos ∧ (pos : Int) < (O : Int) + size then buf (pos - O)
          else file_byte st inode.sector pos) := by
  obtain ⟨st2, h1, h2, h3, h4, h5, h6, h7, h8, h9⟩ :=
    inode_write_at_loop_present inode.sector buf size.toNat st size O 0 hl hnh hs hend
      (le_refl _)
  have hdata : ∀ (q : List Nat), meta_path q = true → (q = [] ∨ node st inode.sector q ≠ 0) →
      ∀ b : Nat, (b : Int) * 512 < disk_length st inode.sector →
        node st inode.sector (block_path b) ≠ node st inode.sector q := by
    intro q hq hq0 b hb heq
    have hLs := hnh.small
    obtain ⟨hv, hm⟩ := block_path_valid b (by omega)
    have hne := hnh.present b hb
    rcases meta_path_cases q hq with hq1 | hq1
    · subst hq1
      exact hl.ne_ino _ hv hne heq
    · have := hl.inj _ _ hv hq1 hne heq
      rw [this, hq] at hm
      cases hm
  have hnode : ∀ path, (path = [] ∨ valid_path path = true) →
      node st2 inode.sector path = node st inode.sector path :=
    node_congr st st2 inode.sector (fun q hq hq0 => h8 _ (hdata q hq hq0))
  have hlen : disk_length st2 inode.sector = disk_length st inode.sector := by
    apply disk_length_congr
    rw [h8 inode.sector (hdata [] rfl (Or.inl rfl))]
  have hnode_bp : ∀ b : Nat, b < 379 →
      node st2 inode.sector (block_path b) = node st inode.sector (block_path b) :=
    fun b hb => hnode _ (Or.inr (block_path_valid b hb).1)
  refine ⟨st2, ?_, h3, h7, h2, h4, h5, h6, layout_of_node_eq st st2 _ hl hnode, ?_, hlen, ?_⟩
  · unfold inode_write_at
    rw [if_neg (by simp [hdeny])]
    have h1' : inode_write_at_loop size.toNat st inode.sector buf size (O : Int) 0
        = some (size, (O : Int) + size, st2) := by
      have h0 : ((0 : Nat) : Int) + size = size := by simp
      rw [h0] at h1
      exact h1
    rw [h1']
    simp only
    unfold extend_file
    rw [inode_length_eq st2 inode.sector (by rw [h4]; exact hnh.oom)]
    simp only
    rw [if_pos (by rw [hlen]; exact hend)]
  · refine ⟨by rw [h4]; exact hnh.oom, by rw [hlen]; exact hnh.nonneg,
      by rw [hlen]; exact hnh.small, ?_⟩
    intro b hb
    rw [hlen] at hb
    have hLs := hnh.small
    rw [hnode_bp b (by omega)]
    exact hnh.present b hb
  · intro pos hpos
    have hLs := hnh.small
    unfold file_byte
    rw [hnode_bp _ (by omega), h9 pos hpos]
    simp only [Nat.zero_add]

theorem read_entry_after_write (st st2 : FS) (ino m : Nat) (e1 : List Nat)
    (hnh : NoHoles st ino) (hnh2 : NoHoles st2 ino)
    (hlen : disk_length st2 ino = disk_length st ino) (he1 : e1.length = DIR_ENTRY_SIZE)
    (hm : ((DIR_ENTRY_SIZE * m + DIR_ENTRY_SIZE : Nat) : Int) ≤ disk_length st ino)
    (hbytes : ∀ pos : Nat, (pos : Int) < disk_length st ino →
      file_byte st2 ino pos =
        if DIR_ENTRY_SIZE * m ≤ pos ∧
            (pos : Int) < ((DIR_ENTRY_SIZE * m : Nat) : Int) + (DIR_ENTRY_SIZE : Int) then
          as_buffer e1 (pos - DIR_ENTRY_SIZE * m)
        else file_byte st ino pos) :
    read_entry st2 ino m = some e1 ∧
      ∀ k, k ≠ m → read_entry st2 ino k = read_entry st ino k := by
  simp only [DIR_ENTRY_SIZE] at he1 hm hbytes
  constructor
  · rw [read_entry_content st2 ino hnh2, hlen]
    simp only [DIR_ENTRY_SIZE]
    rw [if_pos hm]
    congr 1
    apply List.ext_getElem
    · simp [he1]
    · intro i h1 h2
      simp only [List.length_map, List.length_range] at h1
      simp only [List.getElem_map, List.getElem_range]
      rw [hbytes (20 * m + i) (by push_cast at hm ⊢; omega),
        if_pos ⟨by omega, by push_cast; omega⟩]
      unfold as_buffer
      have : 20 * m + i - 20 * m = i := by omega
      rw [this, List.getD_eq_getElem _ _ h2]
  · intro k hk
    rw [read_entry_content st2 ino hnh2, read_entry_content st ino hnh, hlen]
    simp only [DIR_ENTRY_SIZE]
    by_cases hkL : ((20 * k + 20 : Nat) : Int) ≤ disk_length st ino
    · rw [if_pos hkL, if_pos hkL]
      congr 1
      apply List.map_congr_left
      intro i hi
      rw [List.mem_range] at hi
      rw [hbytes (20 * k + i) (by push_cast at hkL ⊢; omega), if_neg]
      intro h
      have h1 := h.1
      have h2 := h.2
      push_cast at h2
      omega
    · rw [if_neg hkL, if_neg hkL]

theorem lookup_loop_first (st : FS) (ino : Nat) (name : List Nat) (m : Nat) (e : List Nat)
    (hm : read_entry st ino m = some e) (huse : entry_in_use e = true)
    (hname : name_matches name e = true)
    (hbefore : ∀ i, i < m → ∃ e1, read_entry st ino i = some e1 ∧
      ¬ (entry_in_use e1 = true ∧ name_matches name e1 = true)) :
    ∀ (fuel j : Nat), j ≤ m → m - j < fuel →
      lookup_loop fuel st ino name (DIR_ENTRY_SIZE * j)
        = some (some (e, DIR_ENTRY_SIZE * m), st) := by
  intro fuel
  induction fuel with
  | zero => intro j _ h; omega
  | succ fuel ih =>
    intro j hj hf
    rw [lookup_loop]
    by_cases hjm : j = m
    · subst hjm
      obtain ⟨h1, h2, _⟩ := read_entry_some _ _ _ _ hm
      simp only [h1, h2, huse, hname, and_self, if_true]
    · obtain ⟨e1, he1, hnot⟩ := hbefore j (by omega)
      obtain ⟨h1, h2, _⟩ := read_entry_some _ _ _ _ he1
      simp only [h1, h2, if_true]
      rw [if_neg hnot]
      have := ih (j + 1) (by omega) (by omega)
      simpa [Nat.mul_add] using this

theorem lookup_loop_absent (st : FS) (ino : Nat) (name : List Nat) (n : Nat)
    (hbefore : ∀ i, i < n → ∃ e1, read_entry st ino i = some e1 ∧
      ¬ (entry_in_use e1 = true ∧ name_matches name e1 = true))
    (hend : ∃ bytes, inode_read_at st ino DIR_ENTRY_SIZE ((DIR_ENTRY_SIZE * n : Nat) : Int)
      = some (bytes, st) ∧ bytes.length ≠ DIR_ENTRY_SIZE) :
    ∀ (fuel j : Nat), j ≤ n → n - j < fuel →
      lookup_loop fuel st ino name (DIR_ENTRY_SIZE * j) = some (none, st) := by
  intro fuel
  induction fuel with
  | zero => intro j _ h; omega
  | succ fuel ih =>
    intro j hj hf
    rw [lookup_loop]
    by_cases hjn : j = n
    · subst hjn
      obtain ⟨bytes, h1, h2⟩ := hend
      simp only [h1, h2, if_false]
    · obtain ⟨e1, he1, hnot⟩ := hbefore j (by omega)
      obtain ⟨h1, h2, _⟩ := read_entry_some _ _ _ _ he1
      simp only [h1, h2, if_true]
      rw [if_neg hnot]
      have := ih (j + 1) (by omega) (by omega)
      simpa [Nat.mul_add] using this

/-- The reads of whole entries in a file whose length is in the range of the
lookups: entry `k` is read whole exactly when it ends at or below the length,
and a read that starts later is short. -/
theorem read_entry_defined (st : FS) (ino : Nat) (hoom : st.oom = false)
    (hL0 : 0 ≤ disk_length st ino) (hL1 : disk_length st ino ≤ 194048) (k : Nat) :
    (((DIR_ENTRY_SIZE * k + DIR_ENTRY_SIZE : Nat) : Int) ≤ disk_length st ino →
      ∃ e, read_entry st ino k = some e) ∧
    (¬ ((DIR_ENTRY_SIZE * k + DIR_ENTRY_SIZE : Nat) : Int) ≤ disk_length st ino →
      ∃ bytes, inode_read_at st ino DIR_ENTRY_SIZE ((DIR_ENTRY_SIZE * k : Nat) : Int)
        = some (bytes, st) ∧ bytes.length ≠ DIR_ENTRY_SIZE) := by
  obtain ⟨out, h1, h2⟩ := inode_read_at_loop_exact st ino hoom (20 : Int).toNat 20
    ((DIR_ENTRY_SIZE * k : Nat) : Int) [] (by positivity) (by decide) (le_refl _)
    (fun o ho1 ho2 ho3 => get_data_block_read_ok st ino o hoom (by omega) (by omega))
  have hr : inode_read_at st ino DIR_ENTRY_SIZE ((DIR_ENTRY_SIZE * k : Nat) : Int)
      = some (out, st) := by
    simpa [inode_read_at, DIR_ENTRY_SIZE] using h1
  simp only [DIR_ENTRY_SIZE] at h2 hr ⊢
  constructor
  · intro hk
    have hlen : out.length = 20 := by push_cast at hk h2; omega
    exact ⟨out, by simp only [read_entry, DIR_ENTRY_SIZE, hr, hlen, if_true]⟩
  · intro hk
    exact ⟨out, hr, by push_cast at hk h2; omega⟩

theorem lookup_absent (st : FS) (dir : Dir) (name : List Nat) (hoom : st.oom = false)
    (hL0 : 0 ≤ disk_length st dir.inode.sector)
    (hL1 : disk_length st dir.inode.sector ≤ 194048)
    (habs : ∀ k e, read_entry st dir.inode.sector k = some e →
      ¬ (entry_in_use e = true ∧ name_matches name e = true)) :
    lookup st dir name = some (none, st) := by
  unfold lookup
  have hdef := read_entry_defined st dir.inode.sector hoom hL0 hL1
  generalize hL : disk_length st dir.inode.sector = L at *
  have hn : ∃ n : Nat, (n : Int) = L / 20 := ⟨(L / 20).toNat, by omega⟩
  obtain ⟨n, hn⟩ := hn
  have := lookup_loop_absent st dir.inode.sector name n
    (fun i hi => by
      obtain ⟨e1, he1⟩ := (hdef i).1 (by simp only [DIR_ENTRY_SIZE]; push_cast; omega)
      exact ⟨e1, he1, habs i e1 he1⟩)
    ((hdef n).2 (by simp only [DIR_ENTRY_SIZE]; push_cast; omega))
    (L.toNat + 1) 0 (Nat.zero_le _) (by omega)
  simpa using this

theorem lookup_first (st : FS) (dir : Dir) (name : List Nat) (m : Nat) (e : List Nat)
    (hoom : st.oom = false) (hL1 : disk_length st dir.inode.sector ≤ 194048)
    (hm : read_entry st dir.inode.sector m = some e) (huse : entry_in_use e = true)
    (hname : name_matches name e = true)
    (hbefore : ∀ k e1, k < m → read_entry st dir.inode.sector k = some e1 →
      ¬ (entry_in_use e1 = true ∧ name_matches name e1 = true)) :
    lookup st dir name = some (some (e, DIR_ENTRY_SIZE * m), st) := by
  unfold lookup
  obtain ⟨_, _, hmL⟩ := read_entry_some _ _ _ _ hm
  have hL0 : 0 ≤ disk_length st dir.inode.sector := by
    have : (0 : Int) ≤ ((DIR_ENTRY_SIZE * m + DIR_ENTRY_SIZE : Nat) : Int) := by positivity
    omega
  have hdef := read_entry_defined st dir.inode.sector hoom hL0 hL1
  have := lookup_loop_first st dir.inode.sector name m e hm huse hname
    (fun i hi => by
      obtain ⟨e1, he1⟩ := (hdef i).1 (by
        simp only [DIR_ENTRY_SIZE] at hmL ⊢; push_cast at hmL ⊢; omega)
      exact ⟨e1, he1, hbefore i e1 hi he1⟩)
    ((disk_length st dir.inode.sector).toNat + 1) 0 (Nat.zero_le _)
    (by simp only [DIR_ENTRY_SIZE] at hmL; push_cast at hmL; omega)
  simpa using this

theorem count_in_use_loop_spec (st : FS) (t : Nat) (hoom : st.oom = false)
    (hL0 : 0 ≤ disk_length st t) (hL1 : disk_length st t ≤ 194048) :
    ∀ (fuel j : Nat) (c : Int), j ≤ (disk_length st t / DIR_ENTRY_SIZE).toNat →
      (disk_length st t / DIR_ENTRY_SIZE).toNat - j < fuel →
      count_in_use_loop fuel st t ((DIR_ENTRY_SIZE * j : Nat) : Int) c =
        some (c + ((List.range' j ((disk_length st t / DIR_ENTRY_SIZE).toNat - j)).countP
          (fun k => match read_entry st t k with
            | some e => entry_in_use e
            | none => false) : Nat), st) := by
  have hdef := read_entry_defined st t hoom hL0 hL1
  generalize hn : (disk_length st t / (DIR_ENTRY_SIZE : Int)).toNat = n
  have hnL : ∀ k : Nat, ((DIR_ENTRY_SIZE * k + DIR_ENTRY_SIZE : Nat) : Int) ≤ disk_length st t
      ↔ k < n := by
    intro k
    rw [← hn]
    simp only [DIR_ENTRY_SIZE]
    push_cast
    omega
  intro fuel
  induction fuel with
  | zero => intro j c _ h; omega
  | succ fuel ih =>
    intro j c hj hf
    rw [count_in_use_loop]
    by_cases hjn : j = n
    · subst hjn
      obtain ⟨bytes, h1, h2⟩ := (hdef j).2 (by rw [hnL]; omega)
      simp only [h1, h2, if_false]
      simp
    · obtain ⟨e1, he1⟩ := (hdef j).1 (by rw [hnL]; omega)
      obtain ⟨h1, h2, _⟩ := read_entry_some _ _ _ _ he1
      simp only [h1, h2, if_true]
      have hpos : (((DIR_ENTRY_SIZE * j : Nat) : Int) + (DIR_ENTRY_SIZE : Int))
          = ((DIR_ENTRY_SIZE * (j + 1) : Nat) : Int) := by
        push_cast; ring
      rw [hpos, ih (j + 1) _ (by omega) (by omega)]
      have hlen : n - j = (n - (j + 1)) + 1 := by omega
      rw [hlen, List.range'_succ, List.countP_cons, he1]
      simp only
      congr 2
      by_cases hu : entry_in_use e1 = true
      · simp only [hu, if_true]
        push_cast
        ring
      · simp only [hu, if_false]
        simp

theorem clear_in_use_length (e : List Nat) (h : e.length = DIR_ENTRY_SIZE) :
    (clear_in_use e).length = DIR_ENTRY_SIZE := by
  simp only [DIR_ENTRY_SIZE] at h
  simp [clear_in_use, DIR_ENTRY_SIZE, h]

theorem clear_in_use_not_in_use (e : List Nat) (h : e.length = DIR_ENTRY_SIZE) :
    entry_in_use (clear_in_use e) = false := by
  simp only [DIR_ENTRY_SIZE] at h
  have h19 : (e.take 19).length = 19 := by simp [h]
  unfold entry_in_use clear_in_use
  rw [List.append_assoc, List.getD_append_right _ _ _ _ (by omega), h19]
  simp

theorem is_removable_directory_spec (st : FS) (a : Nat) (i : Inode)
    (hd : deref st a = some i) (hoom : st.oom = false)
    (hL0 : 0 ≤ disk_length st i.sector) (hL1 : disk_length st i.sector ≤ 194048) :
    is_removable_directory st a =
      some (decide (¬ i.open_cnt > 1 ∧ dir_in_use_count st i.sector ≤ 2), st) := by
  unfold is_removable_directory
  rw [hd]
  simp only
  by_cases hc : i.open_cnt > 1
  · rw [if_pos hc]
    simp [hc]
  · rw [if_neg hc]
    have := count_in_use_loop_spec st i.sector hoom hL0 hL1
      ((disk_length st i.sector).toNat + 1) 0 0 (Nat.zero_le _)
      (by simp only [DIR_ENTRY_SIZE]; omega)
    simp only [Nat.mul_zero, Nat.cast_zero, Nat.sub_zero, zero_add] at this
    rw [this]
    simp only
    have hcount : (List.range' 0 (disk_length st i.sector / (DIR_ENTRY_SIZE : Int)).toNat).countP
        (fun k => match read_entry st i.sector k with
          | some e => entry_in_use e
          | none => false) = dir_in_use_count st i.sector := by
      unfold dir_in_use_count
      rw [List.countP_eq_length_filter, List.range_eq_range']
    rw [hcount]
    congr 2
    simp only [hc, not_false_eq_true, true_and, decide_eq_decide]
    omega

theorem inode_get_type_spec (st : FS) (s : Nat) (hoom : st.oom = false) :
    inode_get_type st s = some (rd32 (st.disk s) 125) := by
  unfold inode_get_type block_read
  rw [if_neg (by simp [hoom])]

/-- The end of `dir_remove` after a successful entry write: `inode_remove`
and `inode_close` on the target. -/
theorem remove_and_close (st4 : FS) (a : Nat) (i : Inode) (hd : deref st4 a = some i)
    (hsec : (st4.open_inodes.map (fun j => j.sector)).Nodup) (hoom : st4.oom = false) :
    ∃ st5 st6, inode_remove st4 a = some st5 ∧ inode_close st5 (some a) = some st6 ∧
      SameDisk st4 st6 ∧
      (∀ j ∈ st6.open_inodes, j.sector = i.sector → j.removed = true) ∧
      (1 < i.open_cnt → ∃ j ∈ st6.open_inodes, j.sector = i.sector) := by
  obtain ⟨hmem, haddr⟩ := mem_of_deref hd
  have hd5 : deref (modify_inode st4 a (fun j => { j with removed := true })) a
      = some { i with removed := true } := by
    rw [deref_modify_inode st4 a (fun j => { j with removed := true }) (fun _ => rfl), hd]
    rfl
  have hprop5 : ∀ j ∈ (modify_inode st4 a (fun j => { j with removed := true })).open_inodes,
      j.sector = i.sector → j.removed = true := by
    intro j hj hjs
    simp only [modify_inode, List.mem_map] at hj
    obtain ⟨j0, hj0, rfl⟩ := hj
    by_cases hja : j0.addr = a
    · rw [if_pos hja]
    · rw [if_neg hja] at hjs
      have := eq_of_sector_eq hsec hj0 hmem hjs
      rw [this] at hja
      exact absurd haddr hja
  have hrem : inode_remove st4 a
      = some (modify_inode st4 a (fun j => { j with removed := true })) := by
    unfold inode_remove
    rw [hd]
  refine ⟨modify_inode st4 a (fun j => { j with removed := true }), ?_⟩
  by_cases hc : i.open_cnt - 1 > 0
  · have hclose : inode_close (modify_inode st4 a (fun j => { j with removed := true }))
        (some a) = some (modify_inode (modify_inode st4 a
          (fun j => { j with removed := true })) a
          (fun j => { j with open_cnt := j.open_cnt - 1 })) := by
      unfold inode_close
      simp only [hd5]
      rw [if_pos hc]
    have hd6 : deref (modify_inode (modify_inode st4 a (fun j => { j with removed := true })) a
        (fun j => { j with open_cnt := j.open_cnt - 1 })) a
        = some { i with removed := true, open_cnt := i.open_cnt - 1 } := by
      rw [deref_modify_inode _ a (fun j => { j with open_cnt := j.open_cnt - 1 })
        (fun _ => rfl), hd5]
      rfl
    refine ⟨_, hrem, hclose, ⟨rfl, rfl, rfl⟩, ?_, fun _ => ⟨_, (mem_of_deref hd6).1, rfl⟩⟩
    intro j hj hjs
    simp only [modify_inode, List.mem_map] at hj
    obtain ⟨j1, ⟨j0, hj0, rfl⟩, rfl⟩ := hj
    have h5 := hprop5 (if j0.addr = a then { j0 with removed := true } else j0)
      (by simp only [modify_inode, List.mem_map]; exact ⟨j0, hj0, rfl⟩)
    by_cases hja : j0.addr = a
    · simp only [hja, if_true] at hjs h5 ⊢
    · simp only [hja, if_false] at hjs h5 ⊢
      exact h5 hjs
  · obtain ⟨st6, h1, h2, h3⟩ := deallocate_inode_same
      { modify_inode st4 a (fun j => { j with removed := true }) with
        open_inodes := (modify_inode st4 a (fun j => { j with removed := true })).open_inodes.filter
          (fun j => j.addr ≠ a) } i.sector hoom
    have hclose : inode_close (modify_inode st4 a (fun j => { j with removed := true }))
        (some a) = some st6 := by
      unfold inode_close
      simp only [hd5]
      rw [if_neg hc]
      simp only [if_true]
      exact h1
    refine ⟨st6, hrem, hclose, ⟨h2.disk, h2.oom, h2.junk⟩, ?_, fun h => absurd h (by omega)⟩
    intro j hj hjs
    rw [h3] at hj
    exact hprop5 j (List.mem_of_mem_filter hj) hjs

theorem dir_remove_file_trace (st : FS) (dir : Dir) (name : List Nat) (m : Nat) (e : List Nat)
    (hl : Layout st dir.inode.sector) (hnh : NoHoles st dir.inode.sector)
    (htab : TableUnique st) (hdeny : dir.inode.deny_write_cnt = 0)
    (hnotdot : ¬ (name = [46] ∨ name = [46, 46]))
    (hm : read_entry st dir.inode.sector m = some e) (huse : entry_in_use e = true)
    (hname : name_matches name e = true)
    (hbefore : ∀ k e1, k < m → read_entry st dir.inode.sector k = some e1 →
      ¬ (entry_in_use e1 = true ∧ name_matches name e1 = true))
    (hfile : rd32 (st.disk (entry_inode_sector e)) 125 ≠ DIR_INODE) :
    ∃ st1, dir_remove st dir name = some (true, st1) ∧
      NoHoles st1 dir.inode.sector ∧
      read_entry st1 dir.inode.sector m = some (clear_in_use e) ∧
      (∀ k, k ≠ m → read_entry st1 dir.inode.sector k = read_entry st dir.inode.sector k) ∧
      (∀ j ∈ st1.open_inodes, j.sector = entry_inode_sector e → j.removed = true) ∧
      (find_open_inode st (entry_inode_sector e) ≠ none →
        ∃ j ∈ st1.open_inodes, j.sector = entry_inode_sector e) := by
  obtain ⟨_, helen, hmL⟩ := read_entry_some _ _ _ _ hm
  have hlook := lookup_first st dir name m e hnh.oom hnh.small hm huse hname hbefore
  obtain ⟨a, i, st2, hopen, hderef, hisec, _, htab2, hcases⟩ :=
    inode_open_spec st (entry_inode_sector e) htab hnh.oom
  have hsame2 : SameDisk st st2 := by
    have := inode_open_same st (entry_inode_sector e)
    rw [hopen] at this
    exact this
  have hoom2 : st2.oom = false := by rw [hsame2.oom]; exact hnh.oom
  have htype : inode_get_type st2 i.sector
      = some (rd32 (st.disk (entry_inode_sector e)) 125) := by
    rw [inode_get_type_spec st2 i.sector hoom2, hisec, hsame2.disk]
  obtain ⟨st4, hw, hw_open, _, _, hw_oom, _, _, hl4, hnh4, hlen4, hbytes⟩ :=
    inode_write_at_present st2 dir.inode (as_buffer (clear_in_use e)) (DIR_ENTRY_SIZE : Int)
      (DIR_ENTRY_SIZE * m) (same_disk_layout st st2 hsame2 _ hl)
      (same_disk_no_holes st st2 hsame2 _ hnh) hdeny (by decide)
      (by rw [same_disk_length st st2 hsame2]; push_cast at hmL ⊢; exact hmL)
  have hd4 : deref st4 a = some i := by
    unfold deref at hderef ⊢
    rw [hw_open]; exact hderef
  have hsec4 : (st4.open_inodes.map (fun j => j.sector)).Nodup := by
    rw [hw_open]; exact htab2.sectors
  obtain ⟨st5, st6, hrem, hclose, hsame46, hremoved, hkept⟩ :=
    remove_and_close st4 a i hd4 hsec4 (by rw [hw_oom]; exact hoom2)
  have hnh6 : NoHoles st6 dir.inode.sector := same_disk_no_holes st4 st6 hsame46 _ hnh4
  have hafter := read_entry_after_write st2 st4 dir.inode.sector m (clear_in_use e)
    (same_disk_no_holes st st2 hsame2 _ hnh) hnh4 hlen4 (clear_in_use_length e helen)
    (by rw [same_disk_length st st2 hsame2]; exact hmL) hbytes
  refine ⟨st6, ?_, hnh6, ?_, ?_, ?_, ?_⟩
  · unfold dir_remove
    rw [if_neg hnotdot, hlook]
    simp only
    rw [hopen]
    simp only
    rw [hderef]
    simp only
    rw [htype]
    simp only
    rw [if_neg hfile]
    simp only
    rw [hw]
    simp only [if_true]
    rw [hrem]
    simp only
    rw [hclose]
  · rw [read_entry_congr st4 st6 hsame46]
    exact hafter.1
  · intro k hk
    rw [read_entry_congr st4 st6 hsame46, hafter.2 k hk, read_entry_congr st st2 hsame2]
  · intro j hj hjs
    exact hremoved j hj (by rw [hisec]; exact hjs)
  · intro hopened
    rcases hcases with ⟨i0, hfind, hi, _⟩ | ⟨hfind, _⟩
    · have hc0 := htab.counts i0 (List.mem_of_find?_eq_some hfind)
      have hicnt : i.open_cnt = i0.open_cnt + 1 := by rw [hi]
      obtain ⟨j, hj, hjs⟩ := hkept (by omega)
      exact ⟨j, hj, by rw [hjs, hisec]⟩
    · exact absurd hfind hopened

theorem same_disk_count (st st1 : FS) (h : SameDisk st st1) (t : Nat) :
    dir_in_use_count st1 t = dir_in_use_count st t := by
  unfold dir_in_use_count
  rw [same_disk_length st st1 h]
  congr 1
  apply List.filter_congr
  intro k _
  rw [read_entry_congr st st1 h]

theorem dir_remove_directory_trace (st : FS) (dir : Dir) (name : List Nat) (m : Nat)
    (e : List Nat)
    (hl : Layout st dir.inode.sector) (hnh : NoHoles st dir.inode.sector)
    (htab : TableUnique st) (hdeny : dir.inode.deny_write_cnt = 0)
    (hnotdot : ¬ (name = [46] ∨ name = [46, 46]))
    (hm : read_entry st dir.inode.sector m = some e) (huse : entry_in_use e = true)
    (hname : name_matches name e = true)
    (hbefore : ∀ k e1, k < m → read_entry st dir.inode.sector k = some e1 →
      ¬ (entry_in_use e1 = true ∧ name_matches name e1 = true))
    (hdir : rd32 (st.disk (entry_inode_sector e)) 125 = DIR_INODE)
    (hT0 : 0 ≤ disk_length st (entry_inode_sector e))
    (hT1 : disk_length st (entry_inode_sector e) ≤ 194048) :
    ∃ b st1, dir_remove st dir name = some (b, st1) ∧
      (b = true ↔ (find_open_inode st (entry_inode_sector e) = none ∧
        dir_in_use_count st (entry_inode_sector e) < 3)) ∧
      (b = false → SameDisk st st1 ∧ st1.open_inodes = st.open_inodes) := by
  obtain ⟨_, helen, hmL⟩ := read_entry_some _ _ _ _ hm
  have hlook := lookup_first st dir name m e hnh.oom hnh.small hm huse hname hbefore
  obtain ⟨a, i, st2, hopen, hderef, hisec, hiaddr, htab2, hcases⟩ :=
    inode_open_spec st (entry_inode_sector e) htab hnh.oom
  have hsame2 : SameDisk st st2 := by
    have := inode_open_same st (entry_inode_sector e)
    rw [hopen] at this
    exact this
  have hoom2 : st2.oom = false := by rw [hsame2.oom]; exact hnh.oom
  have htype : inode_get_type st2 i.sector
      = some (rd32 (st.disk (entry_inode_sector e)) 125) := by
    rw [inode_get_type_spec st2 i.sector hoom2, hisec, hsame2.disk]
  have hrem := is_removable_directory_spec st2 a i hderef hoom2
    (by rw [hisec, same_disk_length st st2 hsame2]; exact hT0)
    (by rw [hisec, same_disk_length st st2 hsame2]; exact hT1)
  rw [hisec, same_disk_count st st2 hsame2] at hrem
  have hstart : dir_remove st dir name =
      (match is_removable_directory st2 a with
        | none => none
        | some (false, st3) =>
          match inode_close st3 (some a) with
          | none => none
          | some st4 => some (false, st4)
        | some (true, st3) =>
          match inode_write_at st3 dir.inode (as_buffer (clear_in_use e)) DIR_ENTRY_SIZE
              ((DIR_ENTRY_SIZE * m : Nat) : Int) with
          | none => none
          | some (written, st4) =>
            if written = DIR_ENTRY_SIZE then
              match inode_remove st4 a with
              | none => none
              | some st5 =>
                match inode_close st5 (some a) with
                | none => none
                | some st6 => some (true, st6)
            else
              match inode_close st4 (some a) with
              | none => none
              | some st5 => some (false, st5)) := by
    unfold dir_remove
    rw [if_neg hnotdot, hlook]
    simp only
    rw [hopen]
    simp only
    rw [hderef]
    simp only
    rw [htype]
    simp only
    rw [if_pos hdir]
  rw [hstart, hrem]
  rcases hcases with ⟨i0, hfind, hi, hst2⟩ | ⟨hfind, hcnt, hremoved, hopen2, ha⟩
  · -- the target was open before
    have hmem : i0 ∈ st.open_inodes := List.mem_of_find?_eq_some hfind
    have hc0 := htab.counts i0 hmem
    have hicnt : i.open_cnt = i0.open_cnt + 1 := by rw [hi]
    have hdec : decide (¬ i.open_cnt > 1 ∧ dir_in_use_count st (entry_inode_sector e) ≤ 2)
        = false := by
      rw [decide_eq_false_iff_not]
      intro h
      omega
    rw [hdec]
    simp only
    have hclose : inode_close st2 (some a)
        = some (modify_inode st2 a (fun j => { j with open_cnt := j.open_cnt - 1 })) := by
      unfold inode_close
      simp only [hderef]
      rw [if_pos (by omega)]
    rw [hclose]
    refine ⟨false, _, rfl, ?_, fun _ => ⟨⟨hsame2.disk, hsame2.oom, hsame2.junk⟩, ?_⟩⟩
    · constructor
      · intro h; cases h
      · intro h
        rw [hfind] at h
        cases h.1
    · rw [hst2]
      simp only [modify_inode, List.map_map]
      conv_rhs => rw [← List.map_id st.open_inodes]
      apply List.map_congr_left
      intro j _
      simp only [Function.comp_apply, id]
      by_cases hja : j.addr = a
      · cases j
        simp only at hja
        simp [hja]
      · simp [hja]
  · -- the target was not open before
    by_cases hcount : dir_in_use_count st (entry_inode_sector e) ≤ 2
    · have hdec : decide (¬ i.open_cnt > 1 ∧ dir_in_use_count st (entry_inode_sector e) ≤ 2)
          = true := by
        rw [decide_eq_true_eq]
        exact ⟨by omega, hcount⟩
      rw [hdec]
      simp only
      obtain ⟨st4, hw, hw_open, _, _, hw_oom, _, _, _, _, _, _⟩ :=
        inode_write_at_present st2 dir.inode (as_buffer (clear_in_use e))
          (DIR_ENTRY_SIZE : Int) (DIR_ENTRY_SIZE * m) (same_disk_layout st st2 hsame2 _ hl)
          (same_disk_no_holes st st2 hsame2 _ hnh) hdeny (by decide)
          (by rw [same_disk_length st st2 hsame2]; push_cast at hmL ⊢; exact hmL)
      have hd4 : deref st4 a = some i := by
        unfold deref at hderef ⊢
        rw [hw_open]; exact hderef
      have hsec4 : (st4.open_inodes.map (fun j => j.sector)).Nodup := by
        rw [hw_open]; exact htab2.sectors
      obtain ⟨st5, st6, hrem5, hclose, _, _⟩ :=
        remove_and_close st4 a i hd4 hsec4 (by rw [hw_oom]; exact hoom2)
      rw [hw]
      simp only [if_true]
      rw [hrem5]
      simp only
      rw [hclose]
      refine ⟨true, st6, rfl, ?_, fun h => by cases h⟩
      exact ⟨fun _ => ⟨hfind, by omega⟩, fun _ => rfl⟩
    · have hdec : decide (¬ i.open_cnt > 1 ∧ dir_in_use_count st (entry_inode_sector e) ≤ 2)
          = false := by
        rw [decide_eq_false_iff_not]
        intro h
        exact hcount h.2
      rw [hdec]
      simp only
      have hclose : inode_close st2 (some a)
          = some { st2 with open_inodes := st2.open_inodes.filter (fun j => j.addr ≠ a) } := by
        unfold inode_close
        simp only [hderef]
        rw [if_neg (by omega)]
        simp only [hremoved, Bool.false_eq_true, if_false]
      rw [hclose]
      refine ⟨false, _, rfl, ?_, fun _ => ⟨⟨hsame2.disk, hsame2.oom, hsame2.junk⟩, ?_⟩⟩
      · constructor
        · intro h; cases h
        · intro h
          omega
      · simp only
        rw [hopen2, List.filter_cons_of_neg (by simp [hiaddr])]
        apply List.filter_eq_self.mpr
        intro j hj
        have := htab.fresh j hj
        simp only [ne_eq, decide_not, Bool.not_eq_true', decide_eq_false_iff_not]
        omega

/-! ## Claims about `dir_remove` -/

theorem rd32_dir_inode (t len blk k : Nat) (hk : k < 125) (hblk : blk < 4294967296) :
    rd32 (wr32 (wr32 (wr32 (wr32 zero_sector 125 t) 127 INODE_MAGIC) 126 len) 0 blk) k
      = if k = 0 then blk else 0 := by
  by_cases h0 : k = 0
  · subst h0
    rw [if_pos rfl, rd32_wr32_same _ _ _ hblk]
  · rw [if_neg h0, rd32_wr32_other _ _ _ _ h0, rd32_wr32_other _ _ _ _ (by omega),
      rd32_wr32_other _ _ _ _ (by omega), rd32_wr32_other _ _ _ _ (by omega)]
    rfl

theorem node_one_block (st : FS) (ino d : Nat)
    (hdisk : ∀ k, k < 125 → rd32 (st.disk ino) k = if k = 0 then d else 0) :
    ∀ path, valid_path path = true → node st ino path = if path = [0] then d else 0 := by
  have h123 : node st ino [123] = 0 := by
    rw [node_cons_root, hdisk 123 (by omega), if_neg (by omega)]
  have h124 : node st ino [124] = 0 := by
    rw [node_cons_root, hdisk 124 (by omega), if_neg (by omega)]
  have h0124 : node st ino [0, 124] = 0 := by
    rw [node, if_pos ⟨by simp, h124⟩]
  intro path hv
  have hm := hv
  rcases path with _ | ⟨k, _ | ⟨i, _ | ⟨i2, rest⟩⟩⟩
  · cases hv
  · have hk : k < 125 := by simpa [valid_path] using hv
    rw [node_cons_root, hdisk k hk]
    by_cases h0 : k = 0
    · simp [h0]
    · simp [h0]
  · have hmeta := valid_path_tail k [i] hv
    have hi := meta_path_not_data i [] hmeta
    rw [node, if_pos ⟨by simp, by
      rcases hi with ⟨h, _⟩ | ⟨h, _⟩ | ⟨_, h⟩
      · rw [h]; exact h123
      · rw [h]; exact h124
      · cases h⟩]
    rw [if_neg (by simp)]
  · have hmeta := valid_path_tail k (i :: i2 :: rest) hv
    have hi := meta_path_not_data i (i2 :: rest) hmeta
    rcases hi with ⟨_, h⟩ | ⟨_, h⟩ | ⟨h1, h2⟩
    · cases h
    · cases h
    · cases h2
      subst h1
      rw [node, if_pos ⟨by simp, h0124⟩, if_neg (by simp)]

theorem layout_one_block (st : FS) (ino d : Nat) (hd : d ≠ ino)
    (hdisk : ∀ k, k < 125 → rd32 (st.disk ino) k = if k = 0 then d else 0) :
    Layout st ino := by
  have hnode := node_one_block st ino d hdisk
  have hpath : ∀ p, valid_path p = true → node st ino p ≠ 0 → p = [0] := by
    intro p hp hne
    rw [hnode p hp] at hne
    by_contra h
    rw [if_neg h] at hne
    exact hne rfl
  refine ⟨?_, ?_⟩
  · intro p hp hne
    have := hpath p hp hne
    subst this
    rw [hnode [0] hp, if_pos rfl]
    exact hd
  · intro p q hp hq hne heq
    have h1 := hpath p hp hne
    have h2 := hpath q hq (by rw [← heq]; exact hne)
    rw [h1, h2]

theorem no_holes_one_block (st : FS) (ino d : Nat) (hd : d ≠ 0) (hoom : st.oom = false)
    (hL0 : 0 ≤ disk_length st ino) (hL1 : disk_length st ino ≤ 512)
    (hdisk : ∀ k, k < 125 → rd32 (st.disk ino) k = if k = 0 then d else 0) :
    NoHoles st ino := by
  refine ⟨hoom, hL0, by omega, ?_⟩
  intro b hb
  have hb0 : b = 0 := by omega
  subst hb0
  have : block_path 0 = [0] := rfl
  rw [this, node_one_block st ino d hdisk [0] rfl, if_pos rfl]
  exact hd

theorem listing_fs_layout : Layout listing_fs 5 ∧ NoHoles listing_fs 5 ∧ TableUnique listing_fs :=
  ⟨layout_one_block listing_fs 5 6 (by decide)
      (fun k hk => rd32_dir_inode DIR_INODE 100 6 k hk (by decide)),
    no_holes_one_block listing_fs 5 6 (by decide) rfl (by decide) (by decide)
      (fun k hk => rd32_dir_inode DIR_INODE 100 6 k hk (by decide)),
    ⟨by decide, by decide, by decide, by decide⟩⟩

theorem tree_fs_layout : Layout tree_fs 5 ∧ NoHoles tree_fs 5 ∧ TableUnique tree_fs :=
  ⟨layout_one_block tree_fs 5 6 (by decide)
      (fun k hk => rd32_dir_inode DIR_INODE 60 6 k hk (by decide)),
    no_holes_one_block tree_fs 5 6 (by decide) rfl (by decide) (by decide)
      (fun k hk => rd32_dir_inode DIR_INODE 60 6 k hk (by decide)),
    ⟨by decide, by decide, by decide, by decide⟩⟩

theorem tree_fs_emptied_layout :
    Layout tree_fs_emptied 5 ∧ NoHoles tree_fs_emptied 5 ∧ TableUnique tree_fs_emptied :=
  ⟨layout_one_block tree_fs_emptied 5 6 (by decide)
      (fun k hk => rd32_dir_inode DIR_INODE 60 6 k hk (by decide)),
    no_holes_one_block tree_fs_emptied 5 6 (by decide) rfl (by decide) (by decide)
      (fun k hk => rd32_dir_inode DIR_INODE 60 6 k hk (by decide)),
    ⟨by decide, by decide, by decide, by decide⟩⟩

theorem listing_open_fs_layout :
    Layout listing_open_fs 5 ∧ NoHoles listing_open_fs 5 ∧ TableUnique listing_open_fs :=
  ⟨layout_one_block listing_open_fs 5 6 (by decide)
      (fun k hk => rd32_dir_inode DIR_INODE 100 6 k hk (by decide)),
    no_holes_one_block listing_open_fs 5 6 (by decide) rfl (by decide) (by decide)
      (fun k hk => rd32_dir_inode DIR_INODE 100 6 k hk (by decide)),
    ⟨by decide, by decide, by decide, by decide⟩⟩

/-- In a directory file that holds exactly the entries `es`, a whole entry read
at index `k` is the `k`-th of them. -/
theorem read_entry_of_listing (st : FS) (ino : Nat) (es : List (List Nat))
    (hread : (List.range es.length).map (fun k => read_entry st ino k) = es.map some)
    (hL : disk_length st ino = ((DIR_ENTRY_SIZE * es.length : Nat) : Int)) (k : Nat)
    (e : List Nat) (h : read_entry st ino k = some e) : es[k]? = some e := by
  obtain ⟨_, _, hk⟩ := read_entry_some _ _ _ _ h
  have hlt : k < es.length := by
    rw [hL] at hk
    simp only [DIR_ENTRY_SIZE] at hk
    push_cast at hk
    omega
  have h1 := congrArg (fun l => l[k]?) hread
  simp only [List.getElem?_map, List.getElem?_range hlt, Option.map_some'] at h1
  rw [h] at h1
  cases hes : es[k]? with
  | none => rw [hes] at h1; cases h1
  | some e1 =>
    rw [hes] at h1
    simp only [Option.map_some'] at h1
    rw [Option.some.injEq] at h1
    rw [Option.some.injEq] at h1
    rw [h1]

/-- C11: `dir_remove` returns false and leaves the whole state as it was when
the name is "." or "..", and also when no entry in use has the name (for a
directory file of a length the lookup can read, with memory available).  For an
entry in use with the name whose target inode is not a directory, in a
directory that is not write-denied, whose blocks below its length are all
present and in which no other entry in use has the name, the call returns true,
and in the state it leaves that entry reads back with `in_use` cleared, every
other entry reads as before, a lookup of the name finds nothing, every open
inode for the target sector is marked removed, and an inode that was open
before the call is still in the table to carry the mark. -/
theorem dir_remove_contract (st : FS) (dir : Dir) (name : List Nat) :
    ((name = [46] ∨ name = [46, 46]) → dir_remove st dir name = some (false, st)) ∧
    (st.oom = false → 0 ≤ disk_length st dir.inode.sector →
      disk_length st dir.inode.sector ≤ 194048 →
      (∀ k e, read_entry st dir.inode.sector k = some e →
        ¬ (entry_in_use e = true ∧ name_matches name e = true)) →
      dir_remove st dir name = some (false, st)) ∧
    (∀ (m : Nat) (e : List Nat),
      Layout st dir.inode.sector → NoHoles st dir.inode.sector → TableUnique st →
      dir.inode.deny_write_cnt = 0 → ¬ (name = [46] ∨ name = [46, 46]) →
      read_entry st dir.inode.sector m = some e → entry_in_use e = true →
      name_matches name e = true →
      (∀ k e1, k ≠ m → read_entry st dir.inode.sector k = some e1 →
        ¬ (entry_in_use e1 = true ∧ name_matches name e1 = true)) →
      rd32 (st.disk (entry_inode_sector e)) 125 ≠ DIR_INODE →
      ∃ st1, dir_remove st dir name = some (true, st1) ∧
        read_entry st1 dir.inode.sector m = some (clear_in_use e) ∧
        entry_in_use (clear_in_use e) = false ∧
        (∀ k, k ≠ m → read_entry st1 dir.inode.sector k = read_entry st dir.inode.sector k) ∧
        lookup st1 dir name = some (none, st1) ∧
        (∀ j ∈ st1.open_inodes, j.sector = entry_inode_sector e → j.removed = true) ∧
        (find_open_inode st (entry_inode_sector e) ≠ none →
          ∃ j ∈ st1.open_inodes, j.sector = entry_inode_sector e)) := by
  refine ⟨?_, ?_, ?_⟩
  · intro hdot
    unfold dir_remove
    rw [if_pos hdot]
  · intro hoom hL0 hL1 habs
    by_cases hdot : name = [46] ∨ name = [46, 46]
    · unfold dir_remove
      rw [if_pos hdot]
    · unfold dir_remove
      rw [if_neg hdot, lookup_absent st dir name hoom hL0 hL1 habs]
  · intro m e hl hnh htab hdeny hnotdot hm huse hname hunique hfile
    obtain ⟨_, helen, _⟩ := read_entry_some _ _ _ _ hm
    obtain ⟨st1, hrun, hnh1, hentry, hothers, hremoved, hkept⟩ :=
      dir_remove_file_trace st dir name m e hl hnh htab hdeny hnotdot hm huse hname
        (fun k e1 hk => hunique k e1 (by omega)) hfile
    have hclear := clear_in_use_not_in_use e helen
    refine ⟨st1, hrun, hentry, hclear, hothers, ?_, hremoved, hkept⟩
    apply lookup_absent st1 dir name hnh1.oom hnh1.nonneg hnh1.small
    intro k e1 hk
    by_cases hkm : k = m
    · subst hkm
      rw [hentry] at hk
      rw [Option.some.injEq] at hk
      rw [← hk, hclear]
      simp
    · rw [hothers k hkm] at hk
      exact hunique k e1 hkm hk

/-- Witness for C11 on the directory with the entries ".", ".", "a", a
tombstone and "c": the names "." and "z" are refused with the state unchanged,
and removing the file "a", which another opener holds, succeeds. -/
theorem dir_remove_contract_witness :
    dir_remove listing_fs dir5 [46] = some (false, listing_fs) ∧
    dir_remove listing_fs dir5 [122] = some (false, listing_fs) ∧
    ∃ st1, dir_remove listing_open_fs dir5 [97] = some (true, st1) ∧
      read_entry st1 5 2 = some (clear_in_use (mk_entry 8 [97] true)) ∧
      entry_in_use (clear_in_use (mk_entry 8 [97] true)) = false ∧
      (∀ k, k ≠ 2 → read_entry st1 5 k = read_entry listing_open_fs 5 k) ∧
      lookup st1 dir5 [97] = some (none, st1) ∧
      (∀ j ∈ st1.open_inodes, j.sector = 8 → j.removed = true) ∧
      (find_open_inode listing_open_fs 8 ≠ none → ∃ j ∈ st1.open_inodes, j.sector = 8) :=
  ⟨(dir_remove_contract listing_fs dir5 [46]).1 (Or.inl rfl),
    (dir_remove_contract listing_fs dir5 [122]).2.1 rfl (by decide) (by decide)
      (fun k e h => by
        have hes := read_entry_of_listing listing_fs 5 listing_entries (by decide) (by decide)
          k e h
        have hall : ∀ e1 ∈ listing_entries,
            ¬ (entry_in_use e1 = true ∧ name_matches [122] e1 = true) := by decide
        exact hall e (List.getElem?_mem hes)),
    (dir_remove_contract listing_open_fs dir5 [97]).2.2 2 (mk_entry 8 [97] true)
      listing_open_fs_layout.1 listing_open_fs_layout.2.1 listing_open_fs_layout.2.2 rfl
      (by decide) (by decide) (by decide) (by decide)
      (fun k e h hk => by
        have hes := read_entry_of_listing listing_open_fs 5 listing_entries (by decide)
          (by decide) k e hk
        have hlt : k < 5 := by
          by_contra hge
          rw [List.getElem?_eq_none (by simpa [listing_entries] using hge)] at hes
          cases hes
        interval_cases k
        · cases hes; decide
        · cases hes; decide
        · exact absurd rfl h
        · cases hes; decide
        · cases hes; decide)
      (by decide)⟩

/-- C12: for an entry in use with the name (not "." or "..") whose target
inode is a directory, in a directory that is not write-denied and whose blocks
below its length are all present, `dir_remove` returns, and it returns true
exactly when the target inode was not open before the call, so that the call
itself is its only opener, and the target directory has fewer than three
entries in use.  When it returns false the device content, hence every entry
of the parent directory, and the table of open inodes with the removed flag of
the target are as before the call. -/
theorem dir_remove_directory_iff (st : FS) (dir : Dir) (name : List Nat) (m : Nat)
    (e : List Nat)
    (hl : Layout st dir.inode.sector) (hnh : NoHoles st dir.inode.sector)
    (htab : TableUnique st) (hdeny : dir.inode.deny_write_cnt = 0)
    (hnotdot : ¬ (name = [46] ∨ name = [46, 46]))
    (hm : read_entry st dir.inode.sector m = some e) (huse : entry_in_use e = true)
    (hname : name_matches name e = true)
    (hbefore : ∀ k e1, k < m → read_entry st dir.inode.sector k = some e1 →
      ¬ (entry_in_use e1 = true ∧ name_matches name e1 = true))
    (hdir : rd32 (st.disk (entry_inode_sector e)) 125 = DIR_INODE)
    (hT0 : 0 ≤ disk_length st (entry_inode_sector e))
    (hT1 : disk_length st (entry_inode_sector e) ≤ 194048) :
    ∃ b st1, dir_remove st dir name = some (b, st1) ∧
      (b = true ↔ (find_open_inode st (entry_inode_sector e) = none ∧
        dir_in_use_count st (entry_inode_sector e) < 3)) ∧
      (b = false → st1.disk = st.disk ∧
        (∀ k, read_entry st1 dir.inode.sector k = read_entry st dir.inode.sector k) ∧
        st1.open_inodes = st.open_inodes) := by
  obtain ⟨b, st1, hrun, hiff, hfail⟩ :=
    dir_remove_directory_trace st dir name m e hl hnh htab hdeny hnotdot hm huse hname hbefore
      hdir hT0 hT1
  refine ⟨b, st1, hrun, hiff, fun hb => ?_⟩
  obtain ⟨hsame, hopen⟩ := hfail hb
  exact ⟨hsame.disk, fun k => read_entry_congr st st1 hsame _ k, hopen⟩

/-- Witness for C12: removing "a" from the directory in sector 5 returns false
while the directory "a" still holds "b" and leaves the entries as they were;
once the entry of "b" is a tombstone the same call returns true. -/
theorem dir_remove_directory_iff_witness :
    dir_in_use_count tree_fs 7 = 3 ∧
    (∃ st1, dir_remove tree_fs dir5 [97] = some (false, st1) ∧
      (∀ k, read_entry st1 5 k = read_entry tree_fs 5 k) ∧
      st1.open_inodes = tree_fs.open_inodes) ∧
    (∃ st1, dir_remove tree_fs_emptied dir5 [97] = some (true, st1)) := by
  have hcount : dir_in_use_count tree_fs 7 = 3 := by decide
  refine ⟨hcount, ?_, ?_⟩
  · obtain ⟨b, st1, hrun, hiff, hfail⟩ :=
      dir_remove_directory_iff tree_fs dir5 [97] 2 (mk_entry 7 [97] true)
        tree_fs_layout.1 tree_fs_layout.2.1 tree_fs_layout.2.2 rfl (by decide) (by decide)
        (by decide) (by decide)
        (fun k e1 hk h => by
          interval_cases k
          · have h0 : read_entry tree_fs 5 0 = some (dot_entry 5) := by decide
            cases h.symm.trans h0
            decide
          · have h1 : read_entry tree_fs 5 1 = some (dot_entry 5) := by decide
            cases h.symm.trans h1
            decide)
        (by decide) (by decide) (by decide)
    have hb : b = false := by
      cases b with
      | false => rfl
      | true =>
        have hlt : dir_in_use_count tree_fs 7 < 3 := (hiff.1 rfl).2
        omega
    subst hb
    obtain ⟨_, h2, h3⟩ := hfail rfl
    exact ⟨st1, hrun, h2, h3⟩
  · obtain ⟨b, st1, hrun, hiff, _⟩ :=
      dir_remove_directory_iff tree_fs_emptied dir5 [97] 2 (mk_entry 7 [97] true)
        tree_fs_emptied_layout.1 tree_fs_emptied_layout.2.1 tree_fs_emptied_layout.2.2 rfl
        (by decide) (by decide) (by decide) (by decide)
        (fun k e1 hk h => by
          interval_cases k
          · have h0 : read_entry tree_fs_emptied 5 0 = some (dot_entry 5) := by decide
            cases h.symm.trans h0
            decide
          · have h1 : read_entry tree_fs_emptied 5 1 = some (dot_entry 5) := by decide
            cases h.symm.trans h1
            decide)
        (by decide) (by decide) (by decide)
    have hb : b = true := hiff.2 ⟨rfl, by decide⟩
    subst hb
    exact ⟨st1, hrun⟩

/-! ## Block indexes, deallocation and the end of the file -/

/-- C25 (the code at the failing input): for the block index 379 = 123 + 128
+ 128 `calculate_indices` stores the offsets 124, 1 and 128, not 124, 1 and
0: the third offset is the index into the whole doubly-indirect range, and
128 is not an index into a pointer sector of 128 entries.  The last index
16634 gives the third offset 16383. -/
theorem calculate_indices_third_offset :
    calculate_indices 379 = [124, 1, 128] ∧ sectors_at zero_sector 128 = none ∧
      calculate_indices 16634 = [124, 127, 16383] ∧
      calculate_indices 378 = [124, 0, 127] := by
  decide

/-- C27 (the code at the failing input): closing a removed inode whose 123
direct pointers are allocated and whose indirect and doubly-indirect pointers
are 0 releases sector 0 and the sector 2 that the first word of sector 0 names,
neither of which belongs to the inode; the direct blocks and the sector of the
inode are released as well. -/
theorem inode_close_releases_sector_zero :
    (full_direct_fs.free_map 0, full_direct_fs.free_map 2) = (true, true) ∧
      (rd32 (full_direct_fs.disk 5) 123, rd32 (full_direct_fs.disk 5) 124) = (0, 0) ∧
      (inode_close full_direct_fs (some 1)).map
          (fun st => (st.free_map 0, st.free_map 2, st.free_map 10, st.free_map 132,
            st.free_map 5))
        = some (false, false, false, false, false) := by
  decide

/-- C29 (the code at the failing input): a write of 20 bytes at offset 40 of a
file of 40 bytes, whose only data block is block 0, returns 20 and leaves the
length 60 with a second data block allocated (sector 7 as direct pointer 1),
although a file of 60 bytes ends in block 0. -/
theorem inode_write_at_allocates_past_end :
    (disk_length small_dir_fs 5, rd32 (small_dir_fs.disk 5) 0, rd32 (small_dir_fs.disk 5) 1)
        = (40, 6, 0) ∧
      (inode_write_at small_dir_fs inode5 (as_buffer (List.replicate 20 1)) 20 40).map
          (fun r => (r.1, disk_length r.2 5, rd32 (r.2.disk 5) 0, rd32 (r.2.disk 5) 1,
            r.2.free_map 7))
        = some (20, 60, 6, 7, true) := by
  decide

/-! ## The lock of the file system calls -/

/-- C30 (the code at the failing input): `create` called with an empty file
name by a thread that does not hold `file_lock` returns false with the lock
still held; with the name "a" it returns with the lock released. -/
theorem create_keeps_file_lock :
    (create create_empty_env false 0x08048000 0).map (fun r => r.value)
        = some (some (false, true)) ∧
      (create create_a_env false 0x08048000 0).map (fun r => r.value)
        = some (some (true, false)) := by
  decide

/-! ## The size of the initial stack -/

theorem tokens_no_space (s : List Nat) (h : ∀ c ∈ s, c ≠ 32) (hne : s ≠ []) : tokens s = [s] := by
  have htake : s.takeWhile (fun c => decide (c ≠ 32)) = s := by
    rw [List.takeWhile_eq_self_iff]
    intro c hc
    simpa using h c hc
  have hdrop : s.dropWhile (fun c => decide (c ≠ 32)) = [] := by
    rw [List.dropWhile_eq_nil_iff]
    intro c hc
    simpa using h c hc
  unfold tokens
  rw [splitOn_space, htake, hdrop]
  simp [hne]

theorem push_padding_outside (mem : Mem) (esp remainder : Nat) (h : esp ≤ PHYS_BASE - PGSIZE) :
    push_padding mem esp (remainder + 1) = none := by
  have hPB : PHYS_BASE = 3221225472 := rfl
  have hPG : PGSIZE = 4096 := rfl
  unfold push_padding memcpy_to_stack
  rw [if_neg (by omega)]

/-- C28 (the code at the failing input): for the command line of 4095 bytes
`a`, which is shorter than `PGSIZE`, the argument string with its terminator
fills the stack page, and the first padding byte that `setup_stack` pushes is
stored below the page. -/
theorem setup_stack_leaves_page :
    (List.replicate 4095 97).length < PGSIZE ∧
      setup_stack (List.replicate 4095 97) true true true = none := by
  have hPB : PHYS_BASE = 3221225472 := rfl
  have hPG : PGSIZE = 4096 := rfl
  have hlen : (List.replicate 4095 97).length = 4095 := List.length_replicate _ _
  refine ⟨by rw [hlen, hPG]; omega, ?_⟩
  generalize hcl : List.replicate 4095 97 = cl at hlen ⊢
  have htok : tokens cl = [cl] := by
    apply tokens_no_space
    · intro c hc
      rw [← hcl] at hc
      rw [List.eq_of_mem_replicate hc]
      omega
    · intro h0
      rw [h0] at hlen
      cases hlen
  have hparse : parse_args (cl.length + 1) cl [] = some [cl] := by
    rw [parse_args_eq _ _ _ (Nat.lt_succ_self _), htok]
    rfl
  have hsz : strings_size [cl] = 4096 := by
    simp [strings_size, hlen]
  obtain ⟨mem1, ptrs, hpush, _⟩ := push_strings_spec (fun _ => 0) PHYS_BASE (le_refl _) [cl]
    (by rw [hsz, hPB, hPG])
  rw [hsz] at hpush
  unfold setup_stack
  rw [if_neg (by rw [hlen, hPG]; omega), if_neg (by decide), hparse]
  simp only
  rw [if_neg (by decide), if_neg (by decide), hpush]
  simp only [List.map_cons, List.map_nil, List.sum_cons, List.sum_nil, hlen]
  have hrem : 4 - (4095 + 1 + 0) % 4 + 4 = 7 + 1 := rfl
  rw [hrem, push_padding_outside mem1 (PHYS_BASE - 4096) 7 (by rw [hPB, hPG])]

/-! ## Splitting a path -/

theorem skip_slashes_eq (s : List Nat) : skip_slashes s = s.dropWhile (fun c => c = 47) := by
  induction s with
  | nil => rfl
  | cons c s ih =>
    by_cases hc : c = 47
    · simp [skip_slashes, hc, ih]
    · simp [skip_slashes, hc]

theorem take_succ_set : ∀ (l : List Nat) (i c : Nat), i < l.length →
    (l.set i c).take (i + 1) = l.take i ++ [c]
  | [], i, c, h => absurd h (Nat.not_lt_zero _)
  | x :: l, 0, c, _ => by simp
  | x :: l, i + 1, c, h => by
    have := take_succ_set l i c (by simpa using h)
    simp [this]

theorem drop_set_lt : ∀ (l : List Nat) (i c n : Nat), i < n →
    (l.set i c).drop n = l.drop n
  | [], i, c, n, _ => by simp
  | x :: l, i, c, 0, h => absurd h (Nat.not_lt_zero _)
  | x :: l, 0, c, n + 1, _ => by simp
  | x :: l, i + 1, c, n + 1, h => by
    have := drop_set_lt l i c n (by omega)
    simp [this]

theorem copy_part_loop_spec : ∀ (src part : List Nat) (dst : Nat),
    (∀ c ∈ src, c ≠ 0) → part.length = NAME_MAX + 1 → dst ≤ NAME_MAX →
    (dst + (src.takeWhile (fun c => c ≠ 47)).length ≤ NAME_MAX →
      copy_part_loop part dst src = some (true,
        part.take dst ++ src.takeWhile (fun c => c ≠ 47)
          ++ part.drop (dst + (src.takeWhile (fun c => c ≠ 47)).length),
        dst + (src.takeWhile (fun c => c ≠ 47)).length, src.dropWhile (fun c => c ≠ 47))) ∧
    (NAME_MAX < dst + (src.takeWhile (fun c => c ≠ 47)).length →
      ∃ part1 d s1, copy_part_loop part dst src = some (false, part1, d, s1)) := by
  intro src
  induction src with
  | nil =>
    intro part dst _ hpart hdst
    refine ⟨fun _ => ?_, fun h => ?_⟩
    · simp [copy_part_loop]
    · simp at h
      omega
  | cons c src ih =>
    intro part dst hz hpart hdst
    have hc0 : c ≠ 0 := hz c (List.mem_cons_self _ _)
    have hz1 : ∀ x ∈ src, x ≠ 0 := fun x hx => hz x (List.mem_cons_of_mem _ hx)
    by_cases hc : c = 47
    · subst hc
      refine ⟨fun _ => ?_, fun h => ?_⟩
      · simp [copy_part_loop]
      · simp at h
        omega
    · have htw : (c :: src).takeWhile (fun c => decide (c ≠ 47))
          = c :: src.takeWhile (fun c => decide (c ≠ 47)) := by
        simp [List.takeWhile, hc]
      have hdw : (c :: src).dropWhile (fun c => decide (c ≠ 47))
          = src.dropWhile (fun c => decide (c ≠ 47)) := by
        simp [List.dropWhile, hc]
      rw [htw, hdw]
      simp only [List.length_cons]
      by_cases hd : dst < NAME_MAX
      · have hset : (part.set dst c).length = NAME_MAX + 1 := by
          rw [List.length_set]; exact hpart
        obtain ⟨ih1, ih2⟩ := ih (part.set dst c) (dst + 1) hz1 hset (by omega)
        have hstep : copy_part_loop part dst (c :: src)
            = copy_part_loop (part.set dst c) (dst + 1) src := by
          rw [copy_part_loop, if_pos ⟨hc, hc0⟩, if_pos hd, if_pos (by omega)]
          cases copy_part_loop (part.set dst c) (dst + 1) src <;> rfl
        rw [hstep]
        refine ⟨fun h => ?_, fun h => ?_⟩
        · rw [ih1 (by omega)]
          have e1 : dst + 1 + (src.takeWhile (fun c => decide (c ≠ 47))).length
              = dst + ((src.takeWhile (fun c => decide (c ≠ 47))).length + 1) := by omega
          rw [e1]
          rw [take_succ_set part dst c (by omega), drop_set_lt part dst c _ (by omega)]
          simp
        · exact ih2 (by omega)
      · refine ⟨fun h => absurd h (by omega), fun _ => ?_⟩
        rw [copy_part_loop, if_pos ⟨hc, hc0⟩, if_neg hd]
        exact ⟨_, _, _, rfl⟩

theorem splitOn_slash (s : List Nat) :
    s.splitOn 47 = s.takeWhile (fun c => c ≠ 47) ::
      (match s.dropWhile (fun c => c ≠ 47) with
       | [] => []
       | _ :: r => r.splitOn 47) := by
  induction s with
  | nil => rfl
  | cons c s ih =>
    unfold List.splitOn at ih ⊢
    rw [List.splitOnP_cons]
    by_cases hc : c = 47
    · subst hc
      simp
    · rw [ih]
      simp [hc, List.modifyHead]

theorem path_components_cons_slash (s : List Nat) :
    path_components (47 :: s) = path_components s := by
  unfold path_components List.splitOn
  rw [List.splitOnP_cons]
  simp

theorem path_components_dropWhile (s : List Nat) :
    path_components (s.dropWhile (fun c => c = 47)) = path_components s := by
  induction s with
  | nil => rfl
  | cons c s ih =>
    by_cases hc : c = 47
    · subst hc
      rw [path_components_cons_slash]
      simpa using ih
    · simp [hc]

theorem head_dropWhile_slash (s : List Nat) (c : Nat) (r : List Nat)
    (h : s.dropWhile (fun c => c = 47) = c :: r) : c ≠ 47 := by
  have := List.head_dropWhile_not (fun c => decide (c = 47)) s (by rw [h]; simp)
  simp only [h, List.head_cons] at this
  simpa using this

theorem path_components_step (s : List Nat) (c : Nat) (r : List Nat)
    (h : s.dropWhile (fun c => c = 47) = c :: r) :
    path_components s = (c :: r).takeWhile (fun c => c ≠ 47) ::
      path_components ((c :: r).dropWhile (fun c => c ≠ 47)) := by
  have hc := head_dropWhile_slash s c r h
  rw [← path_components_dropWhile s, h]
  conv_lhs => unfold path_components; rw [splitOn_slash]
  have htw : List.takeWhile (fun c => decide (c ≠ 47)) (c :: r) ≠ [] := by
    simp [List.takeWhile, hc]
  rw [List.filter_cons_of_pos (by simpa using htw)]
  congr 1
  cases hd : List.dropWhile (fun c => decide (c ≠ 47)) (c :: r) with
  | nil => simp [path_components]
  | cons x r' =>
    have hx : x = 47 := by
      have := List.head_dropWhile_not (fun c => decide (c ≠ 47)) (c :: r) (by rw [hd]; simp)
      simp only [hd, List.head_cons] at this
      simpa using this
    subst hx
    rw [path_components_cons_slash]
    rfl

theorem path_components_nil (s : List Nat) (h : s.dropWhile (fun c => c = 47) = []) :
    path_components s = [] := by
  rw [← path_components_dropWhile s, h]
  rfl

/-- One call of `get_next_part` on a string without zero bytes and a buffer
of `NAME_MAX + 1` bytes, in terms of the string after its leading slashes. -/
theorem get_next_part_cases (s part : List Nat) (hz : ∀ c ∈ s, c ≠ 0)
    (hpart : part.length = NAME_MAX + 1) :
    (s.dropWhile (fun c => c = 47) = [] → get_next_part part s = some (0, part, s)) ∧
    (s.dropWhile (fun c => c = 47) ≠ [] →
      NAME_MAX < ((s.dropWhile (fun c => c = 47)).takeWhile (fun c => c ≠ 47)).length →
      ∃ part1, get_next_part part s = some (-1, part1, s)) ∧
    (s.dropWhile (fun c => c = 47) ≠ [] →
      ((s.dropWhile (fun c => c = 47)).takeWhile (fun c => c ≠ 47)).length ≤ NAME_MAX →
      get_next_part part s = some (1,
        (s.dropWhile (fun c => c = 47)).takeWhile (fun c => c ≠ 47) ++ [0] ++
          part.drop (((s.dropWhile (fun c => c = 47)).takeWhile (fun c => c ≠ 47)).length + 1),
        (s.dropWhile (fun c => c = 47)).dropWhile (fun c => c ≠ 47))) := by
  have hz1 : ∀ c ∈ s.dropWhile (fun c => c = 47), c ≠ 0 :=
    fun c hc => hz c ((List.dropWhile_sublist _).subset hc)
  unfold get_next_part
  rw [skip_slashes_eq]
  generalize s.dropWhile (fun c => c = 47) = s1 at hz1 ⊢
  obtain ⟨h1, h2⟩ := copy_part_loop_spec s1 part 0 hz1 hpart (Nat.zero_le _)
  simp only [Nat.zero_add, List.take_zero, List.nil_append] at h1 h2
  refine ⟨fun h => ?_, fun hne hlong => ?_, fun hne hshort => ?_⟩
  · subst h
    simp
  · have hhead : ¬ s1.headD 0 = 0 := by
      cases s1 with
      | nil => exact absurd rfl hne
      | cons c r => simpa using hz1 c (List.mem_cons_self _ _)
    simp only
    rw [if_neg hhead]
    obtain ⟨part1, d, s2, h⟩ := h2 hlong
    rw [h]
    exact ⟨part1, rfl⟩
  · have hhead : ¬ s1.headD 0 = 0 := by
      cases s1 with
      | nil => exact absurd rfl hne
      | cons c r => simpa using hz1 c (List.mem_cons_self _ _)
    simp only
    rw [if_neg hhead, h1 hshort]
    simp only
    generalize s1.takeWhile (fun c => decide (c ≠ 47)) = comp at hshort ⊢
    have hlen : comp.length < (comp ++ part.drop comp.length).length := by
      rw [List.length_append, List.length_drop, hpart]
      omega
    rw [if_pos hlen]
    congr 3
    rw [List.set_append_right _ _ (le_refl _), Nat.sub_self]
    cases hd : part.drop comp.length with
    | nil =>
      have := congrArg List.length hd
      rw [List.length_drop, hpart, List.length_nil] at this
      omega
    | cons x rest =>
      have : part.drop (comp.length + 1) = rest := by
        rw [← List.drop_drop, hd]
        rfl
      rw [this]
      simp

theorem takeWhile_nonzero_append : ∀ (comp rest : List Nat), (∀ c ∈ comp, c ≠ 0) →
    (comp ++ 0 :: rest).takeWhile (fun c => c ≠ 0) = comp
  | [], rest, _ => by simp
  | c :: comp, rest, h => by
    have hc : c ≠ 0 := h c (List.mem_cons_self _ _)
    have := takeWhile_nonzero_append comp rest (fun x hx => h x (List.mem_cons_of_mem _ hx))
    show List.takeWhile (fun c => decide (c ≠ 0)) (c :: (comp ++ 0 :: rest)) = c :: comp
    rw [List.takeWhile_cons_of_pos (by simpa using hc), this]

theorem get_parts_spec : ∀ (fuel : Nat) (s part : List Nat), (∀ c ∈ s, c ≠ 0) →
    part.length = NAME_MAX + 1 → s.length < fuel →
    (∀ t ∈ path_components s, t.length ≤ NAME_MAX) →
    get_parts part s fuel = some (path_components s, 0) := by
  intro fuel
  induction fuel with
  | zero => intro s part _ _ h; omega
  | succ fuel ih =>
    intro s part hz hpart hfuel hshort
    obtain ⟨h0, _, h1⟩ := get_next_part_cases s part hz hpart
    have hsub : (s.dropWhile (fun c => c = 47)).length ≤ s.length :=
      (List.dropWhile_sublist _).length_le
    have hz1 : ∀ c ∈ s.dropWhile (fun c => c = 47), c ≠ 0 :=
      fun c hc => hz c ((List.dropWhile_sublist _).subset hc)
    rw [get_parts]
    cases hs1 : s.dropWhile (fun c => c = 47) with
    | nil =>
      rw [h0 hs1, path_components_nil s hs1]
      rfl
    | cons c r =>
      have hstep := path_components_step s c r hs1
      have hc := head_dropWhile_slash s c r hs1
      rw [hs1] at h1 hz1 hsub
      have hcomp : ((c :: r).takeWhile (fun c => c ≠ 47)).length ≤ NAME_MAX :=
        hshort _ (by rw [hstep]; exact List.mem_cons_self _ _)
      rw [h1 (by simp) hcomp]
      simp only [if_true]
      have hcz : ∀ x ∈ (c :: r).takeWhile (fun c => c ≠ 47), x ≠ 0 :=
        fun x hx => hz1 x ((List.takeWhile_sublist _).subset hx)
      have hrz : ∀ x ∈ (c :: r).dropWhile (fun c => c ≠ 47), x ≠ 0 :=
        fun x hx => hz1 x ((List.dropWhile_sublist _).subset hx)
      have hsplit := List.takeWhile_append_dropWhile (fun c => decide (c ≠ 47)) (c :: r)
      have hlen := congrArg List.length hsplit
      rw [List.length_append] at hlen
      have hpos : 0 < ((c :: r).takeWhile (fun c => decide (c ≠ 47))).length := by
        simp [List.takeWhile, hc]
      rw [ih _ _ hrz
        (by
          simp only [List.length_append, List.length_drop, List.length_cons, List.length_nil,
            hpart]
          omega)
        (by simp only [List.length_cons] at hsub hlen ⊢; omega)
        (fun t ht => hshort t (by rw [hstep]; exact List.mem_cons_of_mem _ ht))]
      simp only
      rw [hstep, List.append_assoc, List.singleton_append,
        takeWhile_nonzero_append _ _ hcz]

/-- C26: for a string `s` without zero bytes (its terminator is the end of
the list) and a buffer of `NAME_MAX + 1` bytes, `get_next_part` returns 0
exactly when `s` consists of slashes only, returns -1 exactly when the first
component, the longest run of bytes other than `/` after the leading slashes,
is longer than `NAME_MAX`, and otherwise returns 1, stores the component and a
zero byte at the start of `part`, and leaves `*srcp` right after the
component.  When no component is longer than `NAME_MAX`, successive calls
yield the components of `s` in order and then return 0. -/
theorem get_next_part_spec (s part : List Nat) (hz : ∀ c ∈ s, c ≠ 0)
    (hpart : part.length = NAME_MAX + 1) :
    ∃ ret part1 srcp1, get_next_part part s = some (ret, part1, srcp1) ∧
      (ret = 0 ↔ ∀ c ∈ s, c = 47) ∧
      (ret = -1 ↔
        NAME_MAX < ((s.dropWhile (fun c => c = 47)).takeWhile (fun c => c ≠ 47)).length) ∧
      (ret ≠ 0 → ret ≠ -1 → ret = 1 ∧
        part1.take (((s.dropWhile (fun c => c = 47)).takeWhile (fun c => c ≠ 47)).length + 1)
          = (s.dropWhile (fun c => c = 47)).takeWhile (fun c => c ≠ 47) ++ [0] ∧
        s.dropWhile (fun c => c = 47)
          = (s.dropWhile (fun c => c = 47)).takeWhile (fun c => c ≠ 47) ++ srcp1) ∧
      ((∀ t ∈ path_components s, t.length ≤ NAME_MAX) →
        get_parts part s (s.length + 1) = some (path_components s, 0)) := by
  obtain ⟨h0, hm, h1⟩ := get_next_part_cases s part hz hpart
  have hall : s.dropWhile (fun c => c = 47) = [] ↔ ∀ c ∈ s, c = 47 := by
    rw [List.dropWhile_eq_nil_iff]
    simp
  have hparts := get_parts_spec (s.length + 1) s part hz hpart (Nat.lt_succ_self _)
  by_cases hnil : s.dropWhile (fun c => c = 47) = []
  · refine ⟨0, part, s, h0 hnil, ?_, ?_, fun h => absurd rfl h, hparts⟩
    · simp only [true_iff]
      exact hall.1 hnil
    · rw [hnil]
      simp
  · by_cases hlong :
        NAME_MAX < ((s.dropWhile (fun c => c = 47)).takeWhile (fun c => c ≠ 47)).length
    · obtain ⟨part1, hp⟩ := hm hnil hlong
      refine ⟨-1, part1, s, hp, ?_, ?_, fun _ h => absurd rfl h, hparts⟩
      · constructor
        · intro h; cases h
        · intro h; exact absurd (hall.2 h) hnil
      · simp only [true_iff]
        exact hlong
    · refine ⟨1, _, _, h1 hnil (by omega), ?_, ?_, fun _ _ => ⟨rfl, ?_, ?_⟩, hparts⟩
      · constructor
        · intro h; cases h
        · intro h; exact absurd (hall.2 h) hnil
      · constructor
        · intro h; cases h
        · intro h; exact absurd h hlong
      · rw [List.append_assoc, List.take_append_eq_append_take]
        simp
      · exact (List.takeWhile_append_dropWhile _ _).symm

/-- Witness for C26: on "/a//bc" the calls yield "a" and "bc" and then
return 0, and the first call returns 1 with `*srcp` at "//bc". -/
theorem get_next_part_spec_witness :
    (get_next_part (List.replicate 15 7) [47, 97, 47, 47, 98, 99]).map (fun r => (r.1, r.2.2))
        = some (1, [47, 47, 98, 99]) ∧
      get_parts (List.replicate 15 7) [47, 97, 47, 47, 98, 99] 7
        = some ([[97], [98, 99]], 0) := by
  obtain ⟨ret, part1, srcp1, h, _, _, _, hparts⟩ :=
    get_next_part_spec [47, 97, 47, 47, 98, 99] (List.replicate 15 7) (by decide) (by decide)
  exact ⟨by decide, (hparts (by decide)).trans (by decide)⟩

/-! ## Page descriptors and the swap bitmap -/

theorem pg_round_down_idem (a : Nat) : pg_round_down (pg_round_down a) = pg_round_down a := by
  unfold pg_round_down
  rw [Nat.mul_div_cancel _ (by decide : 0 < PGSIZE)]

/-- C21 (counterexample): for an address in the page that starts exactly 1
MiB below `PHYS_BASE`, with the saved stack pointer at that address and no
page descriptor, both conditions of the claim hold, yet `page_for_addr`
returns null and leaves the page table empty. -/
theorem page_for_addr_lowest_stack_page :
    3220176996 + 32 ≥ 3220176996 ∧ pg_round_down 3220176996 ≥ PHYS_BASE - STACK_MAX ∧
      find_page empty_vm (1, pg_round_down 3220176996) = none ∧
      (page_for_addr empty_vm 1 3220176996 3220176996).1 = none ∧
      (page_for_addr empty_vm 1 3220176996 3220176996).2.pages = [] := by
  decide

/-- C21 (amended): for an address `a` whose page has no descriptor in the
current process, `page_for_addr` returns null when `a ≥ PHYS_BASE`; below
`PHYS_BASE` it adds a writable descriptor without frame, swap slot or file for
the page of `a` and returns it exactly when `a + 32 ≥ esp`, the page lies
strictly above `PHYS_BASE - STACK_MAX` and `malloc` succeeds; in every other
case it returns null and leaves the state as it was. -/
theorem page_for_addr_no_descriptor (st : VM) (cur esp a : Nat)
    (hno : find_page st (cur, pg_round_down a) = none) :
    (PHYS_BASE ≤ a → page_for_addr st cur esp a = (none, st)) ∧
    (a < PHYS_BASE →
      (esp ≤ a + 32 ∧ PHYS_BASE - STACK_MAX < pg_round_down a ∧ st.oom = false →
        page_for_addr st cur esp a = (some (cur, pg_round_down a),
          { st with pages :=
              { frame := none, addr := pg_round_down a, thread := cur, read_only := false,
                swap_or_file := true, exec_file := none, offset := 0, bytes := 0,
                b_s := SECTOR_NONE } :: st.pages })) ∧
      (¬ (esp ≤ a + 32 ∧ PHYS_BASE - STACK_MAX < pg_round_down a ∧ st.oom = false) →
        page_for_addr st cur esp a = (none, st))) := by
  have hPB : PHYS_BASE = 3221225472 := rfl
  refine ⟨fun h => ?_, fun h => ?_⟩
  · unfold page_for_addr
    rw [if_pos h]
  · have hmod : (a + 32) % 4294967296 = a + 32 := Nat.mod_eq_of_lt (by omega)
    have hstart : page_for_addr st cur esp a =
        if esp ≤ a + 32 ∧ pg_round_down a > PHYS_BASE - STACK_MAX then
          page_allocate st cur (pg_round_down a) false
        else (none, st) := by
      unfold page_for_addr
      rw [if_neg (by omega)]
      simp only [hno, hmod]
    rw [hstart]
    refine ⟨fun ⟨h1, h2, h3⟩ => ?_, fun hnot => ?_⟩
    · rw [if_pos ⟨h1, h2⟩]
      unfold page_allocate
      rw [if_neg (by simp [h3])]
      simp only [pg_round_down_idem, hno]
      rfl
    · by_cases hc : esp ≤ a + 32 ∧ pg_round_down a > PHYS_BASE - STACK_MAX
      · rw [if_pos hc]
        have hoom : st.oom = true := by
          cases ho : st.oom with
          | true => rfl
          | false => exact absurd ⟨hc.1, hc.2, ho⟩ hnot
        unfold page_allocate
        rw [if_pos hoom]
      · rw [if_neg hc]

/-- Witness for C21: a fault 4 bytes below a stack pointer in the highest
page adds the descriptor of that page. -/
theorem page_for_addr_no_descriptor_witness :
    (page_for_addr empty_vm 1 3221225468 3221225464).1 = some (1, 3221221376) ∧
      (page_for_addr empty_vm 1 3221225468 3221225464).2.pages =
        [{ frame := none, addr := 3221221376, thread := 1, read_only := false,
           swap_or_file := true, exec_file := none, offset := 0, bytes := 0,
           b_s := SECTOR_NONE }] := by
  have h := ((page_for_addr_no_descriptor empty_vm 1 3221225468 3221225464 (by decide)).2
    (by decide)).1 ⟨by decide, by decide, rfl⟩
  rw [h]
  exact ⟨by decide, by decide⟩

/-- C22 (the code at the failing input): in a state where swap slot 0 is
marked used and holds the only page of thread 1, which has no frame,
`page_exit` run by thread 1 and `page_deallocate` of that page both free the
descriptor and leave slot 0 marked used, although no page descriptor names
the slot any more. -/
theorem page_exit_leaks_swap_slot :
    (swapped_vm.pages.map (fun p => p.b_s), swapped_vm.swap_bitmap) = ([0], [true, false]) ∧
      (page_exit swapped_vm 1).map (fun st => (st.pages.length, st.swap_bitmap))
        = some (0, [true, false]) ∧
      (page_deallocate swapped_vm 1 PHYS_BASE 0x08048000).map
          (fun st => (st.pages.length, st.swap_bitmap))
        = some (0, [true, false]) := by
  decide

/-! ## Eviction of a page -/

theorem find_map_keyed (pages : List Page) (key : Nat × Nat) (g : Page → Page)
    (hg : ∀ p, (g p).thread = p.thread ∧ (g p).addr = p.addr) :
    (pages.map g).find? (fun p => p.thread = key.1 ∧ p.addr = key.2)
      = (pages.find? (fun p => p.thread = key.1 ∧ p.addr = key.2)).map g := by
  induction pages with
  | nil => rfl
  | cons q pages ih =>
    by_cases hq : q.thread = key.1 ∧ q.addr = key.2
    · have hgq : (g q).thread = key.1 ∧ (g q).addr = key.2 := by
        rw [(hg q).1, (hg q).2]; exact hq
      simp only [List.map_cons, List.find?_cons, hq, hgq, and_self, decide_True,
        Option.map_some']
    · have hgq : ¬ ((g q).thread = key.1 ∧ (g q).addr = key.2) := by
        rw [(hg q).1, (hg q).2]; exact hq
      simp only [List.map_cons, List.find?_cons, hq, hgq, decide_False]
      exact ih

theorem find_page_key (st : VM) (key : Nat × Nat) (p : Page) (h : find_page st key = some p) :
    p ∈ st.pages ∧ p.thread = key.1 ∧ p.addr = key.2 := by
  unfold find_page at h
  exact ⟨List.mem_of_find?_eq_some h, by simpa using List.find?_some h⟩

theorem find_page_modify_other (st : VM) (key key1 : Nat × Nat) (f : Page → Page)
    (hf : ∀ p, (f p).thread = p.thread ∧ (f p).addr = p.addr) :
    find_page (modify_page st key f) key1
      = (find_page st key1).map (fun p => if p.thread = key.1 ∧ p.addr = key.2 then f p else p) := by
  unfold find_page modify_page
  apply find_map_keyed
  intro p
  split
  · exact hf p
  · exact ⟨rfl, rfl⟩

theorem find_page_modify (st : VM) (key : Nat × Nat) (f : Page → Page)
    (hf : ∀ p, (f p).thread = p.thread ∧ (f p).addr = p.addr) :
    find_page (modify_page st key f) key = (find_page st key).map f := by
  rw [find_page_modify_other st key key f hf]
  cases h : find_page st key with
  | none => rfl
  | some p =>
    have := (find_page_key st key p h).2
    simp only [Option.map_some', this, and_self, if_true]

theorem bitmap_scan_none (b : List Bool) : bitmap_scan b = none ↔ false ∉ b := by
  induction b with
  | nil => simp [bitmap_scan]
  | cons bit rest ih =>
    cases bit with
    | false => simp [bitmap_scan]
    | true =>
      rw [bitmap_scan, if_neg (by simp)]
      cases hr : bitmap_scan rest with
      | none =>
        have := ih.1 hr
        simp [this]
      | some k =>
        have : ¬ (false ∉ rest) := fun h => by
          rw [ih.2 h] at hr
          cases hr
        simp only [reduceCtorEq, false_iff, List.mem_cons, not_or, not_and, not_not]
        intro _
        by_contra hc
        exact this hc

theorem bitmap_scan_some (b : List Bool) : ∀ k, bitmap_scan b = some k →
    b[k]? = some false ∧ ∀ j, j < k → b[j]? = some true := by
  induction b with
  | nil => intro k h; cases h
  | cons bit rest ih =>
    intro k h
    cases bit with
    | false =>
      rw [bitmap_scan, if_pos rfl] at h
      cases h
      exact ⟨by simp, fun j hj => absurd hj (Nat.not_lt_zero _)⟩
    | true =>
      rw [bitmap_scan, if_neg (by simp)] at h
      cases hr : bitmap_scan rest with
      | none => rw [hr] at h; cases h
      | some k1 =>
        rw [hr] at h
        cases h
        obtain ⟨h1, h2⟩ := ih k1 hr
        refine ⟨by simpa using h1, fun j hj => ?_⟩
        cases j with
        | zero => simp
        | succ j => simpa using h2 j (by omega)

theorem swap_out_eq (st : VM) (cur : Nat) (key : Nat × Nat) (p : Page) (f : Nat) (fr : Frame)
    (hp : find_page st key = some p) (hf : p.frame = some f) (hfr : st.frames[f]? = some fr)
    (hlock : fr.lock = some cur) (k : Nat) (h : bitmap_scan st.swap_bitmap = some k) :
    swap_out st cur key = some (true,
      modify_page
        { modify_page { st with swap_bitmap := st.swap_bitmap.set k true } key
            (fun p => { p with b_s := k * PAGE_SECTORS }) with
          swap_device := fun s =>
            if k * PAGE_SECTORS ≤ s ∧ s < k * PAGE_SECTORS + PAGE_SECTORS then
              (fun j => fr.base ((s - k * PAGE_SECTORS) * BLOCK_SECTOR_SIZE + j))
            else st.swap_device s } key
        (fun p => { p with exec_file := none, offset := 0, bytes := 0, swap_or_file := false })) := by
  unfold swap_out
  simp only [hp, hf, hfr, hlock, ne_eq, not_true_eq_false, if_false, bitmap_scan_and_flip, h]
  rfl

/-- What `swap_out` does to a page with a frame whose lock the caller holds:
without a free slot it returns false and leaves the state as it was; with the
first free slot `k` it returns true, marks the slot, stores the slot in the
page, clears the file fields and copies the frame to the sectors of the
slot. -/
theorem swap_out_spec (st : VM) (cur : Nat) (key : Nat × Nat) (p : Page) (f : Nat) (fr : Frame)
    (hp : find_page st key = some p) (hf : p.frame = some f) (hfr : st.frames[f]? = some fr)
    (hlock : fr.lock = some cur) :
    (bitmap_scan st.swap_bitmap = none → swap_out st cur key = some (false, st)) ∧
    (∀ k, bitmap_scan st.swap_bitmap = some k →
      ∃ st1, swap_out st cur key = some (true, st1) ∧
        st1.frames = st.frames ∧ st1.swap_bitmap = st.swap_bitmap.set k true ∧
        st1.file_writes = st.file_writes ∧ st1.scan_lock = st.scan_lock ∧
        st1.accessed = st.accessed ∧ st1.hand = st.hand ∧ st1.dirty = st.dirty ∧
        st1.file_write_at = st.file_write_at ∧
        find_page st1 key = some
          { p with b_s := k * PAGE_SECTORS, exec_file := none, offset := 0, bytes := 0,
                   swap_or_file := false } ∧
        (∀ key1, find_page st key1 = none → find_page st1 key1 = none) ∧
        (∀ i j, i < PAGE_SECTORS →
          st1.swap_device (k * PAGE_SECTORS + i) j = fr.base (i * BLOCK_SECTOR_SIZE + j))) := by
  refine ⟨fun h => ?_, fun k h => ?_⟩
  · unfold swap_out
    simp only [hp, hf, hfr, hlock, ne_eq, not_true_eq_false, if_false, bitmap_scan_and_flip, h]
  · refine ⟨_, swap_out_eq st cur key p f fr hp hf hfr hlock k h, ?_, ?_, ?_, ?_, ?_, ?_, ?_, ?_,
      ?_, ?_, ?_⟩
    · rfl
    · rfl
    · rfl
    · rfl
    · rfl
    · rfl
    · rfl
    · rfl
    · refine Eq.trans (find_page_modify _ _ _ ?_) ?_
      · exact fun _ => ⟨rfl, rfl⟩
      have h2 : find_page
          { modify_page { st with swap_bitmap := st.swap_bitmap.set k true } key
              (fun p => { p with b_s := k * PAGE_SECTORS }) with
            swap_device := fun s =>
              if k * PAGE_SECTORS ≤ s ∧ s < k * PAGE_SECTORS + PAGE_SECTORS then
                (fun j => fr.base ((s - k * PAGE_SECTORS) * BLOCK_SECTOR_SIZE + j))
              else st.swap_device s } key
          = (find_page st key).map (fun p => { p with b_s := k * PAGE_SECTORS }) :=
        find_page_modify { st with swap_bitmap := st.swap_bitmap.set k true } key _
          (fun _ => ⟨rfl, rfl⟩)
      rw [h2, hp]
      rfl
    · intro key1 hnone
      refine Eq.trans (find_page_modify_other _ _ _ _ ?_) ?_
      · exact fun _ => ⟨rfl, rfl⟩
      have h2 : find_page
          { modify_page { st with swap_bitmap := st.swap_bitmap.set k true } key
              (fun p => { p with b_s := k * PAGE_SECTORS }) with
            swap_device := fun s =>
              if k * PAGE_SECTORS ≤ s ∧ s < k * PAGE_SECTORS + PAGE_SECTORS then
                (fun j => fr.base ((s - k * PAGE_SECTORS) * BLOCK_SECTOR_SIZE + j))
              else st.swap_device s } key1
          = (find_page st key1).map (fun p =>
              if p.thread = key.1 ∧ p.addr = key.2 then { p with b_s := k * PAGE_SECTORS }
              else p) :=
        find_page_modify_other { st with swap_bitmap := st.swap_bitmap.set k true } key key1 _
          (fun _ => ⟨rfl, rfl⟩)
      rw [h2, hnone]
      rfl
    · intro i j hi
      simp only [modify_page]
      rw [if_pos ⟨Nat.le_add_right _ _, by omega⟩, Nat.add_sub_cancel_left]

theorem write_page_to_disk_swap (st : VM) (cur : Nat) (key : Nat × Nat) (p : Page) (dirty : Bool)
    (h : p.exec_file = none ∨ (dirty = true ∧ p.swap_or_file = true)) :
    write_page_to_disk st cur key p dirty = swap_out st cur key := by
  unfold write_page_to_disk
  cases hfile : p.exec_file with
  | none => rfl
  | some file =>
    rcases h with h | ⟨h1, h2⟩
    · rw [hfile] at h; cases h
    · simp only [h1, h2, if_true]

theorem page_out_eq (st : VM) (cur : Nat) (key : Nat × Nat) (p : Page) (f : Nat) (fr : Frame)
    (hp : find_page st key = some p) (hf : p.frame = some f) (hfr : st.frames[f]? = some fr)
    (hlock : fr.lock = some cur) :
    page_out st cur key =
      match write_page_to_disk
        { st with present := fun t a =>
            if t = p.thread ∧ a = p.addr then false else st.present t a }
        cur key p (st.dirty p.thread p.addr) with
      | none => none
      | some (ok, st2) =>
        if ok = true then some (true, modify_page st2 key (fun p => { p with frame := none }))
        else some (false, st2) := by
  unfold page_out
  simp only [hp, hf, hfr, hlock, ne_eq, not_true_eq_false, if_false]

/-- The cases of `page_out` on a page with a frame whose lock the caller
holds; the call changes neither the frame table nor the accessed bits, the
clock hand or `scan_lock`, and its result is `writeback_succeeds`. -/
theorem page_out_cases (st : VM) (cur : Nat) (key : Nat × Nat) (p : Page) (f : Nat)
    (fr : Frame) (hp : find_page st key = some p) (hf : p.frame = some f)
    (hfr : st.frames[f]? = some fr) (hlock : fr.lock = some cur) :
    ∃ ok st1, page_out st cur key = some (ok, st1) ∧
      (ok = writeback_succeeds st p ∧ st1.accessed = st.accessed ∧
        st1.scan_lock = st.scan_lock ∧ st1.hand = st.hand ∧ st1.dirty = st.dirty ∧
        st1.file_write_at = st.file_write_at ∧
        (∀ key1, find_page st key1 = none → find_page st1 key1 = none)) ∧
      st1.frames = st.frames ∧
      (find_page st1 key).map (fun q => q.frame) = some (if ok = true then none else some f) ∧
      (ok = false → st1.pages = st.pages ∧ st1.swap_bitmap = st.swap_bitmap ∧
        st1.swap_device = st.swap_device) ∧
      ((p.exec_file = none ∨ (st.dirty p.thread p.addr = true ∧ p.swap_or_file = true)) →
        st1.file_writes = st.file_writes ∧ (ok = true ↔ false ∈ st.swap_bitmap) ∧
        (ok = true → ∃ k, st.swap_bitmap[k]? = some false ∧
          (∀ j, j < k → st.swap_bitmap[j]? = some true) ∧
          st1.swap_bitmap = st.swap_bitmap.set k true ∧
          find_page st1 key = some
            { p with frame := none, b_s := k * PAGE_SECTORS, exec_file := none, offset := 0,
                     bytes := 0, swap_or_file := false } ∧
          (∀ i j, i < PAGE_SECTORS →
            st1.swap_device (k * PAGE_SECTORS + i) j = fr.base (i * BLOCK_SECTOR_SIZE + j)))) ∧
      (p.exec_file ≠ none → st.dirty p.thread p.addr = false →
        ok = true ∧ st1.file_writes = st.file_writes ∧ st1.swap_bitmap = st.swap_bitmap ∧
        st1.swap_device = st.swap_device ∧ find_page st1 key = some { p with frame := none }) ∧
      (∀ file, p.exec_file = some file → st.dirty p.thread p.addr = true →
        p.swap_or_file = false →
        st1.file_writes = st.file_writes ++ [(file, p.bytes, p.offset)] ∧
        (ok = true ↔ st.file_write_at file p.bytes p.offset ≠ 0) ∧
        st1.swap_bitmap = st.swap_bitmap ∧ st1.swap_device = st.swap_device ∧
        (ok = true → find_page st1 key = some { p with frame := none })) := by
  have hpo := page_out_eq st cur key p f fr hp hf hfr hlock
  -- the state after `pagedir_clear_page`
  generalize hst0 : ({ st with present := fun t a =>
      if t = p.thread ∧ a = p.addr then false else st.present t a } : VM) = st0 at hpo
  have hpages0 : st0.pages = st.pages := by rw [← hst0]
  have hframes0 : st0.frames = st.frames := by rw [← hst0]
  have hbitmap0 : st0.swap_bitmap = st.swap_bitmap := by rw [← hst0]
  have hdev0 : st0.swap_device = st.swap_device := by rw [← hst0]
  have hwrites0 : st0.file_writes = st.file_writes := by rw [← hst0]
  have hfw0 : st0.file_write_at = st.file_write_at := by rw [← hst0]
  have hp0 : find_page st0 key = some p := by rw [← hst0]; exact hp
  have hfr0 : st0.frames[f]? = some fr := by rw [hframes0]; exact hfr
  have hacc0 : st0.accessed = st.accessed := by rw [← hst0]
  have hsl0 : st0.scan_lock = st.scan_lock := by rw [← hst0]
  have hhand0 : st0.hand = st.hand := by rw [← hst0]
  have hdirty0 : st0.dirty = st.dirty := by rw [← hst0]
  have hnone0 : ∀ key1, find_page st key1 = none → find_page st0 key1 = none := by
    intro key1 h
    rw [← hst0]
    exact h
  have hnone_clear : ∀ (st2 : VM) (key1 : Nat × Nat), find_page st2 key1 = none →
      find_page (modify_page st2 key (fun p => { p with frame := none })) key1 = none := by
    intro st2 key1 h
    refine Eq.trans (find_page_modify_other st2 key key1 _ ?_) ?_
    · exact fun _ => ⟨rfl, rfl⟩
    · rw [h]
      rfl
  have hfind_clear : ∀ (st2 : VM) (q : Page), find_page st2 key = some q →
      find_page (modify_page st2 key (fun p => { p with frame := none })) key
        = some { q with frame := none } := by
    intro st2 q hq
    refine Eq.trans (find_page_modify st2 key _ ?_) ?_
    · exact fun _ => ⟨rfl, rfl⟩
    · rw [hq]
      rfl
  by_cases hswap : p.exec_file = none ∨ (st.dirty p.thread p.addr = true ∧ p.swap_or_file = true)
  · -- the page goes to swap
    rw [write_page_to_disk_swap st0 cur key p _ hswap] at hpo
    obtain ⟨hnone, hsome⟩ := swap_out_spec st0 cur key p f fr hp0 hf hfr0 hlock
    have hnotB : ¬ (p.exec_file ≠ none ∧ st.dirty p.thread p.addr = false) := by
      rintro ⟨h1, h2⟩
      rcases hswap with h | ⟨h, _⟩
      · exact h1 h
      · rw [h2] at h; cases h
    have hnotC : ∀ file, ¬ (p.exec_file = some file ∧ st.dirty p.thread p.addr = true ∧
        p.swap_or_file = false) := by
      rintro file ⟨h1, _, h3⟩
      rcases hswap with h | ⟨_, h⟩
      · rw [h1] at h; cases h
      · rw [h3] at h; cases h
    cases hscan : bitmap_scan st0.swap_bitmap with
    | none =>
      rw [hnone hscan] at hpo
      simp only [Bool.false_eq_true, if_false] at hpo
      have hfull : false ∉ st.swap_bitmap := by
        rw [← hbitmap0]; exact (bitmap_scan_none _).1 hscan
      refine ⟨false, st0, hpo,
        ⟨by
            unfold writeback_succeeds
            rw [if_pos hswap]
            exact (decide_eq_false hfull).symm, hacc0, hsl0, hhand0, hdirty0, hfw0, hnone0⟩,
        hframes0, ?_, fun _ => ⟨hpages0, hbitmap0, hdev0⟩,
        fun _ => ⟨hwrites0, ?_, fun h => (by cases h)⟩,
        fun h1 h2 => absurd ⟨h1, h2⟩ hnotB,
        fun file h1 h2 h3 => absurd ⟨h1, h2, h3⟩ (hnotC file)⟩
      · rw [hp0]
        simp [hf]
      · constructor
        · intro h; cases h
        · intro h; exact absurd h hfull
    | some k =>
      obtain ⟨st1, hso, hfr1, hbm1, hw1, hsl1, hacc1, hhand1, hdirty1, hfw1, hfind1, hnone1,
        hdev1⟩ := hsome k hscan
      rw [hso] at hpo
      simp only [if_true] at hpo
      obtain ⟨hk1, hk2⟩ := bitmap_scan_some _ k hscan
      rw [hbitmap0] at hk1 hk2 hbm1
      have hfind2 := hfind_clear st1 _ hfind1
      have hfree : false ∈ st.swap_bitmap := List.getElem?_mem hk1
      refine ⟨true, _, hpo,
        ⟨by
            unfold writeback_succeeds
            rw [if_pos hswap]
            exact (decide_eq_true hfree).symm, hacc1.trans hacc0, hsl1.trans hsl0,
          hhand1.trans hhand0, hdirty1.trans hdirty0, hfw1.trans hfw0,
          fun key1 h => hnone_clear st1 key1 (hnone1 key1 (hnone0 key1 h))⟩,
        ?_, ?_, fun h => (by cases h),
        fun _ => ⟨hw1.trans hwrites0, ?_, fun _ => ⟨k, hk1, hk2, hbm1, hfind2, hdev1⟩⟩,
        fun h1 h2 => absurd ⟨h1, h2⟩ hnotB,
        fun file h1 h2 h3 => absurd ⟨h1, h2, h3⟩ (hnotC file)⟩
      · exact hfr1.trans hframes0
      · rw [hfind2]
        rfl
      · simp only [true_iff]
        exact hfree
  · -- the page has a file
    have hfile : ∃ file, p.exec_file = some file := by
      cases h : p.exec_file with
      | none => exact absurd (Or.inl h) hswap
      | some file => exact ⟨file, rfl⟩
    obtain ⟨file, hfile⟩ := hfile
    by_cases hd : st.dirty p.thread p.addr = true
    case neg =>
      have hdirty : st.dirty p.thread p.addr = false := by simpa using hd
      have hw : write_page_to_disk st0 cur key p false = some (true, st0) := by
        unfold write_page_to_disk
        simp only [hfile, Bool.false_eq_true, if_false]
      rw [hdirty, hw] at hpo
      simp only [if_true] at hpo
      have hfind2 := hfind_clear st0 p hp0
      refine ⟨true, _, hpo,
        ⟨by
            unfold writeback_succeeds
            rw [if_neg hswap, if_neg (by rw [hdirty]; simp)], hacc0, hsl0, hhand0, hdirty0, hfw0,
          fun key1 h => hnone_clear st0 key1 (hnone0 key1 h)⟩,
        hframes0, ?_, fun h => (by cases h),
        fun h => absurd h hswap,
        fun _ _ => ⟨rfl, hwrites0, hbitmap0, hdev0, hfind2⟩,
        fun file1 _ h2 _ => (by rw [hdirty] at h2; cases h2)⟩
      rw [hfind2]
      rfl
    case pos =>
      have hdirty := hd
      have hsof : p.swap_or_file = false := by
        cases h : p.swap_or_file with
        | false => rfl
        | true => exact absurd (Or.inr ⟨hdirty, h⟩) hswap
      have hw : write_page_to_disk st0 cur key p true =
          some (decide (st0.file_write_at file p.bytes p.offset ≠ 0),
            { st0 with file_writes := st0.file_writes ++ [(file, p.bytes, p.offset)] }) := by
        unfold write_page_to_disk
        simp only [hfile, hsof, if_true, Bool.false_eq_true, if_false]
      rw [hdirty, hw] at hpo
      have hfwn : st0.file_write_at file p.bytes p.offset = st.file_write_at file p.bytes p.offset := by
        rw [hfw0]
      have hlog : st0.file_writes ++ [(file, p.bytes, p.offset)]
          = st.file_writes ++ [(file, p.bytes, p.offset)] := by rw [hwrites0]
      by_cases hn : st0.file_write_at file p.bytes p.offset ≠ 0
      · rw [decide_eq_true hn] at hpo
        simp only [if_true] at hpo
        have hfind2 := hfind_clear
          { st0 with file_writes := st0.file_writes ++ [(file, p.bytes, p.offset)] } p hp0
        refine ⟨true, _, hpo,
          ⟨by
              unfold writeback_succeeds
              rw [if_neg hswap, if_pos hdirty]
              simp only [hfile]
              exact (decide_eq_true (hfwn ▸ hn)).symm, hacc0, hsl0, hhand0,
            hdirty0, hfw0, fun key1 h => hnone_clear _ key1 (hnone0 key1 h)⟩,
          hframes0, ?_, fun h => (by cases h),
          fun h => absurd h hswap,
          fun _ h2 => (by rw [hdirty] at h2; cases h2),
          fun file1 h1 _ _ => ?_⟩
        · rw [hfind2]
          rfl
        · rw [hfile] at h1
          cases h1
          exact ⟨hlog, ⟨fun _ => hfwn ▸ hn, fun _ => rfl⟩, hbitmap0, hdev0, fun _ => hfind2⟩
      · rw [decide_eq_false hn] at hpo
        simp only [Bool.false_eq_true, if_false] at hpo
        have hn1 : st.file_write_at file p.bytes p.offset = 0 := by
          rw [← hfwn]
          by_contra hc
          exact hn hc
        refine ⟨false, _, hpo,
          ⟨by
              unfold writeback_succeeds
              rw [if_neg hswap, if_pos hdirty]
              simp only [hfile]
              exact (decide_eq_false (by rw [hn1]; simp)).symm, hacc0, hsl0, hhand0,
            hdirty0, hfw0, hnone0⟩,
          hframes0, ?_, fun _ => ⟨hpages0, hbitmap0, hdev0⟩,
          fun h => absurd h hswap,
          fun _ h2 => (by rw [hdirty] at h2; cases h2),
          fun file1 h1 _ _ => ?_⟩
        · show (find_page st0 key).map (fun q => q.frame) = _
          rw [hp0]
          simp [hf]
        · rw [hfile] at h1
          cases h1
          exact ⟨hlog, ⟨fun h => (by cases h), fun h => absurd (hfwn ▸ h) hn⟩, hbitmap0, hdev0,
            fun h => (by cases h)⟩

/-- C23: `page_out` of a page with a frame whose lock the caller holds
returns, and leaves the frame table as it is.  A page without a file, and a
dirty page with a file and `swap_or_file` set, go to the first free swap slot:
the call returns true exactly when the bitmap has a free slot, and then the
slot is marked, the page names the slot and the sectors of the slot hold the
content of the frame; no file is written.  A page with a file whose dirty bit
is clear is dropped: the call returns true and writes neither swap nor file.
A dirty page with a file and `swap_or_file` clear is written to its file with
its `bytes` and `offset`, and the call returns true exactly when
`file_write_at` reports a count other than 0; the swap area is untouched.  In
every case the frame pointer of the page is null afterwards when the call
returns true; when it returns false the page descriptors, with the frame
pointer and the source fields, the swap bitmap and the swap device are as
before. -/
theorem page_out_writeback (st : VM) (cur : Nat) (key : Nat × Nat) (p : Page) (f : Nat)
    (fr : Frame) (hp : find_page st key = some p) (hf : p.frame = some f)
    (hfr : st.frames[f]? = some fr) (hlock : fr.lock = some cur) :
    ∃ ok st1, page_out st cur key = some (ok, st1) ∧
      st1.frames = st.frames ∧
      (find_page st1 key).map (fun q => q.frame) = some (if ok = true then none else some f) ∧
      (ok = false → st1.pages = st.pages ∧ st1.swap_bitmap = st.swap_bitmap ∧
        st1.swap_device = st.swap_device) ∧
      ((p.exec_file = none ∨ (st.dirty p.thread p.addr = true ∧ p.swap_or_file = true)) →
        st1.file_writes = st.file_writes ∧ (ok = true ↔ false ∈ st.swap_bitmap) ∧
        (ok = true → ∃ k, st.swap_bitmap[k]? = some false ∧
          (∀ j, j < k → st.swap_bitmap[j]? = some true) ∧
          st1.swap_bitmap = st.swap_bitmap.set k true ∧
          find_page st1 key = some
            { p with frame := none, b_s := k * PAGE_SECTORS, exec_file := none, offset := 0,
                     bytes := 0, swap_or_file := false } ∧
          (∀ i j, i < PAGE_SECTORS →
            st1.swap_device (k * PAGE_SECTORS + i) j = fr.base (i * BLOCK_SECTOR_SIZE + j)))) ∧
      (p.exec_file ≠ none → st.dirty p.thread p.addr = false →
        ok = true ∧ st1.file_writes = st.file_writes ∧ st1.swap_bitmap = st.swap_bitmap ∧
        st1.swap_device = st.swap_device ∧ find_page st1 key = some { p with frame := none }) ∧
      (∀ file, p.exec_file = some file → st.dirty p.thread p.addr = true →
        p.swap_or_file = false →
        st1.file_writes = st.file_writes ++ [(file, p.bytes, p.offset)] ∧
        (ok = true ↔ st.file_write_at file p.bytes p.offset ≠ 0) ∧
        st1.swap_bitmap = st.swap_bitmap ∧ st1.swap_device = st.swap_device ∧
        (ok = true → find_page st1 key = some { p with frame := none })) := by
  obtain ⟨ok, st1, h, _, hrest⟩ := page_out_cases st cur key p f fr hp hf hfr hlock
  exact ⟨ok, st1, h, hrest⟩

/-! ## The frame table -/

theorem list_set_self {α : Type} : ∀ (l : List α) (i : Nat) (x : α), l[i]? = some x →
    l.set i x = l
  | [], _, _, _ => rfl
  | a :: l, 0, x, h => by
    simp only [List.getElem?_cons_zero, Option.some.injEq] at h
    rw [List.set_cons_zero, h]
  | a :: l, i + 1, x, h => by
    simp only [List.getElem?_cons_succ] at h
    rw [List.set_cons_succ, list_set_self l i x h]

theorem modify_frame_eq (st : VM) (i : Nat) (f : Frame → Frame) (fr : Frame)
    (h : st.frames[i]? = some fr) :
    modify_frame st i f = { st with frames := st.frames.set i (f fr) } := by
  unfold modify_frame
  rw [h]

theorem getElem?_set_same {α : Type} (l : List α) (i : Nat) (x y : α) (h : l[i]? = some x) :
    (l.set i y)[i]? = some y := by
  have hlt : i < l.length := by
    by_contra hc
    rw [List.getElem?_eq_none (by omega)] at h
    cases h
  rw [List.getElem?_set_self hlt]

theorem find_free_frame_loop_spec (cur : Nat) (target : Nat × Nat) :
    ∀ (n index : Nat) (st : VM), (∀ fr ∈ st.frames, fr.lock = none) →
      index + n = st.frames.length →
      ((∀ j fr, index ≤ j → st.frames[j]? = some fr → fr.page ≠ none) →
        find_free_frame_loop cur target n index st = some (none, st, st.frames.length)) ∧
      (∀ i fr, index ≤ i → st.frames[i]? = some fr → fr.page = none →
        (∀ j fr1, index ≤ j → j < i → st.frames[j]? = some fr1 → fr1.page ≠ none) →
        find_free_frame_loop cur target n index st = some (some i,
          { st with frames := st.frames.set i { fr with lock := some cur, page := some target } },
          i + 1)) := by
  intro n
  induction n with
  | zero =>
    intro index st _ hlen
    refine ⟨fun _ => ?_, fun i fr hi hfr _ _ => ?_⟩
    · rw [find_free_frame_loop]
      simp only [Nat.add_zero] at hlen
      rw [hlen]
    · rw [List.getElem?_eq_none (by omega)] at hfr
      cases hfr
  | succ n ih =>
    intro index st hlocks hlen
    have hidx : index < st.frames.length := by omega
    obtain ⟨ih1, ih2⟩ := ih (index + 1) st hlocks (by omega)
    have hcf : st.frames[index]? = some st.frames[index] := List.getElem?_eq_getElem hidx
    have hlock : st.frames[index].lock = none := hlocks _ (List.getElem_mem _)
    have hstep : find_free_frame_loop cur target (n + 1) index st =
        if st.frames[index].page = none then
          some (some index,
            modify_frame st index (fun fr => { fr with lock := some cur, page := some target }),
            index + 1)
        else find_free_frame_loop cur target n (index + 1) st := by
      rw [find_free_frame_loop]
      simp only [hcf, hlock, lock_try_acquire]
    rw [hstep]
    refine ⟨fun hall => ?_, fun i fr hi hfr hnone hbefore => ?_⟩
    · rw [if_neg (hall index _ (le_refl _) hcf)]
      exact ih1 (fun j fr hj => hall j fr (by omega))
    · by_cases hi0 : i = index
      · subst hi0
        rw [hcf] at hfr
        cases hfr
        rw [if_pos hnone, modify_frame_eq st i _ _ hcf]
      · rw [if_neg (hbefore index _ (le_refl _) (by omega) hcf)]
        exact ih2 i fr (by omega) hfr hnone (fun j fr1 hj => hbefore j fr1 (by omega))

theorem writeback_succeeds_congr (st st1 : VM) (p : Page) (hd : st1.dirty = st.dirty)
    (hb : st1.swap_bitmap = st.swap_bitmap) (hf : st1.file_write_at = st.file_write_at) :
    writeback_succeeds st1 p = writeback_succeeds st p := by
  unfold writeback_succeeds
  rw [hd, hb, hf]

theorem frame_lock_cleared (cf : Frame) (cur : Nat) (h : cf.lock = none) :
    ({ ({ cf with lock := some cur } : Frame) with lock := none } : Frame) = cf := by
  cases cf
  simp only at h
  subst h
  rfl

/-- One round of the clock pass on a frame whose lock is free and whose page
is resident in it. -/
theorem find_frame_to_evict_step (st : VM) (cur : Nat) (target key : Nat × Nat)
    (n index ci : Nat) (cf : Frame) (p : Page)
    (hci : (st.hand + index) % st.frames.length = ci)
    (hcf : st.frames[ci]? = some cf)
    (hlock : cf.lock = none) (hpage : cf.page = some key)
    (hp : find_page st key = some p) (hpf : p.frame = some ci) :
    find_frame_to_evict_loop cur target (n + 1) index st =
      if st.accessed p.thread p.addr = true then
        find_frame_to_evict_loop cur target n (index + 1)
          { st with accessed := fun t a =>
              if t = p.thread ∧ a = p.addr then false else st.accessed t a }
      else
        match page_out
            { st with frames := st.frames.set ci ({ cf with lock := some cur } : Frame) }
            cur key with
        | none => none
        | some (false, st3) =>
          some (none, modify_frame st3 ci (fun fr => { fr with lock := none }), index + 1)
        | some (true, st3) =>
          some (some ci, modify_frame st3 ci (fun fr => { fr with page := some target }),
            index + 1) := by
  obtain ⟨base, lock, page⟩ := cf
  simp only at hlock hpage
  subst hlock hpage
  simp only
  have hset : (st.frames.set ci (⟨base, some cur, some key⟩ : Frame))[ci]?
      = some ⟨base, some cur, some key⟩ := getElem?_set_same _ _ _ _ hcf
  have hp1 : find_page { st with frames := st.frames.set ci (⟨base, some cur, some key⟩ : Frame) }
      key = some p := hp
  rw [find_frame_to_evict_loop]
  simp only [hci, hcf, lock_try_acquire, modify_frame_eq st ci _ _ hcf]
  have hacc : page_accessed_recently
      { st with frames := st.frames.set ci (⟨base, some cur, some key⟩ : Frame) } cur key
      = if st.accessed p.thread p.addr = true then
          some (true, { st with frames := st.frames.set ci (⟨base, some cur, some key⟩ : Frame),
                                accessed := fun t a =>
                                  if t = p.thread ∧ a = p.addr then false else st.accessed t a })
        else
          some (false, { st with frames := st.frames.set ci (⟨base, some cur, some key⟩ : Frame) }) := by
    unfold page_accessed_recently
    simp only [hp1, hpf, hset, ne_eq, not_true_eq_false, if_false]
    by_cases ha : st.accessed p.thread p.addr = true
    · simp only [ha, if_true]
    · simp only [ha, if_false]
      simp at ha
      simp [ha]
  rw [hacc]
  by_cases ha : st.accessed p.thread p.addr = true
  · simp only [ha, if_true]
    congr 1
    have hset2 : ({ st with frames := st.frames.set ci (⟨base, some cur, some key⟩ : Frame),
                            accessed := fun t a =>
                              if t = p.thread ∧ a = p.addr then false
                              else st.accessed t a } : VM).frames[ci]?
        = some ⟨base, some cur, some key⟩ := hset
    rw [modify_frame_eq _ ci _ _ hset2]
    simp only [List.set_set]
    rw [list_set_self _ _ _ hcf]
  · simp only [ha, if_false]
    rfl

theorem find_page_of_pages (st st0 : VM) (key : Nat × Nat) (h : st.pages = st0.pages) :
    find_page st key = find_page st0 key := by
  unfold find_page
  rw [h]

/-- The clock pass on a table in which every lock is free and every frame
holds a resident page whose write-back succeeds: after `index` rounds that
skipped a frame, the pass ends within the first `N + 1` rounds at a frame
whose page it has written back. -/
theorem find_frame_to_evict_loop_spec (st0 : VM) (cur : Nat) (target : Nat × Nat)
    (hN : 0 < st0.frames.length)
    (hlocks : ∀ fr ∈ st0.frames, fr.lock = none)
    (hfull : ∀ fr ∈ st0.frames, fr.page ≠ none)
    (hpin : ∀ i fr key, st0.frames[i]? = some fr → fr.page = some key →
      ∃ p, find_page st0 key = some p ∧ p.frame = some i)
    (hout : ∀ p ∈ st0.pages, p.frame ≠ none → writeback_succeeds st0 p = true) :
    ∀ (m index n : Nat) (st : VM), st0.frames.length - index = m →
      index ≤ st0.frames.length → m < n → ClockInv st0 st index →
      ∃ idx fr key st1, index ≤ idx ∧ idx ≤ st0.frames.length ∧
        st0.frames[(st0.hand + idx) % st0.frames.length]? = some fr ∧ fr.page = some key ∧
        find_frame_to_evict_loop cur target n index st
          = some (some ((st0.hand + idx) % st0.frames.length), st1, idx + 1) ∧
        st1.frames = st0.frames.set ((st0.hand + idx) % st0.frames.length)
          ⟨fr.base, some cur, some target⟩ ∧
        (find_page st1 key).map (fun q => q.frame) = some none ∧
        st1.accessed key.1 key.2 = false ∧ st1.scan_lock = st0.scan_lock ∧
        (∀ j fr1 key1, j < idx →
          st0.frames[(st0.hand + j) % st0.frames.length]? = some fr1 → fr1.page = some key1 →
          st0.accessed key1.1 key1.2 = true ∧ st1.accessed key1.1 key1.2 = false) := by
  intro m
  induction m with
  | zero =>
    intro index n st hm hle hn hinv
    -- index = N: the frame at the hand is reached again
    have hidx : index = st0.frames.length := by omega
    subst hidx
    obtain ⟨n, rfl⟩ : ∃ n1, n = n1 + 1 := ⟨n - 1, by omega⟩
    have hci : (st.hand + st0.frames.length) % st.frames.length
        = (st0.hand + 0) % st0.frames.length := by
      rw [hinv.hand, hinv.frames, Nat.add_mod_right, Nat.add_zero]
    have hlt : (st0.hand + 0) % st0.frames.length < st0.frames.length := Nat.mod_lt _ hN
    have hcf0 := List.getElem?_eq_getElem hlt
    generalize st0.frames[(st0.hand + 0) % st0.frames.length] = cf at hcf0
    have hmem : cf ∈ st0.frames := List.getElem?_mem hcf0
    obtain ⟨key, hpage⟩ : ∃ key, cf.page = some key := by
      cases h : cf.page with
      | none => exact absurd h (hfull cf hmem)
      | some key => exact ⟨key, rfl⟩
    obtain ⟨p, hp0, hpf⟩ := hpin _ cf key hcf0 hpage
    obtain ⟨hpmem, hk1, hk2⟩ := find_page_key st0 key p hp0
    have hp : find_page st key = some p := by
      rw [find_page_of_pages st st0 key hinv.pages]; exact hp0
    have hcf : st.frames[(st0.hand + 0) % st0.frames.length]? = some cf := by
      rw [hinv.frames]; exact hcf0
    have hcl := (hinv.cleared 0 cf key hN hcf0 hpage).2
    rw [← hk1, ← hk2] at hcl
    rw [find_frame_to_evict_step st cur target key n _ _ cf p hci hcf (hlocks cf hmem) hpage hp
      hpf, if_neg (by rw [hcl]; simp)]
    -- the page is written back
    have hset : (st.frames.set ((st0.hand + 0) % st0.frames.length)
        ({ cf with lock := some cur } : Frame))[(st0.hand + 0) % st0.frames.length]?
        = some { cf with lock := some cur } := getElem?_set_same _ _ _ _ hcf
    obtain ⟨ok, st3, hpo, ⟨hok, hacc3, hsl3, _, _, _, _⟩, hfr3, hfind3, _⟩ :=
      page_out_cases
        { st with frames := st.frames.set _ ({ cf with lock := some cur } : Frame) }
        cur key p _ _ hp hpf hset rfl
    have hoktrue : ok = true := by
      rw [hok]
      exact (writeback_succeeds_congr st0 _ p hinv.dirty hinv.swap_bitmap
        hinv.file_write_at).trans (hout p hpmem (by rw [hpf]; simp))
    subst hoktrue
    rw [hpo]
    simp only
    have hfr3' : st3.frames[(st0.hand + 0) % st0.frames.length]?
        = some { cf with lock := some cur } := by rw [hfr3]; exact hset
    rw [modify_frame_eq st3 _ _ _ hfr3']
    have hidxN : (st0.hand + st0.frames.length) % st0.frames.length
        = (st0.hand + 0) % st0.frames.length := by
      rw [Nat.add_mod_right, Nat.add_zero]
    refine ⟨st0.frames.length, cf, key, ?_⟩
    simp only [hidxN]
    refine ⟨_, le_refl _, le_refl _, hcf0, hpage, rfl, ?_, ?_, ?_, ?_, ?_⟩
    · show st3.frames.set _ _ = _
      rw [hfr3]
      show (st.frames.set _ _).set _ _ = _
      rw [List.set_set, hinv.frames]
    · exact hfind3
    · show st3.accessed key.1 key.2 = false
      rw [hacc3]
      show st.accessed key.1 key.2 = false
      rw [← hk1, ← hk2]; exact hcl
    · show st3.scan_lock = _
      rw [hsl3]
      exact hinv.scan_lock
    · intro j fr1 key1 hj h1 h2
      obtain ⟨c1, c2⟩ := hinv.cleared j fr1 key1 hj h1 h2
      refine ⟨c1, ?_⟩
      show st3.accessed key1.1 key1.2 = false
      rw [hacc3]
      exact c2
  | succ m ih =>
    intro index n st hm hle hn hinv
    have hidx : index < st0.frames.length := by omega
    obtain ⟨n, rfl⟩ : ∃ n1, n = n1 + 1 := ⟨n - 1, by omega⟩
    have hci : (st.hand + index) % st.frames.length = (st0.hand + index) % st0.frames.length := by
      rw [hinv.hand, hinv.frames]
    have hlt : (st0.hand + index) % st0.frames.length < st0.frames.length := Nat.mod_lt _ hN
    have hcf0 := List.getElem?_eq_getElem hlt
    generalize st0.frames[(st0.hand + index) % st0.frames.length] = cf at hcf0
    have hmem : cf ∈ st0.frames := List.getElem?_mem hcf0
    obtain ⟨key, hpage⟩ : ∃ key, cf.page = some key := by
      cases h : cf.page with
      | none => exact absurd h (hfull cf hmem)
      | some key => exact ⟨key, rfl⟩
    obtain ⟨p, hp0, hpf⟩ := hpin _ cf key hcf0 hpage
    obtain ⟨hpmem, hk1, hk2⟩ := find_page_key st0 key p hp0
    have hp : find_page st key = some p := by
      rw [find_page_of_pages st st0 key hinv.pages]; exact hp0
    have hcf : st.frames[(st0.hand + index) % st0.frames.length]? = some cf := by
      rw [hinv.frames]; exact hcf0
    rw [find_frame_to_evict_step st cur target key n _ _ cf p hci hcf (hlocks cf hmem) hpage hp
      hpf]
    by_cases ha : st.accessed p.thread p.addr = true
    · -- the frame is skipped and its bit cleared
      rw [if_pos ha]
      have hinv1 : ClockInv st0
          { st with accessed := fun t a =>
              if t = p.thread ∧ a = p.addr then false else st.accessed t a } (index + 1) := by
        refine ⟨hinv.frames, hinv.pages, hinv.hand, hinv.scan_lock, hinv.swap_bitmap, hinv.dirty,
          hinv.file_write_at, ?_, ?_⟩
        · intro j fr1 key1 hj h1 h2
          by_cases hji : j = index
          · subst hji
            rw [hcf0] at h1
            cases h1
            rw [hpage] at h2
            cases h2
            refine ⟨?_, ?_⟩
            · rw [← hk1, ← hk2]; exact hinv.mono _ _ ha
            · show (if key.1 = p.thread ∧ key.2 = p.addr then false
                else st.accessed key.1 key.2) = false
              rw [if_pos ⟨hk1.symm, hk2.symm⟩]
          · obtain ⟨c1, c2⟩ := hinv.cleared j fr1 key1 (by omega) h1 h2
            refine ⟨c1, ?_⟩
            show (if key1.1 = p.thread ∧ key1.2 = p.addr then false
              else st.accessed key1.1 key1.2) = false
            split
            · rfl
            · exact c2
        · intro t a h
          have h' : (if t = p.thread ∧ a = p.addr then false else st.accessed t a) = true := h
          split at h'
          · cases h'
          · exact hinv.mono t a h'
      obtain ⟨idx, fr, key2, st1, h1, h2, h3, h4, h5, h6⟩ :=
        ih (index + 1) n _ (by omega) (by omega) (by omega) hinv1
      exact ⟨idx, fr, key2, st1, by omega, h2, h3, h4, h5, h6⟩
    · -- the page is written back
      rw [if_neg ha]
      have hfalse : st.accessed p.thread p.addr = false := by simpa using ha
      have hset : (st.frames.set ((st0.hand + index) % st0.frames.length)
          ({ cf with lock := some cur } : Frame))[(st0.hand + index) % st0.frames.length]?
          = some { cf with lock := some cur } := getElem?_set_same _ _ _ _ hcf
      obtain ⟨ok, st3, hpo, ⟨hok, hacc3, hsl3, _, _, _, _⟩, hfr3, hfind3, _⟩ :=
        page_out_cases
          { st with frames := st.frames.set _ ({ cf with lock := some cur } : Frame) }
          cur key p _ _ hp hpf hset rfl
      have hoktrue : ok = true := by
        rw [hok]
        exact (writeback_succeeds_congr st0 _ p hinv.dirty hinv.swap_bitmap
          hinv.file_write_at).trans (hout p hpmem (by rw [hpf]; simp))
      subst hoktrue
      rw [hpo]
      simp only
      have hfr3' : st3.frames[(st0.hand + index) % st0.frames.length]?
          = some { cf with lock := some cur } := by rw [hfr3]; exact hset
      rw [modify_frame_eq st3 _ _ _ hfr3']
      refine ⟨index, cf, key, _, le_refl _, hle, hcf0, hpage, rfl, ?_, hfind3, ?_, ?_, ?_⟩
      · show st3.frames.set _ _ = _
        rw [hfr3]
        show (st.frames.set _ _).set _ _ = _
        rw [List.set_set, hinv.frames]
      · show st3.accessed key.1 key.2 = false
        rw [hacc3]
        show st.accessed key.1 key.2 = false
        rw [← hk1, ← hk2]; exact hfalse
      · show st3.scan_lock = _
        rw [hsl3]
        exact hinv.scan_lock
      · intro j fr1 key1 hj h1 h2
        obtain ⟨c1, c2⟩ := hinv.cleared j fr1 key1 hj h1 h2
        refine ⟨c1, ?_⟩
        show st3.accessed key1.1 key1.2 = false
        rw [hacc3]
        exact c2

/-- C24: on a frame table with at least one frame in which `scan_lock` and
every frame lock are free, every page that a frame names is resident in that
frame, and the write-back of every resident page succeeds,
`frame_alloc_and_lock` returns a frame: afterwards that frame names the
requested page with its lock held by the caller, every other frame and
`scan_lock` are as before, the free scan has looked at no more than `N` frames
and the clock pass at no more than `2 N`.  With a free frame the first one is
taken and nothing is evicted.  Without one the clock pass starts at the hand:
every frame it passes had the accessed bit of its page set and leaves it
clear, and the frame it stops at, after at most a full turn, has its page
written back with a null frame pointer and a clear accessed bit. -/
theorem frame_alloc_and_lock_spec (st : VM) (cur : Nat) (target : Nat × Nat)
    (hN : 0 < st.frames.length) (hscan : st.scan_lock = none)
    (hlocks : ∀ fr ∈ st.frames, fr.lock = none)
    (hpin : ∀ i fr key, st.frames[i]? = some fr → fr.page = some key →
      ∃ p, find_page st key = some p ∧ p.frame = some i)
    (hout : ∀ p ∈ st.pages, p.frame ≠ none → writeback_succeeds st p = true) :
    ∃ i st1 n1 n2 fr, frame_alloc_and_lock st cur target = some (some i, st1, n1, n2) ∧
      n1 ≤ st.frames.length ∧ n2 ≤ 2 * st.frames.length ∧
      st.frames[i]? = some fr ∧
      st1.frames = st.frames.set i ⟨fr.base, some cur, some target⟩ ∧
      (st1.frames[i]?).map (fun x : Frame => (x.lock, x.page)) = some (some cur, some target) ∧
      (∀ j, j ≠ i → st1.frames[j]? = st.frames[j]?) ∧
      st1.scan_lock = none ∧
      ((∃ x ∈ st.frames, x.page = none) →
        fr.page = none ∧ n1 = i + 1 ∧ n2 = 0 ∧ st1.pages = st.pages ∧
        (∀ j x, j < i → st.frames[j]? = some x → x.page ≠ none)) ∧
      ((∀ x ∈ st.frames, x.page ≠ none) →
        n1 = st.frames.length ∧
        ∃ idx key, idx ≤ st.frames.length ∧ n2 = idx + 1 ∧
          i = (st.hand + idx) % st.frames.length ∧ fr.page = some key ∧
          (find_page st1 key).map (fun q => q.frame) = some none ∧
          st1.accessed key.1 key.2 = false ∧
          (∀ j x key1, j < idx →
            st.frames[(st.hand + j) % st.frames.length]? = some x → x.page = some key1 →
            st.accessed key1.1 key1.2 = true ∧ st1.accessed key1.1 key1.2 = false)) := by
  have hstart : frame_alloc_and_lock st cur target =
      match find_free_frame_loop cur target st.frames.length 0
          { st with scan_lock := some cur } with
      | none => none
      | some (some free_frame, st2, n1) =>
        some (some free_frame, { st2 with scan_lock := none }, n1, 0)
      | some (none, st2, n1) =>
        match find_frame_to_evict_loop cur target (st2.frames.length * 2) 0 st2 with
        | none => none
        | some (frame_to_evict, st3, n2) =>
          some (frame_to_evict, { st3 with scan_lock := none }, n1, n2) := by
    unfold frame_alloc_and_lock
    rw [hscan]
    rfl
  rw [hstart]
  obtain ⟨hffnone, hffsome⟩ := find_free_frame_loop_spec cur target st.frames.length 0
    { st with scan_lock := some cur } hlocks (Nat.zero_add _)
  have hfinal : ∀ (i : Nat) (fr : Frame), st.frames[i]? = some fr →
      ((st.frames.set i ⟨fr.base, some cur, some target⟩)[i]?).map (fun x : Frame => (x.lock, x.page))
        = some (some cur, some target) ∧
      (∀ j, j ≠ i → (st.frames.set i ⟨fr.base, some cur, some target⟩)[j]? = st.frames[j]?) := by
    intro i fr hfr
    refine ⟨by rw [getElem?_set_same _ _ _ _ hfr]; rfl, fun j hj => ?_⟩
    rw [List.getElem?_set_ne (Ne.symm hj)]
  by_cases hfree : ∃ x ∈ st.frames, x.page = none
  · -- a free frame: the first one is taken
    have hex : ∃ i : Nat, ∃ x : Frame, st.frames[i]? = some x ∧ x.page = none := by
      obtain ⟨x, hx, hpage⟩ := hfree
      obtain ⟨i, hi, hxi⟩ := List.getElem_of_mem hx
      exact ⟨i, x, by rw [List.getElem?_eq_getElem hi, hxi], hpage⟩
    classical
    obtain ⟨fr, hfr, hpage⟩ := Nat.find_spec hex
    have hmin : ∀ j x, j < Nat.find hex → st.frames[j]? = some x → x.page ≠ none := by
      intro j x hj hx hnone
      exact Nat.find_min hex hj ⟨x, hx, hnone⟩
    have hlt : Nat.find hex < st.frames.length := by
      by_contra hc
      rw [List.getElem?_eq_none (by omega)] at hfr
      cases hfr
    rw [hffsome (Nat.find hex) fr (Nat.zero_le _) hfr hpage
      (fun j x _ hj hx => hmin j x hj hx)]
    obtain ⟨hf1, hf2⟩ := hfinal _ fr hfr
    refine ⟨Nat.find hex, _, _, 0, fr, rfl, by omega, Nat.zero_le _, hfr, ?_, hf1, hf2, rfl,
      fun _ => ⟨hpage, rfl, rfl, rfl, hmin⟩, fun hall => ?_⟩
    · cases fr
      rfl
    · exact absurd hpage (hall fr (List.getElem?_mem hfr))
  · -- no free frame: the clock pass
    have hall : ∀ x ∈ st.frames, x.page ≠ none := by
      intro x hx hnone
      exact hfree ⟨x, hx, hnone⟩
    rw [hffnone (fun j x _ hx => hall x (List.getElem?_mem hx))]
    have hinv : ClockInv { st with scan_lock := some cur } { st with scan_lock := some cur } 0 :=
      ⟨rfl, rfl, rfl, rfl, rfl, rfl, rfl, fun j _ _ hj => absurd hj (Nat.not_lt_zero _),
        fun _ _ h => h⟩
    obtain ⟨idx, fr, key, st1, _, hidx, hfr, hpage, hloop, hframes, hfind, hacc, _, hclear⟩ :=
      find_frame_to_evict_loop_spec { st with scan_lock := some cur } cur target hN hlocks hall
        hpin (fun p hp hf => (writeback_succeeds_congr st _ p rfl rfl rfl).trans (hout p hp hf))
        st.frames.length 0 (st.frames.length * 2) { st with scan_lock := some cur }
        (Nat.sub_zero _) (Nat.zero_le _) (by show st.frames.length < st.frames.length * 2; omega)
        hinv
    have hidx' : idx ≤ st.frames.length := hidx
    have hloop' : find_frame_to_evict_loop cur target (st.frames.length * 2) 0
        { st with scan_lock := some cur }
        = some (some ((st.hand + idx) % st.frames.length), st1, idx + 1) := hloop
    simp only
    rw [hloop']
    obtain ⟨hf1, hf2⟩ := hfinal _ fr hfr
    have hframes' : st1.frames
        = st.frames.set ((st.hand + idx) % st.frames.length) ⟨fr.base, some cur, some target⟩ :=
      hframes
    refine ⟨(st.hand + idx) % st.frames.length, _, _, idx + 1, fr, rfl, le_refl _, by omega, hfr,
      hframes', ?_, ?_, rfl, fun h => absurd h hfree,
      fun _ => ⟨rfl, idx, key, hidx', rfl, rfl, hpage, hfind, hacc, hclear⟩⟩
    · show (st1.frames[_]?).map _ = _
      rw [hframes']
      exact hf1
    · intro j hj
      show st1.frames[j]? = _
      rw [hframes']
      exact hf2 j hj

/-- Witness for C23: the page at 0x08048000, which has no file, goes from the
locked frame 0 to swap slot 0. -/
theorem page_out_writeback_witness :
    ∃ ok st1, page_out locked_frame_vm 1 (1, 0x08048000) = some (ok, st1) ∧ ok = true ∧
      st1.swap_bitmap = [true, false] ∧
      (find_page st1 (1, 0x08048000)).map (fun q => (q.frame, q.b_s)) = some (none, 0) ∧
      st1.swap_device 1 3 = 4 := by
  have hd1 : (page_out locked_frame_vm 1 (1, 0x08048000)).map (fun r => (r.1, r.2.swap_bitmap))
      = some (true, [true, false]) := by decide
  have hd2 : (page_out locked_frame_vm 1 (1, 0x08048000)).map (fun r =>
      (find_page r.2 (1, 0x08048000)).map (fun q => (q.frame, q.b_s)))
      = some (some (none, 0)) := by decide
  have hd3 : (page_out locked_frame_vm 1 (1, 0x08048000)).map (fun r => r.2.swap_device 1 3)
      = some 4 := by decide
  obtain ⟨ok, st1, h, _⟩ := page_out_writeback locked_frame_vm 1 (1, 0x08048000)
    (resident_page 0x08048000 0) 0
    { base := fun a => a % 7, lock := some 1, page := some (1, 0x08048000) } (by decide) rfl rfl
    rfl
  rw [h] at hd1 hd2 hd3
  simp only [Option.map_some', Option.some.injEq, Prod.mk.injEq] at hd1 hd2 hd3
  exact ⟨ok, st1, h, hd1.1, hd1.2, by rw [hd2], hd3⟩

/-- Witness for C24: with two frames in use, both accessed, and the hand at
frame 1, the free scan looks at both frames, the clock pass clears both bits
and evicts the page of frame 1 in its third round. -/
theorem frame_alloc_and_lock_spec_witness :
    ∃ i st1 n1 n2, frame_alloc_and_lock two_frame_vm 1 (1, 0x0804a000)
        = some (some i, st1, n1, n2) ∧
      i = 1 ∧ n1 = 2 ∧ n2 = 3 ∧
      st1.frames.map (fun x => (x.lock, x.page))
        = [(none, some (1, 0x08048000)), (some 1, some (1, 0x0804a000))] ∧
      (find_page st1 (1, 0x08049000)).map (fun q => (q.frame, q.b_s)) = some (none, 0) ∧
      st1.accessed 1 0x08048000 = false := by
  have hd1 : (frame_alloc_and_lock two_frame_vm 1 (1, 0x0804a000)).map (fun r =>
      (r.1, r.2.2.1, r.2.2.2)) = some (some 1, 2, 3) := by decide
  have hd2 : (frame_alloc_and_lock two_frame_vm 1 (1, 0x0804a000)).map (fun r =>
      r.2.1.frames.map (fun x => (x.lock, x.page)))
      = some [(none, some (1, 0x08048000)), (some 1, some (1, 0x0804a000))] := by decide
  have hd3 : (frame_alloc_and_lock two_frame_vm 1 (1, 0x0804a000)).map (fun r =>
      (find_page r.2.1 (1, 0x08049000)).map (fun q => (q.frame, q.b_s)))
      = some (some (none, 0)) := by decide
  have hd4 : (frame_alloc_and_lock two_frame_vm 1 (1, 0x0804a000)).map (fun r =>
      r.2.1.accessed 1 0x08048000) = some false := by decide
  obtain ⟨i, st1, n1, n2, fr, h, _⟩ := frame_alloc_and_lock_spec two_frame_vm 1 (1, 0x0804a000)
    (by decide) rfl (by decide)
    (fun i fr key h1 h2 => by
      rcases i with _ | _ | i
      · cases h1
        cases h2
        exact ⟨resident_page 0x08048000 0, by decide, rfl⟩
      · cases h1
        cases h2
        exact ⟨resident_page 0x08049000 1, by decide, rfl⟩
      · cases h1)
    (by decide)
  rw [h] at hd1 hd2 hd3 hd4
  simp only [Option.map_some', Option.some.injEq, Prod.mk.injEq] at hd1 hd2 hd3 hd4
  exact ⟨i, st1, n1, n2, h, hd1.1, hd1.2.1, hd1.2.2, hd2, by rw [hd3], hd4⟩

/-! ## The swap bitmap and the page descriptors -/

theorem PAGE_SECTORS_eq : PAGE_SECTORS = 8 := rfl
theorem SECTOR_NONE_eq : SECTOR_NONE = 4294967295 := rfl

theorem swap_inv_init (st : VM) (hpages : st.pages = []) (hbits : ∀ b ∈ st.swap_bitmap, b = false) :
    SwapInv st := by
  refine ⟨?_, ?_, ?_, ?_⟩
  · intro p hp; rw [hpages] at hp; cases hp
  · intro k
    constructor
    · intro h
      have := hbits true (List.getElem?_mem h)
      cases this
    · rintro ⟨p, hp, _⟩; rw [hpages] at hp; cases hp
  · intro p hp; rw [hpages] at hp; cases hp
  · intro p hp; rw [hpages] at hp; cases hp

theorem swap_inv_map (st st1 : VM) (key : Nat × Nat) (g : Page → Page)
    (hinv : SwapInv st)
    (hg : ∀ p, (g p).thread = p.thread ∧ (g p).addr = p.addr)
    (hpages : st1.pages =
      st.pages.map (fun q => if q.thread = key.1 ∧ q.addr = key.2 then g q else q)) :
    (∀ p ∈ st1.pages, ∀ q ∈ st1.pages, p.thread = q.thread → p.addr = q.addr → p = q) ∧
    (∀ q1 ∈ st1.pages, ∃ q ∈ st.pages,
      (q.thread = key.1 ∧ q.addr = key.2 ∧ q1 = g q) ∨
      (¬ (q.thread = key.1 ∧ q.addr = key.2) ∧ q1 = q)) ∧
    (∀ q ∈ st.pages, ¬ (q.thread = key.1 ∧ q.addr = key.2) → q ∈ st1.pages) ∧
    (∀ q ∈ st.pages, q.thread = key.1 → q.addr = key.2 → g q ∈ st1.pages) := by
  have hfrom : ∀ q1 ∈ st1.pages, ∃ q ∈ st.pages,
      (q.thread = key.1 ∧ q.addr = key.2 ∧ q1 = g q) ∨
      (¬ (q.thread = key.1 ∧ q.addr = key.2) ∧ q1 = q) := by
    intro q1 hq1
    rw [hpages, List.mem_map] at hq1
    obtain ⟨q, hq, hq1⟩ := hq1
    refine ⟨q, hq, ?_⟩
    by_cases hk : q.thread = key.1 ∧ q.addr = key.2
    · rw [if_pos hk] at hq1
      exact Or.inl ⟨hk.1, hk.2, hq1.symm⟩
    · rw [if_neg hk] at hq1
      exact Or.inr ⟨hk, hq1.symm⟩
  refine ⟨?_, hfrom, ?_, ?_⟩
  · intro p1 hp1 q1 hq1 ht ha
    obtain ⟨p, hp, hpc⟩ := hfrom p1 hp1
    obtain ⟨q, hq, hqc⟩ := hfrom q1 hq1
    have hpk : p1.thread = p.thread ∧ p1.addr = p.addr := by
      rcases hpc with ⟨_, _, h⟩ | ⟨_, h⟩
      · rw [h]; exact hg p
      · rw [h]; exact ⟨rfl, rfl⟩
    have hqk : q1.thread = q.thread ∧ q1.addr = q.addr := by
      rcases hqc with ⟨_, _, h⟩ | ⟨_, h⟩
      · rw [h]; exact hg q
      · rw [h]; exact ⟨rfl, rfl⟩
    have hpq : p = q := hinv.keys p hp q hq (by rw [← hpk.1, ← hqk.1, ht])
      (by rw [← hpk.2, ← hqk.2, ha])
    subst hpq
    rcases hpc with ⟨a1, a2, h⟩ | ⟨a1, h⟩ <;> rcases hqc with ⟨b1, b2, h'⟩ | ⟨b1, h'⟩
    · rw [h, h']
    · exact absurd ⟨a1, a2⟩ b1
    · exact absurd ⟨b1, b2⟩ a1
    · rw [h, h']
  · intro q hq hk
    rw [hpages, List.mem_map]
    exact ⟨q, hq, by rw [if_neg hk]⟩
  · intro q hq h1 h2
    rw [hpages, List.mem_map]
    exact ⟨q, hq, by rw [if_pos ⟨h1, h2⟩]⟩

theorem swap_out_inv (st : VM) (cur : Nat) (key : Nat × Nat) (p : Page) (ok : Bool) (st1 : VM)
    (hinv : SwapInv st) (hp : find_page st key = some p) (hnone : p.b_s = SECTOR_NONE)
    (h : swap_out st cur key = some (ok, st1)) : SwapInv st1 := by
  have hPS : PAGE_SECTORS = 8 := rfl
  have hSN : SECTOR_NONE = 4294967295 := rfl
  obtain ⟨hpm, hpt, hpa⟩ := find_page_key st key p hp
  cases hf : p.frame with
  | none =>
    unfold swap_out at h
    simp only [hp, hf] at h
    cases h
  | some f =>
    cases hfr : st.frames[f]? with
    | none =>
      unfold swap_out at h
      simp only [hp, hf, hfr] at h
      cases h
    | some fr =>
      by_cases hlock : fr.lock = some cur
      · cases hscan : bitmap_scan st.swap_bitmap with
        | none =>
          rw [(swap_out_spec st cur key p f fr hp hf hfr hlock).1 hscan] at h
          cases h
          exact hinv
        | some k =>
          rw [swap_out_eq st cur key p f fr hp hf hfr hlock k hscan] at h
          obtain ⟨hk0, _⟩ := bitmap_scan_some _ k hscan
          have hbit : st1.swap_bitmap = st.swap_bitmap.set k true := by
            cases h; rfl
          have hpages : st1.pages = st.pages.map (fun q =>
              if q.thread = key.1 ∧ q.addr = key.2 then
                { q with b_s := k * PAGE_SECTORS, exec_file := none, offset := 0, bytes := 0,
                         swap_or_file := false }
              else q) := by
            cases h
            show List.map _ (List.map _ st.pages) = _
            rw [List.map_map]
            apply List.map_congr_left
            intro q _
            by_cases hq : q.thread = key.1 ∧ q.addr = key.2
            · simp only [Function.comp, hq, and_self, if_true]
            · simp only [Function.comp, hq, if_false]
          obtain ⟨hkeys, hfrom, hother, hself⟩ := swap_inv_map st st1 key
            (fun q => { q with b_s := k * PAGE_SECTORS, exec_file := none, offset := 0, bytes := 0,
                               swap_or_file := false }) hinv (fun _ => ⟨rfl, rfl⟩) hpages
          have hkfree : ∀ q ∈ st.pages, q.b_s ≠ k * PAGE_SECTORS := by
            intro q hq hb
            have := (hinv.used k).2 ⟨q, hq, hb⟩
            rw [hk0] at this
            cases this
          have hklt : k < st.swap_bitmap.length := by
            rcases Nat.lt_or_ge k st.swap_bitmap.length with hlt | hge
            · exact hlt
            · rw [List.getElem?_eq_none hge] at hk0
              cases hk0
          have hisp : ∀ q ∈ st.pages, q.thread = key.1 → q.addr = key.2 → q = p := by
            intro q hq h1 h2
            exact hinv.keys q hq p hpm (by rw [h1, hpt]) (by rw [h2, hpa])
          refine ⟨hkeys, ?_, ?_, ?_⟩
          · intro j
            rw [hbit]
            by_cases hj : j = k
            · subst hj
              rw [List.getElem?_set_self hklt]
              refine ⟨fun _ => ⟨_, hself p hpm hpt hpa, rfl⟩, fun _ => rfl⟩
            · rw [List.getElem?_set_ne (fun h0 => hj h0.symm), hinv.used j]
              constructor
              · rintro ⟨q, hq, hb⟩
                by_cases hqk : q.thread = key.1 ∧ q.addr = key.2
                · have := hisp q hq hqk.1 hqk.2
                  rw [this, hnone, hSN, hPS] at hb
                  omega
                · exact ⟨q, hother q hq hqk, hb⟩
              · rintro ⟨q1, hq1, hb⟩
                obtain ⟨q, hq, hc⟩ := hfrom q1 hq1
                rcases hc with ⟨_, _, h0⟩ | ⟨_, h0⟩
                · rw [h0] at hb
                  have hb : k * PAGE_SECTORS = j * PAGE_SECTORS := hb
                  rw [hPS] at hb
                  omega
                · rw [h0] at hb
                  exact ⟨q, hq, hb⟩
          · intro q1 hq1
            obtain ⟨q, hq, hc⟩ := hfrom q1 hq1
            rcases hc with ⟨_, _, h0⟩ | ⟨_, h0⟩
            · rw [h0]
              exact Or.inr ⟨k, rfl⟩
            · rw [h0]
              exact hinv.aligned q hq
          · intro p1 hp1 q1 hq1 hne hb
            obtain ⟨p0, hp0, hpc⟩ := hfrom p1 hp1
            obtain ⟨q0, hq0, hqc⟩ := hfrom q1 hq1
            rcases hpc with ⟨a1, a2, h0⟩ | ⟨a1, h0⟩ <;> rcases hqc with ⟨b1, b2, h1⟩ | ⟨b1, h1⟩
            · rw [h0, h1, hisp p0 hp0 a1 a2, hisp q0 hq0 b1 b2]
            · rw [h0, h1] at hb
              exact absurd hb.symm (hkfree q0 hq0)
            · rw [h0, h1] at hb
              exact absurd hb (hkfree p0 hp0)
            · subst h0 h1
              exact hinv.unique _ hp0 _ hq0 hne hb
      · unfold swap_out at h
        simp only [hp, hf, hfr, ne_eq, hlock, not_false_eq_true, if_true] at h
        cases h

theorem swap_in_inv (st : VM) (cur : Nat) (key : Nat × Nat) (st1 : VM)
    (hinv : SwapInv st) (h : swap_in st cur key = some st1) : SwapInv st1 := by
  have hPS : PAGE_SECTORS = 8 := rfl
  have hSN : SECTOR_NONE = 4294967295 := rfl
  cases hp : find_page st key with
  | none =>
    unfold swap_in at h
    simp only [hp] at h
    cases h
  | some p =>
    obtain ⟨hpm, hpt, hpa⟩ := find_page_key st key p hp
    cases hf : p.frame with
    | none =>
      unfold swap_in at h
      simp only [hp, hf] at h
      cases h
    | some f =>
      cases hfr : st.frames[f]? with
      | none =>
        unfold swap_in at h
        simp only [hp, hf, hfr] at h
        cases h
      | some fr =>
        unfold swap_in at h
        simp only [hp, hf, hfr] at h
        by_cases hlock : fr.lock ≠ some cur
        · rw [if_pos hlock] at h
          cases h
        rw [if_neg hlock] at h
        by_cases hnone : p.b_s = SECTOR_NONE
        · rw [if_pos hnone] at h
          cases h
        rw [if_neg hnone] at h
        obtain ⟨k, hk⟩ := (hinv.aligned p hpm).resolve_left hnone
        have hidx : p.b_s / PAGE_SECTORS = k := by
          rw [hk, hPS]
          omega
        rw [hidx, modify_frame_eq st f _ fr hfr] at h
        by_cases hklt : k < st.swap_bitmap.length
        · rw [if_pos hklt] at h
          have hbit : st1.swap_bitmap = st.swap_bitmap.set k false := by
            cases h; rfl
          have hpages : st1.pages = st.pages.map (fun q =>
              if q.thread = key.1 ∧ q.addr = key.2 then { q with b_s := SECTOR_NONE } else q) := by
            cases h; rfl
          obtain ⟨hkeys, hfrom, hother, hself⟩ := swap_inv_map st st1 key
            (fun q => { q with b_s := SECTOR_NONE }) hinv (fun _ => ⟨rfl, rfl⟩) hpages
          have hisp : ∀ q ∈ st.pages, q.thread = key.1 → q.addr = key.2 → q = p := by
            intro q hq h1 h2
            exact hinv.keys q hq p hpm (by rw [h1, hpt]) (by rw [h2, hpa])
          refine ⟨hkeys, ?_, ?_, ?_⟩
          · intro j
            rw [hbit]
            by_cases hj : j = k
            · subst hj
              rw [List.getElem?_set_self hklt]
              constructor
              · intro h0; cases h0
              · rintro ⟨q1, hq1, hb⟩
                obtain ⟨q, hq, hc⟩ := hfrom q1 hq1
                rcases hc with ⟨_, _, h0⟩ | ⟨hqk, h0⟩
                · rw [h0] at hb
                  have hb : SECTOR_NONE = j * PAGE_SECTORS := hb
                  rw [hSN, hPS] at hb
                  omega
                · subst h0
                  have := hinv.unique p hpm q1 hq hnone (hk.trans hb.symm)
                  subst this
                  exact absurd ⟨hpt, hpa⟩ hqk
            · rw [List.getElem?_set_ne (fun h0 => hj h0.symm), hinv.used j]
              constructor
              · rintro ⟨q, hq, hb⟩
                by_cases hqk : q.thread = key.1 ∧ q.addr = key.2
                · have := hisp q hq hqk.1 hqk.2
                  rw [this, hk, hPS] at hb
                  omega
                · exact ⟨q, hother q hq hqk, hb⟩
              · rintro ⟨q1, hq1, hb⟩
                obtain ⟨q, hq, hc⟩ := hfrom q1 hq1
                rcases hc with ⟨_, _, h0⟩ | ⟨_, h0⟩
                · rw [h0] at hb
                  have hb : SECTOR_NONE = j * PAGE_SECTORS := hb
                  rw [hSN, hPS] at hb
                  omega
                · rw [h0] at hb
                  exact ⟨q, hq, hb⟩
          · intro q1 hq1
            obtain ⟨q, hq, hc⟩ := hfrom q1 hq1
            rcases hc with ⟨_, _, h0⟩ | ⟨_, h0⟩
            · rw [h0]
              exact Or.inl rfl
            · rw [h0]
              exact hinv.aligned q hq
          · intro p1 hp1 q1 hq1 hne hb
            obtain ⟨p0, hp0, hpc⟩ := hfrom p1 hp1
            obtain ⟨q0, hq0, hqc⟩ := hfrom q1 hq1
            rcases hpc with ⟨a1, a2, h0⟩ | ⟨a1, h0⟩
            · rw [h0] at hne
              exact absurd rfl hne
            · rcases hqc with ⟨b1, b2, h1⟩ | ⟨b1, h1⟩
              · rw [h1] at hb
                exact absurd hb hne
              · subst h0 h1
                exact hinv.unique _ hp0 _ hq0 hne hb
        · rw [if_neg hklt] at h
          cases h

/-- The state in which thread 1 has a page in swap slot 0 satisfies the
relation between the bitmap and the descriptors; the state that `page_exit`
leaves, with slot 0 marked and no descriptor, does not. -/
theorem swap_inv_swapped_vm :
    SwapInv swapped_vm ∧ ∀ st1, page_exit swapped_vm 1 = some st1 → ¬ SwapInv st1 := by
  refine ⟨⟨?_, ?_, ?_, ?_⟩, ?_⟩
  · intro p hp q hq _ _
    rw [List.mem_singleton.1 hp, List.mem_singleton.1 hq]
  · intro k
    constructor
    · intro h
      refine ⟨swapped_page, List.mem_singleton.2 rfl, ?_⟩
      match k, h with
      | 0, _ => rfl
      | 1, h => cases h
      | k + 2, h => cases h
    · rintro ⟨p, hp, hb⟩
      rw [List.mem_singleton.1 hp] at hb
      have hb : 0 = k * 8 := hb
      have : k = 0 := by omega
      rw [this]
      rfl
  · intro p hp
    rw [List.mem_singleton.1 hp]
    exact Or.inr ⟨0, rfl⟩
  · intro p hp q hq _ _
    rw [List.mem_singleton.1 hp, List.mem_singleton.1 hq]
  · intro st1 h hinv
    have h1 : (page_exit swapped_vm 1).map (fun st => (st.pages, st.swap_bitmap))
        = some ([], [true, false]) := by decide
    rw [h] at h1
    simp only [Option.map_some', Option.some.injEq, Prod.mk.injEq] at h1
    obtain ⟨p, hp, _⟩ := (hinv.used 0).1 (by rw [h1.2]; rfl)
    rw [h1.1] at hp
    cases hp

/-! ## The names that a listing shows -/

theorem entry_name_cases (e : List Nat) (hlen : e.length = DIR_ENTRY_SIZE) :
    ∃ a b c rest, entry_name e = a :: b :: c :: rest := by
  unfold entry_name
  have h : (e.drop 4).length = 16 := by
    rw [List.length_drop, hlen]
    rfl
  match hd : e.drop 4, h with
  | a :: b :: c :: rest, _ => exact ⟨a, b, c, rest, rfl⟩

theorem is_valid_entry_iff (e : List Nat) (hlen : e.length = DIR_ENTRY_SIZE) :
    is_valid_entry e = true ↔ entry_string e ≠ [46] ∧ entry_string e ≠ [46, 46] := by
  obtain ⟨a, b, c, rest, h⟩ := entry_name_cases e hlen
  unfold is_valid_entry name_matches entry_string
  rw [h]
  by_cases ha : a = 0
  · subst ha
    simp [List.takeWhile]
  · by_cases hb : b = 0
    · subst hb
      simp [List.takeWhile, ha]
    · by_cases hc : c = 0
      · subst hc
        simp [List.takeWhile, ha, hb]
        tauto
      · simp [List.takeWhile, ha, hb, hc]

theorem entry_string_short (e : List Nat) (hlen : e.length = DIR_ENTRY_SIZE)
    (huse : entry_in_use e = true) (hz : 0 ∈ entry_name e) :
    (entry_string e).length ≤ NAME_MAX := by
  have hsplit : entry_name e = (entry_name e).take 15 ++ (entry_name e).drop 15 :=
    (List.take_append_drop 15 _).symm
  have hdrop : (entry_name e).drop 15 = [e.getD 19 0] := by
    unfold entry_name
    rw [List.drop_drop]
    have h1 : (e.drop (4 + 15)).length = 1 := by
      rw [List.length_drop, hlen]
      rfl
    match hd : e.drop (4 + 15), h1 with
    | [x], _ =>
      have hx : e[19]? = some x := by
        have := congrArg (fun l => l[0]?) hd
        simpa using this
      simp [List.getD, hx]
  have hlast : e.getD 19 0 ≠ 0 := by
    unfold entry_in_use at huse
    simpa using huse
  have hz15 : 0 ∈ (entry_name e).take 15 := by
    rw [hsplit, List.mem_append, hdrop, List.mem_singleton] at hz
    rcases hz with hz | hz
    · exact hz
    · exact absurd hz.symm hlast
  obtain ⟨comp, rest, hcr, hcomp⟩ : ∃ comp rest, (entry_name e).take 15 = comp ++ 0 :: rest ∧
      ∀ c ∈ comp, c ≠ 0 := by
    generalize (entry_name e).take 15 = l at hz15
    induction l with
    | nil => cases hz15
    | cons x l ih =>
      by_cases hx : x = 0
      · exact ⟨[], l, by rw [hx]; rfl, fun c hc => (by cases hc)⟩
      · rw [List.mem_cons] at hz15
        rcases hz15 with h0 | h0
        · exact absurd h0.symm hx
        · obtain ⟨comp, rest, h1, h2⟩ := ih h0
          refine ⟨x :: comp, rest, by rw [h1]; rfl, ?_⟩
          intro c hc
          rw [List.mem_cons] at hc
          rcases hc with hc | hc
          · rw [hc]; exact hx
          · exact h2 c hc
  have hlen15 : ((entry_name e).take 15).length ≤ 15 := by
    rw [List.length_take]
    omega
  rw [hcr, List.length_append, List.length_cons] at hlen15
  unfold entry_string
  rw [hsplit, hcr, List.append_assoc, List.cons_append,
    takeWhile_nonzero_append comp (rest ++ List.drop 15 (entry_name e)) hcomp]
  unfold NAME_MAX
  omega

/-- C13: in a directory whose file holds the entries `es` (each read of a
whole entry succeeds for them and the read after the last one is short), with
the names of the listed entries terminated inside the entry, the `j`-th of `m`
successive calls of `dir_readdir` on a handle at position 0 stores the name of
the `j`-th entry, in storage order, among those that are in use and whose name
is neither "." nor "..", and returns false when no such entry is left.  An
entry that is not in use is never shown, whatever its name. -/
theorem dir_readdir_sequence (st : FS) (dir : Dir) (es : List (List Nat)) (m : Nat)
    (hpos : dir.pos = 0)
    (hread : (List.range es.length).map (fun k => read_entry st dir.inode.sector k)
      = es.map some)
    (hend : (inode_read_at st dir.inode.sector DIR_ENTRY_SIZE
      ((DIR_ENTRY_SIZE * es.length : Nat) : Int)).map
        (fun r => decide (r.1.length = DIR_ENTRY_SIZE)) = some false)
    (hnames : ∀ e ∈ es, is_listed e = true → 0 ∈ entry_name e) :
    readdir_calls st dir m =
      some ((List.range m).map (fun j =>
        ((es.filter (fun e => entry_in_use e && (decide (entry_string e ≠ [46])
            && decide (entry_string e ≠ [46, 46])))).map entry_string)[j]?)) := by
  have hlen : ∀ e ∈ es, e.length = DIR_ENTRY_SIZE := by
    intro e he
    obtain ⟨k, hk, hke⟩ := List.getElem_of_mem he
    have := congrArg (fun l => l[k]?) hread
    simp only [List.getElem?_map, List.getElem?_range hk, Option.map_some',
      List.getElem?_eq_getElem hk, hke] at this
    exact (read_entry_some st dir.inode.sector k e (Option.some.inj this)).2.1
  have hsame : ∀ e ∈ es, (entry_in_use e && is_valid_entry e) = is_listed e := by
    intro e he
    unfold is_listed
    congr 1
    have := is_valid_entry_iff e (hlen e he)
    cases hv : is_valid_entry e with
    | true =>
      have h1 := this.1 hv
      simp [h1.1, h1.2]
    | false =>
      by_contra hne
      have h2 : entry_string e ≠ [46] ∧ entry_string e ≠ [46, 46] := by
        simpa using (Ne.symm hne)
      rw [this.2 h2] at hv
      cases hv
  have h := readdir_calls_from st dir es hread hend
    (fun e he huse hv => hnames e he (by rw [← hsame e he, huse, hv]; rfl)) m es 0 rfl
    (Nat.zero_le _)
  have hdir : ({ dir with pos := ((DIR_ENTRY_SIZE * 0 : Nat) : Int) } : Dir) = dir := by
    cases dir
    simp only at hpos
    simp [hpos]
  rw [hdir] at h
  rw [h]
  have hfilter : es.filter (fun e => entry_in_use e && is_valid_entry e) = es.filter is_listed :=
    List.filter_congr hsame
  have hmap : (es.filter is_listed).map
        (fun e => ((entry_name e).takeWhile (fun c => c ≠ 0)).take NAME_MAX)
      = (es.filter is_listed).map entry_string := by
    apply List.map_congr_left
    intro e he
    rw [List.mem_filter] at he
    have huse : entry_in_use e = true := by
      have := he.2
      unfold is_listed at this
      simp only [Bool.and_eq_true] at this
      exact this.1
    exact List.take_of_length_le
      (entry_string_short e (hlen e he.1) huse (hnames e he.1 he.2))
  rw [hfilter, hmap]
  rfl

/-- Witness for C13: a directory with the entries ".", "..", ".a", a
tombstone that held "b", "..c" and a tombstone that held ".."; four calls
store ".a" and "..c" and then return false twice. -/
theorem dir_readdir_sequence_witness :
    readdir_calls dotdot_fs dir5 4 = some [some [46, 97], some [46, 46, 99], none, none] :=
  (dir_readdir_sequence dotdot_fs dir5 dotdot_entries 4 rfl (by decide) (by decide)
    (by decide)).trans (by decide)

end Pintos
